import Mathlib

/-!
# The xv6 virtual-memory subsystem (`kernel/vm.c`)

A shallow embedding of the page-table code of `kernel/vm.c`: physical memory is a
byte-addressed map, a page-table entry is the little-endian 64-bit word stored in
eight consecutive bytes, and every C function becomes a function on an explicit
kernel state.  Unsigned 64-bit arithmetic is written with `% 2 ^ 64` wherever the
C expression can wrap.
-/

namespace Xv6

/-! ## Constants and macros of `riscv.h` -/

/-- Modelled from the spec: `riscv.h` is not among the sources.  A frame is a
fixed-size unit of physical memory; the 12-bit in-page byte offset gives 4096 bytes. -/
def PGSIZE : Nat := 4096

/-- Modelled from the spec: `riscv.h` is not among the sources.  Width of the in-page
byte offset. -/
def PGSHIFT : Nat := 12

/-- Modelled from the spec: `riscv.h` is not among the sources.  One past the largest
virtual address of the three-level, nine-bits-per-level scheme (`1L << (9+9+9+12-1)`). -/
def MAXVA : Nat := 2 ^ 38

/-- Modelled from the spec: `riscv.h` is not among the sources.  The Valid bit. -/
def PTE_V : Nat := 1

/-- Modelled from the spec: `riscv.h` is not among the sources.  The Read bit. -/
def PTE_R : Nat := 2

/-- Modelled from the spec: `riscv.h` is not among the sources.  The Write bit. -/
def PTE_W : Nat := 4

/-- Modelled from the spec: `riscv.h` is not among the sources.  The Execute bit. -/
def PTE_X : Nat := 8

/-- Modelled from the spec: `riscv.h` is not among the sources.  The User-accessible
bit. -/
def PTE_U : Nat := 16

/-- Modelled from the spec: `riscv.h` is not among the sources.  Round a size up to
page granularity, `(sz + PGSIZE - 1) & ~(PGSIZE - 1)` in 64-bit arithmetic. -/
def PGROUNDUP (sz : Nat) : Nat := (sz + PGSIZE - 1) % 2 ^ 64 / PGSIZE * PGSIZE

/-- Modelled from the spec: `riscv.h` is not among the sources.  Round an address down
to page granularity, `a & ~(PGSIZE - 1)`. -/
def PGROUNDDOWN (a : Nat) : Nat := a / PGSIZE * PGSIZE

/-- Modelled from the spec: `riscv.h` is not among the sources.  Physical address to
the frame-number field of an entry, `(pa >> 12) << 10`. -/
def PA2PTE (pa : Nat) : Nat := ((pa >>> 12) <<< 10) % 2 ^ 64

/-- Modelled from the spec: `riscv.h` is not among the sources.  Frame address held by
an entry, `(pte >> 10) << 12` in 64-bit arithmetic. -/
def PTE2PA (pte : Nat) : Nat := ((pte >>> 10) <<< 12) % 2 ^ 64

/-- Modelled from the spec: `riscv.h` is not among the sources.  The ten flag bits of
an entry, `pte & 0x3FF`. -/
def PTE_FLAGS (pte : Nat) : Nat := pte &&& 0x3FF

/-- Modelled from the spec: `riscv.h` is not among the sources.  The nine-bit index of
`va` at a level, `(va >> (PGSHIFT + 9 * level)) & 0x1FF`. -/
def PX (level va : Nat) : Nat := (va >>> (PGSHIFT + 9 * level)) &&& 0x1FF

/-! ## Physical memory and the frame allocator -/

/-- Physical memory: one byte per address (a stored value is read modulo 256). -/
abbrev Mem : Type := Nat → Nat

/-- The byte at an address. -/
def rd8 (m : Mem) (a : Nat) : Nat := m a % 256

/-- The 64-bit little-endian word at an address: what `*pte` reads. -/
def rd64 (m : Mem) (a : Nat) : Nat :=
  rd8 m a + 256 * (rd8 m (a + 1) + 256 * (rd8 m (a + 2) + 256 * (rd8 m (a + 3) +
    256 * (rd8 m (a + 4) + 256 * (rd8 m (a + 5) + 256 * (rd8 m (a + 6) +
    256 * rd8 m (a + 7)))))))

/-- Store the low 64 bits of `v` at an address: what `*pte = v` does. -/
def wr64 (m : Mem) (a v : Nat) : Mem :=
  fun x => if a ≤ x ∧ x < a + 8 then v / 256 ^ (x - a) % 256 else m x

/-- Modelled from the spec: `string.c` is not among the sources.  `memset(dst, c, n)`
fills `n` bytes with the byte `c`. -/
def memset (m : Mem) (dst c n : Nat) : Mem :=
  fun x => if dst ≤ x ∧ x < dst + n then c % 256 else m x

/-- Modelled from the spec: `string.c` is not among the sources.  `memmove(dst, src, n)`
copies `n` bytes; the source bytes are read before any byte is written. -/
def memmove (m : Mem) (dst src n : Nat) : Mem :=
  fun x => if dst ≤ x ∧ x < dst + n then m (src + (x - dst)) else m x

/-- The kernel state the page-table code acts on: physical memory and the pool of
frames the allocator can still hand out. -/
structure Kernel where
  /-- Physical memory. -/
  mem : Mem
  /-- The allocator's free frames, next one to hand out first. -/
  freelist : List Nat

/-- Modelled from the spec: the frame allocator (`kalloc.c`) is an external
collaborator, `allocate() -> frame | out-of-memory`.  It hands out the first free
frame, or 0 when none is left; the frame's contents are whatever memory holds. -/
def kalloc (k : Kernel) : Nat × Kernel :=
  match k.freelist with
  | [] => (0, k)
  | f :: rest => (f, { k with freelist := rest })

/-- Modelled from the spec: the frame allocator (`kalloc.c`) is an external
collaborator, `release(frame)`.  The frame goes back to the pool. -/
def kfree (k : Kernel) (pa : Nat) : Kernel :=
  { k with freelist := pa :: k.freelist }

/-- Outcome of a kernel function: a normal return with the resulting state, a fatal
halt (a `panic`, or a store through the null pointer) with its message, or the
exhaustion of the iteration bound of a loop of this embedding. -/
inductive Res (α : Type) where
  | ok (v : α) (k : Kernel) : Res α
  | fatal (msg : String) : Res α
  | timeout : Res α

/-- Iteration bound of the loops that step through an address range page by page:
`walk` halts at `MAXVA`, so no such loop runs more than `MAXVA / PGSIZE + 1` times. -/
def loopFuel : Nat := MAXVA / PGSIZE + 1

/-! ## `walk` and `walkaddr` -/

/-- The `for(level = 2; level > 0; level--)` loop of `walk`, entered at `level` with
the current node `pagetable`; the result is the slot pointer (0 for failure). -/
def walkLoop (alloc : Bool) (va : Nat) : Nat → Kernel → Nat → Nat × Kernel
  | 0, k, pagetable => (pagetable + 8 * PX 0 va, k)
  | level + 1, k, pagetable =>
    let pte := pagetable + 8 * PX (level + 1) va
    if rd64 k.mem pte &&& PTE_V ≠ 0 then
      walkLoop alloc va level k (PTE2PA (rd64 k.mem pte))
    else if alloc = false then (0, k)
    else
      let r := kalloc k
      if r.1 = 0 then (0, r.2)
      else
        let m1 := memset r.2.mem r.1 0 PGSIZE
        let m2 := wr64 m1 pte (PA2PTE r.1 ||| PTE_V)
        walkLoop alloc va level { r.2 with mem := m2 } r.1

/-- `walk(pagetable, va, alloc)`: the address of the level-0 slot of `va`, or 0. -/
def walk (k : Kernel) (pagetable va : Nat) (alloc : Bool) : Res Nat :=
  if va ≥ MAXVA then .fatal "walk"
  else
    let r := walkLoop alloc va 2 k pagetable
    .ok r.1 r.2

/-- `walkaddr(pagetable, va)`: the physical address of a user page, or 0. -/
def walkaddr (k : Kernel) (pagetable va : Nat) : Res Nat :=
  if va ≥ MAXVA then .ok 0 k
  else
    match walk k pagetable va false with
    | .ok pte k1 =>
      if pte = 0 then .ok 0 k1
      else if rd64 k1.mem pte &&& PTE_V = 0 then .ok 0 k1
      else if rd64 k1.mem pte &&& PTE_U = 0 then .ok 0 k1
      else .ok (PTE2PA (rd64 k1.mem pte)) k1
    | .fatal s => .fatal s
    | .timeout => .timeout

/-! ## `mappages` and the removers -/

/-- The `for(;;)` loop of `mappages`, at page `a` with frame `pa`. -/
def mappagesLoop : Nat → Kernel → Nat → Nat → Nat → Nat → Nat → Res Int
  | 0, _, _, _, _, _, _ => .timeout
  | fuel + 1, k, pagetable, a, last, pa, perm =>
    match walk k pagetable a true with
    | .ok pte k1 =>
      if pte = 0 then .ok (-1) k1
      else if rd64 k1.mem pte &&& PTE_V ≠ 0 then .fatal "remap"
      else
        let k2 : Kernel := { k1 with mem := wr64 k1.mem pte (PA2PTE pa ||| perm ||| PTE_V) }
        if a = last then .ok 0 k2
        else mappagesLoop fuel k2 pagetable ((a + PGSIZE) % 2 ^ 64) last
          ((pa + PGSIZE) % 2 ^ 64) perm
    | .fatal s => .fatal s
    | .timeout => .timeout

/-- `mappages(pagetable, va, size, pa, perm)`; `perm` is the `int` argument as the
64-bit value it is converted to in `PA2PTE(pa) | perm | PTE_V`. -/
def mappages (k : Kernel) (pagetable va size pa perm : Nat) : Res Int :=
  mappagesLoop loopFuel k pagetable (PGROUNDDOWN va)
    (PGROUNDDOWN ((va + size + (2 ^ 64 - 1)) % 2 ^ 64)) pa perm

/-- The `for(a = va; a < va + npages*PGSIZE; a += PGSIZE)` loop of `uvmunmap`. -/
def uvmunmapLoop : Nat → Kernel → Nat → Nat → Nat → Bool → Res Unit
  | 0, _, _, _, _, _ => .timeout
  | fuel + 1, k, pagetable, a, bound, do_free =>
    if a < bound then
      match walk k pagetable a false with
      | .ok pte k1 =>
        if pte = 0 then .fatal "uvmunmap: walk"
        else if rd64 k1.mem pte &&& PTE_V = 0 then .fatal "uvmunmap: not mapped"
        else if PTE_FLAGS (rd64 k1.mem pte) = PTE_V then .fatal "uvmunmap: not a leaf"
        else
          let k2 := if do_free then kfree k1 (PTE2PA (rd64 k1.mem pte)) else k1
          let k3 : Kernel := { k2 with mem := wr64 k2.mem pte 0 }
          uvmunmapLoop fuel k3 pagetable ((a + PGSIZE) % 2 ^ 64) bound do_free
      | .fatal s => .fatal s
      | .timeout => .timeout
    else .ok () k

/-- `uvmunmap(pagetable, va, npages, do_free)`. -/
def uvmunmap (k : Kernel) (pagetable va npages : Nat) (do_free : Bool) : Res Unit :=
  if va % PGSIZE ≠ 0 then .fatal "uvmunmap: not aligned"
  else uvmunmapLoop loopFuel k pagetable va ((va + npages * PGSIZE) % 2 ^ 64) do_free

/-- The loop of `ukvmunmap`.  Both `goto clean` branches reach the store `*pte = 0`.
The first is taken when `walk` returned 0, so that its store goes through the null
pointer: the store faults and the kernel stops there, a fatal halt recorded with the
message "null pointer store". -/
def ukvmunmapLoop : Nat → Kernel → Nat → Nat → Nat → Res Unit
  | 0, _, _, _, _ => .timeout
  | fuel + 1, k, pagetable, a, bound =>
    if a < bound then
      match walk k pagetable a false with
      | .ok pte k1 =>
        let clean : Res Unit :=
          ukvmunmapLoop fuel { k1 with mem := wr64 k1.mem pte 0 } pagetable
            ((a + PGSIZE) % 2 ^ 64) bound
        if pte = 0 then .fatal "null pointer store"
        else if rd64 k1.mem pte &&& PTE_V = 0 then clean
        else if PTE_FLAGS (rd64 k1.mem pte) = PTE_V then .fatal "ukvmunmap: not a leaf"
        else clean
      | .fatal s => .fatal s
      | .timeout => .timeout
    else .ok () k

/-- `ukvmunmap(pagetable, va, npages)`. -/
def ukvmunmap (k : Kernel) (pagetable va npages : Nat) : Res Unit :=
  if va % PGSIZE ≠ 0 then .fatal "ukvmunmap: not aligned"
  else ukvmunmapLoop loopFuel k pagetable va ((va + npages * PGSIZE) % 2 ^ 64)

/-! ## Growing, shrinking and duplicating an address space -/

/-- Conversion of a 64-bit value to `int` and back to `uint64`, as undergone by
`npages` in `uvmdealloc` (`int npages = ...` passed to a `uint64` parameter). -/
def intToU64 (n : Nat) : Nat :=
  if n % 2 ^ 32 < 2 ^ 31 then n % 2 ^ 32 else n % 2 ^ 32 + (2 ^ 64 - 2 ^ 32)

/-- `uvmdealloc(pagetable, oldsz, newsz)`. -/
def uvmdealloc (k : Kernel) (pagetable oldsz newsz : Nat) : Res Nat :=
  if newsz ≥ oldsz then .ok oldsz k
  else if PGROUNDUP newsz < PGROUNDUP oldsz then
    let npages := intToU64 ((PGROUNDUP oldsz - PGROUNDUP newsz) / PGSIZE)
    match uvmunmap k pagetable (PGROUNDUP newsz) npages true with
    | .ok _ k1 => .ok newsz k1
    | .fatal s => .fatal s
    | .timeout => .timeout
  else .ok newsz k

/-- The `for(a = oldsz; a < newsz; a += PGSIZE)` loop of `uvmalloc`; `oldsz` is
already rounded up. -/
def uvmallocLoop : Nat → Kernel → Nat → Nat → Nat → Nat → Res Nat
  | 0, _, _, _, _, _ => .timeout
  | fuel + 1, k, pagetable, oldsz, newsz, a =>
    if a < newsz then
      let r := kalloc k
      if r.1 = 0 then
        match uvmdealloc r.2 pagetable a oldsz with
        | .ok _ k1 => .ok 0 k1
        | .fatal s => .fatal s
        | .timeout => .timeout
      else
        let k1 : Kernel := { r.2 with mem := memset r.2.mem r.1 0 PGSIZE }
        match mappages k1 pagetable a PGSIZE r.1 (PTE_W ||| PTE_X ||| PTE_R ||| PTE_U) with
        | .ok rc k2 =>
          if rc ≠ 0 then
            match uvmdealloc (kfree k2 r.1) pagetable a oldsz with
            | .ok _ k3 => .ok 0 k3
            | .fatal s => .fatal s
            | .timeout => .timeout
          else uvmallocLoop fuel k2 pagetable oldsz newsz ((a + PGSIZE) % 2 ^ 64)
        | .fatal s => .fatal s
        | .timeout => .timeout
    else .ok newsz k

/-- `uvmalloc(pagetable, oldsz, newsz)`. -/
def uvmalloc (k : Kernel) (pagetable oldsz newsz : Nat) : Res Nat :=
  if newsz < oldsz then .ok oldsz k
  else uvmallocLoop loopFuel k pagetable (PGROUNDUP oldsz) newsz (PGROUNDUP oldsz)

/-- The `for(i = 0; i < sz; i += PGSIZE)` loop of `uvmcopy`, with its `err:` exit. -/
def uvmcopyLoop : Nat → Kernel → Nat → Nat → Nat → Nat → Res Int
  | 0, _, _, _, _, _ => .timeout
  | fuel + 1, k, old, new, sz, i =>
    if i < sz then
      match walk k old i false with
      | .ok pte k1 =>
        if pte = 0 then .fatal "uvmcopy: pte should exist"
        else if rd64 k1.mem pte &&& PTE_V = 0 then .fatal "uvmcopy: page not present"
        else
          let pa := PTE2PA (rd64 k1.mem pte)
          let flags := PTE_FLAGS (rd64 k1.mem pte)
          let r := kalloc k1
          if r.1 = 0 then
            match uvmunmap r.2 new 0 (i / PGSIZE) true with
            | .ok _ k4 => .ok (-1) k4
            | .fatal s => .fatal s
            | .timeout => .timeout
          else
            let k2 : Kernel := { r.2 with mem := memmove r.2.mem r.1 pa PGSIZE }
            match mappages k2 new i PGSIZE r.1 flags with
            | .ok rc k3 =>
              if rc ≠ 0 then
                match uvmunmap (kfree k3 r.1) new 0 (i / PGSIZE) true with
                | .ok _ k4 => .ok (-1) k4
                | .fatal s => .fatal s
                | .timeout => .timeout
              else uvmcopyLoop fuel k3 old new sz ((i + PGSIZE) % 2 ^ 64)
            | .fatal s => .fatal s
            | .timeout => .timeout
      | .fatal s => .fatal s
      | .timeout => .timeout
    else .ok 0 k

/-- `uvmcopy(old, new, sz)`. -/
def uvmcopy (k : Kernel) (old new sz : Nat) : Res Int :=
  uvmcopyLoop loopFuel k old new sz 0

/-! ## Tables as trees: the vocabulary of the statements -/

/-- The node reached from node `n` by following the entries at the indices of `path`
the way `walk` follows them: an entry is followed when its Valid bit is set. -/
def descend (m : Mem) : Nat → List Nat → Option Nat
  | n, [] => some n
  | n, i :: path =>
    if rd64 m (n + 8 * i) &&& PTE_V ≠ 0 then descend m (PTE2PA (rd64 m (n + 8 * i))) path
    else none

/-- The position of a node in a table: at most two indices, each below 512 (the empty
path is the root, one index a level-1 node, two indices a level-0 node). -/
def IsPath (p : List Nat) : Prop := p.length ≤ 2 ∧ ∀ i ∈ p, i < 512

/-- The address of the level-0 slot of `va`, when both upper-level entries on the path
of `va` are valid. -/
def slotOf (m : Mem) (root va : Nat) : Option Nat :=
  (descend m root [PX 2 va, PX 1 va]).map (fun n => n + 8 * PX 0 va)

/-- The entry at index `j` of the level-0 node at path `[a, b]`; 0 when there is no
such node. -/
def entryAt (m : Mem) (root a b j : Nat) : Nat :=
  match descend m root [a, b] with
  | some n => rd64 m (n + 8 * j)
  | none => 0

/-- The level-0 entry of `va`; 0 when an upper-level entry on its path is invalid. -/
def leafOf (m : Mem) (root va : Nat) : Nat :=
  entryAt m root (PX 2 va) (PX 1 va) (PX 0 va)

/-- The frames held by the level-0 entries of `npages` pages from `va`, lowest page
first. -/
def backing (m : Mem) (root : Nat) : Nat → Nat → List Nat
  | _, 0 => []
  | va, n + 1 => PTE2PA (leafOf m root va) :: backing m root (va + PGSIZE) n

/-- The indices `walk` uses from level `l` down to level 1. -/
def pxPath (va : Nat) : Nat → List Nat
  | 0 => []
  | l + 1 => PX (l + 1) va :: pxPath va l

/-- Memory after `walk` has zeroed the fresh frame `f` and linked it in slot `s`
(`memset(pagetable, 0, PGSIZE); *pte = PA2PTE(pagetable) | PTE_V`). -/
def linked (m : Mem) (f s : Nat) : Mem := wr64 (memset m f 0 PGSIZE) s (PA2PTE f ||| PTE_V)

/-- A well-formed table: the root is a page-aligned non-null frame, and the nodes
reached from it form a tree of pairwise distinct non-null frames (a node is reached by
one path only). -/
structure TableWF (m : Mem) (root : Nat) : Prop where
  root_aligned : root % PGSIZE = 0
  nonnull : ∀ p n, IsPath p → descend m root p = some n → n ≠ 0
  inj : ∀ p q n, IsPath p → IsPath q → descend m root p = some n →
    descend m root q = some n → p = q

/-- The allocator's contract towards a table: its free frames are pairwise distinct,
page-aligned, non-null 64-bit addresses, and none of them is a node of the table. -/
structure AllocOK (k : Kernel) (root : Nat) : Prop where
  nodup : k.freelist.Nodup
  frame : ∀ f ∈ k.freelist, f % PGSIZE = 0 ∧ f ≠ 0 ∧ f < 2 ^ 64
  fresh : ∀ f ∈ k.freelist, ∀ p, IsPath p → descend k.mem root p ≠ some f

/-- A well-formed table in a kernel state whose allocator hands out unused frames. -/
def WF (k : Kernel) (root : Nat) : Prop := TableWF k.mem root ∧ AllocOK k root

/-- Frame ownership in a table: two pages below `MAXVA` with valid level-0 entries
never hold the same frame, and no frame held by a valid level-0 entry is free. -/
structure FramesOK (k : Kernel) (root : Nat) : Prop where
  inj : ∀ va vb, va < MAXVA → vb < MAXVA → leafOf k.mem root va &&& PTE_V ≠ 0 →
    leafOf k.mem root vb &&& PTE_V ≠ 0 →
    PTE2PA (leafOf k.mem root va) = PTE2PA (leafOf k.mem root vb) → va / PGSIZE = vb / PGSIZE
  used : ∀ va, va < MAXVA → leafOf k.mem root va &&& PTE_V ≠ 0 →
    PTE2PA (leafOf k.mem root va) ∉ k.freelist

/-- The state `k2` comes from `k` by node creation only: every node of the table is
still where it was, every level-0 entry reads as before (a missing one reads 0), the
frames taken from the allocator are now nodes of the table, every node that is
new was a free frame, no byte outside the old nodes and the old free frames has
changed, an entry of an old upper-level node is unchanged or was invalid and now links
a node, and an entry of a new node is zero or links a node. -/
structure Grow (k k2 : Kernel) (root : Nat) : Prop where
  nodes : ∀ q x, IsPath q → descend k.mem root q = some x → descend k2.mem root q = some x
  entries : ∀ a b j, a < 512 → b < 512 → j < 512 →
    entryAt k2.mem root a b j = entryAt k.mem root a b j
  pool : ∃ used, k.freelist = used ++ k2.freelist ∧
    ∀ f ∈ used, ∃ q, IsPath q ∧ descend k2.mem root q = some f ∧ descend k.mem root q = none
  origin : ∀ q n, IsPath q → descend k2.mem root q = some n →
    descend k.mem root q = some n ∨ n ∈ k.freelist
  bytes : ∀ x, (∀ q n, IsPath q → descend k.mem root q = some n → x < n ∨ n + PGSIZE ≤ x) →
    (∀ f ∈ k.freelist, x < f ∨ f + PGSIZE ≤ x) → k2.mem x = k.mem x
  upper : ∀ q n j, IsPath q → q.length ≤ 1 → descend k.mem root q = some n → j < 512 →
    rd64 k2.mem (n + 8 * j) = rd64 k.mem (n + 8 * j) ∨
    (rd64 k.mem (n + 8 * j) &&& PTE_V = 0 ∧ ∃ g, descend k2.mem root (q ++ [j]) = some g ∧
      rd64 k2.mem (n + 8 * j) = PA2PTE g ||| PTE_V)
  created : ∀ q f, IsPath q → descend k2.mem root q = some f → descend k.mem root q = none →
    ∀ j, j < 512 → rd64 k2.mem (f + 8 * j) = 0 ∨
      (q.length ≤ 1 ∧ ∃ g, descend k2.mem root (q ++ [j]) = some g ∧
        rd64 k2.mem (f + 8 * j) = PA2PTE g ||| PTE_V)

/-- The state `k2` comes from `k` by node creation and stores into level-0 slots:
as `Grow`, without the clause on the level-0 entries. -/
structure Ext (k k2 : Kernel) (root : Nat) : Prop where
  nodes : ∀ q x, IsPath q → descend k.mem root q = some x → descend k2.mem root q = some x
  pool : ∃ used, k.freelist = used ++ k2.freelist ∧
    ∀ f ∈ used, ∃ q, IsPath q ∧ descend k2.mem root q = some f ∧ descend k.mem root q = none
  origin : ∀ q n, IsPath q → descend k2.mem root q = some n →
    descend k.mem root q = some n ∨ n ∈ k.freelist
  bytes : ∀ x, (∀ q n, IsPath q → descend k.mem root q = some n → x < n ∨ n + PGSIZE ≤ x) →
    (∀ f ∈ k.freelist, x < f ∨ f + PGSIZE ≤ x) → k2.mem x = k.mem x

/-- The state `kf` comes from `k` by the `uvmalloc` loop having installed the pages from
`a` up to `b`: the table is still a tree, each page of the range holds a fresh non-null
frame with flags `R|W|X|U|V`, every other entry below `MAXVA` is as before, every node
is where it was, and the frames that left the allocator are the frames now backing the
range and the frames of the nodes created on the way. -/
structure Grown (k kf : Kernel) (root a b : Nat) : Prop where
  table : TableWF kf.mem root
  le : a ≤ b
  aligned : b % PGSIZE = 0
  below : a < b → b ≤ MAXVA
  installed : ∀ vb, a ≤ vb → vb < b →
    PTE_FLAGS (leafOf kf.mem root vb) = PTE_R ||| PTE_W ||| PTE_X ||| PTE_U ||| PTE_V ∧
    PTE2PA (leafOf kf.mem root vb) ≠ 0 ∧ leafOf k.mem root vb &&& PTE_V = 0
  outside : ∀ vb, vb < MAXVA → vb < a ∨ b ≤ vb → leafOf kf.mem root vb = leafOf k.mem root vb
  nodes : ∀ q x, IsPath q → descend k.mem root q = some x → descend kf.mem root q = some x
  pool : ∃ created, List.Perm k.freelist
      (backing kf.mem root a ((b - a) / PGSIZE) ++ created ++ kf.freelist) ∧
    ∀ n ∈ created, ∃ q, IsPath q ∧ descend kf.mem root q = some n ∧
      descend k.mem root q = none

/-- A frame the code working on table `root` must leave alone: page-aligned, not free,
and not a node of that table. -/
structure Protected (k : Kernel) (root f : Nat) : Prop where
  aligned : f % PGSIZE = 0
  used : f ∉ k.freelist
  apart : ∀ q, IsPath q → descend k.mem root q ≠ some f

/-- Every frame protected in `k` is still protected in `k2` and holds the same bytes. -/
def Keeps (k k2 : Kernel) (root : Nat) : Prop :=
  ∀ f, Protected k root f →
    Protected k2 root f ∧ ∀ x, f ≤ x → x < f + PGSIZE → k2.mem x = k.mem x

/-- The source table of a copy, seen from the destination table `new`: its root is
page-aligned, and its nodes and the frames of its valid level-0 entries below `MAXVA` are protected
(they are neither free nor nodes of `new`). -/
structure SourceOK (k : Kernel) (old new : Nat) : Prop where
  root_aligned : old % PGSIZE = 0
  nodes : ∀ q n, IsPath q → descend k.mem old q = some n → Protected k new n
  frames : ∀ vb, vb < MAXVA → leafOf k.mem old vb &&& PTE_V ≠ 0 →
    Protected k new (PTE2PA (leafOf k.mem old vb))

/-- A one-byte store, what `*p = v` does through a `char` pointer. -/
def wr8 (m : Mem) (a v : Nat) : Mem := fun x => if x = a then v % 256 else m x

/-! ## Observing outcomes, and concrete states -/

/-- The value a call returned, if it returned. -/
def Res.val? {α : Type} : Res α → Option α
  | .ok v _ => some v
  | _ => none

/-- The state a call returned in (`d` when it did not return). -/
def Res.state {α : Type} (d : Kernel) : Res α → Kernel
  | .ok _ k => k
  | _ => d

/-- The message of a fatal halt, if the call halted. -/
def Res.fatal? {α : Type} : Res α → Option String
  | .fatal s => some s
  | _ => none

/-- A kernel state with all memory zero and the given free frames: a table rooted at
any page of it is empty. -/
def zeroKernel (free : List Nat) : Kernel := ⟨fun _ => 0, free⟩

/-- The state after one page has been installed at address 0 of an empty table. -/
def onePageKernel : Kernel :=
  (mappages (zeroKernel [0x2000, 0x3000]) 0x1000 0 4096 0x9000 6).state (zeroKernel [])

/-- A state whose memory holds a non-zero byte at address 0 and zeros elsewhere, and
whose allocator is empty. -/
def nullByteKernel : Kernel := ⟨fun x => if x = 0 then 255 else 0, []⟩

/-- An empty table at `0x1000` with five free frames. -/
def fiveFrames : Kernel := zeroKernel [0x2000, 0x3000, 0x4000, 0x5000, 0x6000]

/-- An empty table at `0x1000` with three free frames. -/
def threeFrames : Kernel := zeroKernel [0x2000, 0x3000, 0x4000]

/-- The state after `uvmalloc` has grown the empty table of `fiveFrames` to two pages. -/
def grownKernel : Kernel := (uvmalloc fiveFrames 0x1000 0 8192).state (zeroKernel [])

/-- A source table at `0x1000` with one user page at address 0, backed by the frame
`0x9000`; three frames are free, and the page at `0xA000` is zero. -/
def copySource : Kernel :=
  (mappages (zeroKernel [0x2000, 0x3000, 0x5000, 0x6000, 0x7000]) 0x1000 0 4096 0x9000 31).state
    (zeroKernel [])

/-- The state after `uvmcopy` has copied the page of `copySource` into the empty table
at `0xA000`. -/
def copiedKernel : Kernel := (uvmcopy copySource 0x1000 0xA000 4096).state (zeroKernel [])

end Xv6

namespace Xv6

/-! ## Tearing an address space down -/

/-- Sequencing of two steps of a kernel function: the second runs in the state the
first returned in; a fatal halt ends the sequence. -/
def Res.bind {α β : Type} (r : Res α) (f : α → Kernel → Res β) : Res β :=
  match r with
  | .ok v k => f v k
  | .fatal s => .fatal s
  | .timeout => .timeout

/-- The `for(int i = 0; i < 512; i++)` loop of `freewalk`, at index `i` with `n`
entries still to visit; `down` is the recursive call `freewalk((pagetable_t)child)`. -/
def freewalkLoop (down : Kernel → Nat → Res Unit) : Nat → Kernel → Nat → Nat → Res Unit
  | 0, k, _, _ => .ok () k
  | n + 1, k, pagetable, i =>
    if rd64 k.mem (pagetable + 8 * i) &&& PTE_V ≠ 0 ∧
        rd64 k.mem (pagetable + 8 * i) &&& (PTE_R ||| PTE_W ||| PTE_X) = 0 then
      match down k (PTE2PA (rd64 k.mem (pagetable + 8 * i))) with
      | .ok _ k1 =>
        freewalkLoop down n { k1 with mem := wr64 k1.mem (pagetable + 8 * i) 0 } pagetable (i + 1)
      | .fatal s => .fatal s
      | .timeout => .timeout
    else if rd64 k.mem (pagetable + 8 * i) &&& PTE_V ≠ 0 then .fatal "freewalk: leaf"
    else freewalkLoop down n k pagetable (i + 1)

/-- `freewalk(pagetable)`; the first argument bounds the depth of the recursion. -/
def freewalk : Nat → Kernel → Nat → Res Unit
  | 0, _, _ => .timeout
  | depth + 1, k, pagetable =>
    match freewalkLoop (freewalk depth) 512 k pagetable 0 with
    | .ok _ k1 => .ok () (kfree k1 pagetable)
    | .fatal s => .fatal s
    | .timeout => .timeout

/-- Bound on the depth of the recursion of `freewalk` and `ukvmfreewalk`: a node is a
page-aligned 64-bit address, of which there are `2 ^ 52`, and a recursion that comes
back to a node it is still visiting finds that node's entries as it found them the
first time and never returns. -/
def freeDepth : Nat := 2 ^ 52 + 1

/-- `uvmfree(pagetable, sz)`. -/
def uvmfree (k : Kernel) (pagetable sz : Nat) : Res Unit :=
  if sz > 0 then
    match uvmunmap k pagetable 0 (PGROUNDUP sz / PGSIZE) true with
    | .ok _ k1 => freewalk freeDepth k1 pagetable
    | .fatal s => .fatal s
    | .timeout => .timeout
  else freewalk freeDepth k pagetable

/-! ## Copying to user memory -/

/-- The `while(len > 0)` loop of `copyout`; `src` is the address of the kernel
buffer. -/
def copyoutLoop : Nat → Kernel → Nat → Nat → Nat → Nat → Res Int
  | 0, _, _, _, _, _ => .timeout
  | fuel + 1, k, pagetable, dstva, src, len =>
    if len > 0 then
      match walkaddr k pagetable (PGROUNDDOWN dstva) with
      | .ok pa0 k1 =>
        if pa0 = 0 then .ok (-1) k1
        else
          let n := if PGSIZE - (dstva - PGROUNDDOWN dstva) > len then len
            else PGSIZE - (dstva - PGROUNDDOWN dstva)
          let k2 : Kernel :=
            { k1 with mem := memmove k1.mem ((pa0 + (dstva - PGROUNDDOWN dstva)) % 2 ^ 64) src n }
          copyoutLoop fuel k2 pagetable ((PGROUNDDOWN dstva + PGSIZE) % 2 ^ 64)
            ((src + n) % 2 ^ 64) (len - n)
      | .fatal s => .fatal s
      | .timeout => .timeout
    else .ok 0 k

/-- `copyout(pagetable, dstva, src, len)`. -/
def copyout (k : Kernel) (pagetable dstva src len : Nat) : Res Int :=
  copyoutLoop loopFuel k pagetable dstva src len

/-! ## The per-process kernel page table -/

/-- The `for(;;)` loop of `mappages_u2ukvm`, at page `a` with frame `pa`: the loop of
`mappages` without the test of the Valid bit. -/
def mappages_u2ukvmLoop : Nat → Kernel → Nat → Nat → Nat → Nat → Nat → Res Int
  | 0, _, _, _, _, _, _ => .timeout
  | fuel + 1, k, pagetable, a, last, pa, perm =>
    match walk k pagetable a true with
    | .ok pte k1 =>
      if pte = 0 then .ok (-1) k1
      else
        let k2 : Kernel := { k1 with mem := wr64 k1.mem pte (PA2PTE pa ||| perm ||| PTE_V) }
        if a = last then .ok 0 k2
        else mappages_u2ukvmLoop fuel k2 pagetable ((a + PGSIZE) % 2 ^ 64) last
          ((pa + PGSIZE) % 2 ^ 64) perm
    | .fatal s => .fatal s
    | .timeout => .timeout

/-- `mappages_u2ukvm(pagetable, va, size, pa, perm)`. -/
def mappages_u2ukvm (k : Kernel) (pagetable va size pa perm : Nat) : Res Int :=
  mappages_u2ukvmLoop loopFuel k pagetable (PGROUNDDOWN va)
    (PGROUNDDOWN ((va + size + (2 ^ 64 - 1)) % 2 ^ 64)) pa perm

/-- The `for(i = begin; i < end; i += PGSIZE)` loop of `copypage_u2ukvm`, with its
`err:` exit; `flags` is a `uint`, and `~PTE_U` is taken on 64 bits. -/
def copypage_u2ukvmLoop : Nat → Kernel → Nat → Nat → Nat → Nat → Res Int
  | 0, _, _, _, _, _ => .timeout
  | fuel + 1, k, pagetable, pkpagetable, endva, i =>
    if i < endva then
      match walk k pagetable i false with
      | .ok pte k1 =>
        if pte = 0 then .fatal "copypage_u2ukvm walk pagetable nullptr"
        else if rd64 k1.mem pte &&& PTE_V = 0 then .fatal "copypage_u2ukvm walk pte not valid"
        else
          let pa := PTE2PA (rd64 k1.mem pte)
          let flags := (PTE_FLAGS (rd64 k1.mem pte) &&& (2 ^ 64 - 1 - PTE_U)) % 2 ^ 32
          match mappages_u2ukvm k1 pkpagetable i PGSIZE pa flags with
          | .ok rc k2 =>
            if rc ≠ 0 then
              match uvmunmap k2 pkpagetable 0 (i / PGSIZE) true with
              | .ok _ k3 => .ok (-1) k3
              | .fatal s => .fatal s
              | .timeout => .timeout
            else copypage_u2ukvmLoop fuel k2 pagetable pkpagetable endva ((i + PGSIZE) % 2 ^ 64)
          | .fatal s => .fatal s
          | .timeout => .timeout
      | .fatal s => .fatal s
      | .timeout => .timeout
    else .ok 0 k

/-- `copypage_u2ukvm(pagetable, pkpagetable, begin, end)`. -/
def copypage_u2ukvm (k : Kernel) (pagetable pkpagetable begin endva : Nat) : Res Int :=
  copypage_u2ukvmLoop loopFuel k pagetable pkpagetable endva (PGROUNDUP begin)

/-- The loop of `ukvmfreewalk`, at index `i` with `n` entries still to visit; `down`
is the recursive call.  The entry is cleared in both branches (twice after a
recursive call). -/
def ukvmfreewalkLoop (down : Kernel → Nat → Res Unit) : Nat → Kernel → Nat → Nat → Res Unit
  | 0, k, _, _ => .ok () k
  | n + 1, k, pagetable, i =>
    if rd64 k.mem (pagetable + 8 * i) &&& PTE_V ≠ 0 ∧
        rd64 k.mem (pagetable + 8 * i) &&& (PTE_R ||| PTE_W ||| PTE_X) = 0 then
      match down k (PTE2PA (rd64 k.mem (pagetable + 8 * i))) with
      | .ok _ k1 =>
        ukvmfreewalkLoop down n
          { k1 with mem := wr64 (wr64 k1.mem (pagetable + 8 * i) 0) (pagetable + 8 * i) 0 }
          pagetable (i + 1)
      | .fatal s => .fatal s
      | .timeout => .timeout
    else
      ukvmfreewalkLoop down n { k with mem := wr64 k.mem (pagetable + 8 * i) 0 } pagetable (i + 1)

/-- `ukvmfreewalk(pagetable)`; the first argument bounds the depth of the recursion. -/
def ukvmfreewalk : Nat → Kernel → Nat → Res Unit
  | 0, _, _ => .timeout
  | depth + 1, k, pagetable =>
    match ukvmfreewalkLoop (ukvmfreewalk depth) 512 k pagetable 0 with
    | .ok _ k1 => .ok () (kfree k1 pagetable)
    | .fatal s => .fatal s
    | .timeout => .timeout

/-- Modelled from the spec: `memlayout.h` and the linker script are not among the
sources.  The fixed physical ranges are "configuration, externally supplied
constants": the device register windows, the kernel code/data extents and the
trampoline page. -/
structure Layout where
  /-- The UART register window. -/
  UART0 : Nat
  /-- The virtio disk interface. -/
  VIRTIO0 : Nat
  /-- The core-local interruptor. -/
  CLINT : Nat
  /-- The platform-level interrupt controller. -/
  PLIC : Nat
  /-- Start of the kernel text. -/
  KERNBASE : Nat
  /-- End of the kernel text, start of the kernel data (linker symbol). -/
  etext : Nat
  /-- End of physical RAM. -/
  PHYSTOP : Nat
  /-- The trampoline page. -/
  TRAMPOLINE : Nat

/-- `ukvmfreeproc(p)`, with `p->pkpagetable` and `p->kstack` as arguments; the sizes
are computed in unsigned 64-bit arithmetic. -/
def ukvmfreeproc (c : Layout) (k : Kernel) (pkpagetable kstack : Nat) : Res Unit :=
  (ukvmunmap k pkpagetable kstack (PGSIZE / PGSIZE)).bind fun _ k1 =>
  (ukvmunmap k1 pkpagetable c.TRAMPOLINE (PGSIZE / PGSIZE)).bind fun _ k2 =>
  (ukvmunmap k2 pkpagetable c.etext ((c.PHYSTOP + 2 ^ 64 - c.etext) % 2 ^ 64 / PGSIZE)).bind
    fun _ k3 =>
  (ukvmunmap k3 pkpagetable c.KERNBASE
    ((c.etext + 2 ^ 64 - c.KERNBASE) % 2 ^ 64 / PGSIZE)).bind fun _ k4 =>
  (ukvmunmap k4 pkpagetable c.PLIC (0x400000 / PGSIZE)).bind fun _ k5 =>
  (ukvmunmap k5 pkpagetable c.CLINT (0x10000 / PGSIZE)).bind fun _ k6 =>
  (ukvmunmap k6 pkpagetable c.VIRTIO0 (PGSIZE / PGSIZE)).bind fun _ k7 =>
  (ukvmunmap k7 pkpagetable c.UART0 (PGSIZE / PGSIZE)).bind fun _ k8 =>
  ukvmfreewalk freeDepth k8 pkpagetable

/-! ## Vocabulary of the statements -/

/-- The page of `va` is mapped user-accessible: its level-0 entry is valid, has
`PTE_U` and a non-null frame, and `va` is below `MAXVA`; this is when `walkaddr`
returns the frame and not 0. -/
def UserPage (m : Mem) (root va : Nat) : Prop :=
  va < MAXVA ∧ leafOf m root va &&& PTE_V ≠ 0 ∧ leafOf m root va &&& PTE_U ≠ 0 ∧
    PTE2PA (leafOf m root va) ≠ 0

/-- The physical address of the byte at virtual address `va`: the frame of the level-0
entry plus the offset of `va` in its page. -/
def physOf (m : Mem) (root va : Nat) : Nat := PTE2PA (leafOf m root va) + va % PGSIZE

/-- The setting of a copy of `len` bytes from the kernel buffer at `src` to the virtual
address `dstva`: the table is a tree, the buffer lies in the 64-bit address space, and
the frames of the user pages of the destination range are not nodes of the table, do
not overlap the buffer, and are pairwise distinct. -/
structure CopyOK (k : Kernel) (root dstva src len : Nat) : Prop where
  table : TableWF k.mem root
  fits : src + len ≤ 2 ^ 64
  apart : ∀ va, dstva ≤ va → va < dstva + len → UserPage k.mem root va →
    ∀ q, IsPath q → descend k.mem root q ≠ some (PTE2PA (leafOf k.mem root va))
  source : ∀ va, dstva ≤ va → va < dstva + len → UserPage k.mem root va →
    PTE2PA (leafOf k.mem root va) + PGSIZE ≤ src ∨ src + len ≤ PTE2PA (leafOf k.mem root va)
  distinct : ∀ va vb, dstva ≤ va → va < dstva + len → dstva ≤ vb → vb < dstva + len →
    UserPage k.mem root va → UserPage k.mem root vb →
    PTE2PA (leafOf k.mem root va) = PTE2PA (leafOf k.mem root vb) → va / PGSIZE = vb / PGSIZE

/-- The nodes of the subtree of height `l` at node `n`, in the order in which a
post-order traversal leaves them: the subtrees of the valid entries of `n` by ascending
index, then `n` itself. -/
def postorder (m : Mem) : Nat → Nat → List Nat
  | 0, n => [n]
  | l + 1, n =>
    (List.range' 0 512).flatMap (fun i =>
      if rd64 m (n + 8 * i) &&& PTE_V ≠ 0 then postorder m l (PTE2PA (rd64 m (n + 8 * i)))
      else []) ++ [n]

/-- The tagging of the entries of a table by their permission bits: a valid entry of the
root or of a level-1 node has none of R/W/X (it points to a node), a valid entry of a
level-0 node has at least one of them (it is a leaf). -/
structure Tagged (m : Mem) (root : Nat) : Prop where
  upper : ∀ q n j, IsPath q → q.length ≤ 1 → descend m root q = some n → j < 512 →
    rd64 m (n + 8 * j) &&& PTE_V ≠ 0 → rd64 m (n + 8 * j) &&& (PTE_R ||| PTE_W ||| PTE_X) = 0
  leaf : ∀ a b j, a < 512 → b < 512 → j < 512 → entryAt m root a b j &&& PTE_V ≠ 0 →
    entryAt m root a b j &&& (PTE_R ||| PTE_W ||| PTE_X) ≠ 0

/-- The memory `m2` comes from `m` by clearing level-0 entries of the table: every node
is where it was, the entries of the root and of the level-1 nodes are unchanged, and a
level-0 entry is unchanged or 0. -/
structure Cleared (m m2 : Mem) (root : Nat) : Prop where
  nodes : ∀ q, IsPath q → descend m2 root q = descend m root q
  upper : ∀ q n j, IsPath q → q.length ≤ 1 → descend m root q = some n → j < 512 →
    rd64 m2 (n + 8 * j) = rd64 m (n + 8 * j)
  leaves : ∀ a b j, a < 512 → b < 512 → j < 512 →
    entryAt m2 root a b j = entryAt m root a b j ∨ entryAt m2 root a b j = 0

/-- The memory `m` holds the bytes of `m0` in every node of the subtree at path `P` of
the table of `m0`. -/
def SubAgree (m0 : Mem) (root : Nat) (P : List Nat) (m : Mem) : Prop :=
  ∀ Q x, IsPath (P ++ Q) → descend m0 root (P ++ Q) = some x →
    ∀ y, x ≤ y → y < x + PGSIZE → m y = m0 y

/-- The address `y` lies in no node of the subtree at path `P`. -/
def SubOutside (m0 : Mem) (root : Nat) (P : List Nat) (y : Nat) : Prop :=
  ∀ Q x, IsPath (P ++ Q) → descend m0 root (P ++ Q) = some x → y < x ∨ x + PGSIZE ≤ y

/-- A leaf-shaped entry (Valid with one of R/W/X) is reachable in the subtree at path
`P`. -/
def SubLeaf (m0 : Mem) (root : Nat) (P : List Nat) : Prop :=
  ∃ Q x j, IsPath (P ++ Q) ∧ descend m0 root (P ++ Q) = some x ∧ j < 512 ∧
    rd64 m0 (x + 8 * j) &&& PTE_V ≠ 0 ∧ rd64 m0 (x + 8 * j) &&& (PTE_R ||| PTE_W ||| PTE_X) ≠ 0

/-- The frames `freewalk` or `ukvmfreewalk` releases below entry `i` and the `c - 1`
entries after it of node `n`, the subtrees having height `l`: those of `postorder`. -/
def released (m : Mem) (l n i c : Nat) : List Nat :=
  (List.range' i c).flatMap (fun j =>
    if rd64 m (n + 8 * j) &&& PTE_V ≠ 0 then postorder m l (PTE2PA (rd64 m (n + 8 * j)))
    else [])

/-- A leaf-shaped entry is reachable through one of the entries of node `n`, at path
`P`, from index `i` on: the entry itself, or an entry of the subtree below it. -/
def LeafFrom (m0 : Mem) (root : Nat) (P : List Nat) (n i : Nat) : Prop :=
  ∃ j, i ≤ j ∧ j < 512 ∧ rd64 m0 (n + 8 * j) &&& PTE_V ≠ 0 ∧
    (rd64 m0 (n + 8 * j) &&& (PTE_R ||| PTE_W ||| PTE_X) ≠ 0 ∨ SubLeaf m0 root (P ++ [j]))

/-- What a run of `freewalk` on the node `n` at path `P` does, in any state that holds
the subtree as `m0` has it: it halts on a leaf-shaped entry if there is one, and
otherwise releases the nodes of the subtree in post-order, writing to these nodes
only; `l` is the height of the subtree. -/
def FreeOK (m0 : Mem) (root : Nat) (P : List Nat) (l n : Nat)
    (run : Kernel → Nat → Res Unit) : Prop :=
  ∀ k : Kernel, SubAgree m0 root P k.mem →
    (SubLeaf m0 root P → run k n = .fatal "freewalk: leaf") ∧
    (¬ SubLeaf m0 root P → ∃ m2,
      run k n = .ok () ⟨m2, (postorder m0 l n).reverse ++ k.freelist⟩ ∧
      ∀ y, SubOutside m0 root P y → m2 y = k.mem y)

/-- What a run of `ukvmfreewalk` on the node `n` at path `P` does, in any state that
holds the subtree as `m0` has it: it releases the nodes of the subtree in post-order,
writing to these nodes only. -/
def SweepOK (m0 : Mem) (root : Nat) (P : List Nat) (l n : Nat)
    (run : Kernel → Nat → Res Unit) : Prop :=
  ∀ k : Kernel, SubAgree m0 root P k.mem → ∃ m2,
    run k n = .ok () ⟨m2, (postorder m0 l n).reverse ++ k.freelist⟩ ∧
    ∀ y, SubOutside m0 root P y → m2 y = k.mem y

/-- The ranges `ukvmfreeproc` unmaps, as (first address, number of pages), in the order
of its calls of `ukvmunmap`. -/
def fixedRanges (c : Layout) (kstack : Nat) : List (Nat × Nat) :=
  [(kstack, PGSIZE / PGSIZE), (c.TRAMPOLINE, PGSIZE / PGSIZE),
    (c.etext, (c.PHYSTOP + 2 ^ 64 - c.etext) % 2 ^ 64 / PGSIZE),
    (c.KERNBASE, (c.etext + 2 ^ 64 - c.KERNBASE) % 2 ^ 64 / PGSIZE),
    (c.PLIC, 0x400000 / PGSIZE), (c.CLINT, 0x10000 / PGSIZE),
    (c.VIRTIO0, PGSIZE / PGSIZE), (c.UART0, PGSIZE / PGSIZE)]

/-- A sequence of `ukvmunmap` calls on the table `pagetable`, one for each range of the
list: with `fixedRanges` these are the calls `ukvmfreeproc` makes before it calls
`ukvmfreewalk`. -/
def unmapAll (pagetable : Nat) : List (Nat × Nat) → Kernel → Res Unit
  | [], k => .ok () k
  | r :: rs, k => (ukvmunmap k pagetable r.1 r.2).bind fun _ k1 => unmapAll pagetable rs k1

/-- Every range of the list starts at a page boundary and ends at or below `MAXVA`. -/
def RangesOK (rs : List (Nat × Nat)) : Prop :=
  ∀ r ∈ rs, r.1 % PGSIZE = 0 ∧ r.1 + r.2 * PGSIZE ≤ MAXVA

/-- The table has a level-0 node for every page of every range of the list: `walk`
finds a slot there. -/
def Covered (m : Mem) (root : Nat) (rs : List (Nat × Nat)) : Prop :=
  ∀ r ∈ rs, ∀ a, r.1 ≤ a → a < r.1 + r.2 * PGSIZE → slotOf m root a ≠ none

/-- The address `vb` lies in none of the ranges of the list. -/
def Beyond (rs : List (Nat × Nat)) (vb : Nat) : Prop :=
  ∀ r ∈ rs, vb < r.1 ∨ r.1 + r.2 * PGSIZE ≤ vb

/-! ## Concrete states -/

/-- The entries of the state `mirrorFull`, by slot address.  A user table at `0x1000`
(nodes `0x2000`, `0x3000`, `0x4000`) maps the 513 pages from address 0 to the frames
from `0x100000` on, with flags `R|W|X|U|V`; a shadow table at `0x5000` (nodes `0x6000`,
`0x7000`) mirrors the first 512 of them, without `PTE_U`. -/
def mirrorEntry (a : Nat) : Nat :=
  if a = 0x1000 then 0x2000 / 4096 * 1024 + 1
  else if a = 0x2000 then 0x3000 / 4096 * 1024 + 1
  else if a = 0x2008 then 0x4000 / 4096 * 1024 + 1
  else if 0x3000 ≤ a ∧ a < 0x4000 then (0x100 + (a - 0x3000) / 8) * 1024 + 31
  else if a = 0x4000 then (0x100 + 512) * 1024 + 31
  else if a = 0x5000 then 0x6000 / 4096 * 1024 + 1
  else if a = 0x6000 then 0x7000 / 4096 * 1024 + 1
  else if 0x7000 ≤ a ∧ a < 0x8000 then (0x100 + (a - 0x7000) / 8) * 1024 + 15
  else 0

/-- A process of 513 pages whose first 512 pages are mirrored in its shadow table, in a
kernel that has no free frame left. -/
def mirrorFull : Kernel := ⟨fun x => mirrorEntry (x / 8 * 8) / 256 ^ (x % 8) % 256, []⟩

/-- The entries of the state `leafyKernel`, by slot address: a table at `0x1000` with the
nodes `0x2000` and `0x3000` and one leaf, the page at address 0 mapped to the frame
`0x9000` with flags `R|W|V`. -/
def leafyEntry (a : Nat) : Nat :=
  if a = 0x1000 then 0x2000 / 4096 * 1024 + 1
  else if a = 0x2000 then 0x3000 / 4096 * 1024 + 1
  else if a = 0x3000 then 0x9000 / 4096 * 1024 + 7
  else 0

/-- A table with one mapped page, and an empty allocator. -/
def leafyKernel : Kernel := ⟨fun x => leafyEntry (x / 8 * 8) / 256 ^ (x % 8) % 256, []⟩

/-- A layout for the examples: the addresses xv6 uses on the QEMU virt machine, the
kernel text ending at `0x80008000`. -/
def virtLayout : Layout where
  UART0 := 0x10000000
  VIRTIO0 := 0x10001000
  CLINT := 0x2000000
  PLIC := 0x0c000000
  KERNBASE := 0x80000000
  etext := 0x80008000
  PHYSTOP := 0x88000000
  TRAMPOLINE := 0x3FFFFFF000

/-- The level-0 entries of the state `shadowKernel`: entry `j` of the level-0 node
number `b` below the root entry 0 (`q = 0`), 2 (`q = 2`) or 255 (`q = 3`).  The devices
and the RAM are mapped to themselves with `R|W`, the first eight pages of the RAM (the
kernel text) with `R|X`; the page at address 0 is a mirrored user page, with the frame
`0x87E00000` and the flags `R|W|X`; the trampoline page has the frame `0x80007000`
and the kernel stack at `0x3FFFFFD000` the frame `0x87E01000`. -/
def shadowLeaf (q b j : Nat) : Nat :=
  if q = 0 then
    if b = 0 then (if j = 0 then 0x87E00000 / 4096 * 1024 + 15 else 0)
    else if b = 16 then (if j < 16 then (0x2000000 + j * 4096) / 4096 * 1024 + 7 else 0)
    else if b = 96 ∨ b = 97 then (b * 512 + j) * 4096 / 4096 * 1024 + 7
    else if b = 128 then (if j < 2 then (0x10000000 + j * 4096) / 4096 * 1024 + 7 else 0)
    else 0
  else if q = 2 then
    if b < 64 then
      (0x80000000 + (b * 512 + j) * 4096) / 4096 * 1024 + (if b = 0 ∧ j < 8 then 11 else 7)
    else 0
  else if q = 3 then
    if b = 511 then
      (if j = 511 then 0x80007000 / 4096 * 1024 + 11
        else if j = 509 then 0x87E01000 / 4096 * 1024 + 7 else 0)
    else 0
  else 0

/-- The entries of the state `shadowKernel`: entry `i` of the page at `n`.  The root is
at `0x87000000`; its entries 0, 2 and 255 point to the level-1 nodes at
`0x87001000 + 4096 * a`; the level-0 node number `b` below the root entry `a` is at
`0x87400000 + (a % 4 * 512 + b) * 4096`.  All the nodes are frames of the RAM. -/
def shadowNode (n i : Nat) : Nat :=
  if n = 0x87000000 then
    (if i = 0 ∨ i = 2 ∨ i = 255 then (0x87001000 + 4096 * i) / 4096 * 1024 + 1 else 0)
  else if 0x87001000 ≤ n ∧ n < 0x87201000 then
    (if ((n - 0x87001000) / 4096 = 0 ∧ (i = 0 ∨ i = 16 ∨ i = 96 ∨ i = 97 ∨ i = 128)) ∨
        ((n - 0x87001000) / 4096 = 2 ∧ i < 64) ∨ ((n - 0x87001000) / 4096 = 255 ∧ i = 511) then
      (0x87400000 + ((n - 0x87001000) / 4096 % 4 * 512 + i) * 4096) / 4096 * 1024 + 1
    else 0)
  else if 0x87400000 ≤ n ∧ n < 0x87C00000 then
    shadowLeaf ((n - 0x87400000) / 4096 / 512) ((n - 0x87400000) / 4096 % 512) i
  else 0

/-- The 64-bit word at the 8-aligned address `a` of the state `shadowKernel`. -/
def shadowEntry (a : Nat) : Nat := shadowNode (a / 4096 * 4096) (a % 4096 / 8)

/-- A shadow table as `ukvminit` builds it for the layout `virtLayout`, with the kernel
stack mapped at `0x3FFFFFD000` and one user page mirrored at address 0; the allocator
is empty. -/
def shadowKernel : Kernel := ⟨fun x => shadowEntry (x / 8 * 8) / 256 ^ (x % 8) % 256, []⟩

end Xv6

namespace Xv6

/-! ## Arithmetic of the entry macros -/

theorem PX_eq (l va : Nat) : PX l va = va / 2 ^ (12 + 9 * l) % 512 := by
  unfold PX PGSHIFT
  rw [Nat.shiftRight_eq_div_pow]
  exact Nat.and_pow_two_sub_one_eq_mod _ 9

theorem PX_lt (l va : Nat) : PX l va < 512 := by
  rw [PX_eq]; omega

theorem PTE2PA_eq (e : Nat) : PTE2PA e = e / 1024 * 4096 % 2 ^ 64 := by
  unfold PTE2PA
  rw [Nat.shiftLeft_eq, Nat.shiftRight_eq_div_pow]

theorem PTE2PA_aligned (e : Nat) : PTE2PA e % PGSIZE = 0 := by
  rw [PTE2PA_eq]; unfold PGSIZE; omega

theorem PTE2PA_lt (e : Nat) : PTE2PA e < 2 ^ 64 := by
  rw [PTE2PA_eq]; omega

theorem PA2PTE_eq (p : Nat) : PA2PTE p = p / 4096 * 1024 % 2 ^ 64 := by
  unfold PA2PTE
  rw [Nat.shiftLeft_eq, Nat.shiftRight_eq_div_pow]

theorem PTE_FLAGS_eq (e : Nat) : PTE_FLAGS e = e % 1024 := by
  unfold PTE_FLAGS
  exact Nat.and_pow_two_sub_one_eq_mod _ 10

theorem and_PTE_V (e : Nat) : e &&& PTE_V = e % 2 := by
  unfold PTE_V; exact Nat.and_one_is_mod e

theorem and_PTE_U (e : Nat) : e &&& PTE_U = e / 16 % 2 * 16 := by
  unfold PTE_U
  have h := Nat.and_two_pow e 4
  rw [show (2:Nat) ^ 4 = 16 by norm_num, Nat.testBit_to_div_mod,
    show (2:Nat) ^ 4 = 16 by norm_num] at h
  rw [h]
  rcases Nat.mod_two_eq_zero_or_one (e / 16) with hb | hb <;> simp [hb]

/-- An entry built from a frame number field and flags below 1024 is their sum. -/
theorem lor_flags (p f : Nat) (hf : f < 1024) :
    (p / 4096 * 1024) ||| f = p / 4096 * 1024 + f := by
  have h := Nat.mul_add_lt_is_or (i := 10) (b := f) (by simpa using hf) (p / 4096)
  rw [show (2:Nat) ^ 10 = 1024 by norm_num] at h
  rw [Nat.mul_comm] at h
  exact h.symm

theorem lor_mod_two (a b : Nat) : (a ||| b) % 2 = 1 ↔ a % 2 = 1 ∨ b % 2 = 1 :=
  Nat.or_mod_two_eq_one

theorem lor_mod_1024 (a b : Nat) : (a ||| b) % 1024 = (a % 1024) ||| (b % 1024) := by
  apply Nat.eq_of_testBit_eq
  intro i
  have e : (1024 : Nat) = 2 ^ 10 := by norm_num
  rw [e]
  simp only [Nat.testBit_mod_two_pow, Nat.testBit_or]
  by_cases h : i < 10 <;> simp [h]

theorem lor_div_1024 (a b : Nat) : (a ||| b) / 1024 = (a / 1024) ||| (b / 1024) := by
  apply Nat.eq_of_testBit_eq
  intro i
  have e : (1024 : Nat) = 2 ^ 10 := by norm_num
  rw [e, ← Nat.shiftRight_eq_div_pow, ← Nat.shiftRight_eq_div_pow, ← Nat.shiftRight_eq_div_pow]
  simp only [Nat.testBit_shiftRight, Nat.testBit_or]

/-! ## Reads and writes of physical memory -/

theorem rd64_lt (m : Mem) (a : Nat) : rd64 m a < 2 ^ 64 := by
  unfold rd64 rd8; omega

theorem rd64_congr (m m' : Mem) (a : Nat) (h : ∀ i, i < 8 → m' (a + i) = m (a + i)) :
    rd64 m' a = rd64 m a := by
  have h0 := h 0 (by omega)
  simp only [Nat.add_zero] at h0
  unfold rd64 rd8
  rw [h0, h 1 (by omega), h 2 (by omega), h 3 (by omega), h 4 (by omega), h 5 (by omega),
    h 6 (by omega), h 7 (by omega)]

theorem wr64_out (m : Mem) (a v x : Nat) (h : x < a ∨ a + 8 ≤ x) : wr64 m a v x = m x := by
  unfold wr64
  rw [if_neg (by omega)]

theorem wr64_in (m : Mem) (a v i : Nat) (h : i < 8) :
    wr64 m a v (a + i) = v / 256 ^ i % 256 := by
  unfold wr64
  rw [if_pos (by omega), Nat.add_sub_cancel_left]

theorem rd64_wr64_same (m : Mem) (a v : Nat) : rd64 (wr64 m a v) a = v % 2 ^ 64 := by
  have h0 := wr64_in m a v 0 (by omega)
  simp only [Nat.add_zero] at h0
  unfold rd64 rd8
  rw [h0, wr64_in m a v 1 (by omega), wr64_in m a v 2 (by omega), wr64_in m a v 3 (by omega),
    wr64_in m a v 4 (by omega), wr64_in m a v 5 (by omega), wr64_in m a v 6 (by omega),
    wr64_in m a v 7 (by omega)]
  norm_num
  omega

theorem rd64_wr64_other (m : Mem) (a v b : Nat) (h : b + 8 ≤ a ∨ a + 8 ≤ b) :
    rd64 (wr64 m a v) b = rd64 m b :=
  rd64_congr _ _ _ (fun i hi => wr64_out m a v (b + i) (by omega))

theorem memset_out (m : Mem) (d c n x : Nat) (h : x < d ∨ d + n ≤ x) :
    memset m d c n x = m x := by
  unfold memset
  rw [if_neg (by omega)]

theorem memset_in (m : Mem) (d c n x : Nat) (h : d ≤ x ∧ x < d + n) :
    memset m d c n x = c % 256 := by
  unfold memset
  rw [if_pos h]

theorem rd64_memset_zero (m : Mem) (d n b : Nat) (h : d ≤ b ∧ b + 8 ≤ d + n) :
    rd64 (memset m d 0 n) b = 0 := by
  unfold rd64 rd8
  have e : ∀ i, i < 8 → memset m d 0 n (b + i) = 0 := fun i hi =>
    memset_in m d 0 n (b + i) (by omega)
  have h0 := e 0 (by omega)
  simp only [Nat.add_zero] at h0
  rw [h0, e 1 (by omega), e 2 (by omega), e 3 (by omega), e 4 (by omega), e 5 (by omega),
    e 6 (by omega), e 7 (by omega)]

theorem rd64_memset_other (m : Mem) (d c n b : Nat) (h : b + 8 ≤ d ∨ d + n ≤ b) :
    rd64 (memset m d c n) b = rd64 m b :=
  rd64_congr _ _ _ (fun i hi => memset_out m d c n (b + i) (by omega))

theorem memmove_out (m : Mem) (d s n x : Nat) (h : x < d ∨ d + n ≤ x) :
    memmove m d s n x = m x := by
  unfold memmove
  rw [if_neg (by omega)]

theorem memmove_in (m : Mem) (d s n i : Nat) (h : i < n) :
    memmove m d s n (d + i) = m (s + i) := by
  unfold memmove
  rw [if_pos (by omega), Nat.add_sub_cancel_left]

theorem rd64_memmove_other (m : Mem) (d s n b : Nat) (h : b + 8 ≤ d ∨ d + n ≤ b) :
    rd64 (memmove m d s n) b = rd64 m b :=
  rd64_congr _ _ _ (fun i hi => memmove_out m d s n (b + i) (by omega))

end Xv6

namespace Xv6

/-! ## Paths and nodes -/

theorem IsPath.cases {p : List Nat} (h : IsPath p) :
    p = [] ∨ (∃ a, a < 512 ∧ p = [a]) ∨ (∃ a b, a < 512 ∧ b < 512 ∧ p = [a, b]) := by
  obtain ⟨hl, hi⟩ := h
  match p, hl, hi with
  | [], _, _ => exact Or.inl rfl
  | [a], _, hi => exact Or.inr (Or.inl ⟨a, hi a (by simp), rfl⟩)
  | [a, b], _, hi => exact Or.inr (Or.inr ⟨a, b, hi a (by simp), hi b (by simp), rfl⟩)
  | _ :: _ :: _ :: _, hl, _ => simp at hl

theorem isPath_nil : IsPath [] := ⟨by simp, by simp⟩

theorem isPath_one {a : Nat} (h : a < 512) : IsPath [a] := ⟨by simp, by simpa using h⟩

theorem isPath_two {a b : Nat} (ha : a < 512) (hb : b < 512) : IsPath [a, b] :=
  ⟨by simp, by simp [ha, hb]⟩

theorem isPath_va (va : Nat) : IsPath [PX 2 va, PX 1 va] :=
  isPath_two (PX_lt 2 va) (PX_lt 1 va)

theorem descend_nil (m : Mem) (n : Nat) : descend m n [] = some n := rfl

theorem descend_cons (m : Mem) (n i : Nat) (p : List Nat) :
    descend m n (i :: p) =
      if rd64 m (n + 8 * i) &&& PTE_V ≠ 0 then descend m (PTE2PA (rd64 m (n + 8 * i))) p
      else none := rfl

theorem descend_one_some {m : Mem} {n a x : Nat} (h : descend m n [a] = some x) :
    rd64 m (n + 8 * a) &&& PTE_V ≠ 0 ∧ x = PTE2PA (rd64 m (n + 8 * a)) := by
  rw [descend_cons] at h
  by_cases hv : rd64 m (n + 8 * a) &&& PTE_V ≠ 0
  · rw [if_pos hv, descend_nil] at h
    exact ⟨hv, (Option.some.inj h).symm⟩
  · rw [if_neg hv] at h; cases h

theorem descend_two_some {m : Mem} {n a b x : Nat} (h : descend m n [a, b] = some x) :
    ∃ y, descend m n [a] = some y ∧ descend m y [b] = some x := by
  rw [descend_cons] at h
  by_cases hv : rd64 m (n + 8 * a) &&& PTE_V ≠ 0
  · rw [if_pos hv] at h
    refine ⟨PTE2PA (rd64 m (n + 8 * a)), ?_, h⟩
    rw [descend_cons, if_pos hv, descend_nil]
  · rw [if_neg hv] at h; cases h

theorem descend_two_of {m : Mem} {n a b y : Nat} (h : descend m n [a] = some y) :
    descend m n [a, b] = descend m y [b] := by
  obtain ⟨hv, hy⟩ := descend_one_some h
  rw [descend_cons, if_pos hv, hy]

theorem descend_two_none {m : Mem} {n a b : Nat} (h : descend m n [a] = none) :
    descend m n [a, b] = none := by
  rw [descend_cons] at h ⊢
  by_cases hv : rd64 m (n + 8 * a) &&& PTE_V ≠ 0
  · rw [if_pos hv, descend_nil] at h; cases h
  · rw [if_neg hv]

/-- The value of `descend` at one index depends on that entry only. -/
theorem descend_one_congr {m m' : Mem} {n a : Nat}
    (h : rd64 m' (n + 8 * a) = rd64 m (n + 8 * a)) : descend m' n [a] = descend m n [a] := by
  rw [descend_cons, descend_cons, h]; rfl

/-- Every node of a table with an aligned root is page-aligned. -/
theorem descend_aligned {m : Mem} {root : Nat} (hr : root % PGSIZE = 0) :
    ∀ p n, descend m root p = some n → n % PGSIZE = 0 := by
  intro p
  induction p generalizing root with
  | nil => intro n h; rw [descend_nil] at h; cases h; exact hr
  | cons i p ih =>
    intro n h
    rw [descend_cons] at h
    by_cases hv : rd64 m (root + 8 * i) &&& PTE_V ≠ 0
    · rw [if_pos hv] at h
      exact ih (PTE2PA_aligned _) n h
    · rw [if_neg hv] at h; cases h

/-- Two slots of page-aligned nodes are the same slot or do not overlap. -/
theorem slot_disjoint {n n' i j : Nat} (hn : n % PGSIZE = 0) (hn' : n' % PGSIZE = 0)
    (hi : i < 512) (hj : j < 512) (hne : n ≠ n' ∨ i ≠ j) :
    n + 8 * i + 8 ≤ n' + 8 * j ∨ n' + 8 * j + 8 ≤ n + 8 * i := by
  unfold PGSIZE at hn hn'
  omega

/-- A slot of a page-aligned node lies inside the node's page. -/
theorem slot_in_page {n i : Nat} (hi : i < 512) : n ≤ n + 8 * i ∧ n + 8 * i + 8 ≤ n + PGSIZE := by
  unfold PGSIZE; omega

/-- Distinct page-aligned frames do not overlap. -/
theorem page_disjoint {n f : Nat} (hn : n % PGSIZE = 0) (hf : f % PGSIZE = 0) (hne : n ≠ f) :
    n + PGSIZE ≤ f ∨ f + PGSIZE ≤ n := by
  unfold PGSIZE at *
  omega

end Xv6

namespace Xv6

/-! ## How the three kinds of store act on a table -/

/-- Two memories with the same entries in the root and the level-1 nodes of a table
have the same nodes. -/
theorem descend_congr {m m' : Mem} {root : Nat}
    (H : ∀ q n i, IsPath q → q.length ≤ 1 → descend m root q = some n → i < 512 →
      rd64 m' (n + 8 * i) = rd64 m (n + 8 * i)) :
    ∀ p, IsPath p → descend m' root p = descend m root p := by
  intro p hp
  rcases hp.cases with rfl | ⟨a, ha, rfl⟩ | ⟨a, b, ha, hb, rfl⟩
  · rfl
  · exact descend_one_congr (H [] root a isPath_nil (by simp) rfl ha)
  · have h1 : descend m' root [a] = descend m root [a] :=
      descend_one_congr (H [] root a isPath_nil (by simp) rfl ha)
    cases hy : descend m root [a] with
    | none => rw [descend_two_none hy, descend_two_none (h1.trans hy)]
    | some y =>
      rw [descend_two_of hy, descend_two_of (h1.trans hy)]
      exact descend_one_congr (H [a] y b (isPath_one ha) (by simp) hy hb)

/-- The entry that links a fresh node: frame number of `f` and the Valid bit. -/
theorem link_entry_eq {f : Nat} (hf : f % PGSIZE = 0) (hlt : f < 2 ^ 64) :
    PA2PTE f ||| PTE_V = f / 4096 * 1024 + 1 := by
  unfold PGSIZE at hf
  rw [PA2PTE_eq, Nat.mod_eq_of_lt (by omega)]
  exact lor_flags f 1 (by norm_num)

theorem link_entry_valid {f : Nat} (hf : f % PGSIZE = 0) (hlt : f < 2 ^ 64) :
    (PA2PTE f ||| PTE_V) &&& PTE_V ≠ 0 := by
  rw [link_entry_eq hf hlt, and_PTE_V]; omega

theorem link_entry_pa {f : Nat} (hf : f % PGSIZE = 0) (hlt : f < 2 ^ 64) :
    PTE2PA (PA2PTE f ||| PTE_V) = f := by
  rw [link_entry_eq hf hlt, PTE2PA_eq]
  unfold PGSIZE at hf
  omega

theorem linked_slot {m : Mem} {f n i : Nat} (hf : f % PGSIZE = 0) (hlt : f < 2 ^ 64) :
    rd64 (linked m f (n + 8 * i)) (n + 8 * i) = PA2PTE f ||| PTE_V := by
  unfold linked
  rw [rd64_wr64_same, Nat.mod_eq_of_lt]
  rw [link_entry_eq hf hlt]
  omega

theorem linked_fresh {m : Mem} {f n i j : Nat} (hn : n % PGSIZE = 0) (hf : f % PGSIZE = 0)
    (hne : n ≠ f) (hi : i < 512) (hj : j < 512) :
    rd64 (linked m f (n + 8 * i)) (f + 8 * j) = 0 := by
  unfold linked
  have hd := page_disjoint hn hf hne
  have h1 := slot_in_page (n := n) hi
  have h2 := slot_in_page (n := f) hj
  rw [rd64_wr64_other _ _ _ _ (by omega)]
  exact rd64_memset_zero _ _ _ _ (by omega)

theorem linked_other {m : Mem} {f n i n' j : Nat} (hn : n % PGSIZE = 0)
    (hn' : n' % PGSIZE = 0) (hf : f % PGSIZE = 0) (hne : n' ≠ f) (hi : i < 512) (hj : j < 512)
    (hd : n' ≠ n ∨ j ≠ i) :
    rd64 (linked m f (n + 8 * i)) (n' + 8 * j) = rd64 m (n' + 8 * j) := by
  unfold linked
  have hs := slot_disjoint hn' hn hj hi hd
  have hp := page_disjoint hn' hf hne
  have h2 := slot_in_page (n := n') hj
  rw [rd64_wr64_other _ _ _ _ (by omega)]
  exact rd64_memset_other _ _ _ _ _ (by omega)

theorem linked_byte {m : Mem} {f n i x : Nat} (hi : i < 512)
    (hx : x < n ∨ n + PGSIZE ≤ x) (hxf : x < f ∨ f + PGSIZE ≤ x) :
    linked m f (n + 8 * i) x = m x := by
  unfold linked
  have h1 := slot_in_page (n := n) hi
  rw [wr64_out _ _ _ _ (by omega)]
  exact memset_out _ _ _ _ _ (by omega)

end Xv6

namespace Xv6

/-! ## Linking a fresh node into a well-formed table -/

theorem TableWF.node_ne {m : Mem} {root x y : Nat} {p q : List Nat} (hwf : TableWF m root)
    (hp : IsPath p) (hq : IsPath q) (h1 : descend m root p = some x)
    (h2 : descend m root q = some y) (hne : p ≠ q) : x ≠ y := by
  intro e
  subst e
  exact hne (hwf.inj p q x hp hq h1 h2)

section link
variable {m : Mem} {root n i f : Nat} {P : List Nat}

/-- Entries of existing nodes other than the linking slot are not touched. -/
theorem link_entry_other (hwf : TableWF m root) (hn : descend m root P = some n)
    (hi : i < 512) (hf : f % PGSIZE = 0)
    (hfresh : ∀ p, IsPath p → descend m root p ≠ some f)
    {q : List Nat} {n' j : Nat} (hq : IsPath q) (hn' : descend m root q = some n')
    (hj : j < 512) (hd : n' ≠ n ∨ j ≠ i) :
    rd64 (linked m f (n + 8 * i)) (n' + 8 * j) = rd64 m (n' + 8 * j) :=
  linked_other (descend_aligned hwf.root_aligned P n hn)
    (descend_aligned hwf.root_aligned q n' hn') hf
    (fun e => hfresh q hq (e ▸ hn')) hi hj hd

theorem link_step (_hwf : TableWF m root) (_hP : IsPath P) (_hn : descend m root P = some n)
    (_hi : i < 512) (hf : f % PGSIZE = 0) (hlt : f < 2 ^ 64) :
    descend (linked m f (n + 8 * i)) n [i] = some f := by
  rw [descend_cons, linked_slot hf hlt, if_pos (link_entry_valid hf hlt),
    link_entry_pa hf hlt, descend_nil]

theorem link_fresh_none (hwf : TableWF m root) (hP : IsPath P)
    (hn : descend m root P = some n) (hi : i < 512) (hf : f % PGSIZE = 0)
    (hfresh : ∀ p, IsPath p → descend m root p ≠ some f) {j : Nat} (hj : j < 512) :
    descend (linked m f (n + 8 * i)) f [j] = none := by
  have hne : n ≠ f := fun e => hfresh P hP (e ▸ hn)
  rw [descend_cons,
    linked_fresh (descend_aligned hwf.root_aligned P n hn) hf hne hi hj]
  simp

/-- The linked node sits at the path of its slot. -/
theorem link_descend_new (hwf : TableWF m root) (hP : IsPath P) (hPl : P.length ≤ 1)
    (hn : descend m root P = some n) (hi : i < 512) (hf : f % PGSIZE = 0) (hlt : f < 2 ^ 64)
    (hfresh : ∀ p, IsPath p → descend m root p ≠ some f) :
    descend (linked m f (n + 8 * i)) root (P ++ [i]) = some f := by
  have hstep := link_step hwf hP hn hi hf hlt
  rcases hP.cases with rfl | ⟨c, hc, rfl⟩ | ⟨a, b, _, _, rfl⟩
  · rw [descend_nil] at hn; cases hn
    exact hstep
  · have hne : root ≠ n :=
      hwf.node_ne isPath_nil (isPath_one hc) rfl hn (by simp)
    have h1 : descend (linked m f (n + 8 * i)) root [c] = some n := by
      rw [descend_one_congr (link_entry_other hwf hn hi hf hfresh isPath_nil rfl hc
        (Or.inl hne))]
      exact hn
    show descend _ root [c, i] = some f
    rw [descend_two_of h1]
    exact hstep
  · simp at hPl

/-- Below the linked node there is nothing yet. -/
theorem link_descend_below (hwf : TableWF m root) (hP : IsPath P) (hPl : P.length ≤ 1)
    (hn : descend m root P = some n) (hi : i < 512) (hf : f % PGSIZE = 0) (hlt : f < 2 ^ 64)
    (hfresh : ∀ p, IsPath p → descend m root p ≠ some f) {j : Nat} (hj : j < 512)
    (hq : IsPath (P ++ [i, j])) :
    descend (linked m f (n + 8 * i)) root (P ++ [i, j]) = none := by
  rcases hP.cases with rfl | ⟨c, hc, rfl⟩ | ⟨a, b, _, _, rfl⟩
  · have h1 := link_descend_new hwf isPath_nil hPl hn hi hf hlt hfresh
    show descend _ root [i, j] = none
    rw [descend_two_of h1]
    rw [descend_nil] at hn; cases hn
    exact link_fresh_none hwf isPath_nil rfl hi hf hfresh hj
  · have := hq.1; simp at this
  · simp at hPl

/-- Every other path leads where it led before. -/
theorem link_descend_old (hwf : TableWF m root) (hP : IsPath P) (hPl : P.length ≤ 1)
    (hn : descend m root P = some n) (hi : i < 512) (hf : f % PGSIZE = 0)
    (hfresh : ∀ p, IsPath p → descend m root p ≠ some f)
    {q : List Nat} (hq : IsPath q) (h1 : q ≠ P ++ [i]) (h2 : ∀ j, q ≠ P ++ [i, j]) :
    descend (linked m f (n + 8 * i)) root q = descend m root q := by
  have key : ∀ (q' : List Nat) (n' j : Nat), IsPath q' → descend m root q' = some n' →
      j < 512 → q' ++ [j] ≠ P ++ [i] →
      rd64 (linked m f (n + 8 * i)) (n' + 8 * j) = rd64 m (n' + 8 * j) := by
    intro q' n' j hq' hn' hj hne
    apply link_entry_other hwf hn hi hf hfresh hq' hn' hj
    by_cases hnn : n' = n
    · right
      intro hji
      subst hnn
      have hqP : q' = P := hwf.inj q' P n' hq' hP hn' hn
      exact hne (by rw [hqP, hji])
    · exact Or.inl hnn
  rcases hq.cases with rfl | ⟨a, ha, rfl⟩ | ⟨a, b, ha, hb, rfl⟩
  · rfl
  · exact descend_one_congr (key [] root a isPath_nil rfl ha h1)
  · have e1 : descend (linked m f (n + 8 * i)) root [a] = descend m root [a] := by
      refine descend_one_congr (key [] root a isPath_nil rfl ha ?_)
      intro e
      rcases hP.cases with rfl | ⟨c, hc, rfl⟩ | ⟨a', b', _, _, rfl⟩
      · simp at e
        exact h2 b (by rw [e]; rfl)
      · simp at e
      · simp at hPl
    cases hy : descend m root [a] with
    | none => rw [descend_two_none hy, descend_two_none (e1.trans hy)]
    | some y =>
      rw [descend_two_of hy, descend_two_of (e1.trans hy)]
      exact descend_one_congr (key [a] y b (isPath_one ha) hy hb h1)

end link

end Xv6

namespace Xv6

theorem descend_append (m : Mem) (P Q : List Nat) :
    ∀ root, descend m root (P ++ Q) = (descend m root P).bind (fun n => descend m n Q) := by
  induction P with
  | nil => intro root; rfl
  | cons i P ih =>
    intro root
    show descend m root (i :: (P ++ Q)) = _
    rw [descend_cons, descend_cons]
    by_cases hv : rd64 m (root + 8 * i) &&& PTE_V ≠ 0
    · rw [if_pos hv, if_pos hv]; exact ih _
    · rw [if_neg hv, if_neg hv]; rfl

theorem descend_snoc {m : Mem} {root n : Nat} {P : List Nat} (i : Nat)
    (h : descend m root P = some n) : descend m root (P ++ [i]) = descend m n [i] := by
  rw [descend_append, h]; rfl

theorem isPath_snoc {P : List Nat} {i : Nat} (hP : IsPath P) (hl : P.length ≤ 1)
    (hi : i < 512) : IsPath (P ++ [i]) := by
  refine ⟨by simp; omega, ?_⟩
  intro x hx
  rcases List.mem_append.1 hx with h | h
  · exact hP.2 x h
  · simp at h; omega

section link
variable {m : Mem} {root n i f : Nat} {P : List Nat}

/-- After linking, a path leads to the fresh node or where it led before. -/
theorem link_cases (hwf : TableWF m root) (hP : IsPath P) (hPl : P.length ≤ 1)
    (hn : descend m root P = some n) (hi : i < 512) (hf : f % PGSIZE = 0) (hlt : f < 2 ^ 64)
    (hfresh : ∀ p, IsPath p → descend m root p ≠ some f)
    {q : List Nat} {x : Nat} (hq : IsPath q)
    (hx : descend (linked m f (n + 8 * i)) root q = some x) :
    (q = P ++ [i] ∧ x = f) ∨ (q ≠ P ++ [i] ∧ descend m root q = some x) := by
  by_cases h1 : q = P ++ [i]
  · left
    refine ⟨h1, ?_⟩
    rw [h1, link_descend_new hwf hP hPl hn hi hf hlt hfresh] at hx
    exact (Option.some.inj hx).symm
  · right
    refine ⟨h1, ?_⟩
    by_cases h2 : ∃ j, q = P ++ [i, j]
    · obtain ⟨j, hj⟩ := h2
      have hj512 : j < 512 := hq.2 j (by rw [hj]; simp)
      rw [hj, link_descend_below hwf hP hPl hn hi hf hlt hfresh hj512 (hj ▸ hq)] at hx
      cases hx
    · rw [link_descend_old hwf hP hPl hn hi hf hfresh hq h1 (fun j e => h2 ⟨j, e⟩)] at hx
      exact hx

/-- Linking into an invalid slot keeps every node where it was. -/
theorem link_nodes (hwf : TableWF m root) (hP : IsPath P) (hPl : P.length ≤ 1)
    (hn : descend m root P = some n) (hi : i < 512) (hf : f % PGSIZE = 0)
    (hinv : ¬ rd64 m (n + 8 * i) &&& PTE_V ≠ 0)
    (hfresh : ∀ p, IsPath p → descend m root p ≠ some f)
    {q : List Nat} {x : Nat} (hq : IsPath q) (hx : descend m root q = some x) :
    descend (linked m f (n + 8 * i)) root q = some x := by
  have hnone : descend m root (P ++ [i]) = none := by
    rw [descend_snoc i hn, descend_cons, if_neg hinv]
  rw [link_descend_old hwf hP hPl hn hi hf hfresh hq]
  · exact hx
  · intro e; rw [e, hnone] at hx; cases hx
  · intro j e
    have : descend m root (P ++ [i, j]) = none := by
      have e2 : P ++ [i, j] = (P ++ [i]) ++ [j] := by simp
      rw [e2, descend_append, hnone]; rfl
    rw [e, this] at hx; cases hx

theorem link_TableWF (hwf : TableWF m root) (hP : IsPath P) (hPl : P.length ≤ 1)
    (hn : descend m root P = some n) (hi : i < 512) (hf : f % PGSIZE = 0) (hlt : f < 2 ^ 64)
    (hf0 : f ≠ 0) (hfresh : ∀ p, IsPath p → descend m root p ≠ some f) :
    TableWF (linked m f (n + 8 * i)) root := by
  have cases := fun {q : List Nat} {x : Nat} (hq : IsPath q)
      (hx : descend (linked m f (n + 8 * i)) root q = some x) =>
    link_cases hwf hP hPl hn hi hf hlt hfresh hq hx
  refine ⟨hwf.root_aligned, ?_, ?_⟩
  · intro p x hp hx
    rcases cases hp hx with ⟨_, rfl⟩ | ⟨_, h⟩
    · exact hf0
    · exact hwf.nonnull p x hp h
  · intro p q x hp hq hpx hqx
    rcases cases hp hpx with ⟨e1, rfl⟩ | ⟨_, h1⟩
    · rcases cases hq hqx with ⟨e2, _⟩ | ⟨_, h2⟩
      · rw [e1, e2]
      · exact absurd h2 (hfresh q hq)
    · rcases cases hq hqx with ⟨e2, rfl⟩ | ⟨_, h2⟩
      · exact absurd h1 (hfresh p hp)
      · exact hwf.inj p q x hp hq h1 h2

/-- Linking a fresh node leaves every level-0 entry as it read before. -/
theorem link_entries (hwf : TableWF m root) (hP : IsPath P) (hPl : P.length ≤ 1)
    (hn : descend m root P = some n) (hi : i < 512) (hf : f % PGSIZE = 0) (hlt : f < 2 ^ 64)
    (hinv : ¬ rd64 m (n + 8 * i) &&& PTE_V ≠ 0)
    (hfresh : ∀ p, IsPath p → descend m root p ≠ some f)
    {a b j : Nat} (ha : a < 512) (hb : b < 512) (hj : j < 512) :
    entryAt (linked m f (n + 8 * i)) root a b j = entryAt m root a b j := by
  have hab := isPath_two ha hb
  unfold entryAt
  cases hold : descend m root [a, b] with
  | some x =>
    rw [link_nodes hwf hP hPl hn hi hf hinv hfresh hab hold]
    refine link_entry_other hwf hn hi hf hfresh hab hold hj (Or.inl ?_)
    refine hwf.node_ne hab hP hold hn ?_
    intro e
    rw [← e] at hPl
    simp at hPl
  | none =>
    cases hnew : descend (linked m f (n + 8 * i)) root [a, b] with
    | none => rfl
    | some x =>
      rcases link_cases hwf hP hPl hn hi hf hlt hfresh hab hnew with ⟨_, rfl⟩ | ⟨_, h⟩
      · exact linked_fresh (descend_aligned hwf.root_aligned P n hn) hf
          (fun e => hfresh P hP (e ▸ hn)) hi hj
      · rw [hold] at h; cases h

end link

end Xv6

namespace Xv6

/-! ## Node creation -/

theorem lor_V_valid (x : Nat) : ¬ (x ||| PTE_V) &&& PTE_V = 0 := by
  rw [and_PTE_V]
  have h : (x ||| PTE_V) % 2 = 1 := (lor_mod_two x PTE_V).2 (Or.inr rfl)
  omega

theorem Grow.grefl (k : Kernel) (root : Nat) : Grow k k root :=
  ⟨fun _ _ _ h => h, fun _ _ _ _ _ _ => rfl, ⟨[], rfl, fun _ h => by cases h⟩,
    fun _ _ _ h => Or.inl h, fun _ _ _ => rfl, fun _ _ _ _ _ _ _ => Or.inl rfl,
    fun _ _ _ h1 h2 => by rw [h1] at h2; cases h2⟩

theorem Grow.gsub {k k2 : Kernel} {root : Nat} (h : Grow k k2 root) :
    ∀ f ∈ k2.freelist, f ∈ k.freelist := by
  obtain ⟨used, hu, _⟩ := h.pool
  intro f hf
  rw [hu]; exact List.mem_append_right _ hf

theorem Grow.gtrans {k k1 k2 : Kernel} {root : Nat} (h1 : Grow k k1 root)
    (h2 : Grow k1 k2 root) : Grow k k2 root := by
  refine ⟨?_, ?_, ?_, ?_, ?_, ?_, ?_⟩
  · intro q x hq hx
    exact h2.nodes q x hq (h1.nodes q x hq hx)
  · intro a b j ha hb hj
    rw [h2.entries a b j ha hb hj, h1.entries a b j ha hb hj]
  · obtain ⟨u1, e1, p1⟩ := h1.pool
    obtain ⟨u2, e2, p2⟩ := h2.pool
    refine ⟨u1 ++ u2, by rw [e1, e2, List.append_assoc], ?_⟩
    intro f hf
    rcases List.mem_append.1 hf with hf | hf
    · obtain ⟨q, hq, hq1, hq0⟩ := p1 f hf
      exact ⟨q, hq, h2.nodes q f hq hq1, hq0⟩
    · obtain ⟨q, hq, hq2, hq1⟩ := p2 f hf
      refine ⟨q, hq, hq2, ?_⟩
      cases h0 : descend k.mem root q with
      | none => rfl
      | some y => rw [h1.nodes q y hq h0] at hq1; cases hq1
  · intro q n hq hn
    rcases h2.origin q n hq hn with h | h
    · exact h1.origin q n hq h
    · exact Or.inr (h1.gsub n h)
  · intro x hx hf
    rw [h2.bytes x, h1.bytes x hx hf]
    · intro q n hq hn
      rcases h1.origin q n hq hn with h | h
      · exact hx q n hq h
      · exact hf n h
    · intro f hf1
      exact hf f (h1.gsub f hf1)
  · intro q n j hq hql hn hj
    rcases h1.upper q n j hq hql hn hj with e1 | ⟨hinv, g, hg, e1⟩
    · rcases h2.upper q n j hq hql (h1.nodes q n hq hn) hj with e2 | ⟨hinv2, g, hg, e2⟩
      · exact Or.inl (e2.trans e1)
      · exact Or.inr ⟨by rw [← e1]; exact hinv2, g, hg, e2⟩
    · have hgq : IsPath (q ++ [j]) := isPath_snoc hq hql hj
      rcases h2.upper q n j hq hql (h1.nodes q n hq hn) hj with e2 | ⟨hinv2, _, _, _⟩
      · exact Or.inr ⟨hinv, g, h2.nodes _ g hgq hg, e2.trans e1⟩
      · rw [e1] at hinv2
        exact absurd hinv2 (lor_V_valid _)
  · intro q f hq hf2 hf0 j hj
    cases hf1 : descend k1.mem root q with
    | some f1 =>
      have hff : f1 = f := by
        have := h2.nodes q f1 hq hf1
        rw [hf2] at this
        exact (Option.some.inj this).symm
      subst hff
      by_cases hql : q.length ≤ 1
      · have c1 := h1.created q f1 hq hf1 hf0 j hj
        rcases h2.upper q f1 j hq hql hf1 hj with e2 | ⟨hinv2, g, hg, e2⟩
        · rcases c1 with z | ⟨_, g, hg, e1⟩
          · exact Or.inl (e2.trans z)
          · exact Or.inr ⟨hql, g, h2.nodes _ g (isPath_snoc hq hql hj) hg, e2.trans e1⟩
        · exact Or.inr ⟨hql, g, hg, e2⟩
      · left
        rcases hq.cases with rfl | ⟨a, ha, rfl⟩ | ⟨a, b, ha, hb, rfl⟩
        · simp at hql
        · simp at hql
        · have e := h2.entries a b j ha hb hj
          unfold entryAt at e
          rw [hf2, hf1] at e
          simp only at e
          rw [e]
          rcases h1.created _ f1 hq hf1 hf0 j hj with z | ⟨hl, _⟩
          · exact z
          · simp at hl
    | none => exact h2.created q f hq hf2 hf1 j hj

/-- Linking the first free frame into an invalid slot of a node is a `Grow` step that
keeps the state well-formed. -/
theorem link_grow {k : Kernel} {root n i f : Nat} {rest P : List Nat} (hwf : WF k root)
    (hP : IsPath P) (hPl : P.length ≤ 1) (hn : descend k.mem root P = some n) (hi : i < 512)
    (hinv : ¬ rd64 k.mem (n + 8 * i) &&& PTE_V ≠ 0) (hfl : k.freelist = f :: rest) :
    Grow k ⟨linked k.mem f (n + 8 * i), rest⟩ root ∧ WF ⟨linked k.mem f (n + 8 * i), rest⟩ root ∧
      descend (linked k.mem f (n + 8 * i)) root (P ++ [i]) = some f := by
  obtain ⟨ht, ha⟩ := hwf
  have hfm : f ∈ k.freelist := by rw [hfl]; simp
  obtain ⟨hf, hf0, hlt⟩ := ha.frame f hfm
  have hfresh := ha.fresh f hfm
  have hnew := link_descend_new ht hP hPl hn hi hf hlt hfresh
  have hnone : descend k.mem root (P ++ [i]) = none := by
    rw [descend_snoc i hn, descend_cons, if_neg hinv]
  refine ⟨⟨?_, ?_, ?_, ?_, ?_, ?_, ?_⟩,
    ⟨link_TableWF ht hP hPl hn hi hf hlt hf0 hfresh, ?_, ?_, ?_⟩, hnew⟩
  · intro q x hq hx
    exact link_nodes ht hP hPl hn hi hf hinv hfresh hq hx
  · intro a b j ha' hb hj
    exact link_entries ht hP hPl hn hi hf hlt hinv hfresh ha' hb hj
  · refine ⟨[f], by rw [hfl]; rfl, ?_⟩
    intro g hg
    simp at hg
    subst hg
    exact ⟨P ++ [i], isPath_snoc hP hPl hi, hnew, hnone⟩
  · intro q x hq hx
    rcases link_cases ht hP hPl hn hi hf hlt hfresh hq hx with ⟨_, rfl⟩ | ⟨_, h⟩
    · exact Or.inr hfm
    · exact Or.inl h
  · intro x hx hxf
    exact linked_byte hi (hx P n hP hn) (hxf f hfm)
  · intro q n2 j hq hql hn2 hj
    by_cases hsame : n2 = n ∧ j = i
    · right
      obtain ⟨rfl, rfl⟩ := hsame
      have hqP : q = P := ht.inj q P n2 hq hP hn2 hn
      subst hqP
      exact ⟨not_not.1 hinv, f, hnew, linked_slot hf hlt⟩
    · left
      exact link_entry_other ht hn hi hf hfresh hq hn2 hj (by tauto)
  · intro q x hq hx hx0 j hj
    rcases link_cases ht hP hPl hn hi hf hlt hfresh hq hx with ⟨_, rfl⟩ | ⟨_, h⟩
    · left
      exact linked_fresh (descend_aligned ht.root_aligned P n hn) hf
        (fun e => hfresh P hP (e ▸ hn)) hi hj
    · rw [hx0] at h; cases h
  · have := ha.nodup
    rw [hfl] at this
    exact (List.nodup_cons.1 this).2
  · intro g hg
    exact ha.frame g (by rw [hfl]; exact List.mem_cons_of_mem _ hg)
  · intro g hg p hp hx
    rcases link_cases ht hP hPl hn hi hf hlt hfresh hp hx with ⟨_, e⟩ | ⟨_, h⟩
    · have := ha.nodup
      rw [hfl] at this
      exact (List.nodup_cons.1 this).1 (e ▸ hg)
    · exact ha.fresh g (by rw [hfl]; exact List.mem_cons_of_mem _ hg) p hp h

end Xv6

namespace Xv6

/-! ## `walk` -/

theorem walkLoop_zero (alloc : Bool) (va : Nat) (k : Kernel) (n : Nat) :
    walkLoop alloc va 0 k n = (n + 8 * PX 0 va, k) := rfl

theorem walkLoop_valid {alloc : Bool} {va l : Nat} {k : Kernel} {n : Nat}
    (hv : rd64 k.mem (n + 8 * PX (l + 1) va) &&& PTE_V ≠ 0) :
    walkLoop alloc va (l + 1) k n =
      walkLoop alloc va l k (PTE2PA (rd64 k.mem (n + 8 * PX (l + 1) va))) := by
  rw [walkLoop]
  simp only [if_pos hv]

theorem walkLoop_lookup_invalid {va l : Nat} {k : Kernel} {n : Nat}
    (hv : ¬ rd64 k.mem (n + 8 * PX (l + 1) va) &&& PTE_V ≠ 0) :
    walkLoop false va (l + 1) k n = (0, k) := by
  rw [walkLoop]
  simp only [if_neg hv, if_true]

theorem walkLoop_exhausted {va l : Nat} {k : Kernel} {n : Nat}
    (hv : ¬ rd64 k.mem (n + 8 * PX (l + 1) va) &&& PTE_V ≠ 0) (hfl : k.freelist = []) :
    walkLoop true va (l + 1) k n = (0, k) := by
  rw [walkLoop]
  simp [if_neg hv, kalloc, hfl]

theorem walkLoop_create {va l : Nat} {k : Kernel} {n f : Nat} {rest : List Nat}
    (hv : ¬ rd64 k.mem (n + 8 * PX (l + 1) va) &&& PTE_V ≠ 0) (hfl : k.freelist = f :: rest)
    (hf : f ≠ 0) :
    walkLoop true va (l + 1) k n =
      walkLoop true va l ⟨linked k.mem f (n + 8 * PX (l + 1) va), rest⟩ f := by
  rw [walkLoop]
  simp [if_neg hv, kalloc, hfl, hf, linked]

/-- The lookup-only walk returns the slot when the path exists and 0 otherwise, and
never changes the state. -/
theorem walkLoop_false (va : Nat) (k : Kernel) :
    ∀ l n, walkLoop false va l k n =
      (match descend k.mem n (pxPath va l) with
        | some x => x + 8 * PX 0 va
        | none => 0, k) := by
  intro l
  induction l with
  | zero => intro n; rfl
  | succ l ih =>
    intro n
    show _ = (match descend k.mem n (PX (l + 1) va :: pxPath va l) with
        | some x => x + 8 * PX 0 va
        | none => 0, k)
    rw [descend_cons]
    by_cases hv : rd64 k.mem (n + 8 * PX (l + 1) va) &&& PTE_V ≠ 0
    · rw [walkLoop_valid hv, if_pos hv]; exact ih _
    · rw [walkLoop_lookup_invalid hv, if_neg hv]

/-- A walk along an existing path allocates nothing. -/
theorem walkLoop_found (alloc : Bool) (va : Nat) (k : Kernel) :
    ∀ l n x, descend k.mem n (pxPath va l) = some x →
      walkLoop alloc va l k n = (x + 8 * PX 0 va, k) := by
  intro l
  induction l with
  | zero =>
    intro n x h
    rw [show pxPath va 0 = [] from rfl, descend_nil] at h
    cases h; rfl
  | succ l ih =>
    intro n x h
    rw [show pxPath va (l + 1) = PX (l + 1) va :: pxPath va l from rfl, descend_cons] at h
    by_cases hv : rd64 k.mem (n + 8 * PX (l + 1) va) &&& PTE_V ≠ 0
    · rw [if_pos hv] at h
      rw [walkLoop_valid hv]; exact ih _ x h
    · rw [if_neg hv] at h; cases h

theorem slotOf_eq (m : Mem) (root va : Nat) :
    slotOf m root va = (descend m root (pxPath va 2)).map (fun n => n + 8 * PX 0 va) := rfl

/-- The creating walk from level `l` at the node of path `P`. -/
theorem walkLoop_true (va root : Nat) :
    ∀ l k n P, WF k root → IsPath P → P.length + l = 2 → descend k.mem root P = some n →
      P ++ pxPath va l = pxPath va 2 →
      Grow k (walkLoop true va l k n).2 root ∧ WF (walkLoop true va l k n).2 root ∧
      ((walkLoop true va l k n).1 ≠ 0 →
        slotOf (walkLoop true va l k n).2.mem root va = some (walkLoop true va l k n).1) ∧
      ((walkLoop true va l k n).1 = 0 → (walkLoop true va l k n).2.freelist = []) := by
  intro l
  induction l with
  | zero =>
    intro k n P hwf hP _ hn hpx
    rw [walkLoop_zero]
    refine ⟨Grow.grefl k root, hwf, ?_, ?_⟩
    · intro _
      rw [slotOf_eq, ← hpx, show pxPath va 0 = [] from rfl, List.append_nil, hn]
      rfl
    · intro h0
      have hn0 := hwf.1.nonnull P n hP hn
      exfalso
      simp only at h0
      omega
  | succ l ih =>
    intro k n P hwf hP hl hn hpx
    have hPl : P.length ≤ 1 := by omega
    have hi := PX_lt (l + 1) va
    have hpx' : (P ++ [PX (l + 1) va]) ++ pxPath va l = pxPath va 2 := by
      rw [List.append_assoc]; exact hpx
    have hP' := isPath_snoc hP hPl hi
    have hl' : (P ++ [PX (l + 1) va]).length + l = 2 := by simp; omega
    by_cases hv : rd64 k.mem (n + 8 * PX (l + 1) va) &&& PTE_V ≠ 0
    · rw [walkLoop_valid hv]
      refine ih k _ (P ++ [PX (l + 1) va]) hwf hP' hl' ?_ hpx'
      rw [descend_snoc _ hn, descend_cons, if_pos hv, descend_nil]
    · cases hfl : k.freelist with
      | nil =>
        rw [walkLoop_exhausted hv hfl]
        exact ⟨Grow.grefl k root, hwf, fun h => absurd rfl h, fun _ => hfl⟩
      | cons f rest =>
        have hf0 : f ≠ 0 := (hwf.2.frame f (by rw [hfl]; simp)).2.1
        rw [walkLoop_create hv hfl hf0]
        obtain ⟨hg, hwf1, hnew⟩ := link_grow hwf hP hPl hn hi hv hfl
        obtain ⟨g2, w2, s2, e2⟩ := ih ⟨linked k.mem f (n + 8 * PX (l + 1) va), rest⟩ f
          (P ++ [PX (l + 1) va]) hwf1 hP' hl' hnew hpx'
        exact ⟨hg.gtrans g2, w2, s2, e2⟩

end Xv6

namespace Xv6

theorem Grow.ext {k k2 : Kernel} {root : Nat} (h : Grow k k2 root) : Ext k k2 root :=
  ⟨h.nodes, h.pool, h.origin, h.bytes⟩

theorem Ext.erefl (k : Kernel) (root : Nat) : Ext k k root := (Grow.grefl k root).ext

theorem Ext.esub {k k2 : Kernel} {root : Nat} (h : Ext k k2 root) :
    ∀ f ∈ k2.freelist, f ∈ k.freelist := by
  obtain ⟨used, hu, _⟩ := h.pool
  intro f hf
  rw [hu]; exact List.mem_append_right _ hf

theorem Ext.etrans {k k1 k2 : Kernel} {root : Nat} (h1 : Ext k k1 root)
    (h2 : Ext k1 k2 root) : Ext k k2 root := by
  refine ⟨?_, ?_, ?_, ?_⟩
  · intro q x hq hx
    exact h2.nodes q x hq (h1.nodes q x hq hx)
  · obtain ⟨u1, e1, p1⟩ := h1.pool
    obtain ⟨u2, e2, p2⟩ := h2.pool
    refine ⟨u1 ++ u2, by rw [e1, e2, List.append_assoc], ?_⟩
    intro f hf
    rcases List.mem_append.1 hf with hf | hf
    · obtain ⟨q, hq, hq1, hq0⟩ := p1 f hf
      exact ⟨q, hq, h2.nodes q f hq hq1, hq0⟩
    · obtain ⟨q, hq, hq2, hq1⟩ := p2 f hf
      refine ⟨q, hq, hq2, ?_⟩
      cases h0 : descend k.mem root q with
      | none => rfl
      | some y => rw [h1.nodes q y hq h0] at hq1; cases hq1
  · intro q n hq hn
    rcases h2.origin q n hq hn with h | h
    · exact h1.origin q n hq h
    · exact Or.inr (h1.esub n h)
  · intro x hx hf
    rw [h2.bytes x, h1.bytes x hx hf]
    · intro q n hq hn
      rcases h1.origin q n hq hn with h | h
      · exact hx q n hq h
      · exact hf n h
    · intro f hf1
      exact hf f (h1.esub f hf1)

/-! ### The three outcomes of `walk` -/

theorem walk_fatal {k : Kernel} {root va : Nat} {alloc : Bool} (h : MAXVA ≤ va) :
    walk k root va alloc = .fatal "walk" := by
  unfold walk
  rw [if_pos h]

theorem walk_false {k : Kernel} {root va : Nat} (h : va < MAXVA) :
    walk k root va false =
      .ok (match slotOf k.mem root va with
        | some s => s
        | none => 0) k := by
  unfold walk
  rw [if_neg (by omega), walkLoop_false, slotOf_eq]
  cases descend k.mem root (pxPath va 2) <;> rfl

theorem walk_true {k : Kernel} {root va : Nat} (hwf : WF k root) (h : va < MAXVA) :
    ∃ p k2, walk k root va true = .ok p k2 ∧ Grow k k2 root ∧ WF k2 root ∧
      (p ≠ 0 → slotOf k2.mem root va = some p) ∧ (p = 0 → k2.freelist = []) := by
  unfold walk
  rw [if_neg (by omega)]
  exact ⟨_, _, rfl, walkLoop_true va root 2 k root [] hwf isPath_nil rfl rfl rfl⟩

theorem walk_found {k : Kernel} {root va s : Nat} {alloc : Bool} (h : va < MAXVA)
    (hs : slotOf k.mem root va = some s) : walk k root va alloc = .ok s k := by
  unfold walk
  rw [if_neg (by omega)]
  rw [slotOf_eq] at hs
  cases hd : descend k.mem root (pxPath va 2) with
  | none => rw [hd] at hs; cases hs
  | some x =>
    rw [hd] at hs
    rw [walkLoop_found alloc va k 2 root x hd]
    cases hs; rfl

/-! ### Stores into level-0 slots and into frames outside the table -/

/-- Two memories that agree on every node of a table show the same table. -/
theorem descend_of_agree {m m2 : Mem} {root : Nat} (_hr : root % PGSIZE = 0)
    (H : ∀ q n, IsPath q → q.length ≤ 1 → descend m root q = some n →
      ∀ x, n ≤ x → x < n + PGSIZE → m2 x = m x) :
    ∀ p, IsPath p → descend m2 root p = descend m root p := by
  apply descend_congr
  intro q n i hq hql hn hi
  apply rd64_congr
  intro t ht
  have := slot_in_page (n := n) hi
  exact H q n hq hql hn _ (by omega) (by omega)

theorem entryAt_of_agree {m m2 : Mem} {root : Nat} (hr : root % PGSIZE = 0)
    (H : ∀ q n, IsPath q → descend m root q = some n →
      ∀ x, n ≤ x → x < n + PGSIZE → m2 x = m x) (a b j : Nat) (ha : a < 512) (hb : b < 512)
    (hj : j < 512) : entryAt m2 root a b j = entryAt m root a b j := by
  unfold entryAt
  rw [descend_of_agree hr (fun q n hq _ hn => H q n hq hn) _ (isPath_two ha hb)]
  cases hd : descend m root [a, b] with
  | none => rfl
  | some n =>
    apply rd64_congr
    intro t ht
    have := slot_in_page (n := n) hj
    exact H _ n (isPath_two ha hb) hd _ (by omega) (by omega)

/-- A store into a level-0 slot changes no node of a well-formed table. -/
theorem leaf_store_descend {m : Mem} {root a b n j v : Nat} (hwf : TableWF m root)
    (ha : a < 512) (hb : b < 512) (hn : descend m root [a, b] = some n) (hj : j < 512) :
    ∀ p, IsPath p → descend (wr64 m (n + 8 * j) v) root p = descend m root p := by
  apply descend_congr
  intro q x i hq hql hx hi
  have hne : x ≠ n := hwf.node_ne hq (isPath_two ha hb) hx hn (by
    intro e; rw [e] at hql; simp at hql)
  exact rd64_wr64_other _ _ _ _ (slot_disjoint (descend_aligned hwf.root_aligned q x hx)
    (descend_aligned hwf.root_aligned _ n hn) hi hj (Or.inl hne))

/-- A store into a level-0 slot changes that entry and no other. -/
theorem leaf_store_entryAt {m : Mem} {root a b n j v : Nat} (hwf : TableWF m root)
    (ha : a < 512) (hb : b < 512) (hn : descend m root [a, b] = some n) (hj : j < 512)
    {a2 b2 j2 : Nat} (ha2 : a2 < 512) (hb2 : b2 < 512) (hj2 : j2 < 512) :
    entryAt (wr64 m (n + 8 * j) v) root a2 b2 j2 =
      if a2 = a ∧ b2 = b ∧ j2 = j then v % 2 ^ 64 else entryAt m root a2 b2 j2 := by
  unfold entryAt
  rw [leaf_store_descend hwf ha hb hn hj _ (isPath_two ha2 hb2)]
  by_cases hab : a2 = a ∧ b2 = b
  · obtain ⟨rfl, rfl⟩ := hab
    rw [hn]
    by_cases hjj : j2 = j
    · subst hjj
      simp only [and_self, if_true]
      exact rd64_wr64_same _ _ _
    · rw [if_neg (by tauto)]
      exact rd64_wr64_other _ _ _ _ (slot_disjoint (descend_aligned hwf.root_aligned _ n hn)
        (descend_aligned hwf.root_aligned _ n hn) hj2 hj (Or.inr hjj))
  · rw [if_neg (by tauto)]
    cases hd : descend m root [a2, b2] with
    | none => rfl
    | some x =>
      have hne : x ≠ n := hwf.node_ne (isPath_two ha2 hb2) (isPath_two ha hb) hd hn (by
        intro e; simp at e; exact hab e)
      exact rd64_wr64_other _ _ _ _ (slot_disjoint (descend_aligned hwf.root_aligned _ x hd)
        (descend_aligned hwf.root_aligned _ n hn) hj2 hj (Or.inl hne))

/-- A table looks the same in every memory that shows the same nodes. -/
theorem TableWF.table_of_descend {m m2 : Mem} {root : Nat} (hwf : TableWF m root)
    (H : ∀ p, IsPath p → descend m2 root p = descend m root p) : TableWF m2 root := by
  refine ⟨hwf.root_aligned, ?_, ?_⟩
  · intro p n hp hn
    rw [H p hp] at hn
    exact hwf.nonnull p n hp hn
  · intro p q n hp hq h1 h2
    rw [H p hp] at h1
    rw [H q hq] at h2
    exact hwf.inj p q n hp hq h1 h2

theorem WF.wf_of_descend {k : Kernel} {m2 : Mem} {root : Nat} (hwf : WF k root)
    (H : ∀ p, IsPath p → descend m2 root p = descend k.mem root p) :
    WF ⟨m2, k.freelist⟩ root := by
  refine ⟨hwf.1.table_of_descend H, hwf.2.nodup, hwf.2.frame, ?_⟩
  intro f hf p hp
  show descend m2 root p ≠ some f
  rw [H p hp]
  exact hwf.2.fresh f hf p hp

theorem Ext.ext_of_descend {k : Kernel} {m2 : Mem} {root : Nat}
    (H : ∀ p, IsPath p → descend m2 root p = descend k.mem root p)
    (hb : ∀ x, (∀ q n, IsPath q → descend k.mem root q = some n → x < n ∨ n + PGSIZE ≤ x) →
      (∀ f ∈ k.freelist, x < f ∨ f + PGSIZE ≤ x) → m2 x = k.mem x) :
    Ext k ⟨m2, k.freelist⟩ root := by
  refine ⟨?_, ⟨[], rfl, fun _ h => by cases h⟩, ?_, hb⟩
  · intro q x hq hx
    show descend m2 root q = some x
    rw [H q hq]; exact hx
  · intro q n hq hn
    left
    rw [← H q hq]; exact hn

end Xv6

namespace Xv6

/-! ## Virtual addresses and slots -/

theorem PX0_eq (va : Nat) : PX 0 va = va / 4096 % 512 := by rw [PX_eq]; norm_num

theorem PX1_eq (va : Nat) : PX 1 va = va / 2097152 % 512 := by rw [PX_eq]; norm_num

theorem PX2_eq (va : Nat) : PX 2 va = va / 1073741824 % 512 := by rw [PX_eq]; norm_num

/-- Below `2^39` the three indices determine the page. -/
theorem PX_inj (va vb : Nat) (ha : va < 2 ^ 39) (hb : vb < 2 ^ 39) :
    (PX 2 va = PX 2 vb ∧ PX 1 va = PX 1 vb ∧ PX 0 va = PX 0 vb) ↔ va / PGSIZE = vb / PGSIZE := by
  rw [PX0_eq, PX1_eq, PX2_eq, PX0_eq, PX1_eq, PX2_eq]
  unfold PGSIZE
  omega

theorem PX_same_page {va vb : Nat} (l : Nat) (h : va / PGSIZE = vb / PGSIZE) :
    PX l va = PX l vb := by
  rw [PX_eq, PX_eq]
  have e : (2:Nat) ^ (12 + 9 * l) = PGSIZE * 2 ^ (9 * l) := by
    rw [Nat.pow_add]; rfl
  rw [e, ← Nat.div_div_eq_div_mul, ← Nat.div_div_eq_div_mul, h]

theorem slotOf_same_page {m : Mem} {root va vb : Nat} (h : va / PGSIZE = vb / PGSIZE) :
    slotOf m root va = slotOf m root vb := by
  unfold slotOf
  rw [PX_same_page 2 h, PX_same_page 1 h, PX_same_page 0 h]

theorem leafOf_same_page (m : Mem) (root va vb : Nat) (h : va / PGSIZE = vb / PGSIZE) :
    leafOf m root va = leafOf m root vb := by
  unfold leafOf
  rw [PX_same_page 2 h, PX_same_page 1 h, PX_same_page 0 h]

theorem slotOf_some {m : Mem} {root va s : Nat} (h : slotOf m root va = some s) :
    ∃ n, descend m root [PX 2 va, PX 1 va] = some n ∧ s = n + 8 * PX 0 va := by
  unfold slotOf at h
  cases hd : descend m root [PX 2 va, PX 1 va] with
  | none => rw [hd] at h; cases h
  | some n => rw [hd] at h; exact ⟨n, rfl, (Option.some.inj h).symm⟩

theorem leafOf_of_slot {m : Mem} {root va s : Nat} (h : slotOf m root va = some s) :
    leafOf m root va = rd64 m s := by
  obtain ⟨n, hn, rfl⟩ := slotOf_some h
  unfold leafOf entryAt
  rw [hn]

theorem leafOf_of_none {m : Mem} {root va : Nat} (h : slotOf m root va = none) :
    leafOf m root va = 0 := by
  unfold slotOf at h
  unfold leafOf entryAt
  cases hd : descend m root [PX 2 va, PX 1 va] with
  | none => rfl
  | some n => rw [hd] at h; cases h

theorem slotOf_congr {m m2 : Mem} {root : Nat}
    (H : ∀ p, IsPath p → descend m2 root p = descend m root p) (va : Nat) :
    slotOf m2 root va = slotOf m root va := by
  unfold slotOf
  rw [H _ (isPath_va va)]

theorem slot_ne_zero {m : Mem} {root va s : Nat} (hwf : TableWF m root)
    (h : slotOf m root va = some s) : s ≠ 0 := by
  obtain ⟨n, hn, rfl⟩ := slotOf_some h
  have := hwf.nonnull _ n (isPath_va va) hn
  omega

theorem Ext.slot {k k2 : Kernel} {root va s : Nat} (h : Ext k k2 root)
    (hs : slotOf k.mem root va = some s) : slotOf k2.mem root va = some s := by
  obtain ⟨n, hn, rfl⟩ := slotOf_some hs
  unfold slotOf
  rw [h.nodes _ n (isPath_va va) hn]
  rfl

theorem Grow.leaf {k k2 : Kernel} {root : Nat} (h : Grow k k2 root) (va : Nat) :
    leafOf k2.mem root va = leafOf k.mem root va :=
  h.entries _ _ _ (PX_lt 2 va) (PX_lt 1 va) (PX_lt 0 va)

/-- A store into the level-0 slot of `va`: the state stays well-formed, the nodes stay,
the entry of the page of `va` becomes the stored value and no other entry changes. -/
theorem store_leaf {k : Kernel} {root va p : Nat} (v : Nat) (hwf : WF k root)
    (hva : va < MAXVA) (hs : slotOf k.mem root va = some p) :
    WF ⟨wr64 k.mem p v, k.freelist⟩ root ∧ Ext k ⟨wr64 k.mem p v, k.freelist⟩ root ∧
    (∀ q, IsPath q → descend (wr64 k.mem p v) root q = descend k.mem root q) ∧
    ∀ vb, vb < MAXVA → leafOf (wr64 k.mem p v) root vb =
      if vb / PGSIZE = va / PGSIZE then v % 2 ^ 64 else leafOf k.mem root vb := by
  obtain ⟨n, hn, rfl⟩ := slotOf_some hs
  have hd := leaf_store_descend (v := v) hwf.1 (PX_lt 2 va) (PX_lt 1 va) hn (PX_lt 0 va)
  refine ⟨hwf.wf_of_descend hd, Ext.ext_of_descend hd ?_, hd, ?_⟩
  · intro x hx _
    have h1 := hx _ n (isPath_va va) hn
    have h2 := slot_in_page (n := n) (PX_lt 0 va)
    exact wr64_out _ _ _ _ (by omega)
  · intro vb hvb
    unfold leafOf
    rw [leaf_store_entryAt hwf.1 (PX_lt 2 va) (PX_lt 1 va) hn (PX_lt 0 va) (PX_lt 2 vb)
      (PX_lt 1 vb) (PX_lt 0 vb)]
    have hinj := PX_inj vb va (by unfold MAXVA at hvb; omega)
      (by unfold MAXVA at hva; omega)
    by_cases hp : vb / PGSIZE = va / PGSIZE
    · rw [if_pos hp, if_pos (hinj.2 hp)]
    · rw [if_neg hp, if_neg (fun h => hp (hinj.1 h))]

end Xv6

namespace Xv6

/-! ## `mappages` -/

/-- What the `mappages` loop has done when it returns: the pages from `a` up to `b`
hold their new leaf, every other page is as before, and it returns 0 exactly when `b`
is past `last`. -/
theorem mappagesLoop_spec (root last perm : Nat) (hlast : last < MAXVA)
    (hla : last % PGSIZE = 0) :
    ∀ fuel k a pa rc k2, WF k root → a % PGSIZE = 0 → a ≤ last → pa < 2 ^ 64 →
      mappagesLoop fuel k root a last pa perm = .ok rc k2 →
      WF k2 root ∧ Ext k k2 root ∧
      ∃ b, b % PGSIZE = 0 ∧ a ≤ b ∧ b ≤ last + PGSIZE ∧
        ((rc = 0 ∧ b = last + PGSIZE) ∨ (rc = -1 ∧ b ≤ last ∧ k2.freelist = [])) ∧
        (∀ vb, vb < MAXVA → (vb < a ∨ b ≤ vb) → leafOf k2.mem root vb = leafOf k.mem root vb) ∧
        (∀ vb, a ≤ vb → vb < b →
          leafOf k2.mem root vb =
            (PA2PTE ((pa + (vb / PGSIZE * PGSIZE - a)) % 2 ^ 64) ||| perm ||| PTE_V) % 2 ^ 64 ∧
          ∃ s, slotOf k2.mem root vb = some s) := by
  intro fuel
  induction fuel with
  | zero =>
    intro k a pa rc k2 _ _ _ _ h
    rw [mappagesLoop] at h
    cases h
  | succ fuel ih =>
    intro k a pa rc k2 hwf haa hal hpa h
    have hamax : a < MAXVA := by omega
    obtain ⟨p, k1, hw, hg, hwf1, hslot, hfree⟩ := walk_true hwf hamax
    rw [mappagesLoop, hw] at h
    simp only at h
    by_cases hp : p = 0
    · rw [if_pos hp] at h
      cases h
      refine ⟨hwf1, hg.ext, a, haa, le_refl a, by omega, Or.inr ⟨rfl, hal, hfree hp⟩, ?_, ?_⟩
      · intro vb _ _
        exact hg.leaf vb
      · intro vb h1 h2
        omega
    · rw [if_neg hp] at h
      have hs := hslot hp
      by_cases hv : rd64 k1.mem p &&& PTE_V ≠ 0
      · rw [if_pos hv] at h
        cases h
      · rw [if_neg hv] at h
        obtain ⟨hwf2, hext2, hd2, hleaf2⟩ :=
          store_leaf (PA2PTE pa ||| perm ||| PTE_V) hwf1 hamax hs
        have hslot2 : slotOf (wr64 k1.mem p (PA2PTE pa ||| perm ||| PTE_V)) root a = some p := by
          rw [slotOf_congr hd2]; exact hs
        have ext02 : Ext k ⟨wr64 k1.mem p (PA2PTE pa ||| perm ||| PTE_V), k1.freelist⟩ root :=
          hg.ext.etrans hext2
        by_cases hlast' : a = last
        · rw [if_pos hlast'] at h
          cases h
          refine ⟨hwf2, ext02, last + PGSIZE, ?_, by omega, le_refl _, Or.inl ⟨rfl, rfl⟩, ?_, ?_⟩
          · unfold PGSIZE at *; omega
          · intro vb hvb hout
            rw [hleaf2 vb hvb, if_neg, hg.leaf vb]
            unfold PGSIZE at *; omega
          · intro vb h1 h2
            have hpage : vb / PGSIZE = a / PGSIZE := by unfold PGSIZE at *; omega
            have hvb : vb < MAXVA := by unfold PGSIZE MAXVA at *; omega
            constructor
            · rw [hleaf2 vb hvb, if_pos hpage]
              have e : vb / PGSIZE * PGSIZE - a = 0 := by unfold PGSIZE at *; omega
              rw [e, Nat.add_zero, Nat.mod_eq_of_lt hpa]
            · exact ⟨p, by rw [slotOf_same_page hpage]; exact hslot2⟩
        · rw [if_neg hlast'] at h
          have hstep : (a + PGSIZE) % 2 ^ 64 = a + PGSIZE := by
            apply Nat.mod_eq_of_lt
            unfold PGSIZE MAXVA at *; omega
          rw [hstep] at h
          have hal' : a + PGSIZE ≤ last := by unfold PGSIZE at *; omega
          obtain ⟨hwf3, hext3, b, hba, hab, hbl, hrc, hout, hin⟩ :=
            ih _ (a + PGSIZE) ((pa + PGSIZE) % 2 ^ 64) rc k2 hwf2
              (by unfold PGSIZE at *; omega) hal' (Nat.mod_lt _ (by norm_num)) h
          refine ⟨hwf3, ext02.etrans hext3, b, hba, by omega, hbl, hrc, ?_, ?_⟩
          · intro vb hvb ho
            rw [hout vb hvb (by omega)]
            show leafOf (wr64 k1.mem p (PA2PTE pa ||| perm ||| PTE_V)) root vb = _
            rw [hleaf2 vb hvb, if_neg, hg.leaf vb]
            unfold PGSIZE at *; omega
          · intro vb h1 h2
            by_cases hfirst : vb < a + PGSIZE
            · have hpage : vb / PGSIZE = a / PGSIZE := by unfold PGSIZE at *; omega
              have hvb : vb < MAXVA := by unfold PGSIZE MAXVA at *; omega
              constructor
              · rw [hout vb hvb (Or.inl hfirst)]
                show leafOf (wr64 k1.mem p (PA2PTE pa ||| perm ||| PTE_V)) root vb = _
                rw [hleaf2 vb hvb, if_pos hpage]
                have e : vb / PGSIZE * PGSIZE - a = 0 := by unfold PGSIZE at *; omega
                rw [e, Nat.add_zero, Nat.mod_eq_of_lt hpa]
              · refine ⟨p, hext3.slot ?_⟩
                show slotOf (wr64 k1.mem p (PA2PTE pa ||| perm ||| PTE_V)) root vb = some p
                rw [slotOf_same_page hpage]; exact hslot2
            · obtain ⟨hl, hsl⟩ := hin vb (by omega) h2
              refine ⟨?_, hsl⟩
              rw [hl]
              have e : ((pa + PGSIZE) % 2 ^ 64 + (vb / PGSIZE * PGSIZE - (a + PGSIZE))) % 2 ^ 64
                  = (pa + (vb / PGSIZE * PGSIZE - a)) % 2 ^ 64 := by
                unfold PGSIZE at *; omega
              rw [e]

end Xv6

namespace Xv6

theorem Res.eq_ok_of_val {α : Type} {r : Res α} {v : α} (d : Kernel) (h : r.val? = some v) :
    r = .ok v (r.state d) := by
  cases r with
  | ok w k => simp [Res.val?] at h; subst h; rfl
  | fatal s => simp [Res.val?] at h
  | timeout => simp [Res.val?] at h

theorem rd64_zero (a : Nat) : rd64 (fun _ => 0) a = 0 := by
  simp [rd64, rd8]

theorem descend_empty {m : Mem} {root : Nat}
    (h : ∀ i, i < 512 → rd64 m (root + 8 * i) &&& PTE_V = 0) :
    ∀ p n, IsPath p → descend m root p = some n → p = [] ∧ n = root := by
  intro p n hp hn
  rcases hp.cases with rfl | ⟨a, ha, rfl⟩ | ⟨a, b, ha, hb, rfl⟩
  · rw [descend_nil] at hn; cases hn; exact ⟨rfl, rfl⟩
  · rw [descend_cons, if_neg (by rw [h a ha]; simp)] at hn; cases hn
  · rw [descend_cons, if_neg (by rw [h a ha]; simp)] at hn; cases hn

/-- A zeroed root page with a sane allocator is a well-formed (empty) table. -/
theorem WF_empty {k : Kernel} {root : Nat}
    (h : ∀ i, i < 512 → rd64 k.mem (root + 8 * i) &&& PTE_V = 0) (hr : root % PGSIZE = 0)
    (hr0 : root ≠ 0) (hnd : k.freelist.Nodup)
    (hfr : ∀ f ∈ k.freelist, f % PGSIZE = 0 ∧ f ≠ 0 ∧ f < 2 ^ 64 ∧ f ≠ root) : WF k root := by
  have he := descend_empty h
  refine ⟨⟨hr, ?_, ?_⟩, hnd, fun f hf => ⟨(hfr f hf).1, (hfr f hf).2.1, (hfr f hf).2.2.1⟩, ?_⟩
  · intro p n hp hn
    rw [(he p n hp hn).2]; exact hr0
  · intro p q n hp hq h1 h2
    rw [(he p n hp h1).1, (he q n hq h2).1]
  · intro f hf p hp hn
    exact (hfr f hf).2.2.2 (he p f hp hn).2

theorem WF_zeroKernel {free : List Nat} {root : Nat} (hr : root % PGSIZE = 0)
    (hr0 : root ≠ 0) (hnd : free.Nodup)
    (hfr : ∀ f ∈ free, f % PGSIZE = 0 ∧ f ≠ 0 ∧ f < 2 ^ 64 ∧ f ≠ root) :
    WF (zeroKernel free) root :=
  WF_empty (fun i _ => by show rd64 (fun _ => 0) _ &&& PTE_V = 0; rw [rd64_zero]; rfl)
    hr hr0 hnd hfr

theorem mappages_eq {k : Kernel} {root va size pa perm : Nat} (hs : 1 ≤ size)
    (hr : va + size - 1 < 2 ^ 64) :
    mappages k root va size pa perm =
      mappagesLoop loopFuel k root (PGROUNDDOWN va) (PGROUNDDOWN (va + size - 1)) pa perm := by
  unfold mappages
  have e : (va + size + (2 ^ 64 - 1)) % 2 ^ 64 = va + size - 1 := by omega
  rw [e]

theorem lor_lt_u64 {a b : Nat} (ha : a < 2 ^ 64) (hb : b < 2 ^ 64) : a ||| b < 2 ^ 64 :=
  Nat.or_lt_two_pow ha hb

theorem leaf_value_lt {pa perm : Nat} (hperm : perm < 2 ^ 64) :
    PA2PTE pa ||| perm ||| PTE_V < 2 ^ 64 := by
  apply lor_lt_u64 (lor_lt_u64 _ hperm)
  · unfold PTE_V; norm_num
  · rw [PA2PTE_eq]; exact Nat.mod_lt _ (by norm_num)

/-- C1 (install postcondition).  In a well-formed state, when
`mappages(pagetable, va, size, pa, perm)` with `size >= 1` and `va + size - 1 < MAXVA`
returns 0, then for every `j` with
`PGROUNDDOWN(va) + j*PGSIZE <= PGROUNDDOWN(va + size - 1)` the lookup
`walk(pagetable, PGROUNDDOWN(va) + j*PGSIZE, 0)` finds a slot, and that slot holds exactly
`PA2PTE(pa + j*PGSIZE) | perm | PTE_V` (64-bit arithmetic).  The pages need not be
assumed unmapped: a mapped page makes the call halt instead of returning 0. -/
theorem mappages_install (k k2 : Kernel) (pagetable va size pa perm : Nat)
    (hwf : WF k pagetable) (_hpa : pa % PGSIZE = 0) (hpa64 : pa < 2 ^ 64)
    (hperm : perm < 2 ^ 64) (hsize : 1 ≤ size) (hrange : va + size - 1 < MAXVA)
    (h : mappages k pagetable va size pa perm = .ok 0 k2) (j : Nat)
    (hj : PGROUNDDOWN va + j * PGSIZE ≤ PGROUNDDOWN (va + size - 1)) :
    ∃ s, walk k2 pagetable (PGROUNDDOWN va + j * PGSIZE) false = .ok s k2 ∧ s ≠ 0 ∧
      rd64 k2.mem s = PA2PTE ((pa + j * PGSIZE) % 2 ^ 64) ||| perm ||| PTE_V := by
  rw [mappages_eq hsize (by unfold MAXVA at hrange; omega)] at h
  have hlast : PGROUNDDOWN (va + size - 1) < MAXVA := by
    unfold PGROUNDDOWN PGSIZE MAXVA at *; omega
  obtain ⟨hwf2, _, b, _, _, _, hrc, _, hin⟩ :=
    mappagesLoop_spec pagetable _ perm hlast (by unfold PGROUNDDOWN PGSIZE; omega) loopFuel k
      (PGROUNDDOWN va) pa 0 k2 hwf (by unfold PGROUNDDOWN PGSIZE; omega)
      (by unfold PGROUNDDOWN PGSIZE; omega) hpa64 h
  have hb : b = PGROUNDDOWN (va + size - 1) + PGSIZE := by
    rcases hrc with ⟨_, hb⟩ | ⟨h1, _⟩
    · exact hb
    · cases h1
  obtain ⟨hleaf, s, hs⟩ := hin (PGROUNDDOWN va + j * PGSIZE) (by omega)
    (by rw [hb]; simp only [PGSIZE] at *; omega)
  refine ⟨s, ?_, slot_ne_zero hwf2.1 hs, ?_⟩
  · rw [walk_false (by omega), hs]
  · rw [← leafOf_of_slot hs, hleaf, Nat.mod_eq_of_lt (leaf_value_lt hperm)]
    have e : (PGROUNDDOWN va + j * PGSIZE) / PGSIZE * PGSIZE - PGROUNDDOWN va = j * PGSIZE := by
      unfold PGROUNDDOWN PGSIZE; omega
    rw [e]

/-- Witness of C1: two pages installed into an empty table. -/
theorem mappages_install_witness :
    WF (zeroKernel [0x2000, 0x3000, 0x4000]) 0x1000 ∧
    ∃ s, walk ((mappages (zeroKernel [0x2000, 0x3000, 0x4000]) 0x1000 0 8192 0x9000 6).state
        (zeroKernel [])) 0x1000 (PGROUNDDOWN 0 + 1 * PGSIZE) false =
        .ok s ((mappages (zeroKernel [0x2000, 0x3000, 0x4000]) 0x1000 0 8192 0x9000 6).state
          (zeroKernel [])) ∧ s ≠ 0 ∧
      rd64 ((mappages (zeroKernel [0x2000, 0x3000, 0x4000]) 0x1000 0 8192 0x9000 6).state
        (zeroKernel [])).mem s = PA2PTE ((0x9000 + 1 * PGSIZE) % 2 ^ 64) ||| 6 ||| PTE_V :=
  have hwf : WF (zeroKernel [0x2000, 0x3000, 0x4000]) 0x1000 :=
    WF_zeroKernel (by decide) (by decide) (by decide) (by decide)
  ⟨hwf, mappages_install (zeroKernel [0x2000, 0x3000, 0x4000]) _ 0x1000 0 8192 0x9000 6 hwf
    (by decide) (by decide) (by decide) (by decide) (by decide)
    (Res.eq_ok_of_val (zeroKernel []) (by decide)) 1 (by decide)⟩

end Xv6

namespace Xv6

/-! ## Remapping -/

theorem leaf_value_valid (x : Nat) : ((x ||| PTE_V) % 2 ^ 64) &&& PTE_V ≠ 0 := by
  rw [and_PTE_V]
  have h : (x ||| PTE_V) % 2 = 1 := (lor_mod_two x PTE_V).2 (Or.inr rfl)
  omega

theorem leafOf_valid_slot {m : Mem} {root va : Nat} (h : leafOf m root va &&& PTE_V ≠ 0) :
    ∃ s, slotOf m root va = some s := by
  cases hs : slotOf m root va with
  | some s => exact ⟨s, rfl⟩
  | none => rw [leafOf_of_none hs] at h; exact absurd rfl h

/-- A `mappages` loop that has a mapped page `p` ahead of it never gets past it: it
halts with "remap", or returns -1 before reaching `p`. -/
theorem mappagesLoop_remap (root last perm p : Nat) (hp : p % PGSIZE = 0) (hpm : p < MAXVA)
    (hpl : p ≤ last) :
    ∀ fuel k a pa, WF k root → a % PGSIZE = 0 → a ≤ p → (p - a) / PGSIZE < fuel →
      leafOf k.mem root p &&& PTE_V ≠ 0 →
      mappagesLoop fuel k root a last pa perm = .fatal "remap" ∨
        ∃ k2, mappagesLoop fuel k root a last pa perm = .ok (-1) k2 := by
  intro fuel
  induction fuel with
  | zero => intro k a pa _ _ _ hf _; exact absurd hf (Nat.not_lt_zero _)
  | succ fuel ih =>
    intro k a pa hwf haa hap hf hv
    have hamax : a < MAXVA := by omega
    obtain ⟨s, k1, hw, hg, hwf1, hslot, _⟩ := walk_true hwf hamax
    rw [mappagesLoop, hw]
    simp only
    by_cases hs0 : s = 0
    · rw [if_pos hs0]
      exact Or.inr ⟨k1, rfl⟩
    · rw [if_neg hs0]
      have hs := hslot hs0
      by_cases hval : rd64 k1.mem s &&& PTE_V ≠ 0
      · rw [if_pos hval]
        exact Or.inl rfl
      · rw [if_neg hval]
        have hne : a ≠ p := by
          intro e
          apply hval
          rw [← leafOf_of_slot hs, e, hg.leaf p]
          exact hv
        have hne2 : a ≠ last := by omega
        rw [if_neg hne2]
        obtain ⟨hwf2, _, _, hleaf2⟩ := store_leaf (PA2PTE pa ||| perm ||| PTE_V) hwf1 hamax hs
        have hstep : (a + PGSIZE) % 2 ^ 64 = a + PGSIZE := by
          apply Nat.mod_eq_of_lt
          unfold PGSIZE MAXVA at *; omega
        rw [hstep]
        refine ih _ (a + PGSIZE) _ hwf2 (by unfold PGSIZE at *; omega)
          (by unfold PGSIZE at *; omega) (by unfold PGSIZE at *; omega) ?_
        show leafOf (wr64 k1.mem s (PA2PTE pa ||| perm ||| PTE_V)) root p &&& PTE_V ≠ 0
        rw [hleaf2 p hpm, if_neg (by unfold PGSIZE at *; omega), hg.leaf p]
        exact hv

/-- A `mappages` loop that starts on a mapped page halts with "remap". -/
theorem mappagesLoop_remap_first {fuel : Nat} {k : Kernel} {root a last pa perm : Nat}
    (hwf : WF k root) (ha : a < MAXVA) (hv : leafOf k.mem root a &&& PTE_V ≠ 0) :
    mappagesLoop (fuel + 1) k root a last pa perm = .fatal "remap" := by
  obtain ⟨s, hs⟩ := leafOf_valid_slot hv
  rw [mappagesLoop, walk_found ha hs]
  simp only
  rw [if_neg (slot_ne_zero hwf.1 hs), if_pos (by rw [← leafOf_of_slot hs]; exact hv)]

/-- The state after a successful `mappages`: well-formed, with every page of the range
valid. -/
theorem mappages_ok_valid {k k1 : Kernel} {root va size pa perm : Nat} (hwf : WF k root)
    (hsize : 1 ≤ size) (hrange : va + size - 1 < MAXVA) (hpa : pa < 2 ^ 64)
    (h : mappages k root va size pa perm = .ok 0 k1) :
    WF k1 root ∧ ∀ p, PGROUNDDOWN va ≤ p → p ≤ va + size - 1 →
      leafOf k1.mem root p &&& PTE_V ≠ 0 := by
  rw [mappages_eq hsize (by unfold MAXVA at hrange; omega)] at h
  have hlast : PGROUNDDOWN (va + size - 1) < MAXVA := by
    unfold PGROUNDDOWN PGSIZE MAXVA at *; omega
  obtain ⟨hwf2, _, b, _, _, _, hrc, _, hin⟩ :=
    mappagesLoop_spec root _ perm hlast (by unfold PGROUNDDOWN PGSIZE; omega) loopFuel k
      (PGROUNDDOWN va) pa 0 k1 hwf (by unfold PGROUNDDOWN PGSIZE; omega)
      (by unfold PGROUNDDOWN PGSIZE; omega) hpa h
  have hb : b = PGROUNDDOWN (va + size - 1) + PGSIZE := by
    rcases hrc with ⟨_, hb⟩ | ⟨h1, _⟩
    · exact hb
    · cases h1
  refine ⟨hwf2, ?_⟩
  intro p h1 h2
  rw [(hin p h1 (by rw [hb]; unfold PGROUNDDOWN PGSIZE; omega)).1]
  exact leaf_value_valid _

/-- C2, refuted as stated: after a successful `mappages` of the page at `0x200000`
that used up the allocator, a second `mappages` of the pages `0 .. 0x200000`, which
shares that page, is not fatal: `walk` cannot allocate the level-0 node of page 0 and
the call returns -1. -/
theorem remap_not_always_fatal :
    (mappages (zeroKernel [0x2000, 0x3000]) 0x1000 0x200000 4096 0x9000 6).val? = some 0 ∧
    (mappages ((mappages (zeroKernel [0x2000, 0x3000]) 0x1000 0x200000 4096 0x9000 6).state
      (zeroKernel [])) 0x1000 0 0x201000 0xA000 6).val? = some (-1) ∧
    (mappages ((mappages (zeroKernel [0x2000, 0x3000]) 0x1000 0x200000 4096 0x9000 6).state
      (zeroKernel [])) 0x1000 0 0x201000 0xA000 6).fatal? = none := by
  decide

/-- C2, amended (remap is never silent).  After one `mappages` call has succeeded on a
range, a second `mappages` call on a range that shares a page with the first never
returns 0, whatever `pa` and `perm` are passed: it halts with "remap", or it returns -1
because `walk` could not allocate a node for a page before the first shared one.  When
the first page of the second range is shared, it halts with "remap". -/
theorem remap_never_silent (k k1 : Kernel) (pagetable va1 size1 pa1 perm1 : Nat)
    (va2 size2 pa2 perm2 p : Nat) (hwf : WF k pagetable) (hs1 : 1 ≤ size1)
    (hr1 : va1 + size1 - 1 < MAXVA) (hpa1 : pa1 < 2 ^ 64)
    (hfirst : mappages k pagetable va1 size1 pa1 perm1 = .ok 0 k1)
    (hs2 : 1 ≤ size2) (hr2 : va2 + size2 - 1 < 2 ^ 64)
    (hp1 : PGROUNDDOWN va1 ≤ p ∧ p ≤ va1 + size1 - 1)
    (hp2 : PGROUNDDOWN va2 ≤ p ∧ p ≤ va2 + size2 - 1) :
    (mappages k1 pagetable va2 size2 pa2 perm2 = .fatal "remap" ∨
      ∃ k2, mappages k1 pagetable va2 size2 pa2 perm2 = .ok (-1) k2) ∧
    (PGROUNDDOWN va1 ≤ PGROUNDDOWN va2 →
      mappages k1 pagetable va2 size2 pa2 perm2 = .fatal "remap") := by
  obtain ⟨hwf1, hvalid⟩ := mappages_ok_valid hwf hs1 hr1 hpa1 hfirst
  rw [mappages_eq hs2 hr2]
  constructor
  · refine mappagesLoop_remap pagetable _ perm2 (PGROUNDDOWN p)
      (by unfold PGROUNDDOWN PGSIZE; omega) (by unfold PGROUNDDOWN PGSIZE MAXVA at *; omega)
      (by unfold PGROUNDDOWN PGSIZE at *; omega) loopFuel k1 (PGROUNDDOWN va2) pa2 hwf1
      (by unfold PGROUNDDOWN PGSIZE; omega) (by unfold PGROUNDDOWN PGSIZE at *; omega) ?_ ?_
    · unfold loopFuel PGROUNDDOWN PGSIZE MAXVA at *
      omega
    · exact hvalid _ (by unfold PGROUNDDOWN PGSIZE at *; omega)
        (by unfold PGROUNDDOWN PGSIZE at *; omega)
  · intro hle
    exact mappagesLoop_remap_first hwf1 (by unfold PGROUNDDOWN PGSIZE MAXVA at *; omega)
      (hvalid _ hle (by unfold PGROUNDDOWN PGSIZE at *; omega))

/-- Witness of C2 (amended): mapping the same page twice halts with "remap". -/
theorem remap_never_silent_witness :
    (mappages ((mappages (zeroKernel [0x2000, 0x3000]) 0x1000 0 4096 0x9000 6).state
        (zeroKernel [])) 0x1000 0 4096 0xA000 2 = .fatal "remap" ∨
      ∃ k2, mappages ((mappages (zeroKernel [0x2000, 0x3000]) 0x1000 0 4096 0x9000 6).state
        (zeroKernel [])) 0x1000 0 4096 0xA000 2 = .ok (-1) k2) ∧
    (PGROUNDDOWN 0 ≤ PGROUNDDOWN 0 →
      mappages ((mappages (zeroKernel [0x2000, 0x3000]) 0x1000 0 4096 0x9000 6).state
        (zeroKernel [])) 0x1000 0 4096 0xA000 2 = .fatal "remap") :=
  remap_never_silent (zeroKernel [0x2000, 0x3000]) _ 0x1000 0 4096 0x9000 6 0 4096 0xA000 2 0
    (WF_zeroKernel (by decide) (by decide) (by decide) (by decide))
    (by decide) (by decide) (by decide) (Res.eq_ok_of_val (zeroKernel []) (by decide))
    (by decide) (by decide) (by decide) (by decide)

end Xv6

namespace Xv6

/-! ## `walkaddr` -/

theorem slotOf_unfold (m : Mem) (root va : Nat) :
    slotOf m root va =
      if rd64 m (root + 8 * PX 2 va) &&& PTE_V ≠ 0 then
        if rd64 m (PTE2PA (rd64 m (root + 8 * PX 2 va)) + 8 * PX 1 va) &&& PTE_V ≠ 0 then
          some (PTE2PA (rd64 m (PTE2PA (rd64 m (root + 8 * PX 2 va)) + 8 * PX 1 va)) +
            8 * PX 0 va)
        else none
      else none := by
  unfold slotOf
  rw [descend_cons]
  by_cases h2 : rd64 m (root + 8 * PX 2 va) &&& PTE_V ≠ 0
  · rw [if_pos h2, if_pos h2, descend_cons]
    by_cases h1 : rd64 m (PTE2PA (rd64 m (root + 8 * PX 2 va)) + 8 * PX 1 va) &&& PTE_V ≠ 0
    · rw [if_pos h1, if_pos h1, descend_nil]; rfl
    · rw [if_neg h1, if_neg h1]; rfl
  · rw [if_neg h2, if_neg h2]; rfl

/-- The result of `walkaddr` in terms of the slot and the level-0 entry of `va`. -/
theorem walkaddr_eq (k : Kernel) (root va : Nat) :
    walkaddr k root va =
      .ok (if MAXVA ≤ va then 0
        else match slotOf k.mem root va with
          | none => 0
          | some s =>
            if s = 0 then 0
            else if rd64 k.mem s &&& PTE_V = 0 then 0
            else if rd64 k.mem s &&& PTE_U = 0 then 0
            else PTE2PA (rd64 k.mem s)) k := by
  unfold walkaddr
  by_cases hva : MAXVA ≤ va
  · rw [if_pos hva, if_pos hva]
  · rw [if_neg hva, if_neg hva, walk_false (by omega)]
    cases hs : slotOf k.mem root va with
    | none => simp
    | some s =>
      simp only
      by_cases h0 : s = 0
      · rw [if_pos h0, if_pos h0]
      · rw [if_neg h0, if_neg h0]
        by_cases hv : rd64 k.mem s &&& PTE_V = 0
        · rw [if_pos hv, if_pos hv]
        · rw [if_neg hv, if_neg hv]
          by_cases hu : rd64 k.mem s &&& PTE_U = 0
          · rw [if_pos hu, if_pos hu]
          · rw [if_neg hu, if_neg hu]

/-- The result of `walkaddr` in terms of the three entries on the path of `va`. -/
theorem walkaddr_entries (k : Kernel) (root va : Nat) :
    walkaddr k root va =
      .ok (if MAXVA ≤ va then 0
        else if rd64 k.mem (root + 8 * PX 2 va) &&& PTE_V = 0 then 0
        else if rd64 k.mem (PTE2PA (rd64 k.mem (root + 8 * PX 2 va)) + 8 * PX 1 va) &&& PTE_V = 0
          then 0
        else if PTE2PA (rd64 k.mem (PTE2PA (rd64 k.mem (root + 8 * PX 2 va)) + 8 * PX 1 va)) +
            8 * PX 0 va = 0 then 0
        else if rd64 k.mem (PTE2PA (rd64 k.mem (PTE2PA (rd64 k.mem (root + 8 * PX 2 va)) +
            8 * PX 1 va)) + 8 * PX 0 va) &&& PTE_V = 0 then 0
        else if rd64 k.mem (PTE2PA (rd64 k.mem (PTE2PA (rd64 k.mem (root + 8 * PX 2 va)) +
            8 * PX 1 va)) + 8 * PX 0 va) &&& PTE_U = 0 then 0
        else PTE2PA (rd64 k.mem (PTE2PA (rd64 k.mem (PTE2PA (rd64 k.mem (root + 8 * PX 2 va)) +
            8 * PX 1 va)) + 8 * PX 0 va))) k := by
  rw [walkaddr_eq, slotOf_unfold]
  by_cases hm : MAXVA ≤ va
  · rw [if_pos hm, if_pos hm]
  · rw [if_neg hm, if_neg hm]
    by_cases h2 : rd64 k.mem (root + 8 * PX 2 va) &&& PTE_V = 0
    · rw [if_neg (not_not.2 h2), if_pos h2]
    · rw [if_pos h2, if_neg h2]
      by_cases h1 : rd64 k.mem (PTE2PA (rd64 k.mem (root + 8 * PX 2 va)) + 8 * PX 1 va)
          &&& PTE_V = 0
      · rw [if_neg (not_not.2 h1), if_pos h1]
      · rw [if_pos h1, if_neg h1]

/-- C3 (resolve).  For every state, table and `va`, `walkaddr(pagetable, va)` returns
without a fatal halt and leaves memory and the allocator unchanged.  It returns 0 when
`va >= MAXVA`, when the level-2 entry or the level-1 entry on the path of `va` is
invalid, when the level-0 entry is invalid, and when the level-0 entry lacks `PTE_U`;
in every other case it returns `PTE2PA` of the level-0 entry.  (A slot whose address is
the null pointer counts as not found, as in the code: `walkaddr` returns 0 for it.) -/
theorem walkaddr_resolve (k : Kernel) (pagetable va : Nat) :
    ∃ r, walkaddr k pagetable va = .ok r k ∧
      (MAXVA ≤ va → r = 0) ∧
      (rd64 k.mem (pagetable + 8 * PX 2 va) &&& PTE_V = 0 → r = 0) ∧
      (rd64 k.mem (PTE2PA (rd64 k.mem (pagetable + 8 * PX 2 va)) + 8 * PX 1 va) &&& PTE_V = 0
        → r = 0) ∧
      (∀ s, s = PTE2PA (rd64 k.mem (PTE2PA (rd64 k.mem (pagetable + 8 * PX 2 va)) +
          8 * PX 1 va)) + 8 * PX 0 va →
        (rd64 k.mem s &&& PTE_V = 0 → r = 0) ∧
        (rd64 k.mem s &&& PTE_U = 0 → r = 0) ∧
        (s = 0 → r = 0) ∧
        (va < MAXVA → rd64 k.mem (pagetable + 8 * PX 2 va) &&& PTE_V ≠ 0 →
          rd64 k.mem (PTE2PA (rd64 k.mem (pagetable + 8 * PX 2 va)) + 8 * PX 1 va) &&& PTE_V ≠ 0 →
          s ≠ 0 → rd64 k.mem s &&& PTE_V ≠ 0 → rd64 k.mem s &&& PTE_U ≠ 0 →
          r = PTE2PA (rd64 k.mem s))) := by
  refine ⟨_, walkaddr_entries k pagetable va, ?_, ?_, ?_, ?_⟩
  · intro h; rw [if_pos h]
  · intro h
    rw [if_pos h, ite_self]
  · intro h
    rw [if_pos h]
    simp only [ite_self]
  · intro s hs
    subst hs
    refine ⟨?_, ?_, ?_, ?_⟩
    · intro hv
      rw [if_pos hv]
      simp only [ite_self]
    · intro hu
      rw [if_pos hu]
      simp only [ite_self]
    · intro h0
      rw [if_pos h0]
      simp only [ite_self]
    · intro hm h2 h1 h0 hv hu
      rw [if_neg (by omega), if_neg h2, if_neg h1, if_neg h0, if_neg hv, if_neg hu]

/-- Witness of C3: the second page of `grownKernel` resolves to the frame of its leaf. -/
theorem walkaddr_resolve_witness :
    ∃ r, walkaddr grownKernel 0x1000 4096 = .ok r grownKernel ∧ r ≠ 0 ∧
      r = PTE2PA (rd64 grownKernel.mem (PTE2PA (rd64 grownKernel.mem
        (PTE2PA (rd64 grownKernel.mem (0x1000 + 8 * PX 2 4096)) + 8 * PX 1 4096)) +
        8 * PX 0 4096)) := by
  obtain ⟨r, h1, _, _, _, h5⟩ := walkaddr_resolve grownKernel 0x1000 4096
  have h6 := (h5 _ rfl).2.2.2 (by decide) (by decide) (by decide) (by decide) (by decide)
    (by decide)
  refine ⟨r, h1, ?_, h6⟩
  rw [h6]
  decide

end Xv6

namespace Xv6

/-! ## `walk` in create mode -/

theorem and_RWX_of_flags {e : Nat} (h : PTE_FLAGS e = PTE_V) :
    e &&& (PTE_R ||| PTE_W ||| PTE_X) = 0 := by
  have e1 : e &&& (PTE_R ||| PTE_W ||| PTE_X) = (e &&& 0x3FF) &&& (PTE_R ||| PTE_W ||| PTE_X) := by
    rw [Nat.and_assoc]
    rfl
  unfold PTE_FLAGS at h
  rw [e1, h]
  rfl

end Xv6

namespace Xv6

/-! ## `uvmunmap` -/

/-- A store into the level-0 slot of `va`, for a table alone. -/
theorem store_leaf_table {m : Mem} {root va p : Nat} (v : Nat) (hwf : TableWF m root)
    (hva : va < MAXVA) (hs : slotOf m root va = some p) :
    TableWF (wr64 m p v) root ∧
    (∀ q, IsPath q → descend (wr64 m p v) root q = descend m root q) ∧
    (∀ vb, vb < MAXVA → leafOf (wr64 m p v) root vb =
      if vb / PGSIZE = va / PGSIZE then v % 2 ^ 64 else leafOf m root vb) ∧
    ∀ x, (∀ q n, IsPath q → descend m root q = some n → x < n ∨ n + PGSIZE ≤ x) →
      wr64 m p v x = m x := by
  obtain ⟨n, hn, rfl⟩ := slotOf_some hs
  have hd := leaf_store_descend (v := v) hwf (PX_lt 2 va) (PX_lt 1 va) hn (PX_lt 0 va)
  refine ⟨hwf.table_of_descend hd, hd, ?_, ?_⟩
  · intro vb hvb
    unfold leafOf
    rw [leaf_store_entryAt hwf (PX_lt 2 va) (PX_lt 1 va) hn (PX_lt 0 va) (PX_lt 2 vb)
      (PX_lt 1 vb) (PX_lt 0 vb)]
    have hinj := PX_inj vb va (by unfold MAXVA at hvb; omega)
      (by unfold MAXVA at hva; omega)
    by_cases hp : vb / PGSIZE = va / PGSIZE
    · rw [if_pos hp, if_pos (hinj.2 hp)]
    · rw [if_neg hp, if_neg (fun h => hp (hinj.1 h))]
  · intro x hx
    have h1 := hx _ n (isPath_va va) hn
    have h2 := slot_in_page (n := n) (PX_lt 0 va)
    exact wr64_out _ _ _ _ (by omega)

/-- One turn of the `uvmunmap` loop on a page that passes the three checks. -/
theorem uvmunmapLoop_step {fuel : Nat} {k : Kernel} {root a bound s : Nat} {df : Bool}
    (hlt : a < bound) (ha : a < MAXVA) (hs : slotOf k.mem root a = some s) (hs0 : s ≠ 0)
    (hv : rd64 k.mem s &&& PTE_V ≠ 0) (hfl : PTE_FLAGS (rd64 k.mem s) ≠ PTE_V) :
    uvmunmapLoop (fuel + 1) k root a bound df =
      uvmunmapLoop fuel
        ⟨wr64 k.mem s 0, if df then PTE2PA (rd64 k.mem s) :: k.freelist else k.freelist⟩
        root ((a + PGSIZE) % 2 ^ 64) bound df := by
  rw [uvmunmapLoop, if_pos hlt, walk_found ha hs]
  simp only
  rw [if_neg hs0, if_neg (by simpa using hv), if_neg hfl]
  cases df <;> rfl

theorem backing_congr {m m2 : Mem} {root : Nat} :
    ∀ n va, (∀ i, i < n → leafOf m2 root (va + i * PGSIZE) = leafOf m root (va + i * PGSIZE)) →
      backing m2 root va n = backing m root va n := by
  intro n
  induction n with
  | zero => intro va _; rfl
  | succ n ih =>
    intro va h
    have h0 := h 0 (by omega)
    simp only [Nat.zero_mul, Nat.add_zero] at h0
    rw [backing, backing, h0, ih (va + PGSIZE)]
    intro i hi
    have := h (i + 1) (by omega)
    rw [show va + (i + 1) * PGSIZE = va + PGSIZE + i * PGSIZE by ring] at this
    exact this

/-- The `uvmunmap` loop over pages that all hold a valid entry other than a bare
`PTE_V`: it returns, the entries of the range are 0, nothing else in the table has
changed, and with `do_free` the frames went back to the allocator one by one. -/
theorem uvmunmapLoop_spec (root bound : Nat) (df : Bool) (hb : bound % PGSIZE = 0)
    (hbm : bound ≤ MAXVA) :
    ∀ fuel (k : Kernel) a, TableWF k.mem root → a % PGSIZE = 0 → a ≤ bound →
      (bound - a) / PGSIZE < fuel →
      (∀ p, a ≤ p → p < bound → leafOf k.mem root p &&& PTE_V ≠ 0 ∧
        PTE_FLAGS (leafOf k.mem root p) ≠ PTE_V) →
      ∃ k2, uvmunmapLoop fuel k root a bound df = .ok () k2 ∧
        TableWF k2.mem root ∧
        (∀ q, IsPath q → descend k2.mem root q = descend k.mem root q) ∧
        (∀ vb, vb < MAXVA → leafOf k2.mem root vb =
          if a ≤ vb ∧ vb < bound then 0 else leafOf k.mem root vb) ∧
        k2.freelist = (if df then (backing k.mem root a ((bound - a) / PGSIZE)).reverse
          else []) ++ k.freelist ∧
        ∀ x, (∀ q n, IsPath q → descend k.mem root q = some n → x < n ∨ n + PGSIZE ≤ x) →
          k2.mem x = k.mem x := by
  intro fuel
  induction fuel with
  | zero => intro k a _ _ _ hf _; exact absurd hf (Nat.not_lt_zero _)
  | succ fuel ih =>
    intro k a hwf haa hab hf hall
    by_cases hlt : a < bound
    · have hamax : a < MAXVA := by omega
      obtain ⟨hv, hfl⟩ := hall a (le_refl a) hlt
      obtain ⟨s, hs⟩ := leafOf_valid_slot hv
      rw [leafOf_of_slot hs] at hv hfl
      rw [uvmunmapLoop_step hlt hamax hs (slot_ne_zero hwf hs) hv hfl]
      obtain ⟨hwf3, hd3, hleaf3, hbytes3⟩ := store_leaf_table 0 hwf hamax hs
      have hstep : (a + PGSIZE) % 2 ^ 64 = a + PGSIZE := by
        apply Nat.mod_eq_of_lt
        unfold PGSIZE MAXVA at *; omega
      rw [hstep]
      have hab' : a + PGSIZE ≤ bound := by unfold PGSIZE at *; omega
      obtain ⟨k2, hrun, hwf2, hd2, hleaf2, hfree2, hbytes2⟩ :=
        ih ⟨wr64 k.mem s 0, if df then PTE2PA (rd64 k.mem s) :: k.freelist else k.freelist⟩
          (a + PGSIZE) hwf3 (by unfold PGSIZE at *; omega) hab'
          (by unfold PGSIZE at *; omega) (by
            intro p hp1 hp2
            show leafOf (wr64 k.mem s 0) root p &&& PTE_V ≠ 0 ∧
              PTE_FLAGS (leafOf (wr64 k.mem s 0) root p) ≠ PTE_V
            rw [hleaf3 p (by omega), if_neg (by unfold PGSIZE at *; omega)]
            exact hall p (by omega) hp2)
      refine ⟨k2, hrun, hwf2, ?_, ?_, ?_, ?_⟩
      · intro q hq
        rw [hd2 q hq]
        exact hd3 q hq
      · intro vb hvb
        rw [hleaf2 vb hvb]
        show (if a + PGSIZE ≤ vb ∧ vb < bound then 0 else leafOf (wr64 k.mem s 0) root vb) = _
        rw [hleaf3 vb hvb]
        by_cases h1 : a + PGSIZE ≤ vb ∧ vb < bound
        · rw [if_pos h1, if_pos (by omega)]
        · rw [if_neg h1]
          by_cases h2 : vb / PGSIZE = a / PGSIZE
          · rw [if_pos h2, if_pos (by unfold PGSIZE at *; omega)]; rfl
          · rw [if_neg h2, if_neg (by unfold PGSIZE at *; omega)]
      · rw [hfree2]
        have hcount : (bound - a) / PGSIZE = (bound - (a + PGSIZE)) / PGSIZE + 1 := by
          unfold PGSIZE at *; omega
        rw [hcount, backing]
        have hback : backing (wr64 k.mem s 0) root (a + PGSIZE) ((bound - (a + PGSIZE)) / PGSIZE)
            = backing k.mem root (a + PGSIZE) ((bound - (a + PGSIZE)) / PGSIZE) := by
          apply backing_congr
          intro i hi
          have hlt2 : a + PGSIZE + i * PGSIZE < bound := by unfold PGSIZE at *; omega
          rw [hleaf3 _ (by omega), if_neg (by unfold PGSIZE at *; omega)]
        show (if df then (backing (wr64 k.mem s 0) root (a + PGSIZE) _).reverse else []) ++
          (if df then PTE2PA (rd64 k.mem s) :: k.freelist else k.freelist) = _
        rw [hback, leafOf_of_slot hs]
        cases df
        · simp
        · simp
      · intro x hx
        rw [hbytes2 x (by
          intro q n hq hn
          exact hx q n hq (by rw [← hd3 q hq]; exact hn))]
        exact hbytes3 x hx
    · have hab2 : a = bound := by omega
      subst hab2
      rw [uvmunmapLoop, if_neg hlt]
      refine ⟨k, rfl, hwf, fun _ _ => rfl, ?_, ?_, fun _ _ => rfl⟩
      · intro vb _
        rw [if_neg (by omega)]
      · rw [Nat.sub_self, Nat.zero_div]
        cases df <;> rfl

end Xv6

namespace Xv6

/-- The `uvmunmap` loop halts when a page ahead of it has an invalid entry or a bare
`PTE_V`. -/
theorem uvmunmapLoop_fatal (root bound p : Nat) (df : Bool) (hp : p % PGSIZE = 0)
    (hpb : p < bound) (hpm : p < MAXVA) :
    ∀ fuel (k : Kernel) a, TableWF k.mem root → a % PGSIZE = 0 → a ≤ p →
      (p - a) / PGSIZE < fuel →
      (leafOf k.mem root p &&& PTE_V = 0 ∨ PTE_FLAGS (leafOf k.mem root p) = PTE_V) →
      ∃ msg, uvmunmapLoop fuel k root a bound df = .fatal msg := by
  intro fuel
  induction fuel with
  | zero => intro k a _ _ _ hf _; exact absurd hf (Nat.not_lt_zero _)
  | succ fuel ih =>
    intro k a hwf haa hap hf hbad
    have hlt : a < bound := by omega
    have hamax : a < MAXVA := by omega
    cases hs : slotOf k.mem root a with
    | none =>
      rw [uvmunmapLoop, if_pos hlt, walk_false hamax, hs]
      exact ⟨_, rfl⟩
    | some s =>
      by_cases hv : rd64 k.mem s &&& PTE_V = 0
      · rw [uvmunmapLoop, if_pos hlt, walk_found hamax hs]
        simp only
        rw [if_neg (slot_ne_zero hwf hs), if_pos hv]
        exact ⟨_, rfl⟩
      · by_cases hfl : PTE_FLAGS (rd64 k.mem s) = PTE_V
        · rw [uvmunmapLoop, if_pos hlt, walk_found hamax hs]
          simp only
          rw [if_neg (slot_ne_zero hwf hs), if_neg hv, if_pos hfl]
          exact ⟨_, rfl⟩
        · rw [uvmunmapLoop_step hlt hamax hs (slot_ne_zero hwf hs) hv hfl]
          have hne : a ≠ p := by
            intro e
            subst e
            rw [leafOf_of_slot hs] at hbad
            tauto
          obtain ⟨hwf3, _, hleaf3, _⟩ := store_leaf_table 0 hwf hamax hs
          have hstep : (a + PGSIZE) % 2 ^ 64 = a + PGSIZE := by
            apply Nat.mod_eq_of_lt
            unfold PGSIZE MAXVA at *; omega
          rw [hstep]
          refine ih _ (a + PGSIZE) hwf3 (by unfold PGSIZE at *; omega)
            (by unfold PGSIZE at *; omega) (by unfold PGSIZE at *; omega) ?_
          show leafOf (wr64 k.mem s 0) root p &&& PTE_V = 0 ∨
            PTE_FLAGS (leafOf (wr64 k.mem s 0) root p) = PTE_V
          rw [hleaf3 p hpm, if_neg (by unfold PGSIZE at *; omega)]
          exact hbad

theorem uvmunmap_eq {k : Kernel} {root va npages : Nat} {df : Bool} (ha : va % PGSIZE = 0)
    (hr : va + npages * PGSIZE ≤ MAXVA) :
    uvmunmap k root va npages df = uvmunmapLoop loopFuel k root va (va + npages * PGSIZE) df := by
  unfold uvmunmap
  rw [if_neg (by simpa using ha), Nat.mod_eq_of_lt (by unfold MAXVA at hr; omega)]

/-- C5, refuted as stated: the entry of page 0, installed with permission `PTE_U`
alone, is Valid with all of R/W/X clear, and `uvmunmap` of that page is not fatal: it
returns. -/
theorem uvmunmap_nonleaf_not_fatal :
    leafOf ((mappages (zeroKernel [0x2000, 0x3000]) 0x1000 0 4096 0x9000 PTE_U).state
      (zeroKernel [])).mem 0x1000 0 &&& PTE_V ≠ 0 ∧
    leafOf ((mappages (zeroKernel [0x2000, 0x3000]) 0x1000 0 4096 0x9000 PTE_U).state
      (zeroKernel [])).mem 0x1000 0 &&& (PTE_R ||| PTE_W ||| PTE_X) = 0 ∧
    (uvmunmap ((mappages (zeroKernel [0x2000, 0x3000]) 0x1000 0 4096 0x9000 PTE_U).state
      (zeroKernel [])) 0x1000 0 1 true).val? = some () ∧
    (uvmunmap ((mappages (zeroKernel [0x2000, 0x3000]) 0x1000 0 4096 0x9000 PTE_U).state
      (zeroKernel [])) 0x1000 0 1 true).fatal? = none := by
  decide

/-- C5, amended (remove).  For a well-formed table, a page-aligned `va` and `npages`
pages from `va` below `MAXVA`: when every page has an entry that is Valid and not a
bare `PTE_V` (in particular a valid leaf), `uvmunmap(pagetable, va, npages, do_free)`
returns, every slot of the range holds 0 (so `walkaddr` returns 0 for each page), the
allocator has received exactly the `npages` backing frames when `do_free` is set and
nothing otherwise, and every slot and entry outside the range is unchanged.  The call
is fatal when `va` is not page-aligned, and when a page of the range has a missing or
invalid entry or an entry whose ten flag bits are exactly `PTE_V`. -/
theorem uvmunmap_remove (k : Kernel) (pagetable va npages : Nat) (do_free : Bool)
    (hwf : TableWF k.mem pagetable) :
    (va % PGSIZE ≠ 0 →
      uvmunmap k pagetable va npages do_free = .fatal "uvmunmap: not aligned") ∧
    (va % PGSIZE = 0 → va + npages * PGSIZE ≤ MAXVA →
      (∀ i, i < npages → leafOf k.mem pagetable (va + i * PGSIZE) &&& PTE_V ≠ 0 ∧
        PTE_FLAGS (leafOf k.mem pagetable (va + i * PGSIZE)) ≠ PTE_V) →
      ∃ k2, uvmunmap k pagetable va npages do_free = .ok () k2 ∧
        (∀ i, i < npages → ∃ s, slotOf k.mem pagetable (va + i * PGSIZE) = some s ∧
          rd64 k2.mem s = 0 ∧ walkaddr k2 pagetable (va + i * PGSIZE) = .ok 0 k2) ∧
        k2.freelist = (if do_free then (backing k.mem pagetable va npages).reverse else []) ++
          k.freelist ∧
        (∀ vb, vb < MAXVA → vb < va ∨ va + npages * PGSIZE ≤ vb →
          slotOf k2.mem pagetable vb = slotOf k.mem pagetable vb ∧
          leafOf k2.mem pagetable vb = leafOf k.mem pagetable vb)) ∧
    (va % PGSIZE = 0 → va + npages * PGSIZE ≤ MAXVA →
      ∀ i, i < npages →
        (leafOf k.mem pagetable (va + i * PGSIZE) &&& PTE_V = 0 ∨
          PTE_FLAGS (leafOf k.mem pagetable (va + i * PGSIZE)) = PTE_V) →
        ∃ msg, uvmunmap k pagetable va npages do_free = .fatal msg) := by
  refine ⟨?_, ?_, ?_⟩
  · intro h
    unfold uvmunmap
    rw [if_pos h]
  · intro ha hr hall
    rw [uvmunmap_eq ha hr]
    obtain ⟨k2, hrun, hwf2, hd, hleaf, hfree, _⟩ :=
      uvmunmapLoop_spec pagetable (va + npages * PGSIZE) do_free
        (by unfold PGSIZE at *; omega) hr loopFuel k va hwf ha (by omega)
        (by unfold loopFuel PGSIZE MAXVA at *; omega) (by
          intro p hp1 hp2
          have hi : (p - va) / PGSIZE < npages := by
            unfold PGSIZE at *
            rw [Nat.div_lt_iff_lt_mul (by norm_num)]
            omega
          have := hall ((p - va) / PGSIZE) hi
          rw [leafOf_same_page _ _ _ p (by unfold PGSIZE at *; omega)] at this
          exact this)
    refine ⟨k2, hrun, ?_, ?_, ?_⟩
    · intro i hi
      obtain ⟨s, hs⟩ := leafOf_valid_slot (hall i hi).1
      have hin : va + i * PGSIZE < va + npages * PGSIZE := by
        have := Nat.mul_lt_mul_of_pos_right hi (show 0 < PGSIZE by decide)
        omega
      have hs2 : slotOf k2.mem pagetable (va + i * PGSIZE) = some s := by
        rw [slotOf_congr hd]; exact hs
      have hz : rd64 k2.mem s = 0 := by
        rw [← leafOf_of_slot hs2, hleaf _ (by omega), if_pos ⟨by omega, hin⟩]
      refine ⟨s, hs, hz, ?_⟩
      rw [walkaddr_eq, if_neg (by omega), hs2]
      simp only
      rw [if_neg (slot_ne_zero hwf2 hs2), if_pos (by rw [hz]; rfl)]
    · rw [hfree]
      have : (va + npages * PGSIZE - va) / PGSIZE = npages := by
        rw [Nat.add_sub_cancel_left]
        exact Nat.mul_div_cancel _ (by decide)
      rw [this]
    · intro vb hvb hout
      refine ⟨slotOf_congr hd vb, ?_⟩
      rw [hleaf vb hvb, if_neg (by omega)]
  · intro ha hr i hi hbad
    rw [uvmunmap_eq ha hr]
    have hin : va + i * PGSIZE < va + npages * PGSIZE := by
      have := Nat.mul_lt_mul_of_pos_right hi (show 0 < PGSIZE by decide)
      omega
    exact uvmunmapLoop_fatal pagetable _ (va + i * PGSIZE) do_free
      (by unfold PGSIZE at *; omega) hin (by omega) loopFuel k va hwf ha (by omega)
      (by unfold loopFuel PGSIZE MAXVA at *; omega) hbad

/-- Witness of C5: the one installed page of `onePageKernel` is removed and its frame
released. -/
theorem uvmunmap_remove_witness :
    TableWF onePageKernel.mem 0x1000 ∧
    ∃ k2, uvmunmap onePageKernel 0x1000 0 1 true = .ok () k2 ∧
      (∀ i, i < 1 → ∃ s, slotOf onePageKernel.mem 0x1000 (0 + i * PGSIZE) = some s ∧
        rd64 k2.mem s = 0 ∧ walkaddr k2 0x1000 (0 + i * PGSIZE) = .ok 0 k2) ∧
      k2.freelist = (if true then (backing onePageKernel.mem 0x1000 0 1).reverse else []) ++
        onePageKernel.freelist :=
  have hwf : TableWF onePageKernel.mem 0x1000 :=
    (mappages_ok_valid (WF_zeroKernel (by decide) (by decide) (by decide) (by decide))
      (by decide) (by decide) (by decide)
      (Res.eq_ok_of_val (zeroKernel []) (by decide))).1.1
  match (uvmunmap_remove onePageKernel 0x1000 0 1 true hwf).2.1 (by decide) (by decide)
      (fun i hi => by
        have : i = 0 := by omega
        subst this
        decide) with
  | ⟨k2, h1, h2, h3, _⟩ => ⟨hwf, k2, h1, h2, h3⟩

/-! ## `ukvmunmap` -/

/-- C6, the failing input evaluated: on an empty table `ukvmunmap(pagetable, 0, 1)`
finds no slot (`walk` returns 0), takes `goto clean` and stores through the null
pointer: the call does not return, it ends in the fault of that store. -/
theorem ukvmunmap_null_store :
    (walk nullByteKernel 0x1000 0 false).val? = some 0 ∧
    (ukvmunmap nullByteKernel 0x1000 0 1).val? = none ∧
    (ukvmunmap nullByteKernel 0x1000 0 1).fatal? = some "null pointer store" := by
  decide

end Xv6

namespace Xv6

/-! ## Data frames -/

/-- In a well-formed table `walkaddr` is a function of the level-0 entry. -/
theorem walkaddr_val {k : Kernel} {root : Nat} (hwf : TableWF k.mem root) (va : Nat) :
    walkaddr k root va =
      .ok (if MAXVA ≤ va then 0
        else if leafOf k.mem root va &&& PTE_V = 0 then 0
        else if leafOf k.mem root va &&& PTE_U = 0 then 0
        else PTE2PA (leafOf k.mem root va)) k := by
  rw [walkaddr_eq]
  by_cases hm : MAXVA ≤ va
  · rw [if_pos hm, if_pos hm]
  · rw [if_neg hm, if_neg hm]
    cases hs : slotOf k.mem root va with
    | none =>
      rw [leafOf_of_none hs]
      rfl
    | some s =>
      simp only
      rw [if_neg (slot_ne_zero hwf hs), leafOf_of_slot hs]

/-- `walkaddr` finds a frame exactly for a valid, user-accessible entry with a non-null
frame below `MAXVA`. -/
theorem walkaddr_mapped_iff {k : Kernel} {root : Nat} (hwf : TableWF k.mem root) (va : Nat) :
    (∃ pa, pa ≠ 0 ∧ walkaddr k root va = .ok pa k) ↔
      va < MAXVA ∧ leafOf k.mem root va &&& PTE_V ≠ 0 ∧ leafOf k.mem root va &&& PTE_U ≠ 0 ∧
        PTE2PA (leafOf k.mem root va) ≠ 0 := by
  rw [walkaddr_val hwf]
  constructor
  · rintro ⟨pa, hpa, h⟩
    have e : (if MAXVA ≤ va then 0
        else if leafOf k.mem root va &&& PTE_V = 0 then 0
        else if leafOf k.mem root va &&& PTE_U = 0 then 0
        else PTE2PA (leafOf k.mem root va)) = pa := by
      injection h
    by_cases hm : MAXVA ≤ va
    · rw [if_pos hm] at e; exact absurd e.symm hpa
    · rw [if_neg hm] at e
      by_cases hv : leafOf k.mem root va &&& PTE_V = 0
      · rw [if_pos hv] at e; exact absurd e.symm hpa
      · rw [if_neg hv] at e
        by_cases hu : leafOf k.mem root va &&& PTE_U = 0
        · rw [if_pos hu] at e; exact absurd e.symm hpa
        · rw [if_neg hu] at e
          exact ⟨by omega, hv, hu, by rw [e]; exact hpa⟩
  · rintro ⟨hm, hv, hu, hp⟩
    refine ⟨_, hp, ?_⟩
    rw [if_neg (by omega), if_neg hv, if_neg hu]

/-- A change of memory confined to a frame that is no node of the table leaves the
table as it is. -/
theorem frame_store {m m2 : Mem} {root f : Nat} (hwf : TableWF m root)
    (hf : f % PGSIZE = 0) (hfresh : ∀ p, IsPath p → descend m root p ≠ some f)
    (H : ∀ x, x < f ∨ f + PGSIZE ≤ x → m2 x = m x) :
    (∀ p, IsPath p → descend m2 root p = descend m root p) ∧
    (∀ va, leafOf m2 root va = leafOf m root va) ∧ TableWF m2 root := by
  have agree : ∀ q n, IsPath q → descend m root q = some n →
      ∀ x, n ≤ x → x < n + PGSIZE → m2 x = m x := by
    intro q n hq hn x h1 h2
    apply H
    have := page_disjoint (descend_aligned hwf.root_aligned q n hn) hf
      (fun e => hfresh q hq (e ▸ hn))
    omega
  have hd := descend_of_agree hwf.root_aligned (fun q n hq _ hn => agree q n hq hn)
  refine ⟨hd, ?_, hwf.table_of_descend hd⟩
  intro va
  exact entryAt_of_agree hwf.root_aligned agree _ _ _ (PX_lt 2 va) (PX_lt 1 va) (PX_lt 0 va)

/-- Taking the first free frame as a data frame and writing into it keeps the state
well-formed. -/
theorem data_frame {k : Kernel} (m2 : Mem) {root f : Nat} {rest : List Nat} (hwf : WF k root)
    (hfl : k.freelist = f :: rest) (H : ∀ x, x < f ∨ f + PGSIZE ≤ x → m2 x = k.mem x) :
    WF ⟨m2, rest⟩ root ∧ (∀ p, IsPath p → descend m2 root p = descend k.mem root p) ∧
      ∀ va, leafOf m2 root va = leafOf k.mem root va := by
  have hfm : f ∈ k.freelist := by rw [hfl]; simp
  obtain ⟨hd, hl, ht⟩ := frame_store hwf.1 (hwf.2.frame f hfm).1 (hwf.2.fresh f hfm) H
  have hnd := hwf.2.nodup
  rw [hfl] at hnd
  refine ⟨⟨ht, (List.nodup_cons.1 hnd).2, ?_, ?_⟩, hd, hl⟩
  · intro g hg
    exact hwf.2.frame g (by rw [hfl]; exact List.mem_cons_of_mem _ hg)
  · intro g hg p hp
    show descend m2 root p ≠ some g
    rw [hd p hp]
    exact hwf.2.fresh g (by rw [hfl]; exact List.mem_cons_of_mem _ hg) p hp

/-- The leaf `uvmalloc` installs for frame `d`. -/
theorem user_leaf_eq {d : Nat} (hd : d % PGSIZE = 0) (hlt : d < 2 ^ 64) :
    PA2PTE d ||| (PTE_W ||| PTE_X ||| PTE_R ||| PTE_U) ||| PTE_V = d / 4096 * 1024 + 31 := by
  unfold PGSIZE at hd
  rw [Nat.or_assoc, PA2PTE_eq, Nat.mod_eq_of_lt (by omega)]
  exact lor_flags d 31 (by norm_num)

theorem flags_leaf_eq {d f : Nat} (hd : d % PGSIZE = 0) (hlt : d < 2 ^ 64) (hf : f < 1024) :
    (PA2PTE d ||| f ||| PTE_V) % 2 ^ 64 = d / 4096 * 1024 + (f ||| PTE_V) := by
  unfold PGSIZE at hd
  have h1 : f ||| PTE_V < 1024 := Nat.or_lt_two_pow (n := 10) hf (by decide)
  have e1 : d / 4096 * 1024 % 2 ^ 64 = d / 4096 * 1024 := Nat.mod_eq_of_lt (by omega)
  rw [PA2PTE_eq, e1, Nat.or_assoc, lor_flags d _ h1]
  exact Nat.mod_eq_of_lt (by omega)

/-- One page installed by `mappages`: what the call did, for either return value. -/
theorem mappages_page {k k2 : Kernel} {root a pa perm : Nat} {rc : Int} (hwf : WF k root)
    (ha : a % PGSIZE = 0) (ha64 : a < 2 ^ 64)
    (h : mappages k root a PGSIZE pa perm = .ok rc k2) :
    a < MAXVA ∧ WF k2 root ∧ Ext k k2 root ∧
    ((rc = 0 ∧ leafOf k.mem root a &&& PTE_V = 0 ∧
        ∀ vb, vb < MAXVA → leafOf k2.mem root vb =
          if vb / PGSIZE = a / PGSIZE then (PA2PTE pa ||| perm ||| PTE_V) % 2 ^ 64
          else leafOf k.mem root vb) ∨
      (rc = -1 ∧ k2.freelist = [] ∧
        ∀ vb, vb < MAXVA → leafOf k2.mem root vb = leafOf k.mem root vb)) := by
  rw [mappages_eq (by decide) (by unfold PGSIZE at *; omega)] at h
  have e1 : PGROUNDDOWN a = a := by unfold PGROUNDDOWN PGSIZE at *; omega
  have e2 : PGROUNDDOWN (a + PGSIZE - 1) = a := by unfold PGROUNDDOWN PGSIZE at *; omega
  rw [e1, e2, show loopFuel = MAXVA / PGSIZE + 1 from rfl, mappagesLoop] at h
  by_cases hamax : a < MAXVA
  · obtain ⟨p, k1, hw, hg, hwf1, hslot, hfree⟩ := walk_true hwf hamax
    rw [hw] at h
    simp only at h
    by_cases hp : p = 0
    · rw [if_pos hp] at h
      cases h
      exact ⟨hamax, hwf1, hg.ext, Or.inr ⟨rfl, hfree hp, fun vb _ => hg.leaf vb⟩⟩
    · rw [if_neg hp] at h
      have hs := hslot hp
      by_cases hv : rd64 k1.mem p &&& PTE_V ≠ 0
      · rw [if_pos hv] at h; cases h
      · rw [if_neg hv] at h
        simp only [if_true] at h
        cases h
        obtain ⟨hwf2, hext2, _, hleaf2⟩ :=
          store_leaf (PA2PTE pa ||| perm ||| PTE_V) hwf1 hamax hs
        refine ⟨hamax, hwf2, hg.ext.etrans hext2, Or.inl ⟨rfl, ?_, ?_⟩⟩
        · rw [← hg.leaf a, leafOf_of_slot hs]
          exact not_not.1 hv
        · intro vb hvb
          show leafOf (wr64 k1.mem p (PA2PTE pa ||| perm ||| PTE_V)) root vb = _
          rw [hleaf2 vb hvb, hg.leaf vb]
  · rw [walk_fatal (by omega)] at h
    cases h

end Xv6

namespace Xv6

/-! ## `uvmalloc` -/

theorem user_leaf_flags {d : Nat} (hd : d % PGSIZE = 0) (hlt : d < 2 ^ 64) :
    PTE_FLAGS ((PA2PTE d ||| (PTE_W ||| PTE_X ||| PTE_R ||| PTE_U) ||| PTE_V) % 2 ^ 64) =
      PTE_R ||| PTE_W ||| PTE_X ||| PTE_U ||| PTE_V := by
  rw [flags_leaf_eq hd hlt (by decide), PTE_FLAGS_eq]
  have e1 : (PTE_W ||| PTE_X ||| PTE_R ||| PTE_U) ||| PTE_V = 31 := by decide
  have e2 : PTE_R ||| PTE_W ||| PTE_X ||| PTE_U ||| PTE_V = 31 := by decide
  rw [e1, e2]
  omega

theorem user_leaf_pa {d : Nat} (hd : d % PGSIZE = 0) (hlt : d < 2 ^ 64) :
    PTE2PA ((PA2PTE d ||| (PTE_W ||| PTE_X ||| PTE_R ||| PTE_U) ||| PTE_V) % 2 ^ 64) = d := by
  rw [flags_leaf_eq hd hlt (by decide), PTE2PA_eq]
  have e1 : (PTE_W ||| PTE_X ||| PTE_R ||| PTE_U) ||| PTE_V = 31 := by decide
  rw [e1]
  unfold PGSIZE at hd
  omega

theorem Grown.start {k : Kernel} {root : Nat} (a : Nat) (ha : a % PGSIZE = 0)
    (hwf : TableWF k.mem root) : Grown k k root a a := by
  refine ⟨hwf, le_refl a, ha, fun h => absurd h (lt_irrefl a), ?_, fun _ _ _ => rfl,
    fun _ _ _ h => h, ⟨[], ?_, fun _ h => by cases h⟩⟩
  · intro vb h1 h2; omega
  · rw [Nat.sub_self, Nat.zero_div]
    exact List.Perm.refl _

/-- The state in which `uvmalloc` starts to unwind after `mappages` has failed on the
page at `a`: nothing is installed, the data frame is back in the pool. -/
theorem Grown.failed {k km : Kernel} (k1 : Kernel) {root a d : Nat} {rest : List Nat}
    (hfl : k.freelist = d :: rest) (ha : a % PGSIZE = 0) (hk1 : k1.freelist = rest)
    (hd1 : ∀ p, IsPath p → descend k1.mem root p = descend k.mem root p)
    (hl1 : ∀ va, leafOf k1.mem root va = leafOf k.mem root va)
    (hwfm : WF km root) (hext : Ext k1 km root)
    (hleaf : ∀ vb, vb < MAXVA → leafOf km.mem root vb = leafOf k1.mem root vb) :
    Grown k (kfree km d) root a a := by
  refine ⟨hwfm.1, le_refl a, ha, fun h => absurd h (lt_irrefl a), ?_, ?_, ?_, ?_⟩
  · intro vb h1 h2; omega
  · intro vb hvb _
    show leafOf km.mem root vb = _
    rw [hleaf vb hvb, hl1]
  · intro q x hq hx
    exact hext.nodes q x hq (by rw [hd1 q hq]; exact hx)
  · obtain ⟨used, hu, hun⟩ := hext.pool
    refine ⟨used, ?_, ?_⟩
    · rw [Nat.sub_self, Nat.zero_div, hfl, ← hk1, hu]
      show List.Perm _ ([] ++ used ++ (d :: km.freelist))
      rw [List.nil_append]
      exact List.perm_middle.symm
    · intro n hn
      obtain ⟨q, hq, h1, h2⟩ := hun n hn
      exact ⟨q, hq, h1, by rw [← hd1 q hq]; exact h2⟩

/-- One more page in front of a grown range. -/
theorem Grown.step {k km kf : Kernel} (k1 : Kernel) {root a b d : Nat} {rest : List Nat}
    (hwf : WF k root) (hfl : k.freelist = d :: rest) (ha : a % PGSIZE = 0) (hamax : a < MAXVA)
    (hk1 : k1.freelist = rest)
    (hd1 : ∀ p, IsPath p → descend k1.mem root p = descend k.mem root p)
    (hl1 : ∀ va, leafOf k1.mem root va = leafOf k.mem root va)
    (hext : Ext k1 km root) (hinv : leafOf k1.mem root a &&& PTE_V = 0)
    (hleaf : ∀ vb, vb < MAXVA → leafOf km.mem root vb =
      if vb / PGSIZE = a / PGSIZE
      then (PA2PTE d ||| (PTE_W ||| PTE_X ||| PTE_R ||| PTE_U) ||| PTE_V) % 2 ^ 64
      else leafOf k1.mem root vb)
    (hg : Grown km kf root (a + PGSIZE) b) : Grown k kf root a b := by
  have hdm : d ∈ k.freelist := by rw [hfl]; simp
  obtain ⟨hda, hd0, hdlt⟩ := hwf.2.frame d hdm
  have hab : a + PGSIZE ≤ b := hg.le
  have hfirst : ∀ vb, a ≤ vb → vb < a + PGSIZE → leafOf kf.mem root vb =
      (PA2PTE d ||| (PTE_W ||| PTE_X ||| PTE_R ||| PTE_U) ||| PTE_V) % 2 ^ 64 := by
    intro vb h1 h2
    have hvb : vb < MAXVA := by unfold PGSIZE MAXVA at *; omega
    rw [hg.outside vb hvb (Or.inl h2), hleaf vb hvb, if_pos (by unfold PGSIZE at *; omega)]
  refine ⟨hg.table, by omega, hg.aligned, ?_, ?_, ?_, ?_, ?_⟩
  · intro _
    by_cases h : a + PGSIZE < b
    · exact hg.below h
    · have : b = a + PGSIZE := by omega
      rw [this]; unfold PGSIZE MAXVA at *; omega
  · intro vb h1 h2
    by_cases h : vb < a + PGSIZE
    · rw [hfirst vb h1 h]
      refine ⟨user_leaf_flags hda hdlt, by rw [user_leaf_pa hda hdlt]; exact hd0, ?_⟩
      rw [← hl1, leafOf_same_page _ _ vb a (by unfold PGSIZE at *; omega)]
      exact hinv
    · obtain ⟨i1, i2, i3⟩ := hg.installed vb (by omega) h2
      refine ⟨i1, i2, ?_⟩
      have hvb : vb < MAXVA := by
        have := hg.below (by omega)
        omega
      rw [hleaf vb hvb, if_neg (by unfold PGSIZE at *; omega), hl1] at i3
      exact i3
  · intro vb hvb hout
    rw [hg.outside vb hvb (by omega), hleaf vb hvb, if_neg (by unfold PGSIZE at *; omega), hl1]
  · intro q x hq hx
    exact hg.nodes q x hq (hext.nodes q x hq (by rw [hd1 q hq]; exact hx))
  · obtain ⟨used, hu, hun⟩ := hext.pool
    obtain ⟨created, hperm, hcr⟩ := hg.pool
    refine ⟨used ++ created, ?_, ?_⟩
    · have hcount : (b - a) / PGSIZE = (b - (a + PGSIZE)) / PGSIZE + 1 := by
        have := hg.aligned
        unfold PGSIZE at *; omega
      rw [hcount, backing, hfirst a (le_refl a) (by unfold PGSIZE; omega), user_leaf_pa hda hdlt,
        hfl, ← hk1, hu]
      rw [List.perm_iff_count]
      intro x
      have hc := List.perm_iff_count.1 hperm x
      simp only [List.count_append, List.count_cons] at hc ⊢
      omega
    · intro n hn
      rcases List.mem_append.1 hn with h | h
      · obtain ⟨q, hq, h1, h2⟩ := hun n h
        exact ⟨q, hq, hg.nodes q n hq h1, by rw [← hd1 q hq]; exact h2⟩
      · obtain ⟨q, hq, h1, h2⟩ := hcr n h
        refine ⟨q, hq, h1, ?_⟩
        cases h0 : descend k.mem root q with
        | none => rfl
        | some y =>
          rw [hext.nodes q y hq (by rw [hd1 q hq]; exact h0)] at h2
          cases h2

end Xv6

namespace Xv6

theorem kalloc_nil {k : Kernel} (h : k.freelist = []) : kalloc k = (0, k) := by
  unfold kalloc; rw [h]

theorem kalloc_cons {k : Kernel} {d : Nat} {rest : List Nat} (h : k.freelist = d :: rest) :
    kalloc k = (d, ⟨k.mem, rest⟩) := by
  unfold kalloc; rw [h]

/-- The unwinding exit of `uvmalloc` returns 0 in the state `uvmdealloc` leaves. -/
theorem unwind_ok {x : Res Nat} {r : Nat} {k2 : Kernel}
    (h : (match x with
      | .ok _ k1 => Res.ok 0 k1
      | .fatal s => .fatal s
      | .timeout => .timeout) = .ok r k2) : r = 0 ∧ ∃ v, x = .ok v k2 := by
  cases x with
  | ok v k1 =>
    simp only at h
    injection h with h1 h2
    exact ⟨h1.symm, v, by rw [h2]⟩
  | fatal s => cases h
  | timeout => cases h

/-- `mappages` of one page returns 0 or -1, or halts with "remap" or "walk". -/
theorem mappages_page_total {k : Kernel} {root a : Nat} (pa perm : Nat) (hwf : WF k root)
    (ha : a % PGSIZE = 0) (ha64 : a < 2 ^ 64) :
    (∃ rc k2, mappages k root a PGSIZE pa perm = .ok rc k2) ∨
      mappages k root a PGSIZE pa perm = .fatal "remap" ∨
      mappages k root a PGSIZE pa perm = .fatal "walk" := by
  rw [mappages_eq (by decide) (by unfold PGSIZE at *; omega)]
  have e1 : PGROUNDDOWN a = a := by unfold PGROUNDDOWN PGSIZE at *; omega
  have e2 : PGROUNDDOWN (a + PGSIZE - 1) = a := by unfold PGROUNDDOWN PGSIZE at *; omega
  rw [e1, e2, show loopFuel = MAXVA / PGSIZE + 1 from rfl, mappagesLoop]
  by_cases hamax : a < MAXVA
  · obtain ⟨p, k1, hw, _, _, _, _⟩ := walk_true hwf hamax
    rw [hw]
    simp only
    by_cases hp : p = 0
    · rw [if_pos hp]
      exact Or.inl ⟨_, _, rfl⟩
    · rw [if_neg hp]
      by_cases hv : rd64 k1.mem p &&& PTE_V ≠ 0
      · rw [if_pos hv]
        exact Or.inr (Or.inl rfl)
      · rw [if_neg hv]
        simp only [if_true]
        exact Or.inl ⟨_, _, rfl⟩
  · rw [walk_fatal (by omega)]
    exact Or.inr (Or.inr rfl)

/-- The `uvmalloc` loop with enough iterations left: it installs the pages from `a` up
to some `b`, and then either `b` is past `newsz` and it returns `newsz`, or an
allocation failed at `b` and it goes on as `uvmdealloc(pagetable, b, oldsz)` does,
returning 0, or `mappages` halted at `b` with "remap" or "walk". -/
theorem uvmallocLoop_run (root oldsz newsz : Nat) :
    ∀ fuel k a, WF k root → a % PGSIZE = 0 → a < 2 ^ 64 → (MAXVA - a) / PGSIZE < fuel →
      ∃ b kf, Grown k kf root a b ∧
        ((newsz ≤ b ∧ (a < b → b < newsz + PGSIZE) ∧ WF kf root ∧
            uvmallocLoop fuel k root oldsz newsz a = .ok newsz kf) ∨
          (b < newsz ∧ uvmallocLoop fuel k root oldsz newsz a =
            (match uvmdealloc kf root b oldsz with
              | .ok _ k3 => Res.ok 0 k3
              | .fatal s => .fatal s
              | .timeout => .timeout)) ∨
          (b < newsz ∧ (uvmallocLoop fuel k root oldsz newsz a = .fatal "remap" ∨
            uvmallocLoop fuel k root oldsz newsz a = .fatal "walk"))) := by
  intro fuel
  induction fuel with
  | zero => intro k a _ _ _ hf; exact absurd hf (Nat.not_lt_zero _)
  | succ fuel ih =>
    intro k a hwf ha ha64 hfuel
    rw [uvmallocLoop]
    by_cases hlt : a < newsz
    · rw [if_pos hlt]
      cases hfl : k.freelist with
      | nil =>
        rw [kalloc_nil hfl]
        simp only [if_true]
        exact ⟨a, k, Grown.start a ha hwf.1, Or.inr (Or.inl ⟨hlt, rfl⟩)⟩
      | cons d rest =>
        have hdm : d ∈ k.freelist := by rw [hfl]; simp
        obtain ⟨hda, hd0, hdlt⟩ := hwf.2.frame d hdm
        rw [kalloc_cons hfl]
        simp only [if_neg hd0]
        obtain ⟨hwf1, hd1, hl1⟩ := data_frame (memset k.mem d 0 PGSIZE) hwf hfl
          (fun x hx => memset_out _ _ _ _ _ hx)
        rcases mappages_page_total d (PTE_W ||| PTE_X ||| PTE_R ||| PTE_U)
            hwf1 ha ha64 with ⟨rc, km, hm⟩ | hm | hm
        · rw [hm]
          simp only
          obtain ⟨hamax, hwfm, hext, hcase⟩ := mappages_page hwf1 ha ha64 hm
          rcases hcase with ⟨hrc, hinv, hleaf⟩ | ⟨hrc, _, hleaf⟩
          · subst hrc
            simp only [ne_eq, not_true_eq_false, if_false]
            have hstep : (a + PGSIZE) % 2 ^ 64 = a + PGSIZE := by
              apply Nat.mod_eq_of_lt
              unfold PGSIZE MAXVA at *; omega
            rw [hstep]
            obtain ⟨b, kf, hg, hres⟩ := ih km (a + PGSIZE) hwfm
              (by unfold PGSIZE at *; omega) (by unfold PGSIZE MAXVA at *; omega)
              (by unfold PGSIZE MAXVA at *; omega)
            have hab := hg.le
            refine ⟨b, kf, Grown.step ⟨memset k.mem d 0 PGSIZE, rest⟩ hwf hfl ha hamax rfl hd1 hl1
              hext hinv hleaf hg, ?_⟩
            rcases hres with ⟨h1, h2, h3, h4⟩ | h | h
            · refine Or.inl ⟨h1, fun _ => ?_, h3, h4⟩
              by_cases hb : a + PGSIZE < b
              · exact h2 hb
              · omega
            · exact Or.inr (Or.inl h)
            · exact Or.inr (Or.inr h)
          · subst hrc
            simp only [ne_eq, show ¬ ((-1 : Int) = 0) by decide, not_false_eq_true, if_true]
            exact ⟨a, kfree km d,
              Grown.failed ⟨memset k.mem d 0 PGSIZE, rest⟩ hfl ha rfl hd1 hl1 hwfm hext hleaf,
              Or.inr (Or.inl ⟨hlt, rfl⟩)⟩
        · rw [hm]
          exact ⟨a, k, Grown.start a ha hwf.1, Or.inr (Or.inr ⟨hlt, Or.inl rfl⟩)⟩
        · rw [hm]
          exact ⟨a, k, Grown.start a ha hwf.1, Or.inr (Or.inr ⟨hlt, Or.inr rfl⟩)⟩
    · rw [if_neg hlt]
      exact ⟨a, k, Grown.start a ha hwf.1, Or.inl ⟨by omega, fun h => by omega, hwf, rfl⟩⟩

end Xv6

namespace Xv6

theorem backing_mem (m : Mem) (root : Nat) :
    ∀ n a vb, a % PGSIZE = 0 → a ≤ vb → vb < a + n * PGSIZE →
      PTE2PA (leafOf m root vb) ∈ backing m root a n := by
  intro n
  induction n with
  | zero => intro a vb _ h1 h2; omega
  | succ n ih =>
    intro a vb ha h1 h2
    rw [backing]
    by_cases h : vb < a + PGSIZE
    · rw [leafOf_same_page m root vb a (by unfold PGSIZE at *; omega)]
      exact List.mem_cons_self _ _
    · exact List.mem_cons_of_mem _
        (ih (a + PGSIZE) vb (by unfold PGSIZE at *; omega) (by omega) (by
          rw [Nat.add_mul] at h2; omega))

theorem backing_inj (m : Mem) (root : Nat) :
    ∀ n a, a % PGSIZE = 0 → (backing m root a n).Nodup →
      ∀ va vb, a ≤ va → va < a + n * PGSIZE → a ≤ vb → vb < a + n * PGSIZE →
        PTE2PA (leafOf m root va) = PTE2PA (leafOf m root vb) → va / PGSIZE = vb / PGSIZE := by
  intro n
  induction n with
  | zero => intro a _ _ va vb h1 h2; omega
  | succ n ih =>
    intro a ha hnd va vb h1 h2 h3 h4 he
    rw [backing] at hnd
    obtain ⟨hnot, hnd2⟩ := List.nodup_cons.1 hnd
    have ha2 : (a + PGSIZE) % PGSIZE = 0 := by unfold PGSIZE at *; omega
    rw [Nat.add_mul] at h2 h4
    by_cases hva : va < a + PGSIZE
    · by_cases hvb : vb < a + PGSIZE
      · unfold PGSIZE at *; omega
      · exfalso
        apply hnot
        rw [← leafOf_same_page m root va a (by unfold PGSIZE at *; omega), he]
        exact backing_mem m root n (a + PGSIZE) vb ha2 (by omega) (by omega)
    · by_cases hvb : vb < a + PGSIZE
      · exfalso
        apply hnot
        rw [← leafOf_same_page m root vb a (by unfold PGSIZE at *; omega), ← he]
        exact backing_mem m root n (a + PGSIZE) va ha2 (by omega) (by omega)
      · exact ih (a + PGSIZE) ha2 hnd2 va vb (by omega) (by omega) (by omega) (by omega) he

theorem Grown.span {k kf : Kernel} {root a b : Nat} (h : Grown k kf root a b)
    (ha : a % PGSIZE = 0) : a + (b - a) / PGSIZE * PGSIZE = b := by
  have h1 := h.le
  have h2 := h.aligned
  unfold PGSIZE at *
  omega

/-- Growing keeps frames apart: two valid pages never share a frame afterwards. -/
theorem Grown.frames_inj {k kf : Kernel} {root a b : Nat} (h : Grown k kf root a b)
    (ha : a % PGSIZE = 0) (hnd : k.freelist.Nodup) (hfr : FramesOK k root) :
    ∀ va vb, va < MAXVA → vb < MAXVA → leafOf kf.mem root va &&& PTE_V ≠ 0 →
      leafOf kf.mem root vb &&& PTE_V ≠ 0 →
      PTE2PA (leafOf kf.mem root va) = PTE2PA (leafOf kf.mem root vb) →
      va / PGSIZE = vb / PGSIZE := by
  obtain ⟨created, hperm, _⟩ := h.pool
  have hspan := h.span ha
  have hin : ∀ v, a ≤ v → v < b → PTE2PA (leafOf kf.mem root v) ∈ k.freelist := by
    intro v h1 h2
    apply hperm.symm.subset
    apply List.mem_append_left
    apply List.mem_append_left
    exact backing_mem _ _ _ a v ha h1 (by rw [hspan]; exact h2)
  have hbnd : (backing kf.mem root a ((b - a) / PGSIZE)).Nodup := by
    have := (List.Perm.nodup_iff hperm).1 hnd
    exact (List.nodup_append.1 (List.nodup_append.1 this).1).1
  intro va vb hva hvb hv1 hv2 he
  by_cases i1 : a ≤ va ∧ va < b
  · by_cases i2 : a ≤ vb ∧ vb < b
    · exact backing_inj _ _ _ a ha hbnd va vb i1.1 (by rw [hspan]; exact i1.2) i2.1
        (by rw [hspan]; exact i2.2) he
    · exfalso
      have ho := h.outside vb hvb (by omega)
      rw [ho] at hv2
      apply hfr.used vb hvb hv2
      rw [← ho, ← he]
      exact hin va i1.1 i1.2
  · by_cases i2 : a ≤ vb ∧ vb < b
    · exfalso
      have ho := h.outside va hva (by omega)
      rw [ho] at hv1
      apply hfr.used va hva hv1
      rw [← ho, he]
      exact hin vb i2.1 i2.2
    · have o1 := h.outside va hva (by omega)
      have o2 := h.outside vb hvb (by omega)
      rw [o1] at hv1 he
      rw [o2] at hv2 he
      exact hfr.inj va vb hva hvb hv1 hv2 he

theorem PGROUNDUP_aligned (sz : Nat) : PGROUNDUP sz % PGSIZE = 0 := by
  unfold PGROUNDUP PGSIZE; omega

theorem PGROUNDUP_lt (sz : Nat) : PGROUNDUP sz < 2 ^ 64 := by
  unfold PGROUNDUP PGSIZE; omega

theorem flags_user {e : Nat}
    (h : PTE_FLAGS e = PTE_R ||| PTE_W ||| PTE_X ||| PTE_U ||| PTE_V) :
    e &&& PTE_V ≠ 0 ∧ e &&& PTE_U ≠ 0 := by
  rw [PTE_FLAGS_eq, show PTE_R ||| PTE_W ||| PTE_X ||| PTE_U ||| PTE_V = 31 by decide] at h
  rw [and_PTE_V, and_PTE_U]
  omega

/-- C7 (grow postcondition).  In a well-formed state whose allocator hands out unused
frames, whose valid pages hold pairwise distinct frames none of which is free, and whose
pages below round-up(`oldsz`) are resolved by `walkaddr`: when
`uvmalloc(pagetable, oldsz, newsz)` returns `newsz`, `walkaddr` returns a non-zero
physical address for every page-aligned `va` in `[0, newsz)`, the level-0 entry of such a
page is Valid and user-accessible, the pages at or above round-up(`oldsz`) carry exactly
`R|W|X|U|V`, and no two pages of the table below `MAXVA` with a valid entry hold the same
frame. -/
theorem uvmalloc_grow (k k2 : Kernel) (pagetable oldsz newsz : Nat) (hwf : WF k pagetable)
    (hfr : FramesOK k pagetable)
    (hold : ∀ va, va % PGSIZE = 0 → va < PGROUNDUP oldsz →
      ∃ pa, pa ≠ 0 ∧ walkaddr k pagetable va = .ok pa k)
    (h : uvmalloc k pagetable oldsz newsz = .ok newsz k2) :
    (∀ va, va % PGSIZE = 0 → va < newsz →
      ∃ pa, pa ≠ 0 ∧ walkaddr k2 pagetable va = .ok pa k2 ∧
        pa = PTE2PA (leafOf k2.mem pagetable va) ∧
        leafOf k2.mem pagetable va &&& PTE_V ≠ 0 ∧ leafOf k2.mem pagetable va &&& PTE_U ≠ 0 ∧
        (PGROUNDUP oldsz ≤ va → PTE_FLAGS (leafOf k2.mem pagetable va) =
          PTE_R ||| PTE_W ||| PTE_X ||| PTE_U ||| PTE_V)) ∧
    (∀ va vb, va < MAXVA → vb < MAXVA → leafOf k2.mem pagetable va &&& PTE_V ≠ 0 →
      leafOf k2.mem pagetable vb &&& PTE_V ≠ 0 →
      PTE2PA (leafOf k2.mem pagetable va) = PTE2PA (leafOf k2.mem pagetable vb) →
      va / PGSIZE = vb / PGSIZE) := by
  unfold uvmalloc at h
  by_cases hlt : newsz < oldsz
  · rw [if_pos hlt] at h
    injection h with h1 h2
    omega
  · rw [if_neg hlt] at h
    have ha := PGROUNDUP_aligned oldsz
    obtain ⟨b, kf, hg, hres⟩ := uvmallocLoop_run pagetable (PGROUNDUP oldsz) newsz loopFuel k
      (PGROUNDUP oldsz) hwf ha (PGROUNDUP_lt oldsz)
      (by unfold loopFuel PGSIZE MAXVA; omega)
    have hcase : newsz ≤ b ∧ k2 = kf := by
      rcases hres with ⟨h1, _, _, h4⟩ | ⟨h1, h2⟩ | ⟨_, h2 | h2⟩
      · rw [h4] at h
        injection h with _ h6
        exact ⟨h1, h6.symm⟩
      · rw [h2] at h
        have := (unwind_ok h).1
        omega
      · rw [h2] at h; cases h
      · rw [h2] at h; cases h
    obtain ⟨hnb, rfl⟩ := hcase
    refine ⟨?_, hg.frames_inj ha hwf.2.nodup hfr⟩
    intro va hva hvn
    have key : va < MAXVA ∧ leafOf k2.mem pagetable va &&& PTE_V ≠ 0 ∧
        leafOf k2.mem pagetable va &&& PTE_U ≠ 0 ∧ PTE2PA (leafOf k2.mem pagetable va) ≠ 0 ∧
        (PGROUNDUP oldsz ≤ va → PTE_FLAGS (leafOf k2.mem pagetable va) =
          PTE_R ||| PTE_W ||| PTE_X ||| PTE_U ||| PTE_V) := by
      by_cases hin : PGROUNDUP oldsz ≤ va
      · obtain ⟨i1, i2, _⟩ := hg.installed va hin (by omega)
        have hb := hg.below (by omega)
        exact ⟨by omega, (flags_user i1).1, (flags_user i1).2, i2, fun _ => i1⟩
      · obtain ⟨hm, hv, hu, hp⟩ := (walkaddr_mapped_iff hwf.1 va).1 (hold va hva (by omega))
        rw [hg.outside va hm (by omega)]
        exact ⟨hm, hv, hu, hp, fun h => absurd h hin⟩
    obtain ⟨hm, hv, hu, hp, hflags⟩ := key
    refine ⟨PTE2PA (leafOf k2.mem pagetable va), hp, ?_, rfl, hv, hu, hflags⟩
    rw [walkaddr_val hg.table, if_neg (by omega), if_neg hv, if_neg hu]

end Xv6

namespace Xv6

/-! ## `uvmdealloc` and the unwinding of `uvmalloc` -/

theorem intToU64_small {n : Nat} (h : n < 2 ^ 31) : intToU64 n = n := by
  unfold intToU64
  have e : n % 2 ^ 32 = n := Nat.mod_eq_of_lt (by omega)
  rw [e, if_pos h]

theorem PGROUNDUP_of_aligned {x : Nat} (h : x % PGSIZE = 0) (hx : x ≤ MAXVA) :
    PGROUNDUP x = x := by
  unfold PGROUNDUP PGSIZE MAXVA at *
  omega

/-- `uvmdealloc` over a range of pages that all hold a valid entry other than a bare
`PTE_V`: the pages from round-up(`new`) up to round-up(`old`) are removed and their
frames released. -/
theorem uvmdealloc_range (k : Kernel) (root old new : Nat) (hwf : TableWF k.mem root)
    (hlt : PGROUNDUP new < PGROUNDUP old) (hno : new < old) (hmax : PGROUNDUP old ≤ MAXVA)
    (hall : ∀ p, PGROUNDUP new ≤ p → p < PGROUNDUP old →
      leafOf k.mem root p &&& PTE_V ≠ 0 ∧ PTE_FLAGS (leafOf k.mem root p) ≠ PTE_V) :
    ∃ k3, uvmdealloc k root old new = .ok new k3 ∧ TableWF k3.mem root ∧
      (∀ q, IsPath q → descend k3.mem root q = descend k.mem root q) ∧
      (∀ vb, vb < MAXVA → leafOf k3.mem root vb =
        if PGROUNDUP new ≤ vb ∧ vb < PGROUNDUP old then 0 else leafOf k.mem root vb) ∧
      k3.freelist = (backing k.mem root (PGROUNDUP new)
        ((PGROUNDUP old - PGROUNDUP new) / PGSIZE)).reverse ++ k.freelist := by
  have hlo := PGROUNDUP_aligned new
  have hhi := PGROUNDUP_aligned old
  have hspan : PGROUNDUP new + (PGROUNDUP old - PGROUNDUP new) / PGSIZE * PGSIZE
      = PGROUNDUP old := by
    unfold PGSIZE at *; omega
  unfold uvmdealloc
  rw [if_neg (by omega), if_pos hlt]
  simp only
  rw [intToU64_small (by unfold PGSIZE MAXVA at *; omega),
    uvmunmap_eq hlo (by rw [hspan]; exact hmax), hspan]
  obtain ⟨k3, hrun, hwf3, hd, hleaf, hfree, _⟩ :=
    uvmunmapLoop_spec root (PGROUNDUP old) true hhi hmax loopFuel k (PGROUNDUP new) hwf hlo
      (by omega) (by unfold loopFuel PGSIZE MAXVA at *; omega) hall
  rw [hrun]
  refine ⟨k3, rfl, hwf3, hd, hleaf, ?_⟩
  rw [hfree]
  rfl

/-- C8 (grow is atomic on failure).  In a well-formed state and for `oldsz < newsz`,
`uvmalloc(pagetable, oldsz, newsz)` has four outcomes: it returns `newsz`; or
`mappages` halts with "remap" or with "walk"; or, a data-frame allocation or a
`mappages` call having failed, it returns 0, and then every entry below
round-up(`oldsz`) reads as before the call, every entry at or above round-up(`oldsz`)
reads as before or was invalid before and is 0 now (no mapping installed by the call
is left), the nodes of the table are where they were, and the frames the call took
from the allocator are all back in it exactly once, but for those that now are
page-table nodes. -/
theorem uvmalloc_atomic (k : Kernel) (pagetable oldsz newsz : Nat) (hwf : WF k pagetable)
    (hlt : oldsz < newsz) :
    (∃ k2, uvmalloc k pagetable oldsz newsz = .ok newsz k2) ∨
    uvmalloc k pagetable oldsz newsz = .fatal "remap" ∨
    uvmalloc k pagetable oldsz newsz = .fatal "walk" ∨
    ∃ k2, uvmalloc k pagetable oldsz newsz = .ok 0 k2 ∧
      (∀ vb, vb < MAXVA →
        (vb < PGROUNDUP oldsz → leafOf k2.mem pagetable vb = leafOf k.mem pagetable vb) ∧
        (PGROUNDUP oldsz ≤ vb → leafOf k2.mem pagetable vb = leafOf k.mem pagetable vb ∨
          (leafOf k.mem pagetable vb &&& PTE_V = 0 ∧ leafOf k2.mem pagetable vb = 0))) ∧
      (∀ q x, IsPath q → descend k.mem pagetable q = some x →
        descend k2.mem pagetable q = some x) ∧
      ∃ created, List.Perm k.freelist (k2.freelist ++ created) ∧
        ∀ n ∈ created, ∃ q, IsPath q ∧ descend k2.mem pagetable q = some n ∧
          descend k.mem pagetable q = none := by
  have ha := PGROUNDUP_aligned oldsz
  unfold uvmalloc
  rw [if_neg (by omega)]
  obtain ⟨b, kf, hg, hres⟩ := uvmallocLoop_run pagetable (PGROUNDUP oldsz) newsz loopFuel k
    (PGROUNDUP oldsz) hwf ha (PGROUNDUP_lt oldsz) (by unfold loopFuel PGSIZE MAXVA; omega)
  rcases hres with ⟨_, _, _, h4⟩ | ⟨_, h2⟩ | ⟨_, h2 | h2⟩
  · exact Or.inl ⟨kf, h4⟩
  · right; right; right
    rw [h2]
    obtain ⟨created, hperm, hcr⟩ := hg.pool
    by_cases hab : PGROUNDUP oldsz < b
    · have hbm := hg.below hab
      have eb : PGROUNDUP b = b := PGROUNDUP_of_aligned hg.aligned hbm
      have ea : PGROUNDUP (PGROUNDUP oldsz) = PGROUNDUP oldsz :=
        PGROUNDUP_of_aligned ha (by omega)
      obtain ⟨k3, hrun, hwf3, hd, hleaf, hfree⟩ :=
        uvmdealloc_range kf pagetable b (PGROUNDUP oldsz)
          hg.table (by rw [ea, eb]; exact hab) hab (by rw [eb]; exact hbm) (by
            intro p h1 h2
            rw [ea] at h1
            rw [eb] at h2
            obtain ⟨i1, _, _⟩ := hg.installed p h1 h2
            refine ⟨(flags_user i1).1, ?_⟩
            rw [i1]
            decide)
      rw [ea, eb] at hleaf hfree
      rw [hrun]
      refine ⟨k3, rfl, ?_, ?_, created, ?_, ?_⟩
      · intro vb hvb
        rw [hleaf vb hvb]
        constructor
        · intro h
          rw [if_neg (by omega)]
          exact hg.outside vb hvb (Or.inl h)
        · intro h
          by_cases hin : vb < b
          · rw [if_pos ⟨h, hin⟩]
            exact Or.inr ⟨(hg.installed vb h hin).2.2, rfl⟩
          · rw [if_neg (by omega)]
            exact Or.inl (hg.outside vb hvb (by omega))
      · intro q x hq hx
        rw [hd q hq]
        exact hg.nodes q x hq hx
      · rw [hfree]
        rw [List.perm_iff_count]
        intro x
        have hc := List.perm_iff_count.1 hperm x
        simp only [List.count_append, List.count_reverse] at hc ⊢
        omega
      · intro n hn
        obtain ⟨q, hq, h1, h0⟩ := hcr n hn
        exact ⟨q, hq, by rw [hd q hq]; exact h1, h0⟩
    · have hb : b = PGROUNDUP oldsz := by
        have := hg.le
        omega
      subst hb
      have hrun : uvmdealloc kf pagetable (PGROUNDUP oldsz) (PGROUNDUP oldsz) =
          .ok (PGROUNDUP oldsz) kf := by
        unfold uvmdealloc
        rw [if_pos (le_refl _)]
      rw [hrun]
      refine ⟨kf, rfl, ?_, hg.nodes, created, ?_, hcr⟩
      · intro vb hvb
        exact ⟨fun h => hg.outside vb hvb (Or.inl h), fun h => Or.inl (hg.outside vb hvb (Or.inr h))⟩
      · rw [Nat.sub_self, Nat.zero_div] at hperm
        rw [List.perm_iff_count]
        intro x
        have hc := List.perm_iff_count.1 hperm x
        simp only [List.count_append, backing, List.count_nil] at hc ⊢
        omega
  · exact Or.inr (Or.inl h2)
  · exact Or.inr (Or.inr (Or.inl h2))

end Xv6

namespace Xv6

/-! ## Grow, then shrink -/

/-- C9, refuted as stated: growing an empty address space from 0 to one page takes
three frames from the allocator (the data frame and two page-table nodes), and
shrinking back to 0 releases one. -/
theorem grow_shrink_count_differs :
    (uvmalloc (zeroKernel [0x2000, 0x3000, 0x4000, 0x5000]) 0x1000 0 4096).val? = some 4096 ∧
    (uvmdealloc ((uvmalloc (zeroKernel [0x2000, 0x3000, 0x4000, 0x5000]) 0x1000 0 4096).state
      (zeroKernel [])) 0x1000 4096 0).val? = some 0 ∧
    (zeroKernel [0x2000, 0x3000, 0x4000, 0x5000]).freelist.length -
      ((uvmalloc (zeroKernel [0x2000, 0x3000, 0x4000, 0x5000]) 0x1000 0 4096).state
        (zeroKernel [])).freelist.length = 3 ∧
    ((uvmdealloc ((uvmalloc (zeroKernel [0x2000, 0x3000, 0x4000, 0x5000]) 0x1000 0 4096).state
      (zeroKernel [])) 0x1000 4096 0).state (zeroKernel [])).freelist.length -
      ((uvmalloc (zeroKernel [0x2000, 0x3000, 0x4000, 0x5000]) 0x1000 0 4096).state
        (zeroKernel [])).freelist.length = 1 := by
  decide

/-- C9, amended (grow/shrink symmetry).  In a well-formed state in which `walkaddr`
resolves no page at or above round-up(`oldsz`), and for `oldsz <= newsz`: after
`uvmalloc(pagetable, oldsz, newsz)` has returned `newsz`,
`uvmdealloc(pagetable, newsz, oldsz)` returns `oldsz`; it releases exactly the frames
backing the pages from round-up(`oldsz`) to round-up(`newsz`), which together with the
page-table nodes the grow created (they stay in the table) are the frames the grow had
taken from the allocator, so that the number of releases is the number of allocations
less the number of nodes created; and afterwards `walkaddr` returns 0 for every page
at or above round-up(`oldsz`). -/
theorem grow_shrink (k k1 : Kernel) (pagetable oldsz newsz : Nat) (hwf : WF k pagetable)
    (hle : oldsz ≤ newsz)
    (hnone : ∀ va, PGROUNDUP oldsz ≤ va → walkaddr k pagetable va = .ok 0 k)
    (hgrow : uvmalloc k pagetable oldsz newsz = .ok newsz k1) :
    ∃ k2, uvmdealloc k1 pagetable newsz oldsz = .ok oldsz k2 ∧
      k2.freelist = (backing k1.mem pagetable (PGROUNDUP oldsz)
        ((PGROUNDUP newsz - PGROUNDUP oldsz) / PGSIZE)).reverse ++ k1.freelist ∧
      (∃ created, List.Perm k.freelist (backing k1.mem pagetable (PGROUNDUP oldsz)
          ((PGROUNDUP newsz - PGROUNDUP oldsz) / PGSIZE) ++ created ++ k1.freelist) ∧
        (∀ n ∈ created, ∃ q, IsPath q ∧ descend k2.mem pagetable q = some n ∧
          descend k.mem pagetable q = none) ∧
        k2.freelist.length - k1.freelist.length + created.length =
          k.freelist.length - k1.freelist.length) ∧
      ∀ va, PGROUNDUP oldsz ≤ va → walkaddr k2 pagetable va = .ok 0 k2 := by
  have ha := PGROUNDUP_aligned oldsz
  unfold uvmalloc at hgrow
  rw [if_neg (by omega)] at hgrow
  obtain ⟨b, kf, hg, hres⟩ := uvmallocLoop_run pagetable (PGROUNDUP oldsz) newsz loopFuel k
    (PGROUNDUP oldsz) hwf ha (PGROUNDUP_lt oldsz) (by unfold loopFuel PGSIZE MAXVA; omega)
  have hcase : newsz ≤ b ∧ (PGROUNDUP oldsz < b → b < newsz + PGSIZE) ∧ k1 = kf := by
    rcases hres with ⟨h1, h2, _, h4⟩ | ⟨h1, h2⟩ | ⟨_, h2 | h2⟩
    · rw [h4] at hgrow
      injection hgrow with _ h6
      exact ⟨h1, h2, h6.symm⟩
    · rw [h2] at hgrow
      have := (unwind_ok hgrow).1
      omega
    · rw [h2] at hgrow; cases hgrow
    · rw [h2] at hgrow; cases hgrow
  obtain ⟨hnb, hb2, rfl⟩ := hcase
  obtain ⟨created, hperm, hcr⟩ := hg.pool
  have hbal := hg.aligned
  -- the range the grow installed is the range the shrink removes
  have hrange : (PGROUNDUP oldsz < b ∧ b = PGROUNDUP newsz ∧ oldsz < newsz ∧ b ≤ MAXVA) ∨
      (b = PGROUNDUP oldsz ∧ PGROUNDUP newsz ≤ PGROUNDUP oldsz) := by
    by_cases hab : PGROUNDUP oldsz < b
    · left
      have h1 := hb2 hab
      have h2 := hg.below hab
      refine ⟨hab, ?_, ?_, h2⟩
      · unfold PGROUNDUP PGSIZE MAXVA at *; omega
      · unfold PGROUNDUP PGSIZE MAXVA at *; omega
    · right
      have h1 := hg.le
      have hb : b = PGROUNDUP oldsz := by omega
      refine ⟨hb, ?_⟩
      rw [hb] at hnb
      unfold PGROUNDUP PGSIZE at *; omega
  have hzero : ∀ (k2 : Kernel), TableWF k2.mem pagetable →
      (∀ vb, vb < MAXVA → leafOf k2.mem pagetable vb =
        if PGROUNDUP oldsz ≤ vb ∧ vb < b then 0 else leafOf k1.mem pagetable vb) →
      ∀ va, PGROUNDUP oldsz ≤ va → walkaddr k2 pagetable va = .ok 0 k2 := by
    intro k2 hwf2 hleaf va hva
    by_cases hm : MAXVA ≤ va
    · rw [walkaddr_val hwf2, if_pos hm]
    · by_cases hin : va < b
      · have hl : leafOf k2.mem pagetable va = 0 := by
          rw [hleaf va (by omega), if_pos ⟨hva, hin⟩]
        rw [walkaddr_val hwf2, if_neg hm, hl, if_pos (by decide)]
      · have hl : leafOf k2.mem pagetable va = leafOf k.mem pagetable va := by
          rw [hleaf va (by omega), if_neg (by omega), hg.outside va (by omega) (by omega)]
        have h0 := hnone va hva
        rw [walkaddr_val hwf.1] at h0
        injection h0 with h1 _
        rw [walkaddr_val hwf2, hl, h1]
  rcases hrange with ⟨hab, hbe, hlt, hbm⟩ | ⟨hbe, hle2⟩
  · obtain ⟨k3, hrun, hwf3, hd, hleaf, hfree⟩ :=
      uvmdealloc_range k1 pagetable newsz oldsz hg.table (by rw [← hbe]; exact hab) hlt
        (by rw [← hbe]; exact hbm) (by
          intro p h1 h2
          rw [← hbe] at h2
          obtain ⟨i1, _, _⟩ := hg.installed p h1 h2
          refine ⟨(flags_user i1).1, ?_⟩
          rw [i1]
          decide)
    rw [← hbe] at hleaf hfree
    refine ⟨k3, hrun, by rw [← hbe]; exact hfree, ⟨created, by rw [← hbe]; exact hperm, ?_, ?_⟩,
      hzero k3 hwf3 hleaf⟩
    · intro n hn
      obtain ⟨q, hq, h1, h0⟩ := hcr n hn
      exact ⟨q, hq, by rw [hd q hq]; exact h1, h0⟩
    · rw [hfree]
      have hl := hperm.length_eq
      simp only [List.length_append, List.length_reverse] at hl ⊢
      omega
  · subst hbe
    have hn0 : (PGROUNDUP newsz - PGROUNDUP oldsz) / PGSIZE = 0 := by
      rw [Nat.sub_eq_zero_of_le hle2, Nat.zero_div]
    have hrun : uvmdealloc k1 pagetable newsz oldsz = .ok oldsz k1 := by
      unfold uvmdealloc
      by_cases he : oldsz ≥ newsz
      · rw [if_pos he]
        have : oldsz = newsz := by omega
        rw [this]
      · rw [if_neg he, if_neg (by omega)]
    rw [Nat.sub_self, Nat.zero_div] at hperm
    refine ⟨k1, hrun, by rw [hn0]; rfl, ⟨created, by rw [hn0]; exact hperm, hcr, ?_⟩,
      hzero k1 hg.table (fun vb _ => by rw [if_neg (by omega)])⟩
    have hl := hperm.length_eq
    simp only [List.length_append, backing, List.length_nil] at hl ⊢
    omega

/-! ## Concrete runs of `uvmalloc` and `uvmdealloc` -/

theorem leafOf_zeroKernel (free : List Nat) (root va : Nat) :
    leafOf (zeroKernel free).mem root va = 0 := by
  unfold leafOf entryAt
  rw [descend_cons]
  have h : rd64 (zeroKernel free).mem (root + 8 * PX 2 va) = 0 := rd64_zero _
  rw [h]
  rfl

theorem FramesOK_zeroKernel (free : List Nat) (root : Nat) : FramesOK (zeroKernel free) root := by
  constructor
  · intro va vb _ _ h
    rw [leafOf_zeroKernel] at h
    exact absurd rfl h
  · intro va _ h
    rw [leafOf_zeroKernel] at h
    exact absurd rfl h

theorem walkaddr_zeroKernel {free : List Nat} {root : Nat}
    (hwf : TableWF (zeroKernel free).mem root) (va : Nat) :
    walkaddr (zeroKernel free) root va = .ok 0 (zeroKernel free) := by
  rw [walkaddr_val hwf, leafOf_zeroKernel]
  simp

theorem WF_fiveFrames : WF fiveFrames 0x1000 :=
  WF_zeroKernel (by decide) (by decide) (by decide) (by decide)

theorem WF_threeFrames : WF threeFrames 0x1000 :=
  WF_zeroKernel (by decide) (by decide) (by decide) (by decide)

theorem grownKernel_eq : uvmalloc fiveFrames 0x1000 0 8192 = .ok 8192 grownKernel :=
  Res.eq_ok_of_val (zeroKernel []) (by decide)

/-- Witness of C7: the second page of an address space grown from nothing to two
pages. -/
theorem uvmalloc_grow_witness :
    WF fiveFrames 0x1000 ∧ uvmalloc fiveFrames 0x1000 0 8192 = .ok 8192 grownKernel ∧
    ∃ pa, pa ≠ 0 ∧ walkaddr grownKernel 0x1000 4096 = .ok pa grownKernel ∧
      pa = PTE2PA (leafOf grownKernel.mem 0x1000 4096) ∧
      leafOf grownKernel.mem 0x1000 4096 &&& PTE_V ≠ 0 ∧
      leafOf grownKernel.mem 0x1000 4096 &&& PTE_U ≠ 0 ∧
      (PGROUNDUP 0 ≤ 4096 → PTE_FLAGS (leafOf grownKernel.mem 0x1000 4096) =
        PTE_R ||| PTE_W ||| PTE_X ||| PTE_U ||| PTE_V) :=
  ⟨WF_fiveFrames, grownKernel_eq,
    (uvmalloc_grow fiveFrames grownKernel 0x1000 0 8192 WF_fiveFrames
      (FramesOK_zeroKernel _ _) (fun va _ h => absurd h (Nat.not_lt_zero va)) grownKernel_eq).1
      4096 (by decide) (by decide)⟩

/-- Witness of C8: with three free frames the grow to two pages fails at the second
data frame. -/
theorem uvmalloc_atomic_witness :
    (uvmalloc threeFrames 0x1000 0 8192).val? = some 0 ∧
    ((∃ k2, uvmalloc threeFrames 0x1000 0 8192 = .ok 8192 k2) ∨
    uvmalloc threeFrames 0x1000 0 8192 = .fatal "remap" ∨
    uvmalloc threeFrames 0x1000 0 8192 = .fatal "walk" ∨
    ∃ k2, uvmalloc threeFrames 0x1000 0 8192 = .ok 0 k2 ∧
      (∀ vb, vb < MAXVA →
        (vb < PGROUNDUP 0 → leafOf k2.mem 0x1000 vb = leafOf threeFrames.mem 0x1000 vb) ∧
        (PGROUNDUP 0 ≤ vb → leafOf k2.mem 0x1000 vb = leafOf threeFrames.mem 0x1000 vb ∨
          (leafOf threeFrames.mem 0x1000 vb &&& PTE_V = 0 ∧ leafOf k2.mem 0x1000 vb = 0))) ∧
      (∀ q x, IsPath q → descend threeFrames.mem 0x1000 q = some x →
        descend k2.mem 0x1000 q = some x) ∧
      ∃ created, List.Perm threeFrames.freelist (k2.freelist ++ created) ∧
        ∀ n ∈ created, ∃ q, IsPath q ∧ descend k2.mem 0x1000 q = some n ∧
          descend threeFrames.mem 0x1000 q = none) :=
  ⟨by decide, uvmalloc_atomic threeFrames 0x1000 0 8192 WF_threeFrames (by decide)⟩

/-- Witness of C9: two pages grown from nothing and shrunk back to nothing. -/
theorem grow_shrink_witness :
    uvmalloc fiveFrames 0x1000 0 8192 = .ok 8192 grownKernel ∧
    ∃ k2, uvmdealloc grownKernel 0x1000 8192 0 = .ok 0 k2 ∧
      k2.freelist = (backing grownKernel.mem 0x1000 (PGROUNDUP 0)
        ((PGROUNDUP 8192 - PGROUNDUP 0) / PGSIZE)).reverse ++ grownKernel.freelist ∧
      ∀ va, PGROUNDUP 0 ≤ va → walkaddr k2 0x1000 va = .ok 0 k2 :=
  match grow_shrink fiveFrames grownKernel 0x1000 0 8192 WF_fiveFrames (by decide)
      (fun va _ => walkaddr_zeroKernel WF_fiveFrames.1 va) grownKernel_eq with
  | ⟨k2, h1, h2, _, h4⟩ => ⟨grownKernel_eq, k2, h1, h2, h4⟩

end Xv6

namespace Xv6

/-! ## `uvmcopy` -/

theorem Keeps.krefl (k : Kernel) (root : Nat) : Keeps k k root :=
  fun _ h => ⟨h, fun _ _ _ => rfl⟩

theorem Keeps.ktrans {k k1 k2 : Kernel} {root : Nat} (h1 : Keeps k k1 root)
    (h2 : Keeps k1 k2 root) : Keeps k k2 root := by
  intro f hf
  obtain ⟨p1, b1⟩ := h1 f hf
  obtain ⟨p2, b2⟩ := h2 f p1
  exact ⟨p2, fun x hx1 hx2 => (b2 x hx1 hx2).trans (b1 x hx1 hx2)⟩

/-- Writing into the first free frame, taken as a data frame, keeps every protected
frame. -/
theorem keeps_data_frame {k : Kernel} (m2 : Mem) {root d : Nat} {rest : List Nat}
    (hwf : WF k root) (hfl : k.freelist = d :: rest)
    (H : ∀ x, x < d ∨ d + PGSIZE ≤ x → m2 x = k.mem x) : Keeps k ⟨m2, rest⟩ root := by
  have hdm : d ∈ k.freelist := by rw [hfl]; simp
  obtain ⟨_, hd, _⟩ := data_frame m2 hwf hfl H
  intro f hf
  refine ⟨⟨hf.aligned, ?_, ?_⟩, ?_⟩
  · intro h
    exact hf.used (by rw [hfl]; exact List.mem_cons_of_mem _ h)
  · intro q hq
    show descend m2 root q ≠ some f
    rw [hd q hq]
    exact hf.apart q hq
  · intro x h1 h2
    apply H
    have := page_disjoint hf.aligned (hwf.2.frame d hdm).1 (fun e => hf.used (e ▸ hdm))
    omega

/-- Node creation and stores into level-0 slots keep every protected frame. -/
theorem keeps_ext {k k2 : Kernel} {root : Nat} (hwf : WF k root) (hext : Ext k k2 root) :
    Keeps k k2 root := by
  intro f hf
  refine ⟨⟨hf.aligned, fun h => hf.used (hext.esub f h), ?_⟩, ?_⟩
  · intro q hq h
    rcases hext.origin q f hq h with h1 | h1
    · exact hf.apart q hq h1
    · exact hf.used h1
  · intro x h1 h2
    apply hext.bytes
    · intro q n hq hn
      have := page_disjoint hf.aligned (descend_aligned hwf.1.root_aligned q n hn)
        (fun e => hf.apart q hq (e ▸ hn))
      omega
    · intro g hg
      have := page_disjoint hf.aligned (hwf.2.frame g hg).1 (fun e => hf.used (e ▸ hg))
      omega

/-- The source table reads the same in every state that keeps the protected frames. -/
theorem SourceOK.stable {k k2 : Kernel} {old new : Nat} (hs : SourceOK k old new)
    (hk : Keeps k k2 new) :
    (∀ q, IsPath q → descend k2.mem old q = descend k.mem old q) ∧
    (∀ vb, leafOf k2.mem old vb = leafOf k.mem old vb) ∧ SourceOK k2 old new := by
  have agree : ∀ q n, IsPath q → descend k.mem old q = some n →
      ∀ x, n ≤ x → x < n + PGSIZE → k2.mem x = k.mem x :=
    fun q n hq hn => (hk n (hs.nodes q n hq hn)).2
  have hd := descend_of_agree hs.root_aligned (fun q n hq _ hn => agree q n hq hn)
  have hl : ∀ vb, leafOf k2.mem old vb = leafOf k.mem old vb := fun vb =>
    entryAt_of_agree hs.root_aligned agree _ _ _ (PX_lt 2 vb) (PX_lt 1 vb) (PX_lt 0 vb)
  refine ⟨hd, hl, hs.root_aligned, ?_, ?_⟩
  · intro q n hq hn
    rw [hd q hq] at hn
    exact (hk n (hs.nodes q n hq hn)).1
  · intro vb hvb hv
    rw [hl vb] at hv ⊢
    exact (hk _ (hs.frames vb hvb hv)).1

theorem lor_one_of_odd {x : Nat} (h : x % 2 = 1) : x ||| PTE_V = x := by
  apply Nat.eq_of_testBit_eq
  intro i
  rw [Nat.testBit_or]
  cases i with
  | zero => simp [Nat.testBit_zero, h]
  | succ i =>
    have : Nat.testBit PTE_V (i + 1) = false := by
      rw [Nat.testBit_succ]
      show Nat.testBit 0 i = false
      exact Nat.zero_testBit i
    rw [this, Bool.or_false]

/-- The leaf `uvmcopy` installs for frame `d` with the flags of a valid entry `e`. -/
theorem copy_leaf {d e : Nat} (hd : d % PGSIZE = 0) (hlt : d < 2 ^ 64)
    (hv : e &&& PTE_V ≠ 0) :
    PTE_FLAGS ((PA2PTE d ||| PTE_FLAGS e ||| PTE_V) % 2 ^ 64) = PTE_FLAGS e ∧
    PTE2PA ((PA2PTE d ||| PTE_FLAGS e ||| PTE_V) % 2 ^ 64) = d := by
  have hf : PTE_FLAGS e < 1024 := by rw [PTE_FLAGS_eq]; omega
  have hodd : PTE_FLAGS e % 2 = 1 := by
    rw [and_PTE_V] at hv
    rw [PTE_FLAGS_eq]; omega
  rw [flags_leaf_eq hd hlt hf, lor_one_of_odd hodd]
  constructor
  · rw [PTE_FLAGS_eq (d / 4096 * 1024 + PTE_FLAGS e)]
    omega
  · rw [PTE2PA_eq]
    unfold PGSIZE at hd
    omega

/-- One page copied: the fresh frame `d` has received the bytes at `pa` and has been
installed at `i` in the destination table. -/
theorem copy_step {k km : Kernel} {new i d pa flags : Nat} {rest : List Nat}
    (hwf : WF k new) (hfl : k.freelist = d :: rest) (hi : i % PGSIZE = 0) (hi64 : i < 2 ^ 64)
    (hm : mappages ⟨memmove k.mem d pa PGSIZE, rest⟩ new i PGSIZE d flags = .ok 0 km) :
    i < MAXVA ∧ WF km new ∧ Keeps k km new ∧ Protected km new d ∧
    (∀ t, t < PGSIZE → km.mem (d + t) = k.mem (pa + t)) ∧
    (∀ vb, vb < MAXVA → leafOf km.mem new vb =
      if vb / PGSIZE = i / PGSIZE then (PA2PTE d ||| flags ||| PTE_V) % 2 ^ 64
      else leafOf k.mem new vb) ∧
    ∀ g ∈ km.freelist, g ∈ rest := by
  have hdm : d ∈ k.freelist := by rw [hfl]; simp
  obtain ⟨hda, _, _⟩ := hwf.2.frame d hdm
  have hout : ∀ x, x < d ∨ d + PGSIZE ≤ x → memmove k.mem d pa PGSIZE x = k.mem x :=
    fun x hx => memmove_out _ _ _ _ _ hx
  obtain ⟨hwf1, hd1, hl1⟩ := data_frame (memmove k.mem d pa PGSIZE) hwf hfl hout
  have hk1 := keeps_data_frame (memmove k.mem d pa PGSIZE) hwf hfl hout
  obtain ⟨himax, hwfm, hext, hcase⟩ := mappages_page hwf1 hi hi64 hm
  have hk2 := keeps_ext hwf1 hext
  have hnd := hwf.2.nodup
  rw [hfl] at hnd
  have hpd : Protected ⟨memmove k.mem d pa PGSIZE, rest⟩ new d := by
    refine ⟨hda, (List.nodup_cons.1 hnd).1, ?_⟩
    intro q hq
    show descend (memmove k.mem d pa PGSIZE) new q ≠ some d
    rw [hd1 q hq]
    exact hwf.2.fresh d hdm q hq
  obtain ⟨hpd2, hbytes⟩ := hk2 d hpd
  refine ⟨himax, hwfm, hk1.ktrans hk2, hpd2, ?_, ?_, fun g hg => hext.esub g hg⟩
  · intro t ht
    rw [hbytes (d + t) (by omega) (by omega)]
    exact memmove_in _ _ _ _ _ ht
  · rcases hcase with ⟨_, _, hleaf⟩ | ⟨hrc, _⟩
    · intro vb hvb
      rw [hleaf vb hvb, hl1]
    · cases hrc

end Xv6

namespace Xv6

/-- The `err:` exit of `uvmcopy` never returns 0. -/
theorem unwind_copy_ne {x : Res Unit} {k2 : Kernel}
    (h : (match x with
      | .ok _ k4 => Res.ok (-1 : Int) k4
      | .fatal s => .fatal s
      | .timeout => .timeout) = .ok 0 k2) : False := by
  cases x with
  | ok v k1 =>
    simp only at h
    injection h with h1 _
    exact absurd h1 (by decide)
  | fatal s => cases h
  | timeout => cases h

/-- The `uvmcopy` loop, when it returns 0: every protected frame is kept, the
destination entries below `i` are as before, and each page from `i` up to `sz` has a
valid source entry and a destination entry with the same flags and a frame, free
before, that holds the bytes of the source frame. -/
theorem uvmcopyLoop_ok (old new sz : Nat) :
    ∀ fuel k i k2, WF k new → SourceOK k old new → i % PGSIZE = 0 → i < 2 ^ 64 →
      uvmcopyLoop fuel k old new sz i = .ok 0 k2 →
      WF k2 new ∧ Keeps k k2 new ∧
      (∀ vb, vb < MAXVA → vb < i → leafOf k2.mem new vb = leafOf k.mem new vb) ∧
      (∀ va, va % PGSIZE = 0 → i ≤ va → va < sz →
        va < MAXVA ∧ leafOf k.mem old va &&& PTE_V ≠ 0 ∧
        PTE_FLAGS (leafOf k2.mem new va) = PTE_FLAGS (leafOf k.mem old va) ∧
        PTE2PA (leafOf k2.mem new va) ∈ k.freelist ∧
        ∀ t, t < PGSIZE →
          k2.mem (PTE2PA (leafOf k2.mem new va) + t) =
            k.mem (PTE2PA (leafOf k.mem old va) + t)) := by
  intro fuel
  induction fuel with
  | zero =>
    intro k i k2 _ _ _ _ h
    rw [uvmcopyLoop] at h
    cases h
  | succ fuel ih =>
    intro k i k2 hwf hsrc hi hi64 h
    rw [uvmcopyLoop] at h
    by_cases hlt : i < sz
    · rw [if_pos hlt] at h
      by_cases himax : i < MAXVA
      · rw [walk_false himax] at h
        simp only at h
        cases hs : slotOf k.mem old i with
        | none =>
          rw [hs] at h
          simp only [if_true] at h
          cases h
        | some s =>
          rw [hs] at h
          simp only at h
          by_cases hs0 : s = 0
          · rw [if_pos hs0] at h; cases h
          · rw [if_neg hs0] at h
            by_cases hinv : rd64 k.mem s &&& PTE_V = 0
            · rw [if_pos hinv] at h; cases h
            · rw [if_neg hinv] at h
              have hleafo : leafOf k.mem old i = rd64 k.mem s := leafOf_of_slot hs
              cases hfl : k.freelist with
              | nil =>
                rw [kalloc_nil hfl] at h
                simp only [if_true] at h
                exact absurd h (fun h => unwind_copy_ne h)
              | cons d rest =>
                have hdm : d ∈ k.freelist := by rw [hfl]; simp
                obtain ⟨hda, hd0, hdlt⟩ := hwf.2.frame d hdm
                rw [kalloc_cons hfl] at h
                simp only [if_neg hd0] at h
                cases hm : mappages ⟨memmove k.mem d (PTE2PA (rd64 k.mem s)) PGSIZE, rest⟩ new i
                    PGSIZE d (PTE_FLAGS (rd64 k.mem s)) with
                | ok rc km =>
                  rw [hm] at h
                  simp only at h
                  by_cases hrc : rc = 0
                  · subst hrc
                    simp only [ne_eq, not_true_eq_false, if_false] at h
                    obtain ⟨_, hwfm, hkeep, hpd, hbytes, hleaf, hsub⟩ :=
                      copy_step hwf hfl hi hi64 hm
                    obtain ⟨hdo, hlo, hsrcm⟩ := hsrc.stable hkeep
                    have hstep : (i + PGSIZE) % 2 ^ 64 = i + PGSIZE := by
                      apply Nat.mod_eq_of_lt
                      unfold PGSIZE MAXVA at *; omega
                    rw [hstep] at h
                    obtain ⟨hwf2, hkeep2, hpre, hpost⟩ := ih km (i + PGSIZE) k2 hwfm hsrcm
                      (by unfold PGSIZE at *; omega) (by unfold PGSIZE MAXVA at *; omega) h
                    refine ⟨hwf2, hkeep.ktrans hkeep2, ?_, ?_⟩
                    · intro vb hvb hvi
                      rw [hpre vb hvb (by omega), hleaf vb hvb,
                        if_neg (by unfold PGSIZE at *; omega)]
                    · intro va hva h1 h2
                      by_cases hfirst : va = i
                      · subst hfirst
                        have hl2 : leafOf k2.mem new va =
                            (PA2PTE d ||| PTE_FLAGS (rd64 k.mem s) ||| PTE_V) % 2 ^ 64 := by
                          rw [hpre va himax (by unfold PGSIZE; omega), hleaf va himax, if_pos rfl]
                        obtain ⟨c1, c2⟩ := copy_leaf hda hdlt hinv
                        rw [hl2, hleafo, c1, c2]
                        refine ⟨himax, hinv, rfl, List.mem_cons_self _ _, ?_⟩
                        intro t ht
                        rw [(hkeep2 d hpd).2 (d + t) (by omega) (by omega)]
                        exact hbytes t ht
                      · obtain ⟨p1, p2, p3, p4, p5⟩ := hpost va hva
                          (by unfold PGSIZE at *; omega) h2
                        rw [hlo va] at p2 p3 p5
                        refine ⟨p1, p2, p3, ?_, ?_⟩
                        · exact List.mem_cons_of_mem _ (hsub _ p4)
                        · intro t ht
                          rw [p5 t ht]
                          exact (hkeep _ (hsrc.frames va p1 p2)).2 _ (by omega) (by omega)
                  · rw [if_pos hrc] at h
                    exact absurd h (fun h => unwind_copy_ne h)
                | fatal msg => rw [hm] at h; cases h
                | timeout => rw [hm] at h; cases h
      · rw [walk_fatal (by omega)] at h
        cases h
    · rw [if_neg hlt] at h
      injection h with _ h2
      subst h2
      refine ⟨hwf, Keeps.krefl k new, fun _ _ _ => rfl, ?_⟩
      intro va _ h1 h2
      omega

end Xv6

namespace Xv6

theorem wr8_other (m : Mem) (a v x : Nat) (h : x ≠ a) : wr8 m a v x = m x := by
  unfold wr8
  rw [if_neg h]

/-- A byte store into a frame that is no node of a table leaves the table as it is. -/
theorem wr8_leaf {m : Mem} {root f t : Nat} (hwf : TableWF m root) (hf : f % PGSIZE = 0)
    (hfresh : ∀ p, IsPath p → descend m root p ≠ some f) (ht : t < PGSIZE) (v vb : Nat) :
    leafOf (wr8 m (f + t) v) root vb = leafOf m root vb :=
  (frame_store hwf hf hfresh (fun x hx => wr8_other m (f + t) v x (by omega))).2.1 vb

/-- C10 (duplicate gives an independent deep copy).  Let the destination table `new` be
well-formed with an allocator that hands out unused frames, and let the source table
`old` be well-formed, its nodes and the frames of its valid pages being neither free nor
nodes of `new`.  When `uvmcopy(old, new, sz)` returns 0, then for every page-aligned
`va < sz`: the source entry is unchanged and valid; the entry of `new` has the same flag
bits as the entry of `old`; its frame differs from every frame held by a valid entry of
`old`; and that frame holds the same `PGSIZE` bytes as the frame of `old`.  Consequently
a byte stored through the frame of `new` changes no entry of `old` and no byte of a frame
of `old`, and a byte stored through a frame of `old` changes no entry of `new` and no
byte of the frame of `new`. -/
theorem uvmcopy_independent (k k2 : Kernel) (old new sz : Nat) (hwf : WF k new)
    (hold : TableWF k.mem old) (hsrc : SourceOK k old new)
    (h : uvmcopy k old new sz = .ok 0 k2) (va : Nat) (hva : va % PGSIZE = 0)
    (hsz : va < sz) :
    leafOf k2.mem old va = leafOf k.mem old va ∧ leafOf k2.mem old va &&& PTE_V ≠ 0 ∧
    PTE_FLAGS (leafOf k2.mem new va) = PTE_FLAGS (leafOf k2.mem old va) ∧
    (∀ vb, vb < MAXVA → leafOf k2.mem old vb &&& PTE_V ≠ 0 →
      PTE2PA (leafOf k2.mem new va) ≠ PTE2PA (leafOf k2.mem old vb)) ∧
    (∀ t, t < PGSIZE → k2.mem (PTE2PA (leafOf k2.mem new va) + t) =
      k2.mem (PTE2PA (leafOf k2.mem old va) + t)) ∧
    (∀ vb t u x, vb < MAXVA → leafOf k2.mem old vb &&& PTE_V ≠ 0 → t < PGSIZE → u < PGSIZE →
      (∀ vc, leafOf (wr8 k2.mem (PTE2PA (leafOf k2.mem new va) + t) x) old vc =
        leafOf k2.mem old vc) ∧
      wr8 k2.mem (PTE2PA (leafOf k2.mem new va) + t) x (PTE2PA (leafOf k2.mem old vb) + u) =
        k2.mem (PTE2PA (leafOf k2.mem old vb) + u) ∧
      (∀ vc, leafOf (wr8 k2.mem (PTE2PA (leafOf k2.mem old vb) + u) x) new vc =
        leafOf k2.mem new vc) ∧
      wr8 k2.mem (PTE2PA (leafOf k2.mem old vb) + u) x (PTE2PA (leafOf k2.mem new va) + t) =
        k2.mem (PTE2PA (leafOf k2.mem new va) + t)) := by
  unfold uvmcopy at h
  obtain ⟨hwf2, hkeep, _, hpost⟩ := uvmcopyLoop_ok old new sz loopFuel k 0 k2 hwf hsrc
    (by decide) (by decide) h
  obtain ⟨hdo, hlo, hsrc2⟩ := hsrc.stable hkeep
  obtain ⟨hvm, hv, hflags, hmem, hbytes⟩ := hpost va hva (Nat.zero_le va) hsz
  have hold2 : TableWF k2.mem old := hold.table_of_descend hdo
  -- the frame of `new` was free before the call, the frames of `old` were not
  have hne : ∀ vb, vb < MAXVA → leafOf k2.mem old vb &&& PTE_V ≠ 0 →
      PTE2PA (leafOf k2.mem new va) ≠ PTE2PA (leafOf k2.mem old vb) := by
    intro vb hvb hvv e
    rw [hlo vb] at hvv e
    exact (hsrc.frames vb hvb hvv).used (e ▸ hmem)
  have hnode : ∀ p, IsPath p → descend k2.mem old p ≠ some (PTE2PA (leafOf k2.mem new va)) := by
    intro p hp e
    rw [hdo p hp] at e
    exact (hsrc.nodes p _ hp e).used hmem
  refine ⟨hlo va, by rw [hlo va]; exact hv, by rw [hlo va]; exact hflags, hne, ?_, ?_⟩
  · intro t ht
    rw [hbytes t ht, hlo va]
    exact ((hkeep _ (hsrc.frames va hvm hv)).2 _ (by omega) (by omega)).symm
  · intro vb t u x hvb hvv ht hu
    have hd := page_disjoint (PTE2PA_aligned (leafOf k2.mem new va))
      (PTE2PA_aligned (leafOf k2.mem old vb)) (hne vb hvb hvv)
    refine ⟨fun vc => wr8_leaf hold2 (PTE2PA_aligned _) hnode ht x vc,
      wr8_other _ _ _ _ (by omega), fun vc => ?_, wr8_other _ _ _ _ (by omega)⟩
    exact wr8_leaf hwf2.1 (PTE2PA_aligned _) (hsrc2.frames vb hvb hvv).apart hu x vc

end Xv6

namespace Xv6

/-! ## A concrete copy -/

theorem copySource_eq :
    mappages (zeroKernel [0x2000, 0x3000, 0x5000, 0x6000, 0x7000]) 0x1000 0 4096 0x9000 31 =
      .ok 0 copySource :=
  Res.eq_ok_of_val (zeroKernel []) (by decide)

theorem copySource_facts :
    WF copySource 0x1000 ∧
    Ext (zeroKernel [0x2000, 0x3000, 0x5000, 0x6000, 0x7000]) copySource 0x1000 ∧
    ∀ vb, vb < MAXVA → leafOf copySource.mem 0x1000 vb =
      if vb / PGSIZE = 0 / PGSIZE then (PA2PTE 0x9000 ||| 31 ||| PTE_V) % 2 ^ 64 else 0 := by
  have hwf0 : WF (zeroKernel [0x2000, 0x3000, 0x5000, 0x6000, 0x7000]) 0x1000 :=
    WF_zeroKernel (by decide) (by decide) (by decide) (by decide)
  obtain ⟨_, hwf, hext, hcase⟩ := mappages_page hwf0 (by decide) (by decide) copySource_eq
  refine ⟨hwf, hext, ?_⟩
  rcases hcase with ⟨_, _, hleaf⟩ | ⟨hrc, _⟩
  · intro vb hvb
    rw [hleaf vb hvb, leafOf_zeroKernel]
  · cases hrc

/-- The only node of the table at `0x1000` before the page was installed. -/
theorem zero_nodes (free : List Nat) (root : Nat) :
    ∀ p n, IsPath p → descend (zeroKernel free).mem root p = some n → p = [] ∧ n = root :=
  descend_empty (fun i _ => by
    show rd64 (fun _ => 0) _ &&& PTE_V = 0
    rw [rd64_zero]; rfl)

/-- The page at `0xA000` is still zero in `copySource`: an empty table. -/
theorem copySource_empty (i : Nat) (hi : i < 512) :
    rd64 copySource.mem (0xA000 + 8 * i) &&& PTE_V = 0 := by
  obtain ⟨_, hext, _⟩ := copySource_facts
  have hz : rd64 copySource.mem (0xA000 + 8 * i) = 0 := by
    rw [← rd64_zero (0xA000 + 8 * i)]
    apply rd64_congr
    intro t ht
    apply hext.bytes
    · intro q n hq hn
      obtain ⟨_, rfl⟩ := zero_nodes _ _ q n hq hn
      unfold PGSIZE; omega
    · intro f hf
      have : f = 0x2000 ∨ f = 0x3000 ∨ f = 0x5000 ∨ f = 0x6000 ∨ f = 0x7000 := by
        simpa [zeroKernel] using hf
      unfold PGSIZE; omega
  rw [hz]
  rfl

theorem copySource_WF_new : WF copySource 0xA000 :=
  WF_empty copySource_empty (by decide) (by decide) (by decide) (by decide)

theorem copySource_nodes_new :
    ∀ p n, IsPath p → descend copySource.mem 0xA000 p = some n → p = [] ∧ n = 0xA000 :=
  descend_empty copySource_empty

theorem copySource_source : SourceOK copySource 0x1000 0xA000 := by
  obtain ⟨hwf, hext, hleaf⟩ := copySource_facts
  refine ⟨by decide, ?_, ?_⟩
  · intro q n hq hn
    refine ⟨descend_aligned hwf.1.root_aligned q n hn, fun h => hwf.2.fresh n h q hq hn, ?_⟩
    intro p hp e
    obtain ⟨_, rfl⟩ := copySource_nodes_new p n hp e
    rcases hext.origin q _ hq hn with h | h
    · have := (zero_nodes _ _ q _ hq h).2
      omega
    · simp [zeroKernel] at h
  · intro vb hvb hv
    rw [hleaf vb hvb] at hv ⊢
    by_cases hp : vb / PGSIZE = 0 / PGSIZE
    · rw [if_pos hp]
      have e : PTE2PA ((PA2PTE 0x9000 ||| 31 ||| PTE_V) % 2 ^ 64) = 0x9000 := by decide
      rw [e]
      refine ⟨by decide, by decide, ?_⟩
      intro p hp2 e2
      have := (copySource_nodes_new p _ hp2 e2).2
      omega
    · rw [if_neg hp] at hv
      exact absurd rfl hv

theorem copiedKernel_eq : uvmcopy copySource 0x1000 0xA000 4096 = .ok 0 copiedKernel :=
  Res.eq_ok_of_val (zeroKernel []) (by decide)

/-- Witness of C10: the one page of `copySource` copied into the table at `0xA000`. -/
theorem uvmcopy_independent_witness :
    WF copySource 0xA000 ∧ uvmcopy copySource 0x1000 0xA000 4096 = .ok 0 copiedKernel ∧
    leafOf copiedKernel.mem 0x1000 0 &&& PTE_V ≠ 0 ∧
    PTE_FLAGS (leafOf copiedKernel.mem 0xA000 0) = PTE_FLAGS (leafOf copiedKernel.mem 0x1000 0) ∧
    ∀ t, t < PGSIZE → copiedKernel.mem (PTE2PA (leafOf copiedKernel.mem 0xA000 0) + t) =
      copiedKernel.mem (PTE2PA (leafOf copiedKernel.mem 0x1000 0) + t) :=
  match uvmcopy_independent copySource copiedKernel 0x1000 0xA000 4096 copySource_WF_new
      copySource_facts.1.1 copySource_source copiedKernel_eq 0 (by decide) (by decide) with
  | ⟨_, h2, h3, _, h5, _⟩ => ⟨copySource_WF_new, copiedKernel_eq, h2, h3, h5⟩

end Xv6

namespace Xv6

/-! ## `mappages` for an arbitrary range -/

/-- What the `mappages` loop has done when it returns, whatever `last` is: the pages
from `a` up to `b` hold their new leaf, every other page is as before; it returns 0
when `b` is just past `last`, and -1 when the allocator is empty, no page before `b`
being `last`. -/
theorem mappagesLoop_run (root last perm : Nat) :
    ∀ fuel k a pa rc k2, WF k root → a % PGSIZE = 0 → pa < 2 ^ 64 →
      mappagesLoop fuel k root a last pa perm = .ok rc k2 →
      WF k2 root ∧ Ext k k2 root ∧
      ∃ b, b % PGSIZE = 0 ∧ a ≤ b ∧ b ≤ MAXVA ∧
        ((rc = 0 ∧ a ≤ last ∧ b = last + PGSIZE) ∨
          (rc = -1 ∧ k2.freelist = [] ∧ ∀ p, a ≤ p → p < b → p % PGSIZE = 0 → p ≠ last)) ∧
        (∀ vb, vb < MAXVA → (vb < a ∨ b ≤ vb) → leafOf k2.mem root vb = leafOf k.mem root vb) ∧
        (∀ vb, a ≤ vb → vb < b →
          leafOf k2.mem root vb =
            (PA2PTE ((pa + (vb / PGSIZE * PGSIZE - a)) % 2 ^ 64) ||| perm ||| PTE_V) % 2 ^ 64 ∧
          ∃ s, slotOf k2.mem root vb = some s) := by
  intro fuel
  induction fuel with
  | zero =>
    intro k a pa rc k2 _ _ _ h
    rw [mappagesLoop] at h
    cases h
  | succ fuel ih =>
    intro k a pa rc k2 hwf haa hpa h
    have hamax : a < MAXVA := by
      by_contra hc
      rw [mappagesLoop, walk_fatal (Nat.le_of_not_lt hc)] at h
      cases h
    obtain ⟨p, k1, hw, hg, hwf1, hslot, hfree⟩ := walk_true hwf hamax
    rw [mappagesLoop, hw] at h
    simp only at h
    by_cases hp : p = 0
    · rw [if_pos hp] at h
      cases h
      refine ⟨hwf1, hg.ext, a, haa, le_refl a, by omega,
        Or.inr ⟨rfl, hfree hp, fun q h1 h2 _ => by omega⟩, ?_, ?_⟩
      · intro vb _ _
        exact hg.leaf vb
      · intro vb h1 h2
        omega
    · rw [if_neg hp] at h
      have hs := hslot hp
      by_cases hv : rd64 k1.mem p &&& PTE_V ≠ 0
      · rw [if_pos hv] at h
        cases h
      · rw [if_neg hv] at h
        obtain ⟨hwf2, hext2, hd2, hleaf2⟩ :=
          store_leaf (PA2PTE pa ||| perm ||| PTE_V) hwf1 hamax hs
        have hslot2 : slotOf (wr64 k1.mem p (PA2PTE pa ||| perm ||| PTE_V)) root a = some p := by
          rw [slotOf_congr hd2]; exact hs
        have ext02 : Ext k ⟨wr64 k1.mem p (PA2PTE pa ||| perm ||| PTE_V), k1.freelist⟩ root :=
          hg.ext.etrans hext2
        by_cases hlast' : a = last
        · rw [if_pos hlast'] at h
          cases h
          refine ⟨hwf2, ext02, a + PGSIZE, ?_, by omega, ?_,
            Or.inl ⟨rfl, by omega, by rw [hlast']⟩, ?_, ?_⟩
          · unfold PGSIZE at *; omega
          · unfold PGSIZE MAXVA at *; omega
          · intro vb hvb hout
            rw [hleaf2 vb hvb, if_neg, hg.leaf vb]
            unfold PGSIZE at *; omega
          · intro vb h1 h2
            have hpage : vb / PGSIZE = a / PGSIZE := by unfold PGSIZE at *; omega
            have hvb : vb < MAXVA := by unfold PGSIZE MAXVA at *; omega
            constructor
            · rw [hleaf2 vb hvb, if_pos hpage]
              have e : vb / PGSIZE * PGSIZE - a = 0 := by unfold PGSIZE at *; omega
              rw [e, Nat.add_zero, Nat.mod_eq_of_lt hpa]
            · exact ⟨p, by rw [slotOf_same_page hpage]; exact hslot2⟩
        · rw [if_neg hlast'] at h
          have hstep : (a + PGSIZE) % 2 ^ 64 = a + PGSIZE := by
            apply Nat.mod_eq_of_lt
            unfold PGSIZE MAXVA at *; omega
          rw [hstep] at h
          obtain ⟨hwf3, hext3, b, hba, hab, hbl, hrc, hout, hin⟩ :=
            ih _ (a + PGSIZE) ((pa + PGSIZE) % 2 ^ 64) rc k2 hwf2
              (by unfold PGSIZE at *; omega) (Nat.mod_lt _ (by norm_num)) h
          refine ⟨hwf3, ext02.etrans hext3, b, hba, by omega, hbl, ?_, ?_, ?_⟩
          · rcases hrc with ⟨h1, h2, h3⟩ | ⟨h1, h2, h3⟩
            · exact Or.inl ⟨h1, by omega, h3⟩
            · refine Or.inr ⟨h1, h2, fun q hq1 hq2 hq3 => ?_⟩
              by_cases hqa : q = a
              · rw [hqa]; exact hlast'
              · exact h3 q (by unfold PGSIZE at *; omega) hq2 hq3
          · intro vb hvb ho
            rw [hout vb hvb (by omega)]
            show leafOf (wr64 k1.mem p (PA2PTE pa ||| perm ||| PTE_V)) root vb = _
            rw [hleaf2 vb hvb, if_neg, hg.leaf vb]
            unfold PGSIZE at *; omega
          · intro vb h1 h2
            by_cases hfirst : vb < a + PGSIZE
            · have hpage : vb / PGSIZE = a / PGSIZE := by unfold PGSIZE at *; omega
              have hvb : vb < MAXVA := by unfold PGSIZE MAXVA at *; omega
              constructor
              · rw [hout vb hvb (Or.inl hfirst)]
                show leafOf (wr64 k1.mem p (PA2PTE pa ||| perm ||| PTE_V)) root vb = _
                rw [hleaf2 vb hvb, if_pos hpage]
                have e : vb / PGSIZE * PGSIZE - a = 0 := by unfold PGSIZE at *; omega
                rw [e, Nat.add_zero, Nat.mod_eq_of_lt hpa]
              · refine ⟨p, hext3.slot ?_⟩
                show slotOf (wr64 k1.mem p (PA2PTE pa ||| perm ||| PTE_V)) root vb = some p
                rw [slotOf_same_page hpage]; exact hslot2
            · obtain ⟨hl, hsl⟩ := hin vb (by omega) h2
              refine ⟨?_, hsl⟩
              rw [hl]
              have e : ((pa + PGSIZE) % 2 ^ 64 + (vb / PGSIZE * PGSIZE - (a + PGSIZE))) % 2 ^ 64
                  = (pa + (vb / PGSIZE * PGSIZE - a)) % 2 ^ 64 := by
                unfold PGSIZE at *; omega
              rw [e]

/-- A `mappages` loop whose `last` is none of the pages from `a` up to `MAXVA` never
returns 0, in any state: it halts at a mapped page or at `MAXVA`, or returns -1. -/
theorem mappagesLoop_never (root last perm : Nat) :
    ∀ fuel k a pa, a % PGSIZE = 0 → (last < a ∨ MAXVA ≤ last) → (MAXVA - a) / PGSIZE < fuel →
      mappagesLoop fuel k root a last pa perm = .fatal "remap" ∨
      mappagesLoop fuel k root a last pa perm = .fatal "walk" ∨
      ∃ k2, mappagesLoop fuel k root a last pa perm = .ok (-1) k2 := by
  intro fuel
  induction fuel with
  | zero => intro k a pa _ _ hf; exact absurd hf (Nat.not_lt_zero _)
  | succ fuel ih =>
    intro k a pa haa hl hf
    by_cases hamax : MAXVA ≤ a
    · rw [mappagesLoop, walk_fatal hamax]
      exact Or.inr (Or.inl rfl)
    · have hw : walk k root a true =
          .ok (walkLoop true a 2 k root).1 (walkLoop true a 2 k root).2 := by
        unfold walk
        rw [if_neg (by omega)]
      rw [mappagesLoop, hw]
      simp only
      by_cases hp : (walkLoop true a 2 k root).1 = 0
      · rw [if_pos hp]
        exact Or.inr (Or.inr ⟨_, rfl⟩)
      · rw [if_neg hp]
        by_cases hv : rd64 (walkLoop true a 2 k root).2.mem (walkLoop true a 2 k root).1 &&&
            PTE_V ≠ 0
        · rw [if_pos hv]
          exact Or.inl rfl
        · rw [if_neg hv, if_neg (by omega)]
          have hstep : (a + PGSIZE) % 2 ^ 64 = a + PGSIZE := by
            apply Nat.mod_eq_of_lt
            unfold PGSIZE MAXVA at *; omega
          rw [hstep]
          exact ih _ (a + PGSIZE) _ (by unfold PGSIZE at *; omega) (by omega)
            (by unfold PGSIZE MAXVA at *; omega)

/-- In a well-formed table two addresses in different pages have different level-0
slots. -/
theorem slot_distinct {m : Mem} {root v1 v2 s : Nat} (hwf : TableWF m root)
    (h1 : v1 < MAXVA) (h2 : v2 < MAXVA) (hne : v1 / PGSIZE ≠ v2 / PGSIZE)
    (hs1 : slotOf m root v1 = some s) : slotOf m root v2 ≠ some s := by
  intro hs2
  obtain ⟨n1, hn1, e1⟩ := slotOf_some hs1
  obtain ⟨n2, hn2, e2⟩ := slotOf_some hs2
  have a1 := descend_aligned hwf.root_aligned _ _ hn1
  have a2 := descend_aligned hwf.root_aligned _ _ hn2
  have p1 := PX_lt 0 v1
  have p2 := PX_lt 0 v2
  have hn : n1 = n2 := by unfold PGSIZE at *; omega
  have hp0 : PX 0 v1 = PX 0 v2 := by omega
  subst hn
  have hq := hwf.inj _ _ n1 (isPath_va v1) (isPath_va v2) hn1 hn2
  simp only [List.cons.injEq, and_true] at hq
  exact hne ((PX_inj v1 v2 (by unfold MAXVA at h1; omega) (by unfold MAXVA at h2; omega)).1
    ⟨hq.1, hq.2, hp0⟩)

end Xv6

namespace Xv6

/-! ## Isolation of `mappages`, and the empty range -/

/-- C19 (mapping isolation).  In a well-formed state (the table is a tree of pairwise
distinct frames, the allocator hands out unused frames), a call
`mappages(pagetable, va, size, pa, perm)` with `size >= 1` that returns, returns 0 or
-1, and either way the leaf entry of every page `vb < MAXVA` outside
`[PGROUNDDOWN(va), PGROUNDDOWN(va + size - 1)]` is unchanged, and so is the result of
`walkaddr` for it; two addresses below `MAXVA` in different pages never share a level-0
slot, before the call and after it. -/
theorem mappages_isolated (k k2 : Kernel) (pagetable va size pa perm : Nat) (rc : Int)
    (hwf : WF k pagetable) (hva : va < 2 ^ 64) (hsz : size < 2 ^ 64) (hsize : 1 ≤ size)
    (hpa : pa < 2 ^ 64) (h : mappages k pagetable va size pa perm = .ok rc k2) :
    (rc = 0 ∨ rc = -1) ∧
    (∀ vb, vb < MAXVA → vb < PGROUNDDOWN va ∨ PGROUNDDOWN (va + size - 1) + PGSIZE ≤ vb →
      leafOf k2.mem pagetable vb = leafOf k.mem pagetable vb ∧
      ∃ r, walkaddr k pagetable vb = .ok r k ∧ walkaddr k2 pagetable vb = .ok r k2) ∧
    (∀ v1 v2 s, v1 < MAXVA → v2 < MAXVA → v1 / PGSIZE ≠ v2 / PGSIZE →
      (slotOf k.mem pagetable v1 = some s → slotOf k.mem pagetable v2 ≠ some s) ∧
      (slotOf k2.mem pagetable v1 = some s → slotOf k2.mem pagetable v2 ≠ some s)) := by
  unfold mappages at h
  obtain ⟨hwf2, _, b, hba, hab, hbm, hrc, hout, _⟩ :=
    mappagesLoop_run pagetable _ perm loopFuel k (PGROUNDDOWN va) pa rc k2 hwf
      (by unfold PGROUNDDOWN PGSIZE; omega) hpa h
  have hb : b ≤ PGROUNDDOWN (va + size - 1) + PGSIZE := by
    rcases hrc with ⟨_, h2, h3⟩ | ⟨_, _, h3⟩
    · rw [h3]
      unfold PGROUNDDOWN PGSIZE at *; omega
    · by_contra hc
      have hL : PGROUNDDOWN (va + size - 1) < MAXVA := by omega
      have hnw : va + size - 1 < 2 ^ 64 := by unfold PGROUNDDOWN PGSIZE MAXVA at *; omega
      have e : (va + size + (2 ^ 64 - 1)) % 2 ^ 64 = va + size - 1 := by omega
      exact h3 (PGROUNDDOWN (va + size - 1)) (by unfold PGROUNDDOWN PGSIZE at *; omega)
        (by omega) (by unfold PGROUNDDOWN PGSIZE; omega) (by rw [e])
  refine ⟨?_, ?_, ?_⟩
  · rcases hrc with ⟨h1, _⟩ | ⟨h1, _⟩
    · exact Or.inl h1
    · exact Or.inr h1
  · intro vb hvb ho
    have hl : leafOf k2.mem pagetable vb = leafOf k.mem pagetable vb :=
      hout vb hvb (by omega)
    refine ⟨hl, _, walkaddr_val hwf.1 vb, ?_⟩
    rw [walkaddr_val hwf2.1 vb, hl]
  · intro v1 v2 s h1 h2 hne
    exact ⟨slot_distinct hwf.1 h1 h2 hne, slot_distinct hwf2.1 h1 h2 hne⟩

/-- Witness of C19: two pages installed into an empty table; every other page is
untouched. -/
theorem mappages_isolated_witness :
    WF (zeroKernel [0x2000, 0x3000, 0x4000]) 0x1000 ∧
    ((0 : Int) = 0 ∨ (0 : Int) = -1) ∧
    (∀ vb, vb < MAXVA → vb < PGROUNDDOWN 0 ∨ PGROUNDDOWN (0 + 8192 - 1) + PGSIZE ≤ vb →
      leafOf ((mappages (zeroKernel [0x2000, 0x3000, 0x4000]) 0x1000 0 8192 0x9000 6).state
        (zeroKernel [])).mem 0x1000 vb =
        leafOf (zeroKernel [0x2000, 0x3000, 0x4000]).mem 0x1000 vb ∧
      ∃ r, walkaddr (zeroKernel [0x2000, 0x3000, 0x4000]) 0x1000 vb =
          .ok r (zeroKernel [0x2000, 0x3000, 0x4000]) ∧
        walkaddr ((mappages (zeroKernel [0x2000, 0x3000, 0x4000]) 0x1000 0 8192 0x9000 6).state
          (zeroKernel [])) 0x1000 vb =
          .ok r ((mappages (zeroKernel [0x2000, 0x3000, 0x4000]) 0x1000 0 8192 0x9000 6).state
            (zeroKernel []))) :=
  have hwf : WF (zeroKernel [0x2000, 0x3000, 0x4000]) 0x1000 :=
    WF_zeroKernel (by decide) (by decide) (by decide) (by decide)
  have h := mappages_isolated (zeroKernel [0x2000, 0x3000, 0x4000]) _ 0x1000 0 8192 0x9000 6 0
    hwf (by decide) (by decide) (by decide) (by decide)
    (Res.eq_ok_of_val (zeroKernel []) (by decide))
  ⟨hwf, h.1, h.2.1⟩

/-- C20 (zero-size install).  For every state and every page-aligned `va`,
`mappages(pagetable, va, 0, pa, perm)` never returns 0: `last`, which is
`PGROUNDDOWN(va + 0 - 1)` in 64-bit arithmetic, is none of the pages from `va` up to
`MAXVA`, so the call ends in the fatal halt "remap", in the fatal halt of `walk` at
`MAXVA`, or in -1.  In a well-formed state the return of -1 comes from the exhaustion
of the allocator, the pages from `va` up to some `b` having been installed and every
other page being as before. -/
theorem mappages_zero_size (k : Kernel) (pagetable va pa perm : Nat)
    (hva : va % PGSIZE = 0) (hva64 : va < 2 ^ 64) :
    (mappages k pagetable va 0 pa perm = .fatal "remap" ∨
      mappages k pagetable va 0 pa perm = .fatal "walk" ∨
      ∃ k2, mappages k pagetable va 0 pa perm = .ok (-1) k2) ∧
    (∀ p, va ≤ p → p < MAXVA → p % PGSIZE = 0 →
      p ≠ PGROUNDDOWN ((va + 0 + (2 ^ 64 - 1)) % 2 ^ 64)) ∧
    (WF k pagetable → pa < 2 ^ 64 → ∀ k2, mappages k pagetable va 0 pa perm = .ok (-1) k2 →
      k2.freelist = [] ∧ ∃ b, b % PGSIZE = 0 ∧ va ≤ b ∧ b ≤ MAXVA ∧
        (∀ vb, va ≤ vb → vb < b → leafOf k2.mem pagetable vb =
          (PA2PTE ((pa + (vb / PGSIZE * PGSIZE - va)) % 2 ^ 64) ||| perm ||| PTE_V) % 2 ^ 64) ∧
        (∀ vb, vb < MAXVA → vb < va ∨ b ≤ vb →
          leafOf k2.mem pagetable vb = leafOf k.mem pagetable vb)) := by
  have hdown : PGROUNDDOWN va = va := by unfold PGROUNDDOWN PGSIZE at *; omega
  have hlast : PGROUNDDOWN ((va + 0 + (2 ^ 64 - 1)) % 2 ^ 64) < va ∨
      MAXVA ≤ PGROUNDDOWN ((va + 0 + (2 ^ 64 - 1)) % 2 ^ 64) := by
    unfold PGROUNDDOWN PGSIZE MAXVA at *; omega
  refine ⟨?_, ?_, ?_⟩
  · unfold mappages
    rw [hdown]
    exact mappagesLoop_never pagetable _ perm loopFuel k va pa hva hlast
      (by unfold loopFuel PGSIZE MAXVA; omega)
  · intro p h1 h2 _
    omega
  · intro hwf hpa k2 h
    unfold mappages at h
    rw [hdown] at h
    obtain ⟨_, _, b, hba, hab, hbm, hrc, hout, hin⟩ :=
      mappagesLoop_run pagetable _ perm loopFuel k va pa (-1) k2 hwf hva hpa h
    rcases hrc with ⟨h1, _⟩ | ⟨_, h2, _⟩
    · cases h1
    · exact ⟨h2, b, hba, hab, hbm, fun vb h1 h2 => (hin vb h1 h2).1, hout⟩

/-- Witness of C20: the empty range at address 0 of an empty table. -/
theorem mappages_zero_size_witness :
    0 % PGSIZE = 0 ∧
    (mappages (zeroKernel [0x2000, 0x3000]) 0x1000 0 0 0x9000 6 = .fatal "remap" ∨
      mappages (zeroKernel [0x2000, 0x3000]) 0x1000 0 0 0x9000 6 = .fatal "walk" ∨
      ∃ k2, mappages (zeroKernel [0x2000, 0x3000]) 0x1000 0 0 0x9000 6 = .ok (-1) k2) :=
  ⟨by decide, (mappages_zero_size (zeroKernel [0x2000, 0x3000]) 0x1000 0 0x9000 6
    (by decide) (by decide)).1⟩

end Xv6

namespace Xv6

/-! ## `mappages_u2ukvm` -/

theorem mappages_u2ukvm_eq {k : Kernel} {root va size pa perm : Nat} (hs : 1 ≤ size)
    (hr : va + size - 1 < 2 ^ 64) :
    mappages_u2ukvm k root va size pa perm =
      mappages_u2ukvmLoop loopFuel k root (PGROUNDDOWN va) (PGROUNDDOWN (va + size - 1)) pa
        perm := by
  unfold mappages_u2ukvm
  have e : (va + size + (2 ^ 64 - 1)) % 2 ^ 64 = va + size - 1 := by omega
  rw [e]

/-- One page through `mappages_u2ukvm`: the leaf is stored whatever the slot held, or
the allocator is empty and nothing is mapped. -/
theorem mappages_u2ukvm_page {k k2 : Kernel} {root a pa perm : Nat} {rc : Int}
    (hwf : WF k root) (ha : a % PGSIZE = 0) (ha64 : a < 2 ^ 64)
    (h : mappages_u2ukvm k root a PGSIZE pa perm = .ok rc k2) :
    a < MAXVA ∧ WF k2 root ∧ Ext k k2 root ∧
    ((rc = 0 ∧ (∃ s, slotOf k2.mem root a = some s) ∧
        ∀ vb, vb < MAXVA → leafOf k2.mem root vb =
          if vb / PGSIZE = a / PGSIZE then (PA2PTE pa ||| perm ||| PTE_V) % 2 ^ 64
          else leafOf k.mem root vb) ∨
      (rc = -1 ∧ k2.freelist = [] ∧
        ∀ vb, vb < MAXVA → leafOf k2.mem root vb = leafOf k.mem root vb)) := by
  rw [mappages_u2ukvm_eq (by decide) (by unfold PGSIZE at *; omega)] at h
  have e1 : PGROUNDDOWN a = a := by unfold PGROUNDDOWN PGSIZE at *; omega
  have e2 : PGROUNDDOWN (a + PGSIZE - 1) = a := by unfold PGROUNDDOWN PGSIZE at *; omega
  rw [e1, e2, show loopFuel = MAXVA / PGSIZE + 1 from rfl, mappages_u2ukvmLoop] at h
  by_cases hamax : a < MAXVA
  · obtain ⟨p, k1, hw, hg, hwf1, hslot, hfree⟩ := walk_true hwf hamax
    rw [hw] at h
    simp only at h
    by_cases hp : p = 0
    · rw [if_pos hp] at h
      cases h
      exact ⟨hamax, hwf1, hg.ext, Or.inr ⟨rfl, hfree hp, fun vb _ => hg.leaf vb⟩⟩
    · rw [if_neg hp] at h
      have hs := hslot hp
      simp only [if_true] at h
      cases h
      obtain ⟨hwf2, hext2, hd2, hleaf2⟩ :=
        store_leaf (PA2PTE pa ||| perm ||| PTE_V) hwf1 hamax hs
      refine ⟨hamax, hwf2, hg.ext.etrans hext2, Or.inl ⟨rfl, ⟨p, ?_⟩, ?_⟩⟩
      · show slotOf (wr64 k1.mem p (PA2PTE pa ||| perm ||| PTE_V)) root a = some p
        rw [slotOf_congr hd2]; exact hs
      · intro vb hvb
        show leafOf (wr64 k1.mem p (PA2PTE pa ||| perm ||| PTE_V)) root vb = _
        rw [hleaf2 vb hvb, hg.leaf vb]
  · rw [walk_fatal (by omega)] at h
    cases h

end Xv6

namespace Xv6

/-! ## `copypage_u2ukvm` -/

set_option maxRecDepth 100000 in
theorem strip_user_small : ∀ x, x < 1024 →
    (x &&& (2 ^ 64 - 1 - PTE_U)) % 2 ^ 32 = x - x / 16 % 2 * 16 := by
  decide

/-- The flags `copypage_u2ukvm` passes on: those of the entry without `PTE_U`. -/
theorem strip_user (e : Nat) :
    (PTE_FLAGS e &&& (2 ^ 64 - 1 - PTE_U)) % 2 ^ 32 = e % 1024 - e / 16 % 2 * 16 := by
  rw [PTE_FLAGS_eq, strip_user_small (e % 1024) (Nat.mod_lt _ (by norm_num))]
  omega

/-- The leaf `copypage_u2ukvm` stores for a valid entry `e`: the frame of `e`, its
flags without `PTE_U`. -/
theorem mirror_leaf {e : Nat} (hv : e &&& PTE_V ≠ 0) :
    (PA2PTE (PTE2PA e) ||| (PTE_FLAGS e &&& (2 ^ 64 - 1 - PTE_U)) % 2 ^ 32 ||| PTE_V) % 2 ^ 64 &&&
      PTE_V ≠ 0 ∧
    PTE2PA ((PA2PTE (PTE2PA e) ||| (PTE_FLAGS e &&& (2 ^ 64 - 1 - PTE_U)) % 2 ^ 32 ||| PTE_V) %
      2 ^ 64) = PTE2PA e ∧
    PTE_FLAGS ((PA2PTE (PTE2PA e) ||| (PTE_FLAGS e &&& (2 ^ 64 - 1 - PTE_U)) % 2 ^ 32 ||| PTE_V) %
      2 ^ 64) &&& PTE_U = 0 ∧
    PTE_FLAGS ((PA2PTE (PTE2PA e) ||| (PTE_FLAGS e &&& (2 ^ 64 - 1 - PTE_U)) % 2 ^ 32 ||| PTE_V) %
      2 ^ 64) + (e &&& PTE_U) = PTE_FLAGS e := by
  have hodd : e % 2 = 1 := by
    rw [and_PTE_V] at hv; omega
  have hf : e % 1024 - e / 16 % 2 * 16 < 1024 := by omega
  have hfo : (e % 1024 - e / 16 % 2 * 16) % 2 = 1 := by omega
  rw [strip_user, flags_leaf_eq (PTE2PA_aligned e) (PTE2PA_lt e) hf, lor_one_of_odd hfo]
  have hd := PTE2PA_aligned e
  have hl := PTE2PA_lt e
  refine ⟨?_, ?_, ?_, ?_⟩
  · rw [and_PTE_V]; omega
  · rw [PTE2PA_eq]
    unfold PGSIZE at hd; omega
  · rw [and_PTE_U, PTE_FLAGS_eq]; omega
  · rw [and_PTE_U, PTE_FLAGS_eq, PTE_FLAGS_eq]; omega

/-- What the loop of `copypage_u2ukvm` has done when it returns 0: every page from `i`
up to `endva` holds the mirror of the user leaf, the pages before `i` and after the
range are as before, and nothing protected has been touched. -/
theorem copypageLoop_ok (user pk endva : Nat) :
    ∀ fuel k i k2, WF k pk → SourceOK k user pk → i % PGSIZE = 0 → i < 2 ^ 64 →
      copypage_u2ukvmLoop fuel k user pk endva i = .ok 0 k2 →
      WF k2 pk ∧ Ext k k2 pk ∧ Keeps k k2 pk ∧
      (∀ vb, vb < MAXVA → vb < i ∨ endva ≤ vb / PGSIZE * PGSIZE →
        leafOf k2.mem pk vb = leafOf k.mem pk vb) ∧
      (∀ va, i ≤ va → va / PGSIZE * PGSIZE < endva →
        va < MAXVA ∧ leafOf k.mem user va &&& PTE_V ≠ 0 ∧
        (∃ s, slotOf k2.mem pk va = some s) ∧
        leafOf k2.mem pk va =
          (PA2PTE (PTE2PA (leafOf k.mem user va)) |||
            (PTE_FLAGS (leafOf k.mem user va) &&& (2 ^ 64 - 1 - PTE_U)) % 2 ^ 32 ||| PTE_V) %
            2 ^ 64) := by
  intro fuel
  induction fuel with
  | zero =>
    intro k i k2 _ _ _ _ h
    rw [copypage_u2ukvmLoop] at h
    cases h
  | succ fuel ih =>
    intro k i k2 hwf hsrc hi hi64 h
    rw [copypage_u2ukvmLoop] at h
    by_cases hlt : i < endva
    · rw [if_pos hlt] at h
      by_cases hamax : i < MAXVA
      · rw [walk_false hamax] at h
        simp only at h
        cases hs : slotOf k.mem user i with
        | none =>
          rw [hs] at h
          simp only [if_true] at h
          cases h
        | some s =>
          rw [hs] at h
          simp only at h
          by_cases hs0 : s = 0
          · rw [if_pos hs0] at h; cases h
          · rw [if_neg hs0] at h
            by_cases hv : rd64 k.mem s &&& PTE_V = 0
            · rw [if_pos hv] at h; cases h
            · rw [if_neg hv] at h
              have hleaf : leafOf k.mem user i = rd64 k.mem s := leafOf_of_slot hs
              cases hm : mappages_u2ukvm k pk i PGSIZE (PTE2PA (rd64 k.mem s))
                  ((PTE_FLAGS (rd64 k.mem s) &&& (2 ^ 64 - 1 - PTE_U)) % 2 ^ 32) with
              | fatal msg => rw [hm] at h; cases h
              | timeout => rw [hm] at h; cases h
              | ok rc km =>
                rw [hm] at h
                simp only at h
                by_cases hrc : rc ≠ 0
                · rw [if_pos hrc] at h
                  exact (unwind_copy_ne h).elim
                · rw [if_neg hrc] at h
                  obtain ⟨_, hwfm, hextm, hcase⟩ := mappages_u2ukvm_page hwf hi hi64 hm
                  have hkm : Keeps k km pk := keeps_ext hwf hextm
                  obtain ⟨hdu, hlu, hsrcm⟩ := hsrc.stable hkm
                  have hstep : (i + PGSIZE) % 2 ^ 64 = i + PGSIZE := by
                    apply Nat.mod_eq_of_lt
                    unfold PGSIZE MAXVA at *; omega
                  rw [hstep] at h
                  obtain ⟨hwf2, hext2, hk2, hout, hin⟩ :=
                    ih km (i + PGSIZE) k2 hwfm hsrcm (by unfold PGSIZE at *; omega)
                      (by unfold PGSIZE MAXVA at *; omega) h
                  rcases hcase with ⟨_, ⟨sm, hsm⟩, hlm⟩ | ⟨h1, _⟩
                  · refine ⟨hwf2, hextm.etrans hext2, hkm.ktrans hk2, ?_, ?_⟩
                    · intro vb hvb ho
                      rw [hout vb hvb (by omega), hlm vb hvb, if_neg]
                      unfold PGSIZE at *; omega
                    · intro va h1 h2
                      by_cases hfirst : va < i + PGSIZE
                      · have hpage : va / PGSIZE = i / PGSIZE := by unfold PGSIZE at *; omega
                        have hva : va < MAXVA := by unfold PGSIZE MAXVA at *; omega
                        have hl : leafOf k.mem user va = rd64 k.mem s := by
                          rw [leafOf_same_page k.mem user va i hpage]; exact hleaf
                        refine ⟨hva, by rw [hl]; exact hv, ⟨sm, hext2.slot ?_⟩, ?_⟩
                        · rw [slotOf_same_page hpage]; exact hsm
                        · rw [hout va hva (Or.inl hfirst), hlm va hva, if_pos hpage, hl]
                      · obtain ⟨g1, g2, g3, g4⟩ := hin va (by omega) h2
                        rw [hlu va] at g2 g4
                        exact ⟨g1, g2, g3, g4⟩
                  · rw [h1] at hrc; exact absurd (by decide) hrc
      · rw [walk_fatal (by omega)] at h
        cases h
    · rw [if_neg hlt] at h
      cases h
      refine ⟨hwf, Ext.erefl k pk, Keeps.krefl k pk, fun vb _ _ => rfl, ?_⟩
      intro va h1 h2
      unfold PGSIZE at *; omega

end Xv6

namespace Xv6

/-- C14 (mirror postcondition).  For a well-formed shadow table `pkpagetable` and a user
table `pagetable` whose nodes and mapped frames are neither free nor nodes of the shadow
table: when `copypage_u2ukvm(pagetable, pkpagetable, begin, end)` returns 0, every page
`va` of `[PGROUNDUP(begin), end)` lies below `MAXVA` and has a valid leaf in the user
table, and the level-0 slot of `va` in the shadow table holds a valid entry with the
frame of the user leaf and the flag bits of the user leaf except that `PTE_U` is clear;
the user table reads as before, and every frame taken from the allocator has become a
page-table node of the shadow table (no data frame is allocated). -/
theorem mirror_range (k k2 : Kernel) (pagetable pkpagetable begin endva : Nat)
    (hwf : WF k pkpagetable) (hsrc : SourceOK k pagetable pkpagetable)
    (h : copypage_u2ukvm k pagetable pkpagetable begin endva = .ok 0 k2) :
    (∀ va, PGROUNDUP begin ≤ va → va / PGSIZE * PGSIZE < endva →
      va < MAXVA ∧ leafOf k.mem pagetable va &&& PTE_V ≠ 0 ∧
      (∃ s, slotOf k2.mem pkpagetable va = some s ∧
        rd64 k2.mem s = leafOf k2.mem pkpagetable va) ∧
      leafOf k2.mem pkpagetable va &&& PTE_V ≠ 0 ∧
      PTE2PA (leafOf k2.mem pkpagetable va) = PTE2PA (leafOf k.mem pagetable va) ∧
      PTE_FLAGS (leafOf k2.mem pkpagetable va) &&& PTE_U = 0 ∧
      PTE_FLAGS (leafOf k2.mem pkpagetable va) + (leafOf k.mem pagetable va &&& PTE_U) =
        PTE_FLAGS (leafOf k.mem pagetable va)) ∧
    ((∀ q, IsPath q → descend k2.mem pagetable q = descend k.mem pagetable q) ∧
      ∀ vb, leafOf k2.mem pagetable vb = leafOf k.mem pagetable vb) ∧
    ∃ used, k.freelist = used ++ k2.freelist ∧
      ∀ f ∈ used, ∃ q, IsPath q ∧ descend k2.mem pkpagetable q = some f ∧
        descend k.mem pkpagetable q = none := by
  unfold copypage_u2ukvm at h
  obtain ⟨_, hext, hkeep, _, hin⟩ :=
    copypageLoop_ok pagetable pkpagetable endva loopFuel k (PGROUNDUP begin) k2 hwf hsrc
      (PGROUNDUP_aligned begin) (PGROUNDUP_lt begin) h
  obtain ⟨hd, hl, _⟩ := hsrc.stable hkeep
  refine ⟨?_, ⟨hd, hl⟩, hext.pool⟩
  intro va h1 h2
  obtain ⟨g1, g2, ⟨s, hs⟩, g4⟩ := hin va h1 h2
  obtain ⟨m1, m2, m3, m4⟩ := mirror_leaf g2
  rw [← g4] at m1 m2 m3 m4
  exact ⟨g1, g2, ⟨s, hs, (leafOf_of_slot hs).symm⟩, m1, m2, m3, m4⟩

/-- Witness of C14: the user page at address 0 of `copySource`, mirrored into the empty
table at `0xA000`. -/
theorem mirror_range_witness :
    WF copySource 0xA000 ∧ SourceOK copySource 0x1000 0xA000 ∧
    (copypage_u2ukvm copySource 0x1000 0xA000 0 4096).val? = some 0 ∧
    PTE2PA (leafOf ((copypage_u2ukvm copySource 0x1000 0xA000 0 4096).state
      (zeroKernel [])).mem 0xA000 0) = PTE2PA (leafOf copySource.mem 0x1000 0) ∧
    PTE_FLAGS (leafOf ((copypage_u2ukvm copySource 0x1000 0xA000 0 4096).state
      (zeroKernel [])).mem 0xA000 0) &&& PTE_U = 0 :=
  have h := (mirror_range copySource _ 0x1000 0xA000 0 4096 copySource_WF_new
    copySource_source (Res.eq_ok_of_val (zeroKernel []) (by decide))).1 0 (by decide)
      (by decide)
  ⟨copySource_WF_new, copySource_source, by decide, h.2.2.2.2.1, h.2.2.2.2.2.1⟩

end Xv6

namespace Xv6

/-! ## Tables with a single chain of nodes -/

/-- The nodes of a table whose root has at most one valid entry, leading to a node that
has at most one valid entry. -/
theorem chain_nodes {m : Mem} {root n1 n2 a b : Nat}
    (hroot : ∀ i, i < 512 → rd64 m (root + 8 * i) &&& PTE_V ≠ 0 →
      i = a ∧ PTE2PA (rd64 m (root + 8 * i)) = n1)
    (hn1 : ∀ i, i < 512 → rd64 m (n1 + 8 * i) &&& PTE_V ≠ 0 →
      i = b ∧ PTE2PA (rd64 m (n1 + 8 * i)) = n2) :
    ∀ p n, IsPath p → descend m root p = some n →
      (p = [] ∧ n = root) ∨ (p = [a] ∧ n = n1) ∨ (p = [a, b] ∧ n = n2) := by
  intro p n hp hn
  rcases hp.cases with rfl | ⟨c, hc, rfl⟩ | ⟨c, d, hc, hd, rfl⟩
  · rw [descend_nil] at hn; cases hn
    exact Or.inl ⟨rfl, rfl⟩
  · obtain ⟨hv, hx⟩ := descend_one_some hn
    obtain ⟨e1, e2⟩ := hroot c hc hv
    exact Or.inr (Or.inl ⟨by rw [e1], by rw [hx, e2]⟩)
  · obtain ⟨y, hy, hyx⟩ := descend_two_some hn
    obtain ⟨hv, hx⟩ := descend_one_some hy
    obtain ⟨e1, e2⟩ := hroot c hc hv
    rw [hx, e2] at hyx
    obtain ⟨hv2, hx2⟩ := descend_one_some hyx
    obtain ⟨e3, e4⟩ := hn1 d hd hv2
    exact Or.inr (Or.inr ⟨by rw [e1, e3], by rw [hx2, e4]⟩)

theorem chain_TableWF {m : Mem} {root n1 n2 a b : Nat} (hr : root % PGSIZE = 0)
    (hr0 : root ≠ 0) (h10 : n1 ≠ 0) (h20 : n2 ≠ 0) (h01 : root ≠ n1) (h02 : root ≠ n2)
    (h12 : n1 ≠ n2)
    (hroot : ∀ i, i < 512 → rd64 m (root + 8 * i) &&& PTE_V ≠ 0 →
      i = a ∧ PTE2PA (rd64 m (root + 8 * i)) = n1)
    (hn1 : ∀ i, i < 512 → rd64 m (n1 + 8 * i) &&& PTE_V ≠ 0 →
      i = b ∧ PTE2PA (rd64 m (n1 + 8 * i)) = n2) : TableWF m root := by
  have hc := chain_nodes hroot hn1
  refine ⟨hr, ?_, ?_⟩
  · intro p n hp hn
    rcases hc p n hp hn with ⟨_, e⟩ | ⟨_, e⟩ | ⟨_, e⟩ <;> rw [e] <;> assumption
  · intro p q n hp hq h1 h2
    rcases hc p n hp h1 with ⟨e1, f1⟩ | ⟨e1, f1⟩ | ⟨e1, f1⟩ <;>
      rcases hc q n hq h2 with ⟨e2, f2⟩ | ⟨e2, f2⟩ | ⟨e2, f2⟩ <;>
      first
        | (rw [e1, e2]; done)
        | (exfalso; rw [f1] at f2; first
            | exact h01 f2 | exact h02 f2 | exact h12 f2
            | exact h01 f2.symm | exact h02 f2.symm | exact h12 f2.symm)

/-- With an empty allocator `walk` leaves the state as it is. -/
theorem walkLoop_nofree (va : Nat) {k : Kernel} (h : k.freelist = []) :
    ∀ l n, (walkLoop true va l k n).2 = k := by
  intro l
  induction l with
  | zero => intro n; rfl
  | succ l ih =>
    intro n
    by_cases hv : rd64 k.mem (n + 8 * PX (l + 1) va) &&& PTE_V ≠ 0
    · rw [walkLoop_valid hv]; exact ih _
    · rw [walkLoop_exhausted hv h]

theorem walk_nofree {k : Kernel} {root va : Nat} (h : k.freelist = []) (hva : va < MAXVA) :
    walk k root va true = .ok (walkLoop true va 2 k root).1 k := by
  unfold walk
  rw [if_neg (by omega)]
  simp only
  rw [walkLoop_nofree va h]

theorem backing_length (m : Mem) (root : Nat) :
    ∀ n va, (backing m root va n).length = n := by
  intro n
  induction n with
  | zero => intro va; rfl
  | succ n ih => intro va; simp [backing, ih]

end Xv6

namespace Xv6

/-! ## The failure path of `copypage_u2ukvm`, evaluated -/

/-- A memory given by its 64-bit entries reads them back. -/
theorem rd64_entries (E : Nat → Nat) (a : Nat) (ha : a % 8 = 0) :
    rd64 (fun x => E (x / 8 * 8) / 256 ^ (x % 8) % 256) a = E a % 2 ^ 64 := by
  have e0 : a / 8 * 8 = a := by omega
  have e : ∀ i, i < 8 → (a + i) / 8 * 8 = a ∧ (a + i) % 8 = i := by
    intro i hi; omega
  unfold rd64 rd8
  simp only
  rw [(e 1 (by norm_num)).1, (e 1 (by norm_num)).2, (e 2 (by norm_num)).1,
    (e 2 (by norm_num)).2, (e 3 (by norm_num)).1, (e 3 (by norm_num)).2,
    (e 4 (by norm_num)).1, (e 4 (by norm_num)).2, (e 5 (by norm_num)).1,
    (e 5 (by norm_num)).2, (e 6 (by norm_num)).1, (e 6 (by norm_num)).2,
    (e 7 (by norm_num)).1, (e 7 (by norm_num)).2, e0, show a % 8 = 0 from ha]
  norm_num
  omega

theorem mirrorFull_rd (a : Nat) (ha : a % 8 = 0) :
    rd64 mirrorFull.mem a = mirrorEntry a % 2 ^ 64 :=
  rd64_entries mirrorEntry a ha

set_option maxRecDepth 100000 in
theorem mirrorEntry_root : ∀ i, i < 512 → mirrorEntry (0x5000 + 8 * i) % 2 ^ 64 &&& PTE_V ≠ 0 →
    i = 0 ∧ PTE2PA (mirrorEntry (0x5000 + 8 * i) % 2 ^ 64) = 0x6000 := by
  decide

set_option maxRecDepth 100000 in
theorem mirrorEntry_mid : ∀ i, i < 512 → mirrorEntry (0x6000 + 8 * i) % 2 ^ 64 &&& PTE_V ≠ 0 →
    i = 0 ∧ PTE2PA (mirrorEntry (0x6000 + 8 * i) % 2 ^ 64) = 0x7000 := by
  decide

set_option maxRecDepth 100000 in
theorem mirrorEntry_leaves : ∀ j, j < 512 →
    mirrorEntry (0x7000 + 8 * j) % 2 ^ 64 &&& PTE_V ≠ 0 ∧
    PTE_FLAGS (mirrorEntry (0x7000 + 8 * j) % 2 ^ 64) ≠ PTE_V := by
  decide

theorem mirrorEntry_rootmem : ∀ i, i < 512 →
    rd64 mirrorFull.mem (0x5000 + 8 * i) &&& PTE_V ≠ 0 →
    i = 0 ∧ PTE2PA (rd64 mirrorFull.mem (0x5000 + 8 * i)) = 0x6000 := by
  intro i hi
  rw [mirrorFull_rd _ (by omega)]
  exact mirrorEntry_root i hi

theorem mirrorEntry_midmem : ∀ i, i < 512 →
    rd64 mirrorFull.mem (0x6000 + 8 * i) &&& PTE_V ≠ 0 →
    i = 0 ∧ PTE2PA (rd64 mirrorFull.mem (0x6000 + 8 * i)) = 0x7000 := by
  intro i hi
  rw [mirrorFull_rd _ (by omega)]
  exact mirrorEntry_mid i hi

theorem mirrorFull_TableWF : TableWF mirrorFull.mem 0x5000 :=
  @chain_TableWF mirrorFull.mem 0x5000 0x6000 0x7000 0 0 (by decide) (by decide) (by decide)
    (by decide) (by decide) (by decide) (by decide) mirrorEntry_rootmem mirrorEntry_midmem

theorem mirrorFull_leaf (p : Nat) (hp : p < 0x200000) :
    leafOf mirrorFull.mem 0x5000 p = mirrorEntry (0x7000 + 8 * PX 0 p) % 2 ^ 64 := by
  have h2 : PX 2 p = 0 := by rw [PX2_eq]; omega
  have h1 : PX 1 p = 0 := by rw [PX1_eq]; omega
  have hd : descend mirrorFull.mem 0x5000 [0, 0] = some 0x7000 := by decide
  unfold leafOf entryAt
  rw [h2, h1, hd]
  exact mirrorFull_rd _ (by omega)

theorem mirrorFull_install_fails (pa perm : Nat) :
    mappages_u2ukvm mirrorFull 0x5000 0x200000 PGSIZE pa perm = .ok (-1) mirrorFull := by
  rw [mappages_u2ukvm_eq (by decide) (by decide),
    show PGROUNDDOWN 0x200000 = 0x200000 from by decide,
    show PGROUNDDOWN (0x200000 + PGSIZE - 1) = 0x200000 from by decide,
    show loopFuel = MAXVA / PGSIZE + 1 from rfl, mappages_u2ukvmLoop,
    walk_nofree rfl (by decide)]
  simp only
  rw [if_pos (by decide)]

theorem mirrorFull_fail_step (k3 : Kernel)
    (h : uvmunmap mirrorFull 0x5000 0 (0x200000 / PGSIZE) true = .ok () k3) :
    copypage_u2ukvm mirrorFull 0x1000 0x5000 0x200000 0x201000 = .ok (-1) k3 := by
  have hs : slotOf mirrorFull.mem 0x1000 0x200000 = some 0x4000 := by decide
  unfold copypage_u2ukvm
  rw [show PGROUNDUP 0x200000 = 0x200000 from by decide,
    show loopFuel = MAXVA / PGSIZE + 1 from rfl, copypage_u2ukvmLoop, if_pos (by decide),
    walk_found (by decide) hs]
  simp only
  rw [if_neg (by decide), if_neg (by decide), mirrorFull_install_fails]
  simp only
  rw [if_pos (by decide), h]

/-- C15, the failing input evaluated.  The kernel has no free frame; the first 512 pages
of the process are mirrored in the shadow table at `0x5000`, and
`copypage_u2ukvm(pagetable, pkpagetable, 0x200000, 0x201000)` is to mirror the next
page.  The shadow table needs a new node for it, `mappages_u2ukvm` returns -1 without
having installed anything, and the `err:` path runs
`uvmunmap(pkpagetable, 0, i / PGSIZE, 1)`: the call returns -1 having removed the 512
pages mirrored by earlier calls and released their 512 frames to the allocator, the
frame `0x100000` among them, which the user table still maps at address 0. -/
theorem mirror_failure_frees :
    mirrorFull.freelist = [] ∧
    (walkaddr mirrorFull 0x1000 0).val? = some 0x100000 ∧
    ∃ k2, copypage_u2ukvm mirrorFull 0x1000 0x5000 0x200000 0x201000 = .ok (-1) k2 ∧
      k2.freelist = (backing mirrorFull.mem 0x5000 0 512).reverse ∧
      k2.freelist.length = 512 ∧ 0x100000 ∈ k2.freelist ∧
      (∀ vb, vb < 0x200000 →
        leafOf mirrorFull.mem 0x5000 vb &&& PTE_V ≠ 0 ∧ leafOf k2.mem 0x5000 vb = 0) ∧
      walkaddr k2 0x1000 0 = .ok 0x100000 k2 := by
  have hall : ∀ p, 0 ≤ p → p < 0x200000 → leafOf mirrorFull.mem 0x5000 p &&& PTE_V ≠ 0 ∧
      PTE_FLAGS (leafOf mirrorFull.mem 0x5000 p) ≠ PTE_V := by
    intro p _ hp
    rw [mirrorFull_leaf p hp]
    exact mirrorEntry_leaves _ (PX_lt 0 p)
  obtain ⟨k2, hrun, _, _, hleaf, hfree, hbytes⟩ :=
    uvmunmapLoop_spec 0x5000 0x200000 true (by decide) (by decide) loopFuel mirrorFull 0
      mirrorFull_TableWF (by decide) (by decide) (by decide) hall
  have hfl : k2.freelist = (backing mirrorFull.mem 0x5000 0 512).reverse := by
    rw [hfree]
    simp only [if_true]
    rw [show (0x200000 - 0) / PGSIZE = 512 from by decide]
    exact List.append_nil _
  have hlow : ∀ a, a + 8 ≤ 0x5000 → rd64 k2.mem a = rd64 mirrorFull.mem a := by
    intro a ha
    apply rd64_congr
    intro i hi
    apply hbytes
    intro q n hq hn
    rcases chain_nodes mirrorEntry_rootmem mirrorEntry_midmem q n hq hn with
      ⟨_, e⟩ | ⟨_, e⟩ | ⟨_, e⟩ <;> rw [e] <;> unfold PGSIZE <;> omega
  refine ⟨rfl, by decide, k2, ?_, hfl, ?_, ?_, ?_, ?_⟩
  · apply mirrorFull_fail_step
    rw [uvmunmap_eq (by decide) (by decide),
      show 0 + 0x200000 / PGSIZE * PGSIZE = 0x200000 from by decide, hrun]
  · rw [hfl, List.length_reverse, backing_length]
  · rw [hfl, List.mem_reverse]
    have h := backing_mem mirrorFull.mem 0x5000 512 0 0 (by decide) (by decide) (by decide)
    rw [show PTE2PA (leafOf mirrorFull.mem 0x5000 0) = 0x100000 from by decide] at h
    exact h
  · intro vb hvb
    refine ⟨(hall vb (Nat.zero_le _) hvb).1, ?_⟩
    rw [hleaf vb (by unfold MAXVA; omega), if_pos ⟨Nat.zero_le _, hvb⟩]
  · rw [walkaddr_entries, hlow _ (by decide), hlow _ (by decide), hlow _ (by decide)]
    exact congrArg (fun v => Res.ok v k2) (by decide)

end Xv6

namespace Xv6

/-! ## `copyout` -/

theorem walkaddr_total (k : Kernel) (root va : Nat) :
    ∃ r, walkaddr k root va = .ok r k ∧ (MAXVA ≤ va → r = 0) := by
  refine ⟨_, walkaddr_eq k root va, fun h => ?_⟩
  rw [if_pos h]

/-- `walkaddr` returns the frame of a user page, and 0 for any other address. -/
theorem walkaddr_user {k : Kernel} {root : Nat} (hwf : TableWF k.mem root) (va : Nat) :
    (UserPage k.mem root va → walkaddr k root va = .ok (PTE2PA (leafOf k.mem root va)) k) ∧
    (¬ UserPage k.mem root va → walkaddr k root va = .ok 0 k) := by
  rw [walkaddr_val hwf va]
  constructor
  · rintro ⟨h1, h2, h3, _⟩
    rw [if_neg (by omega), if_neg h2, if_neg h3]
  · intro h
    by_cases h1 : MAXVA ≤ va
    · rw [if_pos h1]
    · rw [if_neg h1]
      by_cases h2 : leafOf k.mem root va &&& PTE_V = 0
      · rw [if_pos h2]
      · rw [if_neg h2]
        by_cases h3 : leafOf k.mem root va &&& PTE_U = 0
        · rw [if_pos h3]
        · rw [if_neg h3]
          by_cases h4 : PTE2PA (leafOf k.mem root va) = 0
          · rw [h4]
          · exact absurd ⟨by omega, h2, h3, h4⟩ h

theorem UserPage_same_page {m : Mem} {root va vb : Nat} (h : va / PGSIZE = vb / PGSIZE) :
    UserPage m root va ↔ UserPage m root vb := by
  unfold UserPage
  rw [leafOf_same_page m root va vb h]
  have : va < MAXVA ↔ vb < MAXVA := by unfold PGSIZE MAXVA at *; omega
  rw [this]

theorem UserPage_down {m : Mem} {root va : Nat} :
    UserPage m root (PGROUNDDOWN va) ↔ UserPage m root va :=
  UserPage_same_page (by unfold PGROUNDDOWN PGSIZE; omega)

theorem physOf_first (m : Mem) (root dstva i : Nat) (hi : dstva % PGSIZE + i < PGSIZE) :
    physOf m root (dstva + i) = PTE2PA (leafOf m root dstva) + (dstva % PGSIZE + i) := by
  unfold physOf
  rw [leafOf_same_page m root (dstva + i) dstva (by unfold PGSIZE at *; omega)]
  have : (dstva + i) % PGSIZE = dstva % PGSIZE + i := by unfold PGSIZE at *; omega
  rw [this]

theorem copyoutLoop_done (fuel : Nat) (k : Kernel) (root dstva src : Nat) :
    copyoutLoop (fuel + 1) k root dstva src 0 = .ok 0 k := by
  rw [copyoutLoop, if_neg (by decide)]

theorem copyoutLoop_stop {fuel : Nat} {k : Kernel} {root dstva src len : Nat}
    (hlen : 0 < len) (h : walkaddr k root (PGROUNDDOWN dstva) = .ok 0 k) :
    copyoutLoop (fuel + 1) k root dstva src len = .ok (-1) k := by
  rw [copyoutLoop, if_pos hlen, h]
  simp only [if_true]

theorem copyoutLoop_step {fuel : Nat} {k : Kernel} {root dstva src len f : Nat}
    (hlen : 0 < len) (h : walkaddr k root (PGROUNDDOWN dstva) = .ok f k) (hf0 : f ≠ 0)
    (hfa : f % PGSIZE = 0) (hf64 : f < 2 ^ 64) (hmax : PGROUNDDOWN dstva < MAXVA) :
    copyoutLoop (fuel + 1) k root dstva src len =
      copyoutLoop fuel
        ⟨memmove k.mem (f + dstva % PGSIZE) src (min len (PGSIZE - dstva % PGSIZE)), k.freelist⟩
        root (PGROUNDDOWN dstva + PGSIZE) ((src + min len (PGSIZE - dstva % PGSIZE)) % 2 ^ 64)
        (len - min len (PGSIZE - dstva % PGSIZE)) := by
  have e1 : dstva - PGROUNDDOWN dstva = dstva % PGSIZE := by
    unfold PGROUNDDOWN PGSIZE; omega
  have e2 : (if PGSIZE - dstva % PGSIZE > len then len else PGSIZE - dstva % PGSIZE) =
      min len (PGSIZE - dstva % PGSIZE) := by
    by_cases hc : PGSIZE - dstva % PGSIZE > len
    · rw [if_pos hc]; omega
    · rw [if_neg hc]; omega
  have e3 : (f + dstva % PGSIZE) % 2 ^ 64 = f + dstva % PGSIZE := by
    apply Nat.mod_eq_of_lt
    unfold PGSIZE at *; omega
  have e4 : (PGROUNDDOWN dstva + PGSIZE) % 2 ^ 64 = PGROUNDDOWN dstva + PGSIZE := by
    apply Nat.mod_eq_of_lt
    unfold PGSIZE MAXVA at *; omega
  rw [copyoutLoop, if_pos hlen, h]
  simp only
  rw [if_neg hf0, e1, e2, e3, e4]

/-- `copyout` terminates in every state, without a fatal halt: it returns 0 or -1 and
leaves the allocator alone. -/
theorem copyoutLoop_total (root : Nat) :
    ∀ fuel k dstva src len, (MAXVA - PGROUNDDOWN dstva) / PGSIZE < fuel →
      ∃ rc k2, copyoutLoop fuel k root dstva src len = .ok rc k2 ∧ (rc = 0 ∨ rc = -1) ∧
        k2.freelist = k.freelist := by
  intro fuel
  induction fuel with
  | zero => intro k dstva src len hf; exact absurd hf (Nat.not_lt_zero _)
  | succ fuel ih =>
    intro k dstva src len hf
    by_cases hlen : 0 < len
    · obtain ⟨r, hr, hr0⟩ := walkaddr_total k root (PGROUNDDOWN dstva)
      by_cases hz : r = 0
      · rw [hz] at hr
        exact ⟨-1, k, copyoutLoop_stop hlen hr, Or.inr rfl, rfl⟩
      · have hmax : PGROUNDDOWN dstva < MAXVA := by
          by_contra hc
          exact hz (hr0 (by omega))
        rw [copyoutLoop, if_pos hlen, hr]
        simp only
        rw [if_neg hz,
          show (PGROUNDDOWN dstva + PGSIZE) % 2 ^ 64 = PGROUNDDOWN dstva + PGSIZE from
            Nat.mod_eq_of_lt (by unfold PGSIZE MAXVA at *; omega)]
        obtain ⟨rc, k2, h1, h2, h3⟩ := ih
          ⟨memmove k.mem ((r + (dstva - PGROUNDDOWN dstva)) % 2 ^ 64) src
            (if PGSIZE - (dstva - PGROUNDDOWN dstva) > len then len
              else PGSIZE - (dstva - PGROUNDDOWN dstva)), k.freelist⟩
          (PGROUNDDOWN dstva + PGSIZE)
          ((src + (if PGSIZE - (dstva - PGROUNDDOWN dstva) > len then len
              else PGSIZE - (dstva - PGROUNDDOWN dstva))) % 2 ^ 64)
          (len - (if PGSIZE - (dstva - PGROUNDDOWN dstva) > len then len
              else PGSIZE - (dstva - PGROUNDDOWN dstva)))
          (by unfold PGROUNDDOWN PGSIZE MAXVA at *; omega)
        exact ⟨rc, k2, h1, h2, h3⟩
    · have : len = 0 := by omega
      subst this
      exact ⟨0, k, copyoutLoop_done fuel k root dstva src, Or.inl rfl, rfl⟩

end Xv6

namespace Xv6

/-- After the first chunk of a copy has been written into the frame of `dstva`, the table
reads as before and the rest of the copy is in the same setting. -/
theorem CopyOK.next {k : Kernel} {root dstva src len n : Nat}
    (hok : CopyOK k root dstva src len) (hU : UserPage k.mem root dstva) (hn0 : 0 < n)
    (hn1 : n ≤ len) (hn2 : dstva % PGSIZE + n ≤ PGSIZE)
    (hn3 : n = len ∨ dstva % PGSIZE + n = PGSIZE) :
    (∀ va, leafOf (memmove k.mem (PTE2PA (leafOf k.mem root dstva) + dstva % PGSIZE) src n)
      root va = leafOf k.mem root va) ∧
    CopyOK ⟨memmove k.mem (PTE2PA (leafOf k.mem root dstva) + dstva % PGSIZE) src n,
      k.freelist⟩ root (PGROUNDDOWN dstva + PGSIZE) ((src + n) % 2 ^ 64) (len - n) := by
  have hfa := PTE2PA_aligned (leafOf k.mem root dstva)
  have hfresh := hok.apart dstva (le_refl _) (by omega) hU
  obtain ⟨hd, hl, hwf'⟩ := @frame_store k.mem
    (memmove k.mem (PTE2PA (leafOf k.mem root dstva) + dstva % PGSIZE) src n) root _
    hok.table hfa hfresh
    (fun x hx => memmove_out _ _ _ _ _ (by unfold PGSIZE at *; omega))
  have hUP : ∀ va, UserPage (memmove k.mem (PTE2PA (leafOf k.mem root dstva) + dstva % PGSIZE)
      src n) root va ↔ UserPage k.mem root va := by
    intro va; unfold UserPage; rw [hl va]
  have hfits := hok.fits
  have hr1 : ∀ va, PGROUNDDOWN dstva + PGSIZE ≤ va →
      va < PGROUNDDOWN dstva + PGSIZE + (len - n) → dstva ≤ va ∧ va < dstva + len := by
    intro va h1 h2
    unfold PGROUNDDOWN PGSIZE at *; omega
  refine ⟨hl, hwf', by omega, ?_, ?_, ?_⟩
  · intro va h1 h2 hu q hq
    show descend (memmove _ _ _ _) root q ≠ some (PTE2PA (leafOf (memmove _ _ _ _) root va))
    rw [hl va, hd q hq]
    exact hok.apart va (hr1 va h1 h2).1 (hr1 va h1 h2).2 ((hUP va).1 hu) q hq
  · intro va h1 h2 hu
    show PTE2PA (leafOf (memmove _ _ _ _) root va) + PGSIZE ≤ _ ∨
      _ ≤ PTE2PA (leafOf (memmove _ _ _ _) root va)
    rw [hl va]
    have := hok.source va (hr1 va h1 h2).1 (hr1 va h1 h2).2 ((hUP va).1 hu)
    omega
  · intro va vb h1 h2 h3 h4 hu hv
    show PTE2PA (leafOf (memmove _ _ _ _) root va) =
      PTE2PA (leafOf (memmove _ _ _ _) root vb) → _
    rw [hl va, hl vb]
    exact hok.distinct va vb (hr1 va h1 h2).1 (hr1 va h1 h2).2 (hr1 vb h3 h4).1
      (hr1 vb h3 h4).2 ((hUP va).1 hu) ((hUP vb).1 hv)

/-- What the loop of `copyout` does in the setting `CopyOK`: it writes the first `w`
bytes, those before the first page that is not a user page, to the addresses they
translate to, changes no other byte, and returns 0 when `w` is `len`, -1 otherwise. -/
theorem copyoutLoop_spec (root : Nat) :
    ∀ fuel k dstva src len, CopyOK k root dstva src len →
      (MAXVA - PGROUNDDOWN dstva) / PGSIZE < fuel →
      ∃ rc k2 w, copyoutLoop fuel k root dstva src len = .ok rc k2 ∧ w ≤ len ∧
        k2.freelist = k.freelist ∧
        (∀ va, dstva ≤ va → va < dstva + w → UserPage k.mem root va) ∧
        ((rc = 0 ∧ w = len) ∨ (rc = -1 ∧ w < len ∧ ¬ UserPage k.mem root (dstva + w))) ∧
        (∀ i, i < w → k2.mem (physOf k.mem root (dstva + i)) = k.mem (src + i)) ∧
        (∀ x, (∀ i, i < w → x ≠ physOf k.mem root (dstva + i)) → k2.mem x = k.mem x) ∧
        (∀ va, leafOf k2.mem root va = leafOf k.mem root va) ∧ TableWF k2.mem root := by
  intro fuel
  induction fuel with
  | zero => intro k dstva src len _ hf; exact absurd hf (Nat.not_lt_zero _)
  | succ fuel ih =>
    intro k dstva src len hok hf
    by_cases hlen : 0 < len
    · by_cases hU : UserPage k.mem root dstva
      · have hU0 : UserPage k.mem root (PGROUNDDOWN dstva) := UserPage_down.2 hU
        have hwa := (walkaddr_user hok.table (PGROUNDDOWN dstva)).1 hU0
        rw [leafOf_same_page k.mem root (PGROUNDDOWN dstva) dstva
          (by unfold PGROUNDDOWN PGSIZE; omega)] at hwa
        have hmax : PGROUNDDOWN dstva < MAXVA := hU0.1
        rw [copyoutLoop_step hlen hwa hU.2.2.2 (PTE2PA_aligned _) (PTE2PA_lt _) hmax]
        obtain ⟨n, hn⟩ : ∃ n, n = min len (PGSIZE - dstva % PGSIZE) := ⟨_, rfl⟩
        rw [← hn]
        have hoff : dstva % PGSIZE < PGSIZE := Nat.mod_lt _ (by decide)
        have hn0 : 0 < n := by omega
        have hn1 : n ≤ len := by omega
        have hn2 : dstva % PGSIZE + n ≤ PGSIZE := by omega
        have hn3 : n = len ∨ dstva % PGSIZE + n = PGSIZE := by omega
        have hnext : n < len → dstva + n = PGROUNDDOWN dstva + PGSIZE := by
          intro h
          unfold PGROUNDDOWN PGSIZE at *; omega
        have hdn : dstva + n ≤ PGROUNDDOWN dstva + PGSIZE ∧ PGROUNDDOWN dstva ≤ dstva := by
          unfold PGROUNDDOWN PGSIZE at *; omega
        have hfa := PTE2PA_aligned (leafOf k.mem root dstva)
        obtain ⟨hl, hok'⟩ := hok.next hU hn0 hn1 hn2 hn3
        have hUP : ∀ va, UserPage (memmove k.mem (PTE2PA (leafOf k.mem root dstva) +
            dstva % PGSIZE) src n) root va ↔ UserPage k.mem root va := by
          intro va; unfold UserPage; rw [hl va]
        obtain ⟨rc, k2, w, hrun, hw, hfl, hmapped, hrc, hbytes, hother, hleaf2, hwf2⟩ :=
          ih _ _ _ _ hok' (by unfold PGROUNDDOWN PGSIZE MAXVA at *; omega)
        have hfits := hok.fits
        have hsrc := hok.source dstva (le_refl _) (by omega) hU
        -- a later destination byte lies in another frame
        have hfar : ∀ j, j < w → ∀ t, t < PGSIZE →
            PTE2PA (leafOf k.mem root dstva) + t ≠
              physOf k.mem root (PGROUNDDOWN dstva + PGSIZE + j) := by
          intro j hj t ht heq
          have hu := (hUP _).1 (hmapped (PGROUNDDOWN dstva + PGSIZE + j) (by omega) (by omega))
          have hne : PTE2PA (leafOf k.mem root dstva) ≠
              PTE2PA (leafOf k.mem root (PGROUNDDOWN dstva + PGSIZE + j)) := by
            intro e
            have := hok.distinct dstva (PGROUNDDOWN dstva + PGSIZE + j) (le_refl _) (by omega)
              (by unfold PGROUNDDOWN PGSIZE at *; omega)
              (by have := hnext (by omega); omega) hU hu e
            unfold PGROUNDDOWN PGSIZE at *; omega
          have hd := page_disjoint hfa
            (PTE2PA_aligned (leafOf k.mem root (PGROUNDDOWN dstva + PGSIZE + j))) hne
          have hr : (PGROUNDDOWN dstva + PGSIZE + j) % PGSIZE < PGSIZE :=
            Nat.mod_lt _ (by decide)
          unfold physOf at heq
          omega
        have hphys : ∀ j, physOf (memmove k.mem (PTE2PA (leafOf k.mem root dstva) +
            dstva % PGSIZE) src n) root j = physOf k.mem root j := by
          intro j; unfold physOf; rw [hl j]
        refine ⟨rc, k2, n + w, hrun, by omega, hfl, ?_, ?_, ?_, ?_, ?_, hwf2⟩
        · intro va h1 h2
          by_cases hv : va < PGROUNDDOWN dstva + PGSIZE
          · exact (UserPage_same_page (by unfold PGROUNDDOWN PGSIZE at *; omega)).2 hU
          · exact (hUP va).1 (hmapped va (by omega) (by omega))
        · rcases hrc with ⟨h1, h2⟩ | ⟨h1, h2, h3⟩
          · exact Or.inl ⟨h1, by omega⟩
          · refine Or.inr ⟨h1, by omega, ?_⟩
            have e : dstva + (n + w) = PGROUNDDOWN dstva + PGSIZE + w := by
              have := hnext (by omega); omega
            rw [e]
            exact fun h => h3 ((hUP _).2 h)
        · intro i hi
          by_cases hin : i < n
          · rw [physOf_first k.mem root dstva i (by omega),
              hother _ (fun j hj => by rw [hphys]; exact hfar j hj _ (by omega)),
              ← Nat.add_assoc]
            exact memmove_in k.mem _ src n i hin
          · have hb := hbytes (i - n) (by omega)
            have e1 : PGROUNDDOWN dstva + PGSIZE + (i - n) = dstva + i := by
              have := hnext (by omega); omega
            have e3 : (src + n) % 2 ^ 64 + (i - n) = src + i := by omega
            rw [hphys, e1, e3] at hb
            rw [hb]
            exact memmove_out k.mem _ src n _ (by unfold PGSIZE at *; omega)
        · intro x hx
          rw [hother x (fun j hj => by
            rw [hphys]
            have e1 : PGROUNDDOWN dstva + PGSIZE + j = dstva + (n + j) := by
              have := hnext (by omega); omega
            rw [e1]
            exact hx (n + j) (by omega))]
          apply memmove_out
          by_contra hc
          have hxi := hx (x - (PTE2PA (leafOf k.mem root dstva) + dstva % PGSIZE)) (by omega)
          rw [physOf_first k.mem root dstva _ (by omega)] at hxi
          omega
        · intro va
          rw [hleaf2 va]
          exact hl va
      · have hwa := (walkaddr_user hok.table (PGROUNDDOWN dstva)).2
          (fun h => hU (UserPage_down.1 h))
        exact ⟨-1, k, 0, copyoutLoop_stop hlen hwa, by omega, rfl,
          fun va h1 h2 => by omega, Or.inr ⟨rfl, hlen, hU⟩, fun i hi => by omega,
          fun x _ => rfl, fun va => rfl, hok.table⟩
    · have : len = 0 := by omega
      subst this
      exact ⟨0, k, 0, copyoutLoop_done fuel k root dstva src, le_refl _, rfl,
        fun va h1 h2 => by omega, Or.inl ⟨rfl, rfl⟩, fun i hi => by omega,
        fun x _ => rfl, fun va => rfl, hok.table⟩

end Xv6

namespace Xv6

/-- C12 (copyout round trip).  In a table that is a tree, for `dstva` and `len` such that
every page overlapping `[dstva, dstva+len)` is a user page, the frames of these pages
being pairwise distinct, disjoint from the source buffer and no nodes of the table:
`copyout(pagetable, dstva, src, len)` returns 0 and afterwards, for every `i < len`, the
byte at the physical address `walkaddr(pagetable, PGROUNDDOWN(dstva+i)) + (dstva+i) mod
PGSIZE` is `src[i]`, the translation being the one before the call, so reading the range
back through the table gives the `len` bytes of the buffer; the buffer is unchanged, and
so is every byte that is not one of these `len` destination bytes. -/
theorem copyout_roundtrip (k : Kernel) (pagetable dstva src len : Nat)
    (hok : CopyOK k pagetable dstva src len)
    (hmap : ∀ va, dstva ≤ va → va < dstva + len → UserPage k.mem pagetable va) :
    ∃ k2, copyout k pagetable dstva src len = .ok 0 k2 ∧ k2.freelist = k.freelist ∧
      (∀ i, i < len → ∃ pa, pa ≠ 0 ∧
        walkaddr k2 pagetable (PGROUNDDOWN (dstva + i)) = .ok pa k2 ∧
        walkaddr k pagetable (PGROUNDDOWN (dstva + i)) = .ok pa k ∧
        k2.mem (pa + (dstva + i) % PGSIZE) = k.mem (src + i)) ∧
      (∀ i, i < len → k2.mem (src + i) = k.mem (src + i)) ∧
      (∀ x, (∀ i, i < len → x ≠ physOf k.mem pagetable (dstva + i)) → k2.mem x = k.mem x) := by
  obtain ⟨rc, k2, w, hrun, hw, hfl, _, hrc, hbytes, hother, hleaf, hwf2⟩ :=
    copyoutLoop_spec pagetable loopFuel k dstva src len hok
      (by unfold loopFuel PGROUNDDOWN PGSIZE MAXVA; omega)
  have hwl : rc = 0 ∧ w = len := by
    rcases hrc with h | ⟨_, h2, h3⟩
    · exact h
    · exact absurd (hmap (dstva + w) (by omega) (by omega)) h3
  obtain ⟨hrc0, hwlen⟩ := hwl
  subst hrc0
  subst hwlen
  refine ⟨k2, hrun, hfl, ?_, ?_, hother⟩
  · intro i hi
    have hu := hmap (dstva + i) (by omega) (by omega)
    have hu0 : UserPage k.mem pagetable (PGROUNDDOWN (dstva + i)) := UserPage_down.2 hu
    have hu2 : UserPage k2.mem pagetable (PGROUNDDOWN (dstva + i)) := by
      unfold UserPage at hu0 ⊢
      rw [hleaf]
      exact hu0
    have e : leafOf k.mem pagetable (PGROUNDDOWN (dstva + i)) =
        leafOf k.mem pagetable (dstva + i) :=
      leafOf_same_page k.mem pagetable _ _ (by unfold PGROUNDDOWN PGSIZE; omega)
    refine ⟨PTE2PA (leafOf k.mem pagetable (dstva + i)), hu.2.2.2, ?_, ?_, hbytes i hi⟩
    · rw [(walkaddr_user hwf2 _).1 hu2, hleaf, e]
    · rw [(walkaddr_user hok.table _).1 hu0, e]
  · intro i hi
    apply hother
    intro j hj heq
    have hs := hok.source (dstva + j) (by omega) (by omega) (hmap (dstva + j) (by omega)
      (by omega))
    have hr : (dstva + j) % PGSIZE < PGSIZE := Nat.mod_lt _ (by decide)
    unfold physOf at heq
    omega

/-- C13 (copyout failure is recoverable).  In every state, for every `dstva` and `len`,
`copyout` terminates without a fatal halt: it returns 0 or -1; it returns 0 when `len`
is 0.  For `len > 0`, in the setting of a copy, it returns -1 exactly when `walkaddr`
returns 0 for some page overlapping `[dstva, dstva+len)`; the `w` bytes destined for the
pages before the first such page have then been written, and no other byte of memory has
changed. -/
theorem copyout_recoverable (k : Kernel) (pagetable dstva src len : Nat) :
    (∃ rc k2, copyout k pagetable dstva src len = .ok rc k2 ∧ (rc = 0 ∨ rc = -1) ∧
      k2.freelist = k.freelist) ∧
    (len = 0 → copyout k pagetable dstva src len = .ok 0 k) ∧
    (0 < len → CopyOK k pagetable dstva src len →
      ∃ rc k2 w, copyout k pagetable dstva src len = .ok rc k2 ∧ w ≤ len ∧
        (rc = -1 ↔ ∃ va, dstva ≤ va ∧ va < dstva + len ∧
          walkaddr k pagetable (PGROUNDDOWN va) = .ok 0 k) ∧
        (rc = -1 → w < len ∧ walkaddr k pagetable (PGROUNDDOWN (dstva + w)) = .ok 0 k) ∧
        (rc = 0 → w = len) ∧
        (∀ va, dstva ≤ va → va < dstva + w →
          ∃ pa, pa ≠ 0 ∧ walkaddr k pagetable (PGROUNDDOWN va) = .ok pa k) ∧
        (∀ i, i < w → k2.mem (physOf k.mem pagetable (dstva + i)) = k.mem (src + i)) ∧
        (∀ x, (∀ i, i < w → x ≠ physOf k.mem pagetable (dstva + i)) → k2.mem x = k.mem x)) := by
  have hfuel : (MAXVA - PGROUNDDOWN dstva) / PGSIZE < loopFuel := by
    unfold loopFuel PGROUNDDOWN PGSIZE MAXVA; omega
  refine ⟨copyoutLoop_total pagetable loopFuel k dstva src len hfuel, ?_, ?_⟩
  · intro h
    subst h
    exact copyoutLoop_done _ k pagetable dstva src
  · intro hlen hok
    obtain ⟨rc, k2, w, hrun, hw, _, hmapped, hrc, hbytes, hother, _, _⟩ :=
      copyoutLoop_spec pagetable loopFuel k dstva src len hok hfuel
    have hgood : ∀ va, UserPage k.mem pagetable va →
        ∃ pa, pa ≠ 0 ∧ walkaddr k pagetable (PGROUNDDOWN va) = .ok pa k := fun va hu =>
      ⟨_, (UserPage_down.2 hu).2.2.2, (walkaddr_user hok.table _).1 (UserPage_down.2 hu)⟩
    have hbad : ∀ va, ¬ UserPage k.mem pagetable va →
        walkaddr k pagetable (PGROUNDDOWN va) = .ok 0 k := fun va hu =>
      (walkaddr_user hok.table _).2 (fun h => hu (UserPage_down.1 h))
    refine ⟨rc, k2, w, hrun, hw, ⟨?_, ?_⟩, ?_, ?_, fun va h1 h2 => hgood va (hmapped va h1 h2),
      hbytes, hother⟩
    · intro h
      rcases hrc with ⟨h1, _⟩ | ⟨_, h2, h3⟩
      · rw [h1] at h; cases h
      · exact ⟨dstva + w, by omega, by omega, hbad _ h3⟩
    · rintro ⟨va, h1, h2, h3⟩
      rcases hrc with ⟨_, h5⟩ | ⟨h4, _⟩
      · obtain ⟨pa, hpa, hwa⟩ := hgood va (hmapped va h1 (by omega))
        rw [h3] at hwa
        cases hwa
        exact absurd rfl hpa
      · exact h4
    · intro h
      rcases hrc with ⟨h1, _⟩ | ⟨_, h2, h3⟩
      · rw [h1] at h; cases h
      · exact ⟨h2, hbad _ h3⟩
    · intro h
      rcases hrc with ⟨_, h2⟩ | ⟨h1, _⟩
      · exact h2
      · rw [h1] at h; cases h

/-- In `copySource` the only user page is the page at address 0, backed by `0x9000`. -/
theorem copySource_user {va : Nat} (h : UserPage copySource.mem 0x1000 va) :
    va / PGSIZE = 0 ∧ PTE2PA (leafOf copySource.mem 0x1000 va) = 0x9000 := by
  obtain ⟨hm, hv, _, _⟩ := h
  have hl := copySource_facts.2.2 va hm
  by_cases hp : va / PGSIZE = 0 / PGSIZE
  · rw [if_pos hp] at hl
    rw [hl]
    exact ⟨hp, by decide⟩
  · rw [if_neg hp] at hl
    rw [hl] at hv
    exact absurd rfl hv

theorem copySource_CopyOK (dstva len : Nat) (hlen : len ≤ PGSIZE) :
    CopyOK copySource 0x1000 dstva 0xB000 len := by
  refine ⟨copySource_facts.1.1, by unfold PGSIZE at hlen; omega, ?_, ?_, ?_⟩
  · intro va _ _ hu q hq hn
    rw [(copySource_user hu).2] at hn
    rcases copySource_facts.2.1.origin q _ hq hn with h | h
    · have := (zero_nodes _ _ q _ hq h).2
      omega
    · simp [zeroKernel] at h
  · intro va _ _ hu
    rw [(copySource_user hu).2]
    exact Or.inl (by decide)
  · intro va vb _ _ _ _ hu hv _
    rw [(copySource_user hu).1, (copySource_user hv).1]

theorem copySource_page0 {va : Nat} (h : va < PGSIZE) : UserPage copySource.mem 0x1000 va := by
  have hm : va < MAXVA := by unfold PGSIZE MAXVA at *; omega
  have hl := copySource_facts.2.2 va hm
  rw [if_pos (by unfold PGSIZE at *; omega)] at hl
  unfold UserPage
  rw [hl]
  exact ⟨hm, by decide, by decide, by decide⟩

/-- Witness of C12: sixteen bytes copied to address 100 of the user page of
`copySource`. -/
theorem copyout_roundtrip_witness :
    CopyOK copySource 0x1000 100 0xB000 16 ∧
    ∃ k2, copyout copySource 0x1000 100 0xB000 16 = .ok 0 k2 ∧
      k2.freelist = copySource.freelist ∧
      ∀ i, i < 16 → ∃ pa, pa ≠ 0 ∧
        walkaddr k2 0x1000 (PGROUNDDOWN (100 + i)) = .ok pa k2 ∧
        walkaddr copySource 0x1000 (PGROUNDDOWN (100 + i)) = .ok pa copySource ∧
        k2.mem (pa + (100 + i) % PGSIZE) = copySource.mem (0xB000 + i) :=
  match copyout_roundtrip copySource 0x1000 100 0xB000 16 (copySource_CopyOK 100 16 (by decide))
      (fun va _ h2 => copySource_page0 (by unfold PGSIZE; omega)) with
  | ⟨k2, h1, h2, h3, _⟩ => ⟨copySource_CopyOK 100 16 (by decide), k2, h1, h2, h3⟩

/-- Witness of C13: sixteen bytes copied to address 4090 of `copySource`, whose second
page is not mapped: the call returns -1. -/
theorem copyout_recoverable_witness :
    CopyOK copySource 0x1000 4090 0xB000 16 ∧
    (copyout copySource 0x1000 4090 0xB000 16).val? = some (-1) ∧
    ∃ rc k2 w, copyout copySource 0x1000 4090 0xB000 16 = .ok rc k2 ∧ w ≤ 16 ∧
      (rc = -1 ↔ ∃ va, 4090 ≤ va ∧ va < 4090 + 16 ∧
        walkaddr copySource 0x1000 (PGROUNDDOWN va) = .ok 0 copySource) ∧
      (rc = -1 → w < 16 ∧
        walkaddr copySource 0x1000 (PGROUNDDOWN (4090 + w)) = .ok 0 copySource) :=
  match (copyout_recoverable copySource 0x1000 4090 0xB000 16).2.2 (by decide)
      (copySource_CopyOK 4090 16 (by decide)) with
  | ⟨rc, k2, w, h1, h2, h3, h4, _⟩ =>
    ⟨copySource_CopyOK 4090 16 (by decide), by decide, rc, k2, w, h1, h2, h3, h4⟩

end Xv6

namespace Xv6

/-! ## Clearing level-0 entries -/

theorem Cleared.crefl (m : Mem) (root : Nat) : Cleared m m root :=
  ⟨fun _ _ => rfl, fun _ _ _ _ _ _ _ => rfl, fun _ _ _ _ _ _ => Or.inl rfl⟩

theorem Cleared.ctrans {m m1 m2 : Mem} {root : Nat} (h1 : Cleared m m1 root)
    (h2 : Cleared m1 m2 root) : Cleared m m2 root := by
  refine ⟨?_, ?_, ?_⟩
  · intro q hq
    rw [h2.nodes q hq, h1.nodes q hq]
  · intro q n j hq hl hn hj
    rw [h2.upper q n j hq hl (by rw [h1.nodes q hq]; exact hn) hj, h1.upper q n j hq hl hn hj]
  · intro a b j ha hb hj
    rcases h2.leaves a b j ha hb hj with e | e
    · rw [e]; exact h1.leaves a b j ha hb hj
    · exact Or.inr e

theorem Cleared.table {m m2 : Mem} {root : Nat} (hc : Cleared m m2 root)
    (hwf : TableWF m root) : TableWF m2 root :=
  hwf.table_of_descend hc.nodes

theorem Cleared.tagged {m m2 : Mem} {root : Nat} (hc : Cleared m m2 root)
    (ht : Tagged m root) : Tagged m2 root := by
  refine ⟨?_, ?_⟩
  · intro q n j hq hl hn hj hv
    rw [hc.nodes q hq] at hn
    rw [hc.upper q n j hq hl hn hj] at hv ⊢
    exact ht.upper q n j hq hl hn hj hv
  · intro a b j ha hb hj hv
    rcases hc.leaves a b j ha hb hj with e | e
    · rw [e] at hv ⊢
      exact ht.leaf a b j ha hb hj hv
    · rw [e] at hv
      exact absurd rfl hv

/-- Storing 0 into a level-0 slot clears an entry. -/
theorem cleared_store {m : Mem} {root va s : Nat} (hwf : TableWF m root)
    (hs : slotOf m root va = some s) : Cleared m (wr64 m s 0) root := by
  obtain ⟨n, hn, rfl⟩ := slotOf_some hs
  have hna := descend_aligned hwf.root_aligned _ _ hn
  refine ⟨leaf_store_descend hwf (PX_lt 2 va) (PX_lt 1 va) hn (PX_lt 0 va), ?_, ?_⟩
  · intro q x j hq hl hx hj
    have hne : x ≠ n := hwf.node_ne hq (isPath_va va) hx hn (by
      intro e; rw [e] at hl; simp at hl)
    have hxa := descend_aligned hwf.root_aligned _ _ hx
    have := slot_disjoint hxa hna hj (PX_lt 0 va) (Or.inl hne)
    exact rd64_wr64_other _ _ _ _ (by omega)
  · intro a b j ha hb hj
    rw [leaf_store_entryAt hwf (PX_lt 2 va) (PX_lt 1 va) hn (PX_lt 0 va) ha hb hj]
    by_cases hc : a = PX 2 va ∧ b = PX 1 va ∧ j = PX 0 va
    · rw [if_pos hc]; exact Or.inr rfl
    · rw [if_neg hc]; exact Or.inl rfl

/-- A run of the `uvmunmap` loop that returns has cleared level-0 entries only. -/
theorem uvmunmapLoop_cleared (root bound : Nat) (df : Bool) :
    ∀ fuel (k : Kernel) a k2, TableWF k.mem root →
      uvmunmapLoop fuel k root a bound df = .ok () k2 → Cleared k.mem k2.mem root := by
  intro fuel
  induction fuel with
  | zero =>
    intro k a k2 _ h
    rw [uvmunmapLoop] at h
    cases h
  | succ fuel ih =>
    intro k a k2 hwf h
    by_cases hlt : a < bound
    · by_cases hamax : a < MAXVA
      · cases hs : slotOf k.mem root a with
        | none =>
          rw [uvmunmapLoop, if_pos hlt, walk_false hamax, hs] at h
          simp only [if_true] at h
          cases h
        | some s =>
          by_cases hv : rd64 k.mem s &&& PTE_V ≠ 0
          · by_cases hfl : PTE_FLAGS (rd64 k.mem s) = PTE_V
            · rw [uvmunmapLoop, if_pos hlt, walk_false hamax, hs] at h
              simp only at h
              rw [if_neg (slot_ne_zero hwf hs), if_neg (by simpa using hv), if_pos hfl] at h
              cases h
            · rw [uvmunmapLoop_step hlt hamax hs (slot_ne_zero hwf hs) hv hfl] at h
              have hc := cleared_store hwf hs
              exact hc.ctrans (ih _ _ k2 (hc.table hwf) h)
          · rw [uvmunmapLoop, if_pos hlt, walk_false hamax, hs] at h
            simp only at h
            rw [if_neg (slot_ne_zero hwf hs), if_pos (by simpa using hv)] at h
            cases h
      · rw [uvmunmapLoop, if_pos hlt, walk_fatal (by omega)] at h
        cases h
    · rw [uvmunmapLoop, if_neg hlt] at h
      cases h
      exact Cleared.crefl _ _

theorem flags_of_RWX {e : Nat} (h : e &&& (PTE_R ||| PTE_W ||| PTE_X) ≠ 0) :
    PTE_FLAGS e ≠ PTE_V :=
  fun hf => h (and_RWX_of_flags hf)

/-- The `ukvmunmap` loop over a range below `MAXVA` of a table whose leaves carry one
of R/W/X and that has a level-0 node for every page of the range: it returns, having
cleared level-0 entries only, none of them outside the range, and releases nothing. -/
theorem ukvmunmapLoop_spec (root bound : Nat) (hbm : bound ≤ MAXVA)
    (hb : bound % PGSIZE = 0) :
    ∀ fuel (k : Kernel) a, TableWF k.mem root → Tagged k.mem root → a % PGSIZE = 0 →
      (bound - a) / PGSIZE < fuel →
      (∀ p, a ≤ p → p < bound → slotOf k.mem root p ≠ none) →
      ∃ m2, ukvmunmapLoop fuel k root a bound = .ok () ⟨m2, k.freelist⟩ ∧
        Cleared k.mem m2 root ∧
        ∀ vb, vb < MAXVA → vb < a ∨ bound ≤ vb → leafOf m2 root vb = leafOf k.mem root vb := by
  intro fuel
  induction fuel with
  | zero => intro k a _ _ _ hf; exact absurd hf (Nat.not_lt_zero _)
  | succ fuel ih =>
    intro k a hwf ht haa hf hcov
    by_cases hlt : a < bound
    · have hamax : a < MAXVA := by omega
      have hstep : (a + PGSIZE) % 2 ^ 64 = a + PGSIZE := by
        apply Nat.mod_eq_of_lt
        unfold PGSIZE MAXVA at *; omega
      cases hs : slotOf k.mem root a with
      | none => exact absurd hs (hcov a (le_refl a) hlt)
      | some s =>
        have hc : Cleared k.mem (wr64 k.mem s 0) root := cleared_store hwf hs
        have hnext : ∃ m2,
            ukvmunmapLoop fuel ⟨wr64 k.mem s 0, k.freelist⟩ root (a + PGSIZE) bound =
              .ok () ⟨m2, k.freelist⟩ ∧ Cleared k.mem m2 root ∧
            ∀ vb, vb < MAXVA → vb < a ∨ bound ≤ vb →
              leafOf m2 root vb = leafOf k.mem root vb := by
          obtain ⟨m2, h1, h2, h3⟩ := ih ⟨wr64 k.mem s 0, k.freelist⟩ (a + PGSIZE)
            (hc.table hwf) (hc.tagged ht) (by unfold PGSIZE at *; omega)
            (by unfold PGSIZE at *; omega) (by
              intro p hp1 hp2
              show slotOf (wr64 k.mem s 0) root p ≠ none
              rw [slotOf_congr hc.nodes p]
              exact hcov p (by omega) hp2)
          refine ⟨m2, h1, hc.ctrans h2, ?_⟩
          intro vb hvb hout
          rw [h3 vb hvb (by omega), (store_leaf_table 0 hwf hamax hs).2.2.1 vb hvb,
            if_neg (by unfold PGSIZE at *; omega)]
        rw [ukvmunmapLoop, if_pos hlt, walk_false hamax, hs]
        simp only
        rw [hstep, if_neg (slot_ne_zero hwf hs)]
        by_cases hv : rd64 k.mem s &&& PTE_V = 0
        · rw [if_pos hv]
          exact hnext
        · rw [if_neg hv]
          have hl : leafOf k.mem root a = rd64 k.mem s := leafOf_of_slot hs
          have hrwx := ht.leaf _ _ _ (PX_lt 2 a) (PX_lt 1 a) (PX_lt 0 a)
            (by show leafOf k.mem root a &&& PTE_V ≠ 0; rw [hl]; exact hv)
          have hrwx2 : rd64 k.mem s &&& (PTE_R ||| PTE_W ||| PTE_X) ≠ 0 := by
            rw [← hl]; exact hrwx
          rw [if_neg (flags_of_RWX hrwx2)]
          exact hnext
    · rw [ukvmunmapLoop, if_neg hlt]
      exact ⟨k.mem, rfl, Cleared.crefl _ _, fun _ _ _ => rfl⟩

/-- A page without a level-0 node stops the `ukvmunmap` loop: `walk` returns 0 and the
store goes through the null pointer. -/
theorem ukvmunmapLoop_fault {fuel : Nat} {k : Kernel} {root a bound : Nat} (hlt : a < bound)
    (ha : a < MAXVA) (hs : slotOf k.mem root a = none) :
    ukvmunmapLoop (fuel + 1) k root a bound = .fatal "null pointer store" := by
  rw [ukvmunmapLoop, if_pos hlt, walk_false ha, hs]
  rfl

theorem ukvmunmap_spec {k : Kernel} {root va npages : Nat} (hwf : TableWF k.mem root)
    (ht : Tagged k.mem root) (ha : va % PGSIZE = 0) (hr : va + npages * PGSIZE ≤ MAXVA)
    (hcov : ∀ p, va ≤ p → p < va + npages * PGSIZE → slotOf k.mem root p ≠ none) :
    ∃ m2, ukvmunmap k root va npages = .ok () ⟨m2, k.freelist⟩ ∧ Cleared k.mem m2 root ∧
      ∀ vb, vb < MAXVA → vb < va ∨ va + npages * PGSIZE ≤ vb →
        leafOf m2 root vb = leafOf k.mem root vb := by
  unfold ukvmunmap
  rw [if_neg (by simpa using ha),
    show (va + npages * PGSIZE) % 2 ^ 64 = va + npages * PGSIZE from
      Nat.mod_eq_of_lt (by unfold MAXVA at hr; omega)]
  exact ukvmunmapLoop_spec root _ hr (by unfold PGSIZE at *; omega) loopFuel k va hwf ht ha
    (by unfold loopFuel; unfold PGSIZE MAXVA at *; omega) hcov

end Xv6

namespace Xv6

/-! ## The post-order list of the nodes of a table -/

theorem postorder_zero (m : Mem) (n : Nat) : postorder m 0 n = [n] := rfl

theorem postorder_succ (m : Mem) (l n : Nat) :
    postorder m (l + 1) n = released m l n 0 512 ++ [n] := rfl

theorem released_zero (m : Mem) (l n i : Nat) : released m l n i 0 = [] := rfl

theorem released_succ (m : Mem) (l n i c : Nat) :
    released m l n i (c + 1) =
      (if rd64 m (n + 8 * i) &&& PTE_V ≠ 0 then postorder m l (PTE2PA (rd64 m (n + 8 * i)))
        else []) ++ released m l n (i + 1) c := by
  unfold released
  rw [List.range'_succ, List.flatMap_cons]

theorem mem_released {m : Mem} {l n i c x : Nat} :
    x ∈ released m l n i c ↔ ∃ j, i ≤ j ∧ j < i + c ∧ rd64 m (n + 8 * j) &&& PTE_V ≠ 0 ∧
      x ∈ postorder m l (PTE2PA (rd64 m (n + 8 * j))) := by
  unfold released
  rw [List.mem_flatMap]
  constructor
  · rintro ⟨j, hj, hx⟩
    rw [List.mem_range'_1] at hj
    by_cases hv : rd64 m (n + 8 * j) &&& PTE_V ≠ 0
    · rw [if_pos hv] at hx
      exact ⟨j, hj.1, hj.2, hv, hx⟩
    · rw [if_neg hv] at hx
      cases hx
  · rintro ⟨j, h1, h2, hv, hx⟩
    refine ⟨j, List.mem_range'_1.2 ⟨h1, h2⟩, ?_⟩
    rw [if_pos hv]
    exact hx

/-- The members of `postorder` are the nodes of the subtree. -/
theorem mem_postorder (m : Mem) :
    ∀ l n x, x ∈ postorder m l n ↔
      ∃ q : List Nat, q.length ≤ l ∧ (∀ i ∈ q, i < 512) ∧ descend m n q = some x := by
  intro l
  induction l with
  | zero =>
    intro n x
    rw [postorder_zero, List.mem_singleton]
    constructor
    · rintro rfl
      exact ⟨[], le_refl _, by simp, rfl⟩
    · rintro ⟨q, hq, _, hd⟩
      have : q = [] := List.length_eq_zero.1 (by omega)
      subst this
      rw [descend_nil] at hd
      cases hd
      rfl
  | succ l ih =>
    intro n x
    rw [postorder_succ, List.mem_append, mem_released, List.mem_singleton]
    constructor
    · rintro (⟨j, _, hj, hv, hx⟩ | rfl)
      · obtain ⟨q, hq, hqi, hd⟩ := (ih _ x).1 hx
        refine ⟨j :: q, by simp; omega, ?_, ?_⟩
        · intro i hi
          rcases List.mem_cons.1 hi with rfl | h
          · omega
          · exact hqi i h
        · rw [descend_cons, if_pos hv]
          exact hd
      · exact ⟨[], by simp, by simp, rfl⟩
    · rintro ⟨q, hq, hqi, hd⟩
      cases q with
      | nil =>
        rw [descend_nil] at hd
        cases hd
        exact Or.inr rfl
      | cons j q =>
        rw [descend_cons] at hd
        by_cases hv : rd64 m (n + 8 * j) &&& PTE_V ≠ 0
        · rw [if_pos hv] at hd
          refine Or.inl ⟨j, Nat.zero_le _, ?_, hv, (ih _ x).2 ⟨q, ?_, ?_, hd⟩⟩
          · have := hqi j (List.mem_cons_self _ _)
            omega
          · simp at hq; omega
          · intro i hi
            exact hqi i (List.mem_cons_of_mem _ hi)
        · rw [if_neg hv] at hd
          cases hd

/-- `postorder` reads the entries of the inner nodes of the subtree only. -/
theorem postorder_congr {m m2 : Mem} :
    ∀ l n, (∀ (q : List Nat) x j, q.length < l → (∀ i ∈ q, i < 512) → descend m n q = some x →
      j < 512 → rd64 m2 (x + 8 * j) = rd64 m (x + 8 * j)) →
      postorder m2 l n = postorder m l n := by
  intro l
  induction l with
  | zero => intro n _; rfl
  | succ l ih =>
    intro n H
    rw [postorder_succ, postorder_succ]
    congr 1
    unfold released
    apply List.flatMap_congr
    intro j hj
    rw [List.mem_range'_1] at hj
    have hj' : j < 512 := by omega
    rw [H [] n j (by simp) (by simp) rfl hj']
    by_cases hv : rd64 m (n + 8 * j) &&& PTE_V ≠ 0
    · rw [if_pos hv, if_pos hv]
      apply ih
      intro q x t hq hqi hd ht
      refine H (j :: q) x t (by simp; omega) ?_ ?_ ht
      · intro i hi
        rcases List.mem_cons.1 hi with rfl | h
        · exact hj'
        · exact hqi i h
      · rw [descend_cons, if_pos hv]
        exact hd
    · rw [if_neg hv, if_neg hv]

/-- In a subtree whose nodes are reached by one path each, `postorder` has no
repetition. -/
theorem nodup_postorder (m : Mem) :
    ∀ l n, (∀ (q q2 : List Nat) x, q.length ≤ l → q2.length ≤ l → (∀ i ∈ q, i < 512) →
      (∀ i ∈ q2, i < 512) → descend m n q = some x → descend m n q2 = some x → q = q2) →
      (postorder m l n).Nodup := by
  intro l
  induction l with
  | zero => intro n _; exact List.nodup_singleton n
  | succ l ih =>
    intro n H
    have hchild : ∀ j, j < 512 → rd64 m (n + 8 * j) &&& PTE_V ≠ 0 →
        ∀ (q : List Nat) x, q.length ≤ l → (∀ i ∈ q, i < 512) →
          descend m (PTE2PA (rd64 m (n + 8 * j))) q = some x →
          (j :: q).length ≤ l + 1 ∧ (∀ i ∈ j :: q, i < 512) ∧
            descend m n (j :: q) = some x := by
      intro j hj hv q x hq hqi hd
      refine ⟨by simp; omega, ?_, by rw [descend_cons, if_pos hv]; exact hd⟩
      intro i hi
      rcases List.mem_cons.1 hi with rfl | h
      · exact hj
      · exact hqi i h
    rw [postorder_succ, List.nodup_append]
    refine ⟨?_, List.nodup_singleton n, ?_⟩
    · unfold released
      rw [List.nodup_flatMap]
      constructor
      · intro j hj
        rw [List.mem_range'_1] at hj
        by_cases hv : rd64 m (n + 8 * j) &&& PTE_V ≠ 0
        · rw [if_pos hv]
          apply ih
          intro q q2 x h1 h2 h3 h4 h5 h6
          obtain ⟨a1, a2, a3⟩ := hchild j (by omega) hv q x h1 h3 h5
          obtain ⟨b1, b2, b3⟩ := hchild j (by omega) hv q2 x h2 h4 h6
          have := H _ _ x a1 b1 a2 b2 a3 b3
          exact (List.cons.inj this).2
        · rw [if_neg hv]
          exact List.nodup_nil
      · apply (List.nodup_range' 0 512).pairwise_of_forall_ne
        intro a ha b hb hab
        rw [List.mem_range'_1] at ha hb
        show List.Disjoint _ _
        rw [List.disjoint_left]
        intro x hxa hxb
        beta_reduce at hxa hxb
        by_cases hva : rd64 m (n + 8 * a) &&& PTE_V ≠ 0
        · by_cases hvb : rd64 m (n + 8 * b) &&& PTE_V ≠ 0
          · rw [if_pos hva] at hxa
            rw [if_pos hvb] at hxb
            obtain ⟨q, h1, h3, h5⟩ := (mem_postorder m l _ x).1 hxa
            obtain ⟨q2, h2, h4, h6⟩ := (mem_postorder m l _ x).1 hxb
            obtain ⟨a1, a2, a3⟩ := hchild a (by omega) hva q x h1 h3 h5
            obtain ⟨b1, b2, b3⟩ := hchild b (by omega) hvb q2 x h2 h4 h6
            have := H _ _ x a1 b1 a2 b2 a3 b3
            exact hab (List.cons.inj this).1
          · rw [if_neg hvb] at hxb
            cases hxb
        · rw [if_neg hva] at hxa
          cases hxa
    · rw [List.disjoint_singleton]
      intro hmem
      obtain ⟨j, _, hj, hv, hx⟩ := mem_released.1 hmem
      obtain ⟨q, h1, h3, h5⟩ := (mem_postorder m l _ n).1 hx
      obtain ⟨a1, a2, a3⟩ := hchild j (by omega) hv q n h1 h3 h5
      have := H (j :: q) [] n a1 (by simp) a2 (by simp) a3 rfl
      cases this

end Xv6

namespace Xv6

/-! ## Subtrees of a table -/

theorem TableWF.apart {m : Mem} {root x y z : Nat} {p q : List Nat} (hwf : TableWF m root)
    (hp : IsPath p) (hq : IsPath q) (hx : descend m root p = some x)
    (hy : descend m root q = some y) (hne : p ≠ q) (h1 : x ≤ z) (h2 : z < x + PGSIZE) :
    z < y ∨ y + PGSIZE ≤ z := by
  have := page_disjoint (descend_aligned hwf.root_aligned _ _ hx)
    (descend_aligned hwf.root_aligned _ _ hy) (hwf.node_ne hp hq hx hy hne)
  omega

theorem path_ne_self (P : List Nat) (i : Nat) (Q : List Nat) : P ++ [i] ++ Q ≠ P := by
  intro h
  have := congrArg List.length h
  simp at this

theorem path_ne_sibling {P Q Q2 : List Nat} {i j : Nat} (h : i ≠ j) :
    P ++ [i] ++ Q ≠ P ++ [j] ++ Q2 := by
  intro e
  rw [List.append_assoc, List.append_assoc] at e
  have := List.append_cancel_left e
  exact h (List.cons.inj this).1

theorem SubAgree.child {m0 m : Mem} {root : Nat} {P : List Nat} (h : SubAgree m0 root P m)
    (j : Nat) : SubAgree m0 root (P ++ [j]) m := by
  intro Q x hQ hx
  rw [List.append_assoc] at hQ hx
  exact h _ x hQ hx

theorem SubOutside.below {m0 : Mem} {root y : Nat} {P : List Nat}
    (h : SubOutside m0 root P y) (j : Nat) : SubOutside m0 root (P ++ [j]) y := by
  intro Q x hQ hx
  rw [List.append_assoc] at hQ hx
  exact h _ x hQ hx

theorem SubAgree.entry {m0 m : Mem} {root n : Nat} {P : List Nat} (h : SubAgree m0 root P m)
    (hP : IsPath P) (hn : descend m0 root P = some n) {j : Nat} (hj : j < 512) :
    rd64 m (n + 8 * j) = rd64 m0 (n + 8 * j) := by
  apply rd64_congr
  intro i hi
  have := slot_in_page (n := n) hj
  exact h [] n (by rw [List.append_nil]; exact hP) (by rw [List.append_nil]; exact hn) _
    (by omega) (by omega)

theorem SubAgree.arefl (m0 : Mem) (root : Nat) (P : List Nat) : SubAgree m0 root P m0 :=
  fun _ _ _ _ _ _ _ => rfl

/-- The node linked by a valid entry. -/
theorem descend_child {m : Mem} {root n j : Nat} {P : List Nat}
    (hn : descend m root P = some n) (hv : rd64 m (n + 8 * j) &&& PTE_V ≠ 0) :
    descend m root (P ++ [j]) = some (PTE2PA (rd64 m (n + 8 * j))) := by
  rw [descend_snoc j hn, descend_cons, if_pos hv, descend_nil]

/-- Below an invalid entry there is nothing. -/
theorem descend_invalid {m : Mem} {root n j : Nat} {P Q : List Nat}
    (hn : descend m root P = some n) (hv : ¬ rd64 m (n + 8 * j) &&& PTE_V ≠ 0) :
    descend m root (P ++ [j] ++ Q) = none := by
  rw [List.append_assoc, descend_append, hn]
  show descend m n (j :: Q) = none
  rw [descend_cons, if_neg hv]

theorem not_SubLeaf_invalid {m : Mem} {root n j : Nat} {P : List Nat}
    (hn : descend m root P = some n) (hv : ¬ rd64 m (n + 8 * j) &&& PTE_V ≠ 0) :
    ¬ SubLeaf m root (P ++ [j]) := by
  rintro ⟨Q, x, t, _, hx, _⟩
  rw [descend_invalid hn hv] at hx
  cases hx

/-- The state of the loop of `freewalk` or `ukvmfreewalk` after entry `i`: the child, if
any, has been visited (memory `m2`) and the slot may have been written (memory `m3`);
the entries and subtrees after `i` are as in `m0`, and nothing outside the subtree has
changed. -/
theorem loop_advance {m0 : Mem} {root n i : Nat} {P : List Nat} (hwf : TableWF m0 root)
    (hP : IsPath P) (hn : descend m0 root P = some n) (hi : i < 512) (mk m2 m3 : Mem)
    (hE : ∀ j, i ≤ j → j < 512 → rd64 mk (n + 8 * j) = rd64 m0 (n + 8 * j))
    (hS : ∀ j, i ≤ j → j < 512 → SubAgree m0 root (P ++ [j]) mk)
    (hout : ∀ y, SubOutside m0 root (P ++ [i]) y → m2 y = mk y)
    (hm3 : ∀ y, y < n + 8 * i ∨ n + 8 * i + 8 ≤ y → m3 y = m2 y) :
    (∀ j, i + 1 ≤ j → j < 512 → rd64 m3 (n + 8 * j) = rd64 m0 (n + 8 * j)) ∧
    (∀ j, i + 1 ≤ j → j < 512 → SubAgree m0 root (P ++ [j]) m3) ∧
    (∀ y, SubOutside m0 root P y → m3 y = mk y) := by
  have hna := descend_aligned hwf.root_aligned _ _ hn
  have hslot := slot_in_page (n := n) hi
  refine ⟨?_, ?_, ?_⟩
  · intro j h1 h2
    rw [← hE j (by omega) h2]
    apply rd64_congr
    intro t ht
    have hsj := slot_in_page (n := n) h2
    rw [hm3 _ (by omega)]
    apply hout
    intro Q x hQ hx
    have := hwf.apart hP hQ hn hx (path_ne_self P i Q).symm (z := n + 8 * j + t) (by omega)
      (by omega)
    exact this
  · intro j h1 h2 Q x hQ hx y hy1 hy2
    have hyn := hwf.apart hQ hP hx hn (path_ne_self P j Q) hy1 hy2
    rw [hm3 y (by omega), hout y ?_]
    · exact hS j (by omega) h2 Q x hQ hx y hy1 hy2
    · intro Q2 x2 hQ2 hx2
      exact hwf.apart hQ hQ2 hx hx2 (path_ne_sibling (by omega)) hy1 hy2
  · intro y hy
    have hyn := hy [] n (by rw [List.append_nil]; exact hP) (by rw [List.append_nil]; exact hn)
    rw [hm3 y (by omega)]
    exact hout y (hy.below i)

end Xv6

namespace Xv6

/-! ## `freewalk` -/

/-- The loop of `freewalk` over the entries of the node `n` at path `P`, from entry `i`:
given what the recursive call does on the children, it halts on the first leaf-shaped
entry it meets, and otherwise releases the nodes below the entries in post-order. -/
theorem freewalkLoop_spec {m0 : Mem} {root n : Nat} {P : List Nat} (l : Nat)
    (down : Kernel → Nat → Res Unit) (hwf : TableWF m0 root) (hP : IsPath P)
    (hn : descend m0 root P = some n)
    (hleaf0 : P.length = 2 → ∀ j, j < 512 → rd64 m0 (n + 8 * j) &&& PTE_V ≠ 0 →
      rd64 m0 (n + 8 * j) &&& (PTE_R ||| PTE_W ||| PTE_X) ≠ 0)
    (hchild : P.length ≤ 1 → ∀ j, j < 512 → rd64 m0 (n + 8 * j) &&& PTE_V ≠ 0 →
      FreeOK m0 root (P ++ [j]) l (PTE2PA (rd64 m0 (n + 8 * j))) down) :
    ∀ c i (k : Kernel), i + c = 512 →
      (∀ j, i ≤ j → j < 512 → rd64 k.mem (n + 8 * j) = rd64 m0 (n + 8 * j)) →
      (∀ j, i ≤ j → j < 512 → SubAgree m0 root (P ++ [j]) k.mem) →
      (LeafFrom m0 root P n i → freewalkLoop down c k n i = .fatal "freewalk: leaf") ∧
      (¬ LeafFrom m0 root P n i → ∃ m2,
        freewalkLoop down c k n i = .ok () ⟨m2, (released m0 l n i c).reverse ++ k.freelist⟩ ∧
        ∀ y, SubOutside m0 root P y → m2 y = k.mem y) := by
  intro c
  induction c with
  | zero =>
    intro i k hic _ _
    constructor
    · rintro ⟨j, h1, h2, _⟩
      omega
    · intro _
      exact ⟨k.mem, rfl, fun _ _ => rfl⟩
  | succ c ih =>
    intro i k hic hE hS
    have hi : i < 512 := by omega
    have he := hE i (le_refl _) hi
    have hmono : LeafFrom m0 root P n (i + 1) → LeafFrom m0 root P n i := by
      rintro ⟨j, h1, h2⟩
      exact ⟨j, by omega, h2⟩
    by_cases hv : rd64 m0 (n + 8 * i) &&& PTE_V ≠ 0
    · by_cases hr : rd64 m0 (n + 8 * i) &&& (PTE_R ||| PTE_W ||| PTE_X) = 0
      · have hPl : P.length ≤ 1 := by
          by_contra hc
          have h2 : P.length = 2 := by have := hP.1; omega
          exact hleaf0 h2 i hi hv hr
        obtain ⟨hA1, hA2⟩ := hchild hPl i hi hv k (hS i (le_refl _) hi)
        by_cases hsl : SubLeaf m0 root (P ++ [i])
        · constructor
          · intro _
            rw [freewalkLoop, he, if_pos ⟨hv, hr⟩, hA1 hsl]
          · intro hno
            exact absurd ⟨i, le_refl _, hi, hv, Or.inr hsl⟩ hno
        · obtain ⟨m2, hd, hout⟩ := hA2 hsl
          obtain ⟨a1, a2, a3⟩ := loop_advance hwf hP hn hi k.mem m2
            (wr64 m2 (n + 8 * i) 0) hE hS hout (fun y hy => wr64_out _ _ _ _ hy)
          obtain ⟨hF1, hF2⟩ := ih (i + 1)
            ⟨wr64 m2 (n + 8 * i) 0,
              (postorder m0 l (PTE2PA (rd64 m0 (n + 8 * i)))).reverse ++ k.freelist⟩
            (by omega) a1 a2
          have hrun : freewalkLoop down (c + 1) k n i =
              freewalkLoop down c ⟨wr64 m2 (n + 8 * i) 0,
                (postorder m0 l (PTE2PA (rd64 m0 (n + 8 * i)))).reverse ++ k.freelist⟩ n
                (i + 1) := by
            rw [freewalkLoop, he, if_pos ⟨hv, hr⟩, hd]
          rw [hrun]
          constructor
          · rintro ⟨j, h1, h2, h3, h4⟩
            apply hF1
            by_cases hji : j = i
            · subst hji
              rcases h4 with h4 | h4
              · exact absurd hr h4
              · exact absurd h4 hsl
            · exact ⟨j, by omega, h2, h3, h4⟩
          · intro hno
            obtain ⟨m3, hrun3, hout3⟩ := hF2 (fun h => hno (hmono h))
            refine ⟨m3, ?_, fun y hy => ?_⟩
            · rw [hrun3, released_succ, if_pos hv, List.reverse_append, List.append_assoc]
            · rw [hout3 y hy]
              exact a3 y hy
      · constructor
        · intro _
          rw [freewalkLoop, he, if_neg (fun h => hr h.2), if_pos hv]
        · intro hno
          exact absurd ⟨i, le_refl _, hi, hv, Or.inl hr⟩ hno
    · obtain ⟨hF1, hF2⟩ := ih (i + 1) k (by omega) (fun j h1 h2 => hE j (by omega) h2)
        (fun j h1 h2 => hS j (by omega) h2)
      have hrun : freewalkLoop down (c + 1) k n i = freewalkLoop down c k n (i + 1) := by
        rw [freewalkLoop, he, if_neg (fun h => hv h.1), if_neg hv]
      rw [hrun]
      constructor
      · rintro ⟨j, h1, h2, h3, h4⟩
        apply hF1
        by_cases hji : j = i
        · subst hji
          exact absurd h3 hv
        · exact ⟨j, by omega, h2, h3, h4⟩
      · intro hno
        obtain ⟨m3, hrun3, hout3⟩ := hF2 (fun h => hno (hmono h))
        refine ⟨m3, ?_, hout3⟩
        rw [hrun3, released_succ, if_neg hv, List.nil_append]

/-- A leaf-shaped entry is reachable below `P` exactly when one is reachable through an
entry of the node at `P`. -/
theorem leafFrom_zero {m0 : Mem} {root n : Nat} {P : List Nat} (hP : IsPath P)
    (hn : descend m0 root P = some n) : LeafFrom m0 root P n 0 ↔ SubLeaf m0 root P := by
  constructor
  · rintro ⟨j, _, hj, hv, hr | ⟨Q, x, t, hQ, hx, ht, h1, h2⟩⟩
    · exact ⟨[], n, j, by rw [List.append_nil]; exact hP, by rw [List.append_nil]; exact hn,
        hj, hv, hr⟩
    · rw [List.append_assoc] at hQ hx
      exact ⟨_, x, t, hQ, hx, ht, h1, h2⟩
  · rintro ⟨Q, x, t, hQ, hx, ht, h1, h2⟩
    cases Q with
    | nil =>
      rw [List.append_nil] at hx
      rw [hn] at hx
      cases hx
      exact ⟨t, Nat.zero_le _, ht, h1, Or.inl h2⟩
    | cons j Q =>
      have hj : j < 512 := hQ.2 j (by simp)
      have hv : rd64 m0 (n + 8 * j) &&& PTE_V ≠ 0 := by
        by_contra hc
        have := descend_invalid (Q := Q) hn (fun h => h hc)
        rw [List.append_assoc] at this
        have e : [j] ++ Q = j :: Q := rfl
        rw [e, hx] at this
        cases this
      refine ⟨j, Nat.zero_le _, hj, hv, Or.inr ⟨Q, x, t, ?_, ?_, ht, h1, h2⟩⟩
      · rw [List.append_assoc]; exact hQ
      · rw [List.append_assoc]; exact hx

/-- `freewalk` on the node at path `P` of a table whose valid level-0 entries are
leaf-shaped. -/
theorem freewalk_node {m0 : Mem} {root : Nat} (hwf : TableWF m0 root)
    (hleaf : ∀ a b j, a < 512 → b < 512 → j < 512 → entryAt m0 root a b j &&& PTE_V ≠ 0 →
      entryAt m0 root a b j &&& (PTE_R ||| PTE_W ||| PTE_X) ≠ 0) :
    ∀ l (P : List Nat) n fuel, P.length + l = 2 → IsPath P → descend m0 root P = some n →
      l < fuel → FreeOK m0 root P l n (freewalk fuel) := by
  intro l
  induction l with
  | zero =>
    intro P n fuel hl hP hn hf k hag
    obtain ⟨f, rfl⟩ : ∃ f, fuel = f + 1 := ⟨fuel - 1, by omega⟩
    have hleaf0 : P.length = 2 → ∀ j, j < 512 → rd64 m0 (n + 8 * j) &&& PTE_V ≠ 0 →
        rd64 m0 (n + 8 * j) &&& (PTE_R ||| PTE_W ||| PTE_X) ≠ 0 := by
      intro _ j hj hv
      rcases hP.cases with rfl | ⟨a, _, rfl⟩ | ⟨a, b, ha, hb, rfl⟩
      · simp at hl
      · simp at hl
      · have e : entryAt m0 root a b j = rd64 m0 (n + 8 * j) := by
          unfold entryAt; rw [hn]
        rw [← e] at hv ⊢
        exact hleaf a b j ha hb hj hv
    obtain ⟨h1, h2⟩ := freewalkLoop_spec 0 (freewalk f) hwf hP hn hleaf0
      (fun h => by omega) 512 0 k rfl (fun j _ hj => hag.entry hP hn hj)
      (fun j _ _ => hag.child j)
    rw [leafFrom_zero hP hn] at h1 h2
    constructor
    · intro hs
      rw [freewalk, h1 hs]
    · intro hs
      obtain ⟨m2, hrun, hout⟩ := h2 hs
      refine ⟨m2, ?_, hout⟩
      have hnil : released m0 0 n 0 512 = [] := by
        apply List.eq_nil_iff_forall_not_mem.2
        intro x hx
        obtain ⟨j, _, hj, hv, _⟩ := mem_released.1 hx
        exact hs ⟨[], n, j, by rw [List.append_nil]; exact hP,
          by rw [List.append_nil]; exact hn, by omega, hv, hleaf0 (by omega) j (by omega) hv⟩
      rw [freewalk, hrun, hnil]
      rfl
  | succ l ih =>
    intro P n fuel hl hP hn hf k hag
    obtain ⟨f, rfl⟩ : ∃ f, fuel = f + 1 := ⟨fuel - 1, by omega⟩
    have hPl : P.length ≤ 1 := by omega
    obtain ⟨h1, h2⟩ := freewalkLoop_spec l (freewalk f) hwf hP hn
      (fun h => by omega)
      (fun _ j hj hv => ih (P ++ [j]) _ f (by simp; omega) (isPath_snoc hP hPl hj)
        (descend_child hn hv) (by omega))
      512 0 k rfl (fun j _ hj => hag.entry hP hn hj) (fun j _ _ => hag.child j)
    rw [leafFrom_zero hP hn] at h1 h2
    constructor
    · intro hs
      rw [freewalk, h1 hs]
    · intro hs
      obtain ⟨m2, hrun, hout⟩ := h2 hs
      refine ⟨m2, ?_, hout⟩
      rw [freewalk, hrun, postorder_succ, List.reverse_append]
      rfl

end Xv6

namespace Xv6

/-! ## `ukvmfreewalk` -/

/-- The loop of `ukvmfreewalk` over a node none of whose valid entries is followed: it
clears the entries and releases nothing. -/
theorem ukvmfreewalkLoop_bottom (n : Nat) (down : Kernel → Nat → Res Unit) :
    ∀ c i (k : Kernel), i + c = 512 →
      (∀ j, i ≤ j → j < 512 → rd64 k.mem (n + 8 * j) &&& PTE_V ≠ 0 →
        rd64 k.mem (n + 8 * j) &&& (PTE_R ||| PTE_W ||| PTE_X) ≠ 0) →
      ∃ m2, ukvmfreewalkLoop down c k n i = .ok () ⟨m2, k.freelist⟩ ∧
        ∀ y, y < n ∨ n + PGSIZE ≤ y → m2 y = k.mem y := by
  intro c
  induction c with
  | zero =>
    intro i k _ _
    exact ⟨k.mem, rfl, fun _ _ => rfl⟩
  | succ c ih =>
    intro i k hic hE
    have hi : i < 512 := by omega
    have hslot := slot_in_page (n := n) hi
    have hcond : ¬ (rd64 k.mem (n + 8 * i) &&& PTE_V ≠ 0 ∧
        rd64 k.mem (n + 8 * i) &&& (PTE_R ||| PTE_W ||| PTE_X) = 0) :=
      fun h => hE i (le_refl _) hi h.1 h.2
    obtain ⟨m2, hrun, hout⟩ := ih (i + 1) ⟨wr64 k.mem (n + 8 * i) 0, k.freelist⟩ (by omega)
      (by
        intro j h1 h2
        show rd64 (wr64 k.mem (n + 8 * i) 0) (n + 8 * j) &&& PTE_V ≠ 0 → _
        rw [rd64_wr64_other _ _ _ _ (by omega)]
        exact hE j (by omega) h2)
    refine ⟨m2, ?_, fun y hy => ?_⟩
    · rw [ukvmfreewalkLoop, if_neg hcond]
      exact hrun
    · rw [hout y hy]
      exact wr64_out _ _ _ _ (by omega)

/-- The loop of `ukvmfreewalk` over the entries of the root or of a level-1 node, from
entry `i`: given what the recursive call does on the children, it releases the nodes
below the entries in post-order. -/
theorem ukvmfreewalkLoop_upper {m0 : Mem} {root n : Nat} {P : List Nat} (l : Nat)
    (down : Kernel → Nat → Res Unit) (hwf : TableWF m0 root) (hP : IsPath P)
    (hn : descend m0 root P = some n)
    (hupper : ∀ j, j < 512 → rd64 m0 (n + 8 * j) &&& PTE_V ≠ 0 →
      rd64 m0 (n + 8 * j) &&& (PTE_R ||| PTE_W ||| PTE_X) = 0)
    (hchild : ∀ j, j < 512 → rd64 m0 (n + 8 * j) &&& PTE_V ≠ 0 →
      SweepOK m0 root (P ++ [j]) l (PTE2PA (rd64 m0 (n + 8 * j))) down) :
    ∀ c i (k : Kernel), i + c = 512 →
      (∀ j, i ≤ j → j < 512 → rd64 k.mem (n + 8 * j) = rd64 m0 (n + 8 * j)) →
      (∀ j, i ≤ j → j < 512 → SubAgree m0 root (P ++ [j]) k.mem) →
      ∃ m2, ukvmfreewalkLoop down c k n i =
          .ok () ⟨m2, (released m0 l n i c).reverse ++ k.freelist⟩ ∧
        ∀ y, SubOutside m0 root P y → m2 y = k.mem y := by
  intro c
  induction c with
  | zero =>
    intro i k _ _ _
    exact ⟨k.mem, rfl, fun _ _ => rfl⟩
  | succ c ih =>
    intro i k hic hE hS
    have hi : i < 512 := by omega
    have he := hE i (le_refl _) hi
    by_cases hv : rd64 m0 (n + 8 * i) &&& PTE_V ≠ 0
    · have hr := hupper i hi hv
      obtain ⟨m2, hd, hout⟩ := hchild i hi hv k (hS i (le_refl _) hi)
      obtain ⟨a1, a2, a3⟩ := loop_advance hwf hP hn hi k.mem m2
        (wr64 (wr64 m2 (n + 8 * i) 0) (n + 8 * i) 0) hE hS hout
        (fun y hy => by rw [wr64_out _ _ _ _ hy, wr64_out _ _ _ _ hy])
      obtain ⟨m3, hrun3, hout3⟩ := ih (i + 1)
        ⟨wr64 (wr64 m2 (n + 8 * i) 0) (n + 8 * i) 0,
          (postorder m0 l (PTE2PA (rd64 m0 (n + 8 * i)))).reverse ++ k.freelist⟩
        (by omega) a1 a2
      refine ⟨m3, ?_, fun y hy => ?_⟩
      · have hrun : ukvmfreewalkLoop down (c + 1) k n i =
            ukvmfreewalkLoop down c ⟨wr64 (wr64 m2 (n + 8 * i) 0) (n + 8 * i) 0,
              (postorder m0 l (PTE2PA (rd64 m0 (n + 8 * i)))).reverse ++ k.freelist⟩ n
              (i + 1) := by
          rw [ukvmfreewalkLoop, he, if_pos ⟨hv, hr⟩, hd]
        rw [hrun, hrun3, released_succ, if_pos hv, List.reverse_append, List.append_assoc]
      · rw [hout3 y hy]
        exact a3 y hy
    · obtain ⟨a1, a2, a3⟩ := loop_advance hwf hP hn hi k.mem k.mem
        (wr64 k.mem (n + 8 * i) 0) hE hS (fun _ _ => rfl) (fun y hy => wr64_out _ _ _ _ hy)
      obtain ⟨m3, hrun3, hout3⟩ := ih (i + 1) ⟨wr64 k.mem (n + 8 * i) 0, k.freelist⟩
        (by omega) a1 a2
      refine ⟨m3, ?_, fun y hy => ?_⟩
      · have hrun : ukvmfreewalkLoop down (c + 1) k n i =
            ukvmfreewalkLoop down c ⟨wr64 k.mem (n + 8 * i) 0, k.freelist⟩ n (i + 1) := by
          rw [ukvmfreewalkLoop, he, if_neg (fun h => hv h.1)]
        rw [hrun, hrun3, released_succ, if_neg hv, List.nil_append]
      · rw [hout3 y hy]
        exact a3 y hy

/-- `ukvmfreewalk` on the node at path `P` of a table tagged by its permission bits. -/
theorem ukvmfreewalk_node {m0 : Mem} {root : Nat} (hwf : TableWF m0 root)
    (ht : Tagged m0 root) :
    ∀ l (P : List Nat) n fuel, P.length + l = 2 → IsPath P → descend m0 root P = some n →
      l < fuel → SweepOK m0 root P l n (ukvmfreewalk fuel) := by
  intro l
  induction l with
  | zero =>
    intro P n fuel hl hP hn hf k hag
    obtain ⟨f, rfl⟩ : ∃ f, fuel = f + 1 := ⟨fuel - 1, by omega⟩
    have hleaf0 : ∀ j, 0 ≤ j → j < 512 → rd64 k.mem (n + 8 * j) &&& PTE_V ≠ 0 →
        rd64 k.mem (n + 8 * j) &&& (PTE_R ||| PTE_W ||| PTE_X) ≠ 0 := by
      intro j _ hj
      rw [hag.entry hP hn hj]
      rcases hP.cases with rfl | ⟨a, _, rfl⟩ | ⟨a, b, ha, hb, rfl⟩
      · simp at hl
      · simp at hl
      · have e : entryAt m0 root a b j = rd64 m0 (n + 8 * j) := by
          unfold entryAt; rw [hn]
        rw [← e]
        exact ht.leaf a b j ha hb hj
    obtain ⟨m2, hrun, hout⟩ := ukvmfreewalkLoop_bottom n (ukvmfreewalk f)
      512 0 k rfl hleaf0
    refine ⟨m2, ?_, fun y hy => hout y ?_⟩
    · rw [ukvmfreewalk, hrun]
      rfl
    · exact hy [] n (by rw [List.append_nil]; exact hP) (by rw [List.append_nil]; exact hn)
  | succ l ih =>
    intro P n fuel hl hP hn hf k hag
    obtain ⟨f, rfl⟩ : ∃ f, fuel = f + 1 := ⟨fuel - 1, by omega⟩
    have hPl : P.length ≤ 1 := by omega
    obtain ⟨m2, hrun, hout⟩ := ukvmfreewalkLoop_upper l (ukvmfreewalk f) hwf hP
      hn (fun j hj hv => ht.upper P n j hP hPl hn hj hv)
      (fun j hj hv => ih (P ++ [j]) _ f (by simp; omega) (isPath_snoc hP hPl hj)
        (descend_child hn hv) (by omega))
      512 0 k rfl (fun j _ hj => hag.entry hP hn hj) (fun j _ _ => hag.child j)
    refine ⟨m2, ?_, hout⟩
    rw [ukvmfreewalk, hrun, postorder_succ, List.reverse_append]
    rfl

end Xv6

namespace Xv6

/-! ## Freeing a whole table -/

theorem postorder_nodes (m : Mem) (root x : Nat) :
    x ∈ postorder m 2 root ↔ ∃ p, IsPath p ∧ descend m root p = some x := by
  rw [mem_postorder]
  constructor
  · rintro ⟨q, h1, h2, h3⟩
    exact ⟨q, ⟨h1, h2⟩, h3⟩
  · rintro ⟨q, ⟨h1, h2⟩, h3⟩
    exact ⟨q, h1, h2, h3⟩

theorem postorder_nodup {m : Mem} {root : Nat} (hwf : TableWF m root) :
    (postorder m 2 root).Nodup :=
  nodup_postorder m 2 root (fun q q2 x h1 h2 h3 h4 h5 h6 =>
    hwf.inj q q2 x ⟨h1, h3⟩ ⟨h2, h4⟩ h5 h6)

theorem postorder_cleared {m m2 : Mem} {root : Nat} (hc : Cleared m m2 root) :
    postorder m2 2 root = postorder m 2 root :=
  postorder_congr 2 root (fun q x j hq hqi hd hj =>
    hc.upper q x j ⟨by omega, hqi⟩ (by omega) hd hj)

theorem released_split {m : Mem} {l n j : Nat} (hj : j < 512)
    (hv : rd64 m (n + 8 * j) &&& PTE_V ≠ 0) :
    ∃ A B, released m l n 0 512 = A ++ postorder m l (PTE2PA (rd64 m (n + 8 * j))) ++ B := by
  obtain ⟨s, t, hst⟩ := List.append_of_mem (List.mem_range'_1.2 ⟨Nat.zero_le j, by omega⟩ :
    j ∈ List.range' 0 512)
  refine ⟨s.flatMap (fun j =>
    if rd64 m (n + 8 * j) &&& PTE_V ≠ 0 then postorder m l (PTE2PA (rd64 m (n + 8 * j)))
    else []), t.flatMap (fun j =>
    if rd64 m (n + 8 * j) &&& PTE_V ≠ 0 then postorder m l (PTE2PA (rd64 m (n + 8 * j)))
    else []), ?_⟩
  unfold released
  rw [hst, List.flatMap_append, List.flatMap_cons, if_pos hv, List.append_assoc]

/-- Bottom-up: in `postorder` a node comes after each of its children. -/
theorem postorder_order {m : Mem} {root j parent child : Nat} {p : List Nat}
    (hp : IsPath p) (hl : p.length ≤ 1) (hj : j < 512)
    (h1 : descend m root p = some parent) (h2 : descend m root (p ++ [j]) = some child) :
    ∃ l1 l2 l3, postorder m 2 root = l1 ++ child :: l2 ++ parent :: l3 := by
  rw [descend_snoc j h1] at h2
  obtain ⟨hv, hc⟩ := descend_one_some h2
  rcases hp.cases with rfl | ⟨a, ha, rfl⟩ | ⟨a, b, _, _, rfl⟩
  · rw [descend_nil] at h1
    cases h1
    obtain ⟨A, B, hAB⟩ := released_split (l := 1) hj hv
    rw [← hc] at hAB
    refine ⟨A ++ released m 0 child 0 512, B, [], ?_⟩
    rw [postorder_succ, hAB, postorder_succ]
    simp [List.append_assoc]
  · obtain ⟨hva, hpa⟩ := descend_one_some h1
    obtain ⟨A, B, hAB⟩ := released_split (l := 1) ha hva
    rw [← hpa] at hAB
    obtain ⟨A2, B2, hAB2⟩ := released_split (l := 0) hj hv
    rw [← hc] at hAB2
    refine ⟨A ++ A2, B2, B ++ [root], ?_⟩
    rw [postorder_succ, hAB, postorder_succ, hAB2, postorder_zero]
    simp [List.append_assoc]
  · simp at hl

theorem freeDepth_gt : 2 < freeDepth := by unfold freeDepth; omega

/-- `freewalk` on a table in which a leaf-shaped entry is reachable. -/
theorem freewalk_leaf {k : Kernel} {root : Nat} (hwf : TableWF k.mem root)
    (hleaf : ∀ a b j, a < 512 → b < 512 → j < 512 → entryAt k.mem root a b j &&& PTE_V ≠ 0 →
      entryAt k.mem root a b j &&& (PTE_R ||| PTE_W ||| PTE_X) ≠ 0)
    (h : ∃ q x j, IsPath q ∧ descend k.mem root q = some x ∧ j < 512 ∧
      rd64 k.mem (x + 8 * j) &&& PTE_V ≠ 0 ∧
      rd64 k.mem (x + 8 * j) &&& (PTE_R ||| PTE_W ||| PTE_X) ≠ 0) :
    freewalk freeDepth k root = .fatal "freewalk: leaf" := by
  obtain ⟨q, x, j, h1, h2, h3, h4, h5⟩ := h
  exact (freewalk_node hwf hleaf 2 [] root freeDepth rfl isPath_nil rfl freeDepth_gt k
    (SubAgree.arefl _ _ _)).1 ⟨q, x, j, h1, h2, h3, h4, h5⟩

/-- `freewalk` on a table in which no leaf-shaped entry is reachable. -/
theorem freewalk_clean {k : Kernel} {root : Nat} (hwf : TableWF k.mem root)
    (hleaf : ∀ a b j, a < 512 → b < 512 → j < 512 → entryAt k.mem root a b j &&& PTE_V ≠ 0 →
      entryAt k.mem root a b j &&& (PTE_R ||| PTE_W ||| PTE_X) ≠ 0)
    (hnone : ∀ q x j, IsPath q → descend k.mem root q = some x → j < 512 →
      rd64 k.mem (x + 8 * j) &&& PTE_V ≠ 0 →
      rd64 k.mem (x + 8 * j) &&& (PTE_R ||| PTE_W ||| PTE_X) = 0) :
    ∃ m2, freewalk freeDepth k root =
      .ok () ⟨m2, (postorder k.mem 2 root).reverse ++ k.freelist⟩ := by
  obtain ⟨m2, h1, _⟩ := (freewalk_node hwf hleaf 2 [] root freeDepth rfl isPath_nil rfl
    freeDepth_gt k (SubAgree.arefl _ _ _)).2 (by
      rintro ⟨q, x, j, h1, h2, h3, h4, h5⟩
      exact h5 (hnone q x j h1 h2 h3 h4))
  exact ⟨m2, h1⟩

end Xv6

namespace Xv6

theorem entryAt_leafOf (m : Mem) (root : Nat) {a b j : Nat} (ha : a < 512) (hb : b < 512)
    (hj : j < 512) :
    leafOf m root (((a * 512 + b) * 512 + j) * 4096) = entryAt m root a b j ∧
      ((a * 512 + b) * 512 + j) * 4096 < 2 ^ 39 := by
  have e2 : PX 2 (((a * 512 + b) * 512 + j) * 4096) = a := by rw [PX2_eq]; omega
  have e1 : PX 1 (((a * 512 + b) * 512 + j) * 4096) = b := by rw [PX1_eq]; omega
  have e0 : PX 0 (((a * 512 + b) * 512 + j) * 4096) = j := by rw [PX0_eq]; omega
  refine ⟨?_, by omega⟩
  unfold leafOf
  rw [e2, e1, e0]

theorem entryAt_node {m : Mem} {root a b x : Nat} (j : Nat)
    (hd : descend m root [a, b] = some x) : entryAt m root a b j = rd64 m (x + 8 * j) := by
  unfold entryAt
  rw [hd]

theorem entryAt_none {m : Mem} {root a b : Nat} (j : Nat)
    (hd : descend m root [a, b] = none) : entryAt m root a b j = 0 := by
  unfold entryAt
  rw [hd]

theorem PGROUNDUP_pages (sz : Nat) :
    PGROUNDUP sz % PGSIZE = 0 ∧ PGROUNDUP sz / PGSIZE * PGSIZE = PGROUNDUP sz := by
  unfold PGROUNDUP PGSIZE
  omega

/-- The two halves of `uvmfree` on a table whose leaves are the pages below
`PGROUNDUP sz`: the run returns, and the allocator has received the frames of the pages
and then the nodes in post-order. -/
theorem uvmfree_run {k : Kernel} {pagetable sz : Nat} (hwf : TableWF k.mem pagetable)
    (ht : Tagged k.mem pagetable) (hmax : PGROUNDUP sz ≤ MAXVA)
    (hexact : ∀ va, va < 2 ^ 39 →
      (leafOf k.mem pagetable va &&& PTE_V ≠ 0 ↔ va < PGROUNDUP sz)) :
    ∃ k2, uvmfree k pagetable sz = .ok () k2 ∧
      k2.freelist = (backing k.mem pagetable 0 (PGROUNDUP sz / PGSIZE) ++
        postorder k.mem 2 pagetable).reverse ++ k.freelist := by
  have hal := (PGROUNDUP_pages sz).1
  have hmul := (PGROUNDUP_pages sz).2
  by_cases hsz : sz > 0
  · have hall : ∀ p, 0 ≤ p → p < PGROUNDUP sz → leafOf k.mem pagetable p &&& PTE_V ≠ 0 ∧
        PTE_FLAGS (leafOf k.mem pagetable p) ≠ PTE_V := by
      intro p _ hp
      have hv := (hexact p (by unfold MAXVA at hmax; omega)).2 hp
      exact ⟨hv, flags_of_RWX (ht.leaf _ _ _ (PX_lt 2 p) (PX_lt 1 p) (PX_lt 0 p) hv)⟩
    obtain ⟨k1, hrun, hwf1, _, hleaf1, hfree1, _⟩ :=
      uvmunmapLoop_spec pagetable (PGROUNDUP sz) true hal hmax loopFuel k 0 hwf (by decide)
        (Nat.zero_le _) (by unfold loopFuel PGSIZE MAXVA; unfold MAXVA at hmax; omega) hall
    have hc : Cleared k.mem k1.mem pagetable :=
      uvmunmapLoop_cleared pagetable (PGROUNDUP sz) true loopFuel k 0 k1 hwf hrun
    have ht1 : Tagged k1.mem pagetable := hc.tagged ht
    have hnone : ∀ q x j, IsPath q → descend k1.mem pagetable q = some x → j < 512 →
        rd64 k1.mem (x + 8 * j) &&& PTE_V ≠ 0 →
        rd64 k1.mem (x + 8 * j) &&& (PTE_R ||| PTE_W ||| PTE_X) = 0 := by
      intro q x j hq hd hj hv
      rcases hq.cases with rfl | ⟨a, ha, rfl⟩ | ⟨a, b, ha, hb, rfl⟩
      · exact ht1.upper [] x j hq (by simp) hd hj hv
      · exact ht1.upper [a] x j hq (by simp) hd hj hv
      · exfalso
        obtain ⟨e, hlt⟩ := entryAt_leafOf k.mem pagetable ha hb hj
        obtain ⟨e1, _⟩ := entryAt_leafOf k1.mem pagetable ha hb hj
        rw [← entryAt_node j hd] at hv
        rcases hc.leaves a b j ha hb hj with h | h
        · rw [h, ← e] at hv
          have hin := (hexact _ hlt).1 hv
          have h0 := hleaf1 _ (Nat.lt_of_lt_of_le hin hmax)
          rw [if_pos ⟨Nat.zero_le _, hin⟩, e1, h, ← e] at h0
          rw [h0] at hv
          exact hv rfl
        · rw [h] at hv
          exact hv rfl
    obtain ⟨m2, hfw⟩ := freewalk_clean hwf1 ht1.leaf hnone
    refine ⟨⟨m2, (postorder k1.mem 2 pagetable).reverse ++ k1.freelist⟩, ?_, ?_⟩
    · unfold uvmfree
      rw [if_pos hsz, uvmunmap_eq (by decide) (by rw [Nat.zero_add, hmul]; exact hmax),
        Nat.zero_add, hmul, hrun]
      exact hfw
    · simp only
      rw [postorder_cleared hc, hfree1, if_pos rfl, Nat.sub_zero, List.reverse_append,
        List.append_assoc]
  · have hz : sz = 0 := by omega
    subst hz
    have hr0 : PGROUNDUP 0 = 0 := by decide
    rw [hr0] at hexact
    have hnone : ∀ q x j, IsPath q → descend k.mem pagetable q = some x → j < 512 →
        rd64 k.mem (x + 8 * j) &&& PTE_V ≠ 0 →
        rd64 k.mem (x + 8 * j) &&& (PTE_R ||| PTE_W ||| PTE_X) = 0 := by
      intro q x j hq hd hj hv
      rcases hq.cases with rfl | ⟨a, ha, rfl⟩ | ⟨a, b, ha, hb, rfl⟩
      · exact ht.upper [] x j hq (by simp) hd hj hv
      · exact ht.upper [a] x j hq (by simp) hd hj hv
      · exfalso
        obtain ⟨e, hlt⟩ := entryAt_leafOf k.mem pagetable ha hb hj
        rw [← entryAt_node j hd, ← e] at hv
        exact absurd ((hexact _ hlt).1 hv) (Nat.not_lt_zero _)
    obtain ⟨m2, hfw⟩ := freewalk_clean hwf ht.leaf hnone
    refine ⟨⟨m2, (postorder k.mem 2 pagetable).reverse ++ k.freelist⟩, ?_, ?_⟩
    · unfold uvmfree
      rw [if_neg hsz]
      exact hfw
    · simp only
      rw [hr0]
      simp [backing]

/-- The fatal half of `uvmfree`: a leaf-shaped entry reachable in the state `k1` that the
removal of the pages leaves. -/
theorem uvmfree_halt {k k1 : Kernel} {pagetable sz : Nat} (hwf : TableWF k.mem pagetable)
    (hleaf : ∀ a b j, a < 512 → b < 512 → j < 512 →
      entryAt k.mem pagetable a b j &&& PTE_V ≠ 0 →
      entryAt k.mem pagetable a b j &&& (PTE_R ||| PTE_W ||| PTE_X) ≠ 0)
    (h1 : 0 < sz → uvmunmap k pagetable 0 (PGROUNDUP sz / PGSIZE) true = .ok () k1)
    (h0 : sz = 0 → k1 = k)
    (h : ∃ q x j, IsPath q ∧ descend k1.mem pagetable q = some x ∧ j < 512 ∧
      rd64 k1.mem (x + 8 * j) &&& PTE_V ≠ 0 ∧
      rd64 k1.mem (x + 8 * j) &&& (PTE_R ||| PTE_W ||| PTE_X) ≠ 0) :
    uvmfree k pagetable sz = .fatal "freewalk: leaf" := by
  by_cases hsz : sz > 0
  · have hrun := h1 hsz
    have hc : Cleared k.mem k1.mem pagetable := by
      have hrun2 := hrun
      unfold uvmunmap at hrun2
      rw [if_neg (by decide)] at hrun2
      exact uvmunmapLoop_cleared pagetable _ true loopFuel k 0 k1 hwf hrun2
    have hleaf1 : ∀ a b j, a < 512 → b < 512 → j < 512 →
        entryAt k1.mem pagetable a b j &&& PTE_V ≠ 0 →
        entryAt k1.mem pagetable a b j &&& (PTE_R ||| PTE_W ||| PTE_X) ≠ 0 := by
      intro a b j ha hb hj hv
      rcases hc.leaves a b j ha hb hj with e | e
      · rw [e] at hv ⊢
        exact hleaf a b j ha hb hj hv
      · rw [e] at hv
        exact absurd rfl hv
    unfold uvmfree
    rw [if_pos hsz, hrun]
    exact freewalk_leaf (hc.table hwf) hleaf1 h
  · have hz : sz = 0 := by omega
    have hk := h0 hz
    subst hk
    unfold uvmfree
    rw [if_neg hsz]
    exact freewalk_leaf hwf hleaf h

/-- C11: `uvmfree(pagetable, sz)` on a well-formed table whose leaves are exactly the
pages below `PGROUNDUP(sz)` returns, and what it has released, in order, is the backing
frame of each of these pages, lowest page first, and then the nodes of the table in
post-order: every node once, the root last, a node after each of its children.  And
when a leaf-shaped entry (Valid with one of R/W/X) is reachable in the state `k1` that
the removal of the pages below `sz` leaves, `uvmfree` halts with "freewalk: leaf". -/
theorem uvmfree_destroys (k : Kernel) (pagetable sz : Nat) (hwf : TableWF k.mem pagetable)
    (ht : Tagged k.mem pagetable) :
    (PGROUNDUP sz ≤ MAXVA →
      (∀ va, va < 2 ^ 39 →
        (leafOf k.mem pagetable va &&& PTE_V ≠ 0 ↔ va < PGROUNDUP sz)) →
      ∃ k2, uvmfree k pagetable sz = .ok () k2 ∧
        k2.freelist = (backing k.mem pagetable 0 (PGROUNDUP sz / PGSIZE) ++
          postorder k.mem 2 pagetable).reverse ++ k.freelist ∧
        (backing k.mem pagetable 0 (PGROUNDUP sz / PGSIZE)).length = PGROUNDUP sz / PGSIZE ∧
        (postorder k.mem 2 pagetable).Nodup ∧
        (∀ x, x ∈ postorder k.mem 2 pagetable ↔
          ∃ p, IsPath p ∧ descend k.mem pagetable p = some x) ∧
        (∀ p j parent child, IsPath p → p.length ≤ 1 → j < 512 →
          descend k.mem pagetable p = some parent →
          descend k.mem pagetable (p ++ [j]) = some child →
          ∃ l1 l2 l3, postorder k.mem 2 pagetable = l1 ++ child :: l2 ++ parent :: l3)) ∧
    (∀ k1, (0 < sz → uvmunmap k pagetable 0 (PGROUNDUP sz / PGSIZE) true = .ok () k1) →
      (sz = 0 → k1 = k) →
      (∃ q x j, IsPath q ∧ descend k1.mem pagetable q = some x ∧ j < 512 ∧
        rd64 k1.mem (x + 8 * j) &&& PTE_V ≠ 0 ∧
        rd64 k1.mem (x + 8 * j) &&& (PTE_R ||| PTE_W ||| PTE_X) ≠ 0) →
      uvmfree k pagetable sz = .fatal "freewalk: leaf") := by
  refine ⟨?_, ?_⟩
  · intro hmax hexact
    obtain ⟨k2, h1, h2⟩ := uvmfree_run hwf ht hmax hexact
    exact ⟨k2, h1, h2, backing_length _ _ _ _, postorder_nodup hwf, postorder_nodes _ _,
      fun p j parent child hp hl hj hd1 hd2 => postorder_order hp hl hj hd1 hd2⟩
  · intro k1 h1 h0 h
    exact uvmfree_halt hwf ht.leaf h1 h0 h

end Xv6

namespace Xv6

/-! ## The state `leafyKernel` -/

theorem leafy_rd (a : Nat) (ha : a % 8 = 0) :
    rd64 leafyKernel.mem a = leafyEntry a % 2 ^ 64 := rd64_entries leafyEntry a ha

theorem leafy_root : ∀ i, i < 512 → rd64 leafyKernel.mem (0x1000 + 8 * i) &&& PTE_V ≠ 0 →
    i = 0 ∧ PTE2PA (rd64 leafyKernel.mem (0x1000 + 8 * i)) = 0x2000 := by
  intro i hi hv
  rw [leafy_rd _ (by omega)] at hv ⊢
  by_cases h0 : i = 0
  · subst h0
    exact ⟨rfl, by decide⟩
  · exfalso
    have e : leafyEntry (0x1000 + 8 * i) = 0 := by
      unfold leafyEntry
      rw [if_neg (by omega), if_neg (by omega), if_neg (by omega)]
    rw [e] at hv
    exact hv (by decide)

theorem leafy_mid : ∀ i, i < 512 → rd64 leafyKernel.mem (0x2000 + 8 * i) &&& PTE_V ≠ 0 →
    i = 0 ∧ PTE2PA (rd64 leafyKernel.mem (0x2000 + 8 * i)) = 0x3000 := by
  intro i hi hv
  rw [leafy_rd _ (by omega)] at hv ⊢
  by_cases h0 : i = 0
  · subst h0
    exact ⟨rfl, by decide⟩
  · exfalso
    have e : leafyEntry (0x2000 + 8 * i) = 0 := by
      unfold leafyEntry
      rw [if_neg (by omega), if_neg (by omega), if_neg (by omega)]
    rw [e] at hv
    exact hv (by decide)

theorem leafy_bottom : ∀ i, i < 512 → rd64 leafyKernel.mem (0x3000 + 8 * i) &&& PTE_V ≠ 0 →
    i = 0 := by
  intro i hi hv
  rw [leafy_rd _ (by omega)] at hv
  by_contra h0
  have e : leafyEntry (0x3000 + 8 * i) = 0 := by
    unfold leafyEntry
    rw [if_neg (by omega), if_neg (by omega), if_neg (by omega)]
  rw [e] at hv
  exact hv (by decide)

theorem leafy_TableWF : TableWF leafyKernel.mem 0x1000 :=
  @chain_TableWF leafyKernel.mem 0x1000 0x2000 0x3000 0 0 (by decide) (by decide) (by decide)
    (by decide) (by decide) (by decide) (by decide) leafy_root leafy_mid

theorem leafy_nodes : ∀ p n, IsPath p → descend leafyKernel.mem 0x1000 p = some n →
    (p = [] ∧ n = 0x1000) ∨ (p = [0] ∧ n = 0x2000) ∨ (p = [0, 0] ∧ n = 0x3000) :=
  chain_nodes leafy_root leafy_mid

theorem leafy_Tagged : Tagged leafyKernel.mem 0x1000 := by
  constructor
  · intro q n j hq hl hd hj hv
    rcases leafy_nodes q n hq hd with ⟨_, rfl⟩ | ⟨_, rfl⟩ | ⟨rfl, _⟩
    · obtain ⟨rfl, _⟩ := leafy_root j hj hv
      decide
    · obtain ⟨rfl, _⟩ := leafy_mid j hj hv
      decide
    · simp at hl
  · intro a b j ha hb hj hv
    cases hd : descend leafyKernel.mem 0x1000 [a, b] with
    | none =>
      rw [entryAt_none _ hd] at hv
      exact absurd (by decide) hv
    | some x =>
      rw [entryAt_node j hd] at hv ⊢
      rcases leafy_nodes [a, b] x (isPath_two ha hb) hd with ⟨h, _⟩ | ⟨h, _⟩ | ⟨_, rfl⟩
      · cases h
      · cases h
      · have h0 := leafy_bottom j hj hv
        subst h0
        decide

theorem leafy_exact : ∀ va, va < 2 ^ 39 →
    (leafOf leafyKernel.mem 0x1000 va &&& PTE_V ≠ 0 ↔ va < PGROUNDUP 4096) := by
  intro va hva
  have hr : PGROUNDUP 4096 = 4096 := by decide
  rw [hr]
  constructor
  · intro hv
    unfold leafOf at hv
    cases hd : descend leafyKernel.mem 0x1000 [PX 2 va, PX 1 va] with
    | none =>
      rw [entryAt_none _ hd] at hv
      exact absurd (by decide) hv
    | some x =>
      rw [entryAt_node _ hd] at hv
      rcases leafy_nodes _ x (isPath_va va) hd with ⟨h, _⟩ | ⟨h, _⟩ | ⟨h, rfl⟩
      · exact absurd (congrArg List.length h) (by simp)
      · exact absurd (congrArg List.length h) (by simp)
      · have h0 := leafy_bottom _ (PX_lt 0 va) hv
        have h2 : PX 2 va = 0 := by injection h
        have h1 : PX 1 va = 0 := by
          injection h with _ h
          injection h
        rw [PX0_eq] at h0
        rw [PX1_eq] at h1
        rw [PX2_eq] at h2
        omega
  · intro hlt
    rw [leafOf_same_page leafyKernel.mem 0x1000 va 0 (by unfold PGSIZE; omega)]
    decide

set_option maxRecDepth 100000 in
theorem leafy_postorder : postorder leafyKernel.mem 2 0x1000 = [0x3000, 0x2000, 0x1000] := by
  decide

theorem leafy_backing : backing leafyKernel.mem 0x1000 0 (PGROUNDUP 4096 / PGSIZE) = [0x9000] := by
  decide

/-- C11 on the state `leafyKernel`: `uvmfree` with `sz = 4096` hands the allocator the
frame of the page and then the three nodes, the root last; with `sz = 0` the leaf is
still there and the call halts. -/
theorem uvmfree_destroys_witness :
    (∃ k2, uvmfree leafyKernel 0x1000 4096 = .ok () k2 ∧
      k2.freelist = [0x1000, 0x2000, 0x3000, 0x9000]) ∧
    uvmfree leafyKernel 0x1000 0 = .fatal "freewalk: leaf" := by
  have h := uvmfree_destroys leafyKernel 0x1000 4096 leafy_TableWF leafy_Tagged
  have h0 := uvmfree_destroys leafyKernel 0x1000 0 leafy_TableWF leafy_Tagged
  refine ⟨?_, ?_⟩
  · obtain ⟨k2, h1, h2, _⟩ := h.1 (by decide) leafy_exact
    refine ⟨k2, h1, ?_⟩
    rw [h2, leafy_backing, leafy_postorder]
    rfl
  · exact h0.2 leafyKernel (fun hc => absurd hc (by decide)) (fun _ => rfl)
      ⟨[0, 0], 0x3000, 0, isPath_two (by decide) (by decide), by decide, by decide,
        by decide, by decide⟩

end Xv6

namespace Xv6

/-! ## The teardown of a shadow table -/

theorem Res.bind_assoc {α β γ : Type} (r : Res α) (f : α → Kernel → Res β)
    (g : β → Kernel → Res γ) :
    (r.bind f).bind g = r.bind (fun v k => (f v k).bind g) := by
  cases r <;> rfl

/-- The function `ukvmfreeproc` is its eight `ukvmunmap` calls followed by
`ukvmfreewalk`. -/
theorem ukvmfreeproc_eq (c : Layout) (k : Kernel) (pkpagetable kstack : Nat) :
    ukvmfreeproc c k pkpagetable kstack =
      (unmapAll pkpagetable (fixedRanges c kstack) k).bind
        fun _ k8 => ukvmfreewalk freeDepth k8 pkpagetable := by
  unfold ukvmfreeproc fixedRanges
  simp only [unmapAll, Res.bind_assoc]
  rfl

theorem Covered.tail {m : Mem} {root : Nat} {r : Nat × Nat} {rs : List (Nat × Nat)}
    (h : Covered m root (r :: rs)) : Covered m root rs :=
  fun r2 hr => h r2 (List.mem_cons_of_mem _ hr)

theorem Covered.cleared {m m2 : Mem} {root : Nat} {rs : List (Nat × Nat)}
    (h : Covered m root rs) (hc : Cleared m m2 root) : Covered m2 root rs := by
  intro r hr a h1 h2
  rw [slotOf_congr hc.nodes a]
  exact h r hr a h1 h2

theorem unmapAll_spec (root : Nat) :
    ∀ (rs : List (Nat × Nat)) (k : Kernel), TableWF k.mem root → Tagged k.mem root →
      RangesOK rs → Covered k.mem root rs →
      ∃ m2, unmapAll root rs k = .ok () ⟨m2, k.freelist⟩ ∧ Cleared k.mem m2 root ∧
        ∀ vb, vb < MAXVA → Beyond rs vb → leafOf m2 root vb = leafOf k.mem root vb := by
  intro rs
  induction rs with
  | nil =>
    intro k _ _ _ _
    exact ⟨k.mem, rfl, Cleared.crefl _ _, fun _ _ _ => rfl⟩
  | cons r rs ih =>
    intro k hwf ht hok hcov
    obtain ⟨hr1, hr2⟩ := hok r (List.mem_cons_self _ _)
    obtain ⟨m1, h1, hc1, hl1⟩ := ukvmunmap_spec hwf ht hr1 hr2 (hcov r (List.mem_cons_self _ _))
    obtain ⟨m2, h2, hc2, hl2⟩ := ih ⟨m1, k.freelist⟩ (hc1.table hwf) (hc1.tagged ht)
      (fun r2 hr => hok r2 (List.mem_cons_of_mem _ hr)) (hcov.tail.cleared hc1)
    refine ⟨m2, ?_, hc1.ctrans hc2, ?_⟩
    · rw [unmapAll, h1]
      exact h2
    · intro vb hvb hout
      rw [hl2 vb hvb (fun r2 hr => hout r2 (List.mem_cons_of_mem _ hr))]
      exact hl1 vb hvb (hout r (List.mem_cons_self _ _))

/-- A range with a page that has no level-0 node stops the sequence: the `ukvmunmap` of
the first range ends in the store through the null pointer when its first page has no
slot. -/
theorem unmapAll_fault {root : Nat} {r : Nat × Nat} {rs : List (Nat × Nat)} {k : Kernel}
    (ha : r.1 % PGSIZE = 0) (hr : r.1 + r.2 * PGSIZE ≤ MAXVA) (hn : 0 < r.2)
    (hs : slotOf k.mem root r.1 = none) :
    unmapAll root (r :: rs) k = .fatal "null pointer store" := by
  have h : ukvmunmap k root r.1 r.2 = .fatal "null pointer store" := by
    unfold ukvmunmap
    rw [if_neg (by simpa using ha),
      show (r.1 + r.2 * PGSIZE) % 2 ^ 64 = r.1 + r.2 * PGSIZE from
        Nat.mod_eq_of_lt (by unfold MAXVA at hr; omega)]
    exact ukvmunmapLoop_fault (by unfold PGSIZE; omega) (by unfold PGSIZE at hr; omega) hs
  rw [unmapAll, h]
  rfl

/-- The function `ukvmfreewalk` on a well-formed table, whatever its leaves: it returns,
having released the nodes in post-order and written to the nodes only. -/
theorem ukvmfreewalk_table {k : Kernel} {root : Nat} (hwf : TableWF k.mem root)
    (ht : Tagged k.mem root) :
    ∃ m2, ukvmfreewalk freeDepth k root =
        .ok () ⟨m2, (postorder k.mem 2 root).reverse ++ k.freelist⟩ ∧
      ∀ y, (∀ p n, IsPath p → descend k.mem root p = some n → y < n ∨ n + PGSIZE ≤ y) →
        m2 y = k.mem y := by
  obtain ⟨m2, h, hout⟩ := ukvmfreewalk_node hwf ht 2 [] root freeDepth rfl isPath_nil rfl
    freeDepth_gt k (SubAgree.arefl _ _ _)
  exact ⟨m2, h, fun y hy => hout y (fun Q x hq hd => hy Q x hq hd)⟩

/-- The whole of `ukvmfreeproc` on a well-formed table that has a level-0 node for every
page of the eight ranges: the eight calls of `ukvmunmap` return in a state with the
allocator untouched and the leaves outside the ranges in place, and `ukvmfreewalk` then
returns, having released the nodes in post-order. -/
theorem ukvmfreeproc_run {c : Layout} {k : Kernel} {root kstack : Nat}
    (hwf : TableWF k.mem root) (ht : Tagged k.mem root)
    (hok : RangesOK (fixedRanges c kstack))
    (hcov : Covered k.mem root (fixedRanges c kstack)) :
    ∃ m8 m9, unmapAll root (fixedRanges c kstack) k = .ok () ⟨m8, k.freelist⟩ ∧
      Cleared k.mem m8 root ∧
      (∀ vb, vb < MAXVA → Beyond (fixedRanges c kstack) vb →
        leafOf m8 root vb = leafOf k.mem root vb) ∧
      ukvmfreewalk freeDepth ⟨m8, k.freelist⟩ root =
        .ok () ⟨m9, (postorder k.mem 2 root).reverse ++ k.freelist⟩ ∧
      ukvmfreeproc c k root kstack =
        .ok () ⟨m9, (postorder k.mem 2 root).reverse ++ k.freelist⟩ := by
  obtain ⟨m8, h1, hc, hl⟩ := unmapAll_spec root _ k hwf ht hok hcov
  obtain ⟨m9, h2, _⟩ := @ukvmfreewalk_table ⟨m8, k.freelist⟩ root (hc.table hwf)
    (hc.tagged ht)
  have h3 : ukvmfreewalk freeDepth ⟨m8, k.freelist⟩ root =
      .ok () ⟨m9, (postorder k.mem 2 root).reverse ++ k.freelist⟩ := by
    rw [h2]
    show Res.ok () ⟨m9, (postorder m8 2 root).reverse ++ k.freelist⟩ = _
    rw [postorder_cleared hc]
  refine ⟨m8, m9, h1, hc, hl, h3, ?_⟩
  rw [ukvmfreeproc_eq, h1]
  exact h3

end Xv6

namespace Xv6

/-! ## The state `shadowKernel` -/

theorem and_RWX_small : ∀ r, r < 16 → r &&& (PTE_R ||| PTE_W ||| PTE_X) = r / 2 * 2 := by
  decide

theorem and_RWX_eq (e : Nat) : e &&& (PTE_R ||| PTE_W ||| PTE_X) = e % 16 / 2 * 2 := by
  have e1 : e &&& (PTE_R ||| PTE_W ||| PTE_X) = (e &&& 15) &&& (PTE_R ||| PTE_W ||| PTE_X) := by
    rw [Nat.and_assoc]
    rfl
  have e2 : e &&& 15 = e % 16 := Nat.and_pow_two_sub_one_eq_mod e 4
  rw [e1, e2, and_RWX_small _ (Nat.mod_lt _ (by norm_num))]

theorem shadow_rd {n i : Nat} (hn : n % 4096 = 0) (hi : i < 512) :
    rd64 shadowKernel.mem (n + 8 * i) = shadowNode n i % 2 ^ 64 := by
  have e1 : (n + 8 * i) / 4096 * 4096 = n := by omega
  have e2 : (n + 8 * i) % 4096 / 8 = i := by omega
  calc rd64 shadowKernel.mem (n + 8 * i)
      = shadowEntry (n + 8 * i) % 2 ^ 64 := rd64_entries shadowEntry _ (by omega)
    _ = shadowNode n i % 2 ^ 64 := by unfold shadowEntry; rw [e1, e2]

theorem shadow_root_entry (i : Nat) (hi : i < 512) :
    rd64 shadowKernel.mem (0x87000000 + 8 * i) =
      if i = 0 ∨ i = 2 ∨ i = 255 then (0x87001000 + 4096 * i) / 4096 * 1024 + 1 else 0 := by
  rw [shadow_rd (by norm_num) hi]
  unfold shadowNode
  rw [if_pos rfl]
  split
  · exact Nat.mod_eq_of_lt (by omega)
  · rfl

theorem shadow_mid_entry (a b : Nat) (ha : a = 0 ∨ a = 2 ∨ a = 255) (hb : b < 512) :
    rd64 shadowKernel.mem (0x87001000 + 4096 * a + 8 * b) =
      if (a = 0 ∧ (b = 0 ∨ b = 16 ∨ b = 96 ∨ b = 97 ∨ b = 128)) ∨ (a = 2 ∧ b < 64) ∨
          (a = 255 ∧ b = 511) then
        (0x87400000 + (a % 4 * 512 + b) * 4096) / 4096 * 1024 + 1
      else 0 := by
  rw [shadow_rd (by omega) hb]
  unfold shadowNode
  have e : (0x87001000 + 4096 * a - 0x87001000) / 4096 = a := by omega
  rw [if_neg (by omega), if_pos (by omega), e]
  split
  · exact Nat.mod_eq_of_lt (by omega)
  · rfl

theorem shadowLeaf_lt (q b j : Nat) (hb : b < 512) (hj : j < 512) :
    shadowLeaf q b j < 2 ^ 64 := by
  unfold shadowLeaf
  split_ifs <;> omega

theorem shadow_leaf_entry (a b j : Nat) (hb : b < 512) (hj : j < 512) :
    rd64 shadowKernel.mem (0x87400000 + (a % 4 * 512 + b) * 4096 + 8 * j) =
      shadowLeaf (a % 4) b j := by
  rw [shadow_rd (by omega) hj]
  unfold shadowNode
  have e1 : (0x87400000 + (a % 4 * 512 + b) * 4096 - 0x87400000) / 4096 / 512 = a % 4 := by
    omega
  have e2 : (0x87400000 + (a % 4 * 512 + b) * 4096 - 0x87400000) / 4096 % 512 = b := by
    omega
  rw [if_neg (by omega), if_neg (by omega), if_pos (by omega), e1, e2]
  exact Nat.mod_eq_of_lt (shadowLeaf_lt _ _ _ hb hj)

/-- Every valid level-0 entry of `shadowKernel` carries R, with W or X. -/
theorem shadowLeaf_tagged (q b j : Nat) (h : shadowLeaf q b j &&& PTE_V ≠ 0) :
    shadowLeaf q b j &&& (PTE_R ||| PTE_W ||| PTE_X) ≠ 0 := by
  rw [and_PTE_V] at h
  rw [and_RWX_eq]
  unfold shadowLeaf at h ⊢
  split_ifs at h ⊢ <;> omega

theorem shadow_desc1 (a : Nat) (ha : a = 0 ∨ a = 2 ∨ a = 255) :
    descend shadowKernel.mem 0x87000000 [a] = some (0x87001000 + 4096 * a) := by
  rw [descend_cons, shadow_root_entry a (by omega), if_pos ha,
    if_pos (by rw [and_PTE_V]; omega), descend_nil, PTE2PA_eq]
  congr 1
  omega

theorem shadow_desc2 (a b : Nat)
    (h : (a = 0 ∧ (b = 0 ∨ b = 16 ∨ b = 96 ∨ b = 97 ∨ b = 128)) ∨ (a = 2 ∧ b < 64) ∨
      (a = 255 ∧ b = 511)) :
    descend shadowKernel.mem 0x87000000 [a, b] =
      some (0x87400000 + (a % 4 * 512 + b) * 4096) := by
  have ha : a = 0 ∨ a = 2 ∨ a = 255 := by omega
  rw [descend_two_of (shadow_desc1 a ha), descend_cons, shadow_mid_entry a b ha (by omega),
    if_pos h, if_pos (by rw [and_PTE_V]; omega), descend_nil, PTE2PA_eq]
  congr 1
  omega

/-- The nodes of `shadowKernel`, by path. -/
theorem shadow_nodes : ∀ p n, IsPath p → descend shadowKernel.mem 0x87000000 p = some n →
    (p = [] ∧ n = 0x87000000) ∨
    (∃ a, (a = 0 ∨ a = 2 ∨ a = 255) ∧ p = [a] ∧ n = 0x87001000 + 4096 * a) ∨
    (∃ a b, ((a = 0 ∧ (b = 0 ∨ b = 16 ∨ b = 96 ∨ b = 97 ∨ b = 128)) ∨ (a = 2 ∧ b < 64) ∨
      (a = 255 ∧ b = 511)) ∧ p = [a, b] ∧ n = 0x87400000 + (a % 4 * 512 + b) * 4096) := by
  intro p n hp hn
  have root_valid : ∀ c, c < 512 →
      rd64 shadowKernel.mem (0x87000000 + 8 * c) &&& PTE_V ≠ 0 → c = 0 ∨ c = 2 ∨ c = 255 := by
    intro c hc hv
    by_contra hcv
    rw [shadow_root_entry c hc, if_neg hcv] at hv
    exact hv (by decide)
  rcases hp.cases with rfl | ⟨c, hc, rfl⟩ | ⟨c, d, hc, hd, rfl⟩
  · rw [descend_nil] at hn
    cases hn
    exact Or.inl ⟨rfl, rfl⟩
  · obtain ⟨hv, _⟩ := descend_one_some hn
    have hcv := root_valid c hc hv
    rw [shadow_desc1 c hcv] at hn
    cases hn
    exact Or.inr (Or.inl ⟨c, hcv, rfl, rfl⟩)
  · obtain ⟨y, hy, hyx⟩ := descend_two_some hn
    obtain ⟨hv, _⟩ := descend_one_some hy
    have hcv := root_valid c hc hv
    rw [shadow_desc1 c hcv] at hy
    cases hy
    obtain ⟨hv2, _⟩ := descend_one_some hyx
    have hmid : (c = 0 ∧ (d = 0 ∨ d = 16 ∨ d = 96 ∨ d = 97 ∨ d = 128)) ∨ (c = 2 ∧ d < 64) ∨
        (c = 255 ∧ d = 511) := by
      by_contra hm
      rw [shadow_mid_entry c d hcv hd, if_neg hm] at hv2
      exact hv2 (by decide)
    rw [shadow_desc2 c d hmid] at hn
    cases hn
    exact Or.inr (Or.inr ⟨c, d, hmid, rfl, rfl⟩)

theorem shadow_TableWF : TableWF shadowKernel.mem 0x87000000 := by
  refine ⟨by decide, ?_, ?_⟩
  · intro p n hp hn
    rcases shadow_nodes p n hp hn with ⟨_, e⟩ | ⟨a, _, _, e⟩ | ⟨a, b, _, _, e⟩ <;> omega
  · intro p q n hp hq h1 h2
    rcases shadow_nodes p n hp h1 with ⟨e1, f1⟩ | ⟨a, ha, e1, f1⟩ | ⟨a, b, hab, e1, f1⟩ <;>
      rcases shadow_nodes q n hq h2 with ⟨e2, f2⟩ | ⟨a2, ha2, e2, f2⟩ | ⟨a2, b2, hab2, e2, f2⟩
    · rw [e1, e2]
    · omega
    · omega
    · omega
    · have e : a = a2 := by omega
      rw [e1, e2, e]
    · omega
    · omega
    · omega
    · have ea : a = a2 := by omega
      have eb : b = b2 := by omega
      rw [e1, e2, ea, eb]

theorem shadow_Tagged : Tagged shadowKernel.mem 0x87000000 := by
  constructor
  · intro q n j hq hl hd hj hv
    rw [and_RWX_eq]
    rw [and_PTE_V] at hv
    rcases shadow_nodes q n hq hd with ⟨_, rfl⟩ | ⟨a, ha, _, rfl⟩ | ⟨a, b, _, rfl, _⟩
    · rw [shadow_root_entry j hj] at hv ⊢
      split_ifs at hv ⊢ <;> omega
    · rw [shadow_mid_entry a j ha hj] at hv ⊢
      split_ifs at hv ⊢ <;> omega
    · simp at hl
  · intro a b j ha hb hj hv
    cases hd : descend shadowKernel.mem 0x87000000 [a, b] with
    | none =>
      rw [entryAt_none _ hd] at hv
      exact absurd (by decide) hv
    | some x =>
      rw [entryAt_node j hd] at hv ⊢
      rcases shadow_nodes [a, b] x (isPath_two ha hb) hd with ⟨h, _⟩ | ⟨_, _, h, _⟩ |
        ⟨a2, b2, _, h, rfl⟩
      · cases h
      · cases h
      · cases h
        rw [shadow_leaf_entry a b j hb hj] at hv ⊢
        exact shadowLeaf_tagged _ _ _ hv

theorem shadow_slotOf (va : Nat)
    (h : (PX 2 va = 0 ∧ (PX 1 va = 0 ∨ PX 1 va = 16 ∨ PX 1 va = 96 ∨ PX 1 va = 97 ∨
        PX 1 va = 128)) ∨ (PX 2 va = 2 ∧ PX 1 va < 64) ∨ (PX 2 va = 255 ∧ PX 1 va = 511)) :
    slotOf shadowKernel.mem 0x87000000 va ≠ none := by
  unfold slotOf
  rw [shadow_desc2 _ _ h]
  simp

theorem virt_fixedRanges : fixedRanges virtLayout 0x3FFFFFD000 =
    [(0x3FFFFFD000, 1), (0x3FFFFFF000, 1), (0x80008000, 32760), (0x80000000, 8),
      (0xc000000, 1024), (0x2000000, 16), (0x10001000, 1), (0x10000000, 1)] := by
  decide

theorem virt_ranges : RangesOK (fixedRanges virtLayout 0x3FFFFFD000) := by
  rw [virt_fixedRanges]
  unfold RangesOK
  decide

theorem virt_beyond : Beyond (fixedRanges virtLayout 0x3FFFFFD000) 0 := by
  rw [virt_fixedRanges]
  unfold Beyond
  decide

/-- The table of `shadowKernel` has a level-0 node for every page `ukvmfreeproc`
unmaps. -/
theorem shadow_covered :
    Covered shadowKernel.mem 0x87000000 (fixedRanges virtLayout 0x3FFFFFD000) := by
  rw [virt_fixedRanges]
  intro r hr a h1 h2
  apply shadow_slotOf
  rw [PX2_eq, PX1_eq]
  simp only [List.mem_cons, List.mem_singleton, List.mem_nil_iff, or_false] at hr
  unfold PGSIZE at h2
  rcases hr with rfl | rfl | rfl | rfl | rfl | rfl | rfl | rfl <;> simp only at h1 h2 <;> omega

theorem shadow_user_leaf :
    leafOf shadowKernel.mem 0x87000000 0 &&& PTE_V ≠ 0 ∧
    leafOf shadowKernel.mem 0x87000000 0 &&& (PTE_R ||| PTE_W ||| PTE_X) ≠ 0 ∧
    PTE2PA (leafOf shadowKernel.mem 0x87000000 0) = 0x87E00000 := by
  decide

theorem shadow_root_leaf :
    leafOf shadowKernel.mem 0x87000000 0x87000000 &&& PTE_V ≠ 0 ∧
    leafOf shadowKernel.mem 0x87000000 0x87000000 &&& (PTE_R ||| PTE_W ||| PTE_X) ≠ 0 ∧
    PTE2PA (leafOf shadowKernel.mem 0x87000000 0x87000000) = 0x87000000 := by
  decide

end Xv6

namespace Xv6

/-- C17, amended: in whatever state `k8` the eight `ukvmunmap` calls of `ukvmfreeproc`
leave a well-formed shadow table, with leaves still present or not, `ukvmfreewalk` does
not halt: it returns, having released the nodes of the table, each once, in post-order
(a node after each of its children), and written to these nodes only; and so does
`ukvmfreeproc`. -/
theorem shadow_walk_returns (c : Layout) (k k8 : Kernel) (pkpagetable kstack : Nat)
    (hun : unmapAll pkpagetable (fixedRanges c kstack) k = .ok () k8)
    (hwf : TableWF k8.mem pkpagetable) (ht : Tagged k8.mem pkpagetable) :
    ∃ m2, ukvmfreewalk freeDepth k8 pkpagetable =
        .ok () ⟨m2, (postorder k8.mem 2 pkpagetable).reverse ++ k8.freelist⟩ ∧
      ukvmfreeproc c k pkpagetable kstack =
        .ok () ⟨m2, (postorder k8.mem 2 pkpagetable).reverse ++ k8.freelist⟩ ∧
      (postorder k8.mem 2 pkpagetable).Nodup ∧
      (∀ x, x ∈ postorder k8.mem 2 pkpagetable ↔
        ∃ p, IsPath p ∧ descend k8.mem pkpagetable p = some x) ∧
      (∀ p j parent child, IsPath p → p.length ≤ 1 → j < 512 →
        descend k8.mem pkpagetable p = some parent →
        descend k8.mem pkpagetable (p ++ [j]) = some child →
        ∃ l1 l2 l3, postorder k8.mem 2 pkpagetable = l1 ++ child :: l2 ++ parent :: l3) ∧
      (∀ y, (∀ p n, IsPath p → descend k8.mem pkpagetable p = some n →
          y < n ∨ n + PGSIZE ≤ y) → m2 y = k8.mem y) := by
  obtain ⟨m2, h, hout⟩ := ukvmfreewalk_table hwf ht
  refine ⟨m2, h, ?_, postorder_nodup hwf, postorder_nodes _ _,
    fun p j parent child hp hl hj hd1 hd2 => postorder_order hp hl hj hd1 hd2, hout⟩
  rw [ukvmfreeproc_eq, hun]
  exact h

/-- C17 on the state `shadowKernel` with the layout of the virt machine: the unmaps
return in a state from which the walk, and with it `ukvmfreeproc`, returns. -/
theorem shadow_walk_returns_witness :
    ∃ k8 m2, unmapAll 0x87000000 (fixedRanges virtLayout 0x3FFFFFD000) shadowKernel =
        .ok () k8 ∧
      ukvmfreewalk freeDepth k8 0x87000000 =
        .ok () ⟨m2, (postorder k8.mem 2 0x87000000).reverse ++ k8.freelist⟩ ∧
      ukvmfreeproc virtLayout shadowKernel 0x87000000 0x3FFFFFD000 =
        .ok () ⟨m2, (postorder k8.mem 2 0x87000000).reverse ++ k8.freelist⟩ := by
  obtain ⟨m8, _, h1, hc, _⟩ :=
    ukvmfreeproc_run shadow_TableWF shadow_Tagged virt_ranges shadow_covered
  obtain ⟨m2, h2, h3, _⟩ := shadow_walk_returns virtLayout shadowKernel
    ⟨m8, shadowKernel.freelist⟩ 0x87000000 0x3FFFFFD000 h1 (hc.table shadow_TableWF)
    (hc.tagged shadow_Tagged)
  exact ⟨_, m2, h1, h2, h3⟩

/-- C17, refuted as stated: the shadow table of `shadowKernel` holds the fixed ranges,
the kernel stack and one mirrored user page, the page at address 0, which none of the
eight ranges of `ukvmfreeproc` covers.  The eight unmaps find a slot for each of their
pages and return; the entry of page 0 is then still a leaf (Valid, with R, W and X),
and `ukvmfreewalk` returns all the same: `ukvmfreeproc` ends with the nodes of the
table released, the root among them, not with a fatal halt. -/
theorem shadow_leaf_not_caught :
    ∃ k8 k9, unmapAll 0x87000000 (fixedRanges virtLayout 0x3FFFFFD000) shadowKernel =
        .ok () k8 ∧
      leafOf k8.mem 0x87000000 0 &&& PTE_V ≠ 0 ∧
      leafOf k8.mem 0x87000000 0 &&& (PTE_R ||| PTE_W ||| PTE_X) ≠ 0 ∧
      ukvmfreewalk freeDepth k8 0x87000000 = .ok () k9 ∧
      ukvmfreeproc virtLayout shadowKernel 0x87000000 0x3FFFFFD000 = .ok () k9 ∧
      k9.freelist = (postorder shadowKernel.mem 2 0x87000000).reverse ∧
      0x87000000 ∈ k9.freelist := by
  obtain ⟨m8, m9, h1, _, hl, h2, h3⟩ :=
    ukvmfreeproc_run shadow_TableWF shadow_Tagged virt_ranges shadow_covered
  have e := hl 0 (by decide) virt_beyond
  have hfree : (postorder shadowKernel.mem 2 0x87000000).reverse ++ shadowKernel.freelist =
      (postorder shadowKernel.mem 2 0x87000000).reverse := List.append_nil _
  refine ⟨_, _, h1, ?_, ?_, h2, h3, hfree, ?_⟩
  · show leafOf m8 0x87000000 0 &&& PTE_V ≠ 0
    rw [e]
    exact shadow_user_leaf.1
  · show leafOf m8 0x87000000 0 &&& (PTE_R ||| PTE_W ||| PTE_X) ≠ 0
    rw [e]
    exact shadow_user_leaf.2.1
  · show 0x87000000 ∈ (postorder shadowKernel.mem 2 0x87000000).reverse ++
      shadowKernel.freelist
    rw [hfree, List.mem_reverse, postorder_nodes]
    exact ⟨[], isPath_nil, rfl⟩

/-- C18, amended: on a well-formed shadow table whose leaves carry one of R/W/X and that
has a level-0 node for every page of the eight ranges (page-aligned, below `MAXVA`),
`ukvmfreeproc` returns, and the frames it has released are the nodes of the table: in
post-order, each once, and nothing else.  The frame of a leaf entry is released exactly
when the table uses that same frame as one of its nodes. -/
theorem shadow_frames_owned (c : Layout) (k : Kernel) (pkpagetable kstack : Nat)
    (hwf : TableWF k.mem pkpagetable) (ht : Tagged k.mem pkpagetable)
    (hok : RangesOK (fixedRanges c kstack))
    (hcov : Covered k.mem pkpagetable (fixedRanges c kstack)) :
    ∃ k2, ukvmfreeproc c k pkpagetable kstack = .ok () k2 ∧
      k2.freelist = (postorder k.mem 2 pkpagetable).reverse ++ k.freelist ∧
      (postorder k.mem 2 pkpagetable).Nodup ∧
      (∀ x, x ∈ postorder k.mem 2 pkpagetable ↔
        ∃ p, IsPath p ∧ descend k.mem pkpagetable p = some x) ∧
      (∀ va, leafOf k.mem pkpagetable va &&& PTE_V ≠ 0 →
        (PTE2PA (leafOf k.mem pkpagetable va) ∈ postorder k.mem 2 pkpagetable ↔
          ∃ p, IsPath p ∧
            descend k.mem pkpagetable p = some (PTE2PA (leafOf k.mem pkpagetable va)))) := by
  obtain ⟨m8, m9, _, _, _, _, h⟩ := @ukvmfreeproc_run c k pkpagetable kstack hwf ht hok hcov
  exact ⟨_, h, rfl, postorder_nodup hwf, postorder_nodes _ _, fun _ _ => postorder_nodes _ _ _⟩

/-- C18 on the state `shadowKernel` with the layout of the virt machine: the nodes are
released, and the frame `0x87E00000` of the mirrored user page, which is no node, is
not. -/
theorem shadow_frames_owned_witness :
    ∃ k2, ukvmfreeproc virtLayout shadowKernel 0x87000000 0x3FFFFFD000 = .ok () k2 ∧
      k2.freelist = (postorder shadowKernel.mem 2 0x87000000).reverse ∧
      PTE2PA (leafOf shadowKernel.mem 0x87000000 0) = 0x87E00000 ∧
      0x87E00000 ∉ k2.freelist := by
  obtain ⟨k2, h1, h2, _, _, h5⟩ := shadow_frames_owned virtLayout shadowKernel 0x87000000
    0x3FFFFFD000 shadow_TableWF shadow_Tagged virt_ranges shadow_covered
  have e : k2.freelist = (postorder shadowKernel.mem 2 0x87000000).reverse := by
    rw [h2]
    exact List.append_nil _
  refine ⟨k2, h1, e, shadow_user_leaf.2.2, ?_⟩
  rw [e, List.mem_reverse, ← shadow_user_leaf.2.2, h5 0 shadow_user_leaf.1,
    shadow_user_leaf.2.2]
  rintro ⟨p, hp, hd⟩
  rcases shadow_nodes p _ hp hd with ⟨_, e⟩ | ⟨a, _, _, e⟩ | ⟨a, b, _, _, e⟩ <;> omega

/-- C18, refuted as stated: `shadowKernel` is a well-formed shadow table with the fixed
ranges, the kernel stack and a mirrored user page, every leaf carrying R.  Its root is
the frame `0x87000000` of the RAM, and the entry that maps the RAM to itself at
`0x87000000` is a leaf that references this very frame; `ukvmfreeproc` releases it. -/
theorem shadow_node_frame_released :
    TableWF shadowKernel.mem 0x87000000 ∧ Tagged shadowKernel.mem 0x87000000 ∧
    leafOf shadowKernel.mem 0x87000000 0x87000000 &&& PTE_V ≠ 0 ∧
    leafOf shadowKernel.mem 0x87000000 0x87000000 &&& (PTE_R ||| PTE_W ||| PTE_X) ≠ 0 ∧
    PTE2PA (leafOf shadowKernel.mem 0x87000000 0x87000000) = 0x87000000 ∧
    ∃ k2, ukvmfreeproc virtLayout shadowKernel 0x87000000 0x3FFFFFD000 = .ok () k2 ∧
      0x87000000 ∈ k2.freelist := by
  obtain ⟨_, m9, _, _, _, _, h⟩ :=
    ukvmfreeproc_run shadow_TableWF shadow_Tagged virt_ranges shadow_covered
  refine ⟨shadow_TableWF, shadow_Tagged, shadow_root_leaf.1, shadow_root_leaf.2.1,
    shadow_root_leaf.2.2, _, h, ?_⟩
  show 0x87000000 ∈ (postorder shadowKernel.mem 2 0x87000000).reverse ++
    shadowKernel.freelist
  rw [List.mem_append, List.mem_reverse, postorder_nodes]
  exact Or.inl ⟨[], isPath_nil, rfl⟩

end Xv6
